import Mathlib

/-!
ProvSQL boolean circuits: a shallow embedding of `BooleanCircuit.cpp`.

The development models the probabilistic boolean circuit of ProvSQL and its
evaluation strategies, and states the properties of the specification as
theorems about the model.

Conventions of the embedding.

* `double` values are exact rationals (`ℚ`); rounding is not modelled.
* `std::vector` is `List`; `std::set<gate_t>` is a list kept in iteration
  order (increasing); `std::unordered_set<gate_t>` is a list used only through
  membership; `std::map` is an association list.
* A C++ exception is an `Except.error`. Two extra outcomes are artefacts of the
  model: `undefinedBehaviour` (the source dereferences an empty vector, reads
  out of bounds or shifts an `int` by 32 or more) and `outOfFuel` (the recursion
  budget of a recursive function is exhausted; the source would recurse on).
* `static_cast<int>(i)` is the identity: gate indices are assumed to fit in an
  `int`. The `int` expression `1 << n` is modelled with its 32-bit result.
-/

namespace ProvSQL

/-- Gate kinds, the enumeration `BooleanGate`. -/
inductive BooleanGate
  | UNDETERMINED
  | AND
  | OR
  | NOT
  | IN
  | MULIN
  | MULVAR
  deriving DecidableEq

/-- Exceptions raised by the source (one constructor per message), and the two
model artefacts `undefinedBehaviour` and `outOfFuel`. -/
inductive CircuitException
  /-- Message "Monte-Carlo sampling not implemented on multivalued inputs". -/
  | samplingMultivalued
  /-- Message "Incorrect gate type". -/
  | incorrectGateType
  /-- Message "Interrupted after n samples". -/
  | interruptedAfter (n : Nat)
  /-- Message "Too many possible worlds to iterate over". -/
  | tooManyWorlds
  /-- Message "Interrupted". -/
  | interrupted
  /-- Message "Multivalued inputs should have been removed by then.". -/
  | multivaluedNotRemoved
  /-- Message "Unknown compiler". -/
  | unknownCompiler
  /-- Message "Error executing". -/
  | errorExecuting
  /-- Message "Error removing". -/
  | errorRemoving
  /-- Message "Unreadable d-DNNF". -/
  | unreadable
  /-- Message "Not an independent circuit". -/
  | notIndependent
  /-- Message "Bad gate". -/
  | badGate
  /-- The source has undefined behaviour at this point. -/
  | undefinedBehaviour
  /-- The recursion budget of the model is exhausted. -/
  | outOfFuel
  /-- Error `InvalidGate` of the circuit store (an index out of range). -/
  | invalidGate
  deriving DecidableEq

deriving instance DecidableEq for Except

/-- State of a `BooleanCircuit` object: the members inherited from
`Circuit<BooleanGate>` (`uuid2id`, `gates`, `wires`) and its own (`inputs`,
`mulinputs`, `prob`, `info`). -/
structure BooleanCircuit where
  uuid2id : List (String × Nat)
  gates : List BooleanGate
  wires : List (List Nat)
  prob : List ℚ
  inputs : List Nat
  mulinputs : List Nat
  info : List (Nat × Nat)
  deriving DecidableEq

namespace BooleanCircuit

/-- Member `getWires(g)`, the vector `wires[g]`. -/
def getWires (c : BooleanCircuit) (g : Nat) : List Nat :=
  c.wires.getD g []

/-- Member `getProb(g)`, the entry `prob[g]`. -/
def getProb (c : BooleanCircuit) (g : Nat) : ℚ :=
  c.prob.getD g 0

/-- The child loop shared by the AND and OR cases of `evaluate` (source lines
154-165); `ev` is the recursive call. -/
def evaluateLoop (ev : Nat → Except CircuitException Bool) (disjunction : Bool) :
    List Nat → Except CircuitException Bool
  | [] => .ok (!disjunction)
  | s :: rest =>
    match ev s with
    | .error x => .error x
    | .ok e =>
      if disjunction && e then .ok true
      else if !disjunction && !e then .ok false
      else evaluateLoop ev disjunction rest

/-- Method `BooleanCircuit::evaluate(g, sampled)`, with a recursion budget. -/
def evaluate (c : BooleanCircuit) : Nat → Nat → List Nat → Except CircuitException Bool
  | 0, _, _ => .error .outOfFuel
  | fuel + 1, g, sampled =>
    match c.gates[g]? with
    | none => .error .undefinedBehaviour
    | some .IN => .ok (decide (g ∈ sampled))
    | some .MULIN => .error .samplingMultivalued
    | some .MULVAR => .error .samplingMultivalued
    | some .NOT =>
      match c.getWires g with
      | [] => .error .undefinedBehaviour
      | s :: _ =>
        match evaluate c fuel s sampled with
        | .error x => .error x
        | .ok e => .ok (!e)
    | some .AND => evaluateLoop (fun s => evaluate c fuel s sampled) false (c.getWires g)
    | some .OR => evaluateLoop (fun s => evaluate c fuel s sampled) true (c.getWires g)
    | some .UNDETERMINED => .error .incorrectGateType

/-- The `int` value of the expression `1 << n` for `n < 32` (`n = 31` gives
`INT_MIN`); for larger `n` the expression is undefined and callers do not use
the value. -/
def shiftLeftOne (n : Nat) : Int :=
  if n < 31 then 2 ^ n else -(2 ^ 31)

/-- Conversion of an `int` to `unsigned long long`. -/
def toULongLong (x : Int) : Nat :=
  (x % 2 ^ 64).toNat

/-- Inner loop of `possibleWorlds` (source lines 202-211): for the world number
`i`, runs through the remaining inputs with bit position `j`, and accumulates
the set `s` and the weight `p`. -/
def possibleWorldsInner (c : BooleanCircuit) (i : Nat) :
    List Nat → Nat → List Nat × ℚ → List Nat × ℚ
  | [], _, sp => sp
  | x :: rest, j, (s, p) =>
    if i &&& toULongLong (shiftLeftOne j) ≠ 0 then
      possibleWorldsInner c i rest (j + 1) (x :: s, p * c.getProb x)
    else
      possibleWorldsInner c i rest (j + 1) (s, p * (1 - c.getProb x))

/-- Outer loop of `possibleWorlds` (source lines 198-218) with `n` iterations
left, at counter `i` and running total `totalp`. `interrupted i` is the value of
the flag `provsql_interrupted` polled at the end of iteration `i`. -/
def possibleWorldsLoop (c : BooleanCircuit) (interrupted : Nat → Bool) (fuel g : Nat) :
    Nat → Nat → ℚ → Except CircuitException ℚ
  | 0, _, totalp => .ok totalp
  | n + 1, i, totalp =>
    let sp := possibleWorldsInner c i c.inputs 0 ([], 1)
    match evaluate c fuel g sp.1 with
    | .error x => .error x
    | .ok e =>
      let totalp := if e then totalp + sp.2 else totalp
      if interrupted i then .error .interrupted
      else possibleWorldsLoop c interrupted fuel g n (i + 1) totalp

/-- Method `BooleanCircuit::possibleWorlds(g)`. The bound `nb` is the `int`
value `1 << inputs.size()` converted to `unsigned long long`; for 32 to 63
inputs the shift is undefined. -/
def possibleWorlds (c : BooleanCircuit) (interrupted : Nat → Bool) (fuel g : Nat) :
    Except CircuitException ℚ :=
  if 64 ≤ c.inputs.length then .error .tooManyWorlds
  else if 32 ≤ c.inputs.length then .error .undefinedBehaviour
  else
    possibleWorldsLoop c interrupted fuel g (toULongLong (shiftLeftOne c.inputs.length)) 0 0

/-! ### The Tseytin encoder -/

/-- A whitespace-separated item of a text file: a word, the decimal rendering
of an integer, or the number written for a `double` (kept as the exact value
of the text written). -/
inductive Token
  | str (s : String)
  | int (z : Int)
  | real (q : ℚ)
  deriving DecidableEq

/-- A line of a text file, as its items. -/
abbrev Line := List Token

/-- The files of the temporary directory, by name. -/
abbrev FileSystem := List (String × List Line)

/-- Writing a whole file (`std::ofstream` opened on `name`, written, closed). -/
def writeFile (fs : FileSystem) (name : String) (content : List Line) : FileSystem :=
  (name, content) :: fs.filter (fun f => f.1 ≠ name)

/-- Child loop of the AND case of `Tseytin` (source lines 233-236): `acc.1` is
`clauses`, `acc.2` is the clause `c` under construction. -/
def tseytinAndLoop (id : Int) : List Nat → List (List Int) × List Int → List (List Int) × List Int
  | [], acc => acc
  | s :: rest, acc =>
    tseytinAndLoop id rest (acc.1 ++ [[-id, (s : Int) + 1]], acc.2 ++ [-(s : Int) - 1])

/-- Child loop of the OR case of `Tseytin` (source lines 245-248). -/
def tseytinOrLoop (id : Int) : List Nat → List (List Int) × List Int → List (List Int) × List Int
  | [], acc => acc
  | s :: rest, acc =>
    tseytinOrLoop id rest (acc.1 ++ [[id, -(s : Int) - 1]], acc.2 ++ [(s : Int) + 1])

/-- Gate loop of `Tseytin` (source lines 227-269) with `n` gates left, at gate
`i`, with the clauses pushed so far. -/
def tseytinLoop (c : BooleanCircuit) :
    Nat → Nat → List (List Int) → Except CircuitException (List (List Int))
  | 0, _, clauses => .ok clauses
  | n + 1, i, clauses =>
    match c.gates[i]? with
    | none => .error .undefinedBehaviour
    | some .AND =>
      let id : Int := (i : Int) + 1
      let r := tseytinAndLoop id (c.getWires i) (clauses, [id])
      tseytinLoop c n (i + 1) (r.1 ++ [r.2])
    | some .OR =>
      let id : Int := (i : Int) + 1
      let r := tseytinOrLoop id (c.getWires i) (clauses, [-id])
      tseytinLoop c n (i + 1) (r.1 ++ [r.2])
    | some .NOT =>
      let id : Int := (i : Int) + 1
      match c.getWires i with
      | [] => .error .undefinedBehaviour
      | s :: _ =>
        tseytinLoop c n (i + 1) (clauses ++ [[-id, -(s : Int) - 1]] ++ [[id, (s : Int) + 1]])
    | some .MULIN => .error .multivaluedNotRemoved
    | some .MULVAR => tseytinLoop c n (i + 1) clauses
    | some .IN => tseytinLoop c n (i + 1) clauses
    | some .UNDETERMINED => tseytinLoop c n (i + 1) clauses

/-- The clause vector of `Tseytin` once the unit clause is pushed (source lines
224-270). -/
def tseytinClauses (c : BooleanCircuit) (g : Nat) : Except CircuitException (List (List Int)) :=
  match tseytinLoop c c.gates.length 0 [] with
  | .error x => .error x
  | .ok clauses => .ok (clauses ++ [[(g : Int) + 1]])

/-- Rounding of a non-negative number to the nearest integer, a tie going to
the even one. -/
def roundHalfEven (q : ℚ) : Nat :=
  let n := (Rat.floor q).toNat
  if q - n < 1 / 2 then n
  else if 1 / 2 < q - n then n + 1
  else if n % 2 = 0 then n else n + 1

/-- Rounding of a positive number to 6 significant decimal digits: the number
is brought between `10^5` and `10^6` by powers of ten (at most `fuel` of them),
rounded to an integer and brought back. -/
def sixDigits : Nat → ℚ → ℚ
  | 0, q => roundHalfEven q
  | fuel + 1, q =>
    if 1000000 ≤ q then 10 * sixDigits fuel (q / 10)
    else if q < 100000 then sixDigits fuel (q * 10) / 10
    else roundHalfEven q

/-- The value of the text that `ofs << x` writes for the `double` `x`: the
stream is left in its default format (general format, precision 6), so that
the text holds `x` rounded to 6 significant decimal digits (an exact tie going
to the even digit). The number of powers of ten allowed to `sixDigits` is
enough for every `x`. -/
def printDouble (q : ℚ) : ℚ :=
  if q = 0 then 0
  else if 0 < q then
    sixDigits ((Rat.floor q).toNat + (Rat.floor (100000 / q)).toNat + 1) q
  else -sixDigits ((Rat.floor (-q)).toNat + (Rat.floor (100000 / -q)).toNat + 1) (-q)

/-- The weight lines written when `display_prob` holds (source lines 289-292),
two lines per element of `inputs`; the two weights are the `double` values
`getProb(in)` and `1. - getProb(in)` as printed by the stream. -/
def tseytinWeights (c : BooleanCircuit) : List Nat → List Line
  | [] => []
  | x :: rest =>
    [.str "w", .int ((x : Int) + 1), .real (printDouble (c.getProb x))] ::
    [.str "w", .int (-((x : Int) + 1)), .real (printDouble (1 - c.getProb x))] ::
    tseytinWeights c rest

/-- The lines written to the CNF file (source lines 280-293). -/
def tseytinLines (c : BooleanCircuit) (clauses : List (List Int)) (display_prob : Bool) :
    List Line :=
  [.str "p", .str "cnf", .int c.gates.length, .int clauses.length] ::
    (clauses.map (fun cl => cl.map Token.int ++ [.int 0]) ++
      (if display_prob then tseytinWeights c c.inputs else []))

/-- Method `BooleanCircuit::Tseytin(g, display_prob)`. `cfilename` is the name
chosen by `mkstemp`; the result is the returned file name (or the exception)
and the file system after the call. -/
def Tseytin (c : BooleanCircuit) (g : Nat) (display_prob : Bool) (cfilename : String)
    (fs : FileSystem) : Except CircuitException String × FileSystem :=
  match tseytinClauses c g with
  | .error x => (.error x, fs)
  | .ok clauses => (.ok cfilename, writeFile fs cfilename (tseytinLines c clauses display_prob))

/-! ### Independent evaluation -/

/-- Member `getInfo(g)`. -/
def getInfo (c : BooleanCircuit) (g : Nat) : Nat :=
  match c.info.lookup g with
  | none => 0
  | some i => i

/-- Access `m[k]` to a `std::map` followed by an update of the entry with `f`;
an absent entry is first created with the value `dflt`. Entries are kept in
increasing key order. -/
def mapModify {β : Type} (k : Nat) (dflt : β) (f : β → β) : List (Nat × β) → List (Nat × β)
  | [] => [(k, f dflt)]
  | (k', v) :: rest =>
    if k < k' then (k, f dflt) :: (k', v) :: rest
    else if k = k' then (k, f v) :: rest
    else (k', v) :: mapModify k dflt f rest

/-- Child loop of the AND case of `independentEvaluationInternal` (source lines
662-664); `ev` is the recursive call, threading `seen`. -/
def independentAndLoop (ev : Nat → List Nat → Except CircuitException (ℚ × List Nat)) :
    List Nat → ℚ → List Nat → Except CircuitException (ℚ × List Nat)
  | [], result, seen => .ok (result, seen)
  | ch :: rest, result, seen =>
    match ev ch seen with
    | .error x => .error x
    | .ok r => independentAndLoop ev rest (result * r.1) r.2

/-- Local state of the OR case of `independentEvaluationInternal`. -/
structure OrState where
  groups : List (Nat × ℚ)
  local_mulins : List Nat
  mulin_seen : List (Nat × Nat)
  seen : List Nat

/-- Child loop of the OR case of `independentEvaluationInternal` (source lines
675-692) for the OR gate `g`. -/
def independentOrLoop (c : BooleanCircuit) (g : Nat)
    (ev : Nat → List Nat → Except CircuitException (ℚ × List Nat)) :
    List Nat → OrState → Except CircuitException OrState
  | [], st => .ok st
  | ch :: rest, st =>
    if c.gates[ch]? = some .MULIN then
      match c.getWires ch with
      | [] => .error .undefinedBehaviour
      | group :: _ =>
        if g ∈ st.local_mulins then
          let p := (group, c.getInfo ch)
          if p ∈ st.mulin_seen then independentOrLoop c g ev rest st
          else
            independentOrLoop c g ev rest
              { st with groups := mapModify group 0 (fun v => v + c.getProb ch) st.groups,
                        mulin_seen := p :: st.mulin_seen }
        else if g ∈ st.seen then .error .notIndependent
        else
          let p := (group, c.getInfo ch)
          if p ∈ st.mulin_seen then independentOrLoop c g ev rest { st with seen := g :: st.seen }
          else
            independentOrLoop c g ev rest
              { st with groups := mapModify group 0 (fun v => v + c.getProb ch) st.groups,
                        mulin_seen := p :: st.mulin_seen,
                        seen := g :: st.seen }
    else
      match ev ch st.seen with
      | .error x => .error x
      | .ok r =>
        independentOrLoop c g ev rest
          { st with groups := mapModify ch 0 (fun _ => r.1) st.groups, seen := r.2 }

/-- The product loop closing the OR case (source lines 694-696). -/
def independentOrResult (groups : List (Nat × ℚ)) : ℚ :=
  1 - groups.foldl (fun result kv => result * (1 - kv.2)) 1

/-- Method `BooleanCircuit::independentEvaluationInternal(g, seen)`, with a
recursion budget; the set `seen` is returned with the value. -/
def independentEvaluationInternal (c : BooleanCircuit) :
    Nat → Nat → List Nat → Except CircuitException (ℚ × List Nat)
  | 0, _, _ => .error .outOfFuel
  | fuel + 1, g, seen =>
    match c.gates[g]? with
    | none => .error .undefinedBehaviour
    | some .AND =>
      independentAndLoop (fun ch s => independentEvaluationInternal c fuel ch s)
        (c.getWires g) 1 seen
    | some .OR =>
      match independentOrLoop c g (fun ch s => independentEvaluationInternal c fuel ch s)
          (c.getWires g) ⟨[], [], [], seen⟩ with
      | .error x => .error x
      | .ok st => .ok (independentOrResult st.groups, st.seen)
    | some .NOT =>
      match c.getWires g with
      | [] => .error .undefinedBehaviour
      | s :: _ =>
        match independentEvaluationInternal c fuel s seen with
        | .error x => .error x
        | .ok r => .ok (1 - r.1, r.2)
    | some .IN =>
      if g ∈ seen then .error .notIndependent
      else .ok (c.getProb g, g :: seen)
    | some .MULIN =>
      match c.getWires g with
      | [] => .error .undefinedBehaviour
      | child :: _ =>
        if child ∈ seen then .error .notIndependent
        else .ok (c.getProb g, child :: seen)
    | some .UNDETERMINED => .error .badGate
    | some .MULVAR => .error .badGate

/-- Method `BooleanCircuit::independentEvaluation(g)`. -/
def independentEvaluation (c : BooleanCircuit) (fuel g : Nat) : Except CircuitException ℚ :=
  match independentEvaluationInternal c fuel g [] with
  | .error x => .error x
  | .ok r => .ok r.1

/-! ### Gate creation and the rewriting of multivalued inputs -/

/-- Insertion in a `std::set<gate_t>`, kept in increasing order. -/
def setInsert (x : Nat) : List Nat → List Nat
  | [] => [x]
  | y :: rest =>
    if x < y then x :: y :: rest
    else if x = y then y :: rest
    else y :: setInsert x rest

/-- Member `setProb(g, p)`, the assignment `prob[g] = p`. -/
def setProb (c : BooleanCircuit) (g : Nat) (p : ℚ) : BooleanCircuit :=
  { c with prob := c.prob.set g p }

/-- Modelled from the spec: the base-class method `Circuit<BooleanGate>::addGate()`,
whose source is not part of the files at hand. Per the specification of the
circuit store it appends one gate (of the default kind, UNDETERMINED) with an
empty child sequence and returns its index. -/
def baseAddGate (c : BooleanCircuit) : Nat × BooleanCircuit :=
  (c.gates.length,
    { c with gates := c.gates ++ [BooleanGate.UNDETERMINED], wires := c.wires ++ [[]] })

/-- Method `BooleanCircuit::addGate()` (source lines 74-79). -/
def addGate (c : BooleanCircuit) : Nat × BooleanCircuit :=
  let r := baseAddGate c
  (r.1, { r.2 with prob := r.2.prob ++ [1] })

/-- Modelled from the spec: the base-class method
`Circuit<BooleanGate>::setGate(type)`, whose source is not part of the files at
hand. Per the specification (`newGate(type)`) it appends a gate through the
virtual `addGate()` and gives it the kind `type`. -/
def baseSetGate (c : BooleanCircuit) (type : BooleanGate) : Nat × BooleanCircuit :=
  let r := addGate c
  (r.1, { r.2 with gates := r.2.gates.set r.1 type })

/-- Method `BooleanCircuit::setGate(BooleanGate type)` (source lines 36-46). -/
def setGate (c : BooleanCircuit) (type : BooleanGate) : Nat × BooleanCircuit :=
  let r := baseSetGate c type
  if type = BooleanGate.IN then
    let c1 := setProb r.2 r.1 1
    (r.1, { c1 with inputs := setInsert r.1 c1.inputs })
  else if type = BooleanGate.MULIN then
    (r.1, { r.2 with mulinputs := setInsert r.1 r.2.mulinputs })
  else r

/-- Method `BooleanCircuit::setGate(BooleanGate type, double p)` (source lines
67-72). -/
def setGateP (c : BooleanCircuit) (type : BooleanGate) (p : ℚ) : Nat × BooleanCircuit :=
  let r := setGate c type
  (r.1, setProb r.2 r.1 p)

/-- Method `BooleanCircuit::rewriteMultivaluedGatesRec(muls, cumulated_probs,
start, end, prefix)` with a recursion budget as first argument; `stop` is the
parameter `end` and `pfx` the vector `prefix`, returned with the circuit. A
division by zero gives 0 here (the source computes with IEEE doubles). -/
def rewriteMultivaluedGatesRec (muls : List Nat) (cumulated_probs : List ℚ) :
    Nat → Nat → Nat → List Nat → BooleanCircuit →
      Except CircuitException (List Nat × BooleanCircuit)
  | 0, _, _, _, _ => .error .outOfFuel
  | fuel + 1, start, stop, pfx, c =>
    if start = stop then
      .ok (pfx, { c with wires := c.wires.set (muls.getD start 0) pfx })
    else
      let mid := (start + stop) / 2
      let r1 := setGateP c BooleanGate.IN
        ((cumulated_probs.getD (mid + 1) 0 - cumulated_probs.getD start 0) /
          (cumulated_probs.getD stop 0 - cumulated_probs.getD start 0))
      let g := r1.1
      let r2 := setGate r1.2 BooleanGate.NOT
      let not_g := r2.1
      let c2 : BooleanCircuit :=
        { r2.2 with wires := r2.2.wires.set not_g (r2.2.getWires not_g ++ [g]) }
      match rewriteMultivaluedGatesRec muls cumulated_probs fuel start mid (pfx ++ [g]) c2 with
      | .error x => .error x
      | .ok r3 =>
        match rewriteMultivaluedGatesRec muls cumulated_probs fuel (mid + 1) stop
            (r3.1.dropLast ++ [not_g]) r3.2 with
        | .error x => .error x
        | .ok r4 => .ok (r4.1.dropLast, r4.2)

/-- Function `almost_equals(a, b)` (source lines 778-784); the machine epsilon
of `double` is `2^-52`. -/
def almost_equals (a b : ℚ) : Bool :=
  let diff := a - b
  let epsilon : ℚ := 1 / 2 ^ 52 * 10
  decide (diff < epsilon) && decide (diff > -epsilon)

/-- First loop of `rewriteMultivaluedGates` (source lines 789-791) over the
remaining elements of `mulinputs`, filling `var2mulinput`. -/
def rewriteCollect (c : BooleanCircuit) :
    List Nat → List (Nat × List Nat) → Except CircuitException (List (Nat × List Nat))
  | [], var2mulinput => .ok var2mulinput
  | mul :: rest, var2mulinput =>
    match c.getWires mul with
    | [] => .error .undefinedBehaviour
    | v :: _ => rewriteCollect c rest (mapModify v [] (fun l => l ++ [mul]) var2mulinput)

/-- The loop over the alternatives of one family (source lines 800-805), over
the remaining elements of `muls`: state `cumulated_prob`, `cumulated_probs`
(filled so far) and the circuit. -/
def rewriteCumulate : List Nat → ℚ → List ℚ → BooleanCircuit → List ℚ × BooleanCircuit
  | [], _, cumulated_probs, c => (cumulated_probs, c)
  | m :: rest, cumulated_prob, cumulated_probs, c =>
    let cumulated_prob := cumulated_prob + c.getProb m
    rewriteCumulate rest cumulated_prob (cumulated_probs ++ [cumulated_prob])
      { c with gates := c.gates.set m BooleanGate.AND, wires := c.wires.set m [] }

/-- The loop over the families of `rewriteMultivaluedGates` (source lines
794-813). The recursion budget given to `rewriteMultivaluedGatesRec` is the
number of alternatives of the family. -/
def rewriteFamilies : List (Nat × List Nat) → BooleanCircuit →
    Except CircuitException BooleanCircuit
  | [], c => .ok c
  | (_, muls) :: rest, c =>
    let n := muls.length
    let r := rewriteCumulate muls 0 [] c
    let cumulated_probs := r.1
    let r1 : List Nat × BooleanCircuit :=
      if !almost_equals (cumulated_probs.getD (n - 1) 0) 1 then
        let r0 := setGateP r.2 BooleanGate.IN (cumulated_probs.getD (n - 1) 0)
        ([r0.1], r0.2)
      else ([], r.2)
    match rewriteMultivaluedGatesRec muls cumulated_probs n 0 (n - 1) r1.1 r1.2 with
    | .error x => .error x
    | .ok r2 => rewriteFamilies rest r2.2

/-- Method `BooleanCircuit::rewriteMultivaluedGates()`. -/
def rewriteMultivaluedGates (c : BooleanCircuit) : Except CircuitException BooleanCircuit :=
  match rewriteCollect c c.mulinputs [] with
  | .error x => .error x
  | .ok var2mulinput => rewriteFamilies var2mulinput { c with mulinputs := [] }

/-! ## Specification-level definitions -/

/-- Every NOT gate of the circuit has a child. -/
def NotGatesHaveChild (c : BooleanCircuit) : Prop :=
  ∀ i ∈ List.range c.gates.length, c.gates[i]? = some BooleanGate.NOT → c.getWires i ≠ []

instance (c : BooleanCircuit) : Decidable (NotGatesHaveChild c) := by
  unfold NotGatesHaveChild; infer_instance

/-- The circuit has no MULTIVALUED_INPUT gate. -/
def NoMulin (c : BooleanCircuit) : Prop :=
  ∀ i ∈ List.range c.gates.length, c.gates[i]? ≠ some BooleanGate.MULIN

instance (c : BooleanCircuit) : Decidable (NoMulin c) := by
  unfold NoMulin; infer_instance

/-- All wires of the circuit lead to gates of the circuit. -/
def WiresInRange (c : BooleanCircuit) : Prop :=
  ∀ i ∈ List.range c.gates.length, ∀ s ∈ c.getWires i, s < c.gates.length

instance (c : BooleanCircuit) : Decidable (WiresInRange c) := by
  unfold WiresInRange; infer_instance

/-- The set `inputs` holds exactly the indices of the INPUT gates (in the
increasing order in which a `std::set` is run through). -/
def InputsAreInGates (c : BooleanCircuit) : Prop :=
  c.inputs = (List.range c.gates.length).filter (fun i => c.gates[i]? = some BooleanGate.IN)

instance (c : BooleanCircuit) : Decidable (InputsAreInGates c) := by
  unfold InputsAreInGates; infer_instance

/-- CNF variable of a gate index, `v(x) = x + 1`. -/
def cnfVar (x : Nat) : Int := (x : Int) + 1

/-- The clauses the specification gives for gate `i`. -/
def specGateClauses (c : BooleanCircuit) (i : Nat) : List (List Int) :=
  match c.gates[i]? with
  | some .AND =>
    (c.getWires i).map (fun s => [-cnfVar i, cnfVar s]) ++
      [cnfVar i :: (c.getWires i).map (fun s => -cnfVar s)]
  | some .OR =>
    (c.getWires i).map (fun s => [cnfVar i, -cnfVar s]) ++
      [(-cnfVar i) :: (c.getWires i).map (fun s => cnfVar s)]
  | some .NOT =>
    match c.getWires i with
    | [] => []
    | s :: _ => [[-cnfVar i, -cnfVar s], [cnfVar i, cnfVar s]]
  | _ => []

/-- The clause list of the specification: the clauses of the gates in
increasing gate index, then the unit clause of the queried gate. -/
def specClauses (c : BooleanCircuit) (g : Nat) : List (List Int) :=
  (List.range c.gates.length).flatMap (specGateClauses c) ++ [[cnfVar g]]

/-- Number of clauses announced by the specification: children + 1 for each
AND and OR gate, 2 for each NOT gate, and 1 for the unit clause. -/
def specClauseCount (c : BooleanCircuit) : Nat :=
  ((List.range c.gates.length).map (fun i =>
    match c.gates[i]? with
    | some .AND => (c.getWires i).length + 1
    | some .OR => (c.getWires i).length + 1
    | some .NOT => 2
    | _ => 0)).sum + 1

/-- A clause line: the literals, then the terminating 0. -/
def clauseLine (cl : List Int) : Line := cl.map Token.int ++ [Token.int 0]

/-- A small circuit used to instantiate the theorems: `g0 = IN(1/2)`,
`g1 = IN(1/2)`, `g2 = AND(g0, g1)`, `g3 = OR(g0, g1)`, `g4 = NOT(g3)`. -/
def sampleCircuit : BooleanCircuit :=
  { uuid2id := []
    gates := [.IN, .IN, .AND, .OR, .NOT]
    wires := [[], [], [0, 1], [0, 1], [3]]
    prob := [1 / 2, 1 / 2, 1, 1, 1]
    inputs := [0, 1]
    mulinputs := []
    info := [] }

/-- Number of INPUT gates of the circuit. -/
def inputGateCount (c : BooleanCircuit) : Nat :=
  ((List.range c.gates.length).filter (fun i => c.gates[i]? = some BooleanGate.IN)).length

/-- Every gate of the circuit is an INPUT, AND, OR or NOT gate. -/
def BooleanGates (c : BooleanCircuit) : Prop :=
  ∀ i ∈ List.range c.gates.length,
    c.gates[i]? = some BooleanGate.IN ∨ c.gates[i]? = some BooleanGate.AND ∨
      c.gates[i]? = some BooleanGate.OR ∨ c.gates[i]? = some BooleanGate.NOT

instance (c : BooleanCircuit) : Decidable (BooleanGates c) := by
  unfold BooleanGates; infer_instance

/-- The wire relation is acyclic: `rank` decreases strictly along every wire. -/
def Acyclic (c : BooleanCircuit) (rank : Nat → Nat) : Prop :=
  ∀ i ∈ List.range c.gates.length, ∀ s ∈ c.getWires i, rank s < rank i

instance (c : BooleanCircuit) (rank : Nat → Nat) : Decidable (Acyclic c rank) := by
  unfold Acyclic; infer_instance

/-- The recursion budget `fuel` covers the rank of every gate. -/
def FuelCovers (c : BooleanCircuit) (rank : Nat → Nat) (fuel : Nat) : Prop :=
  ∀ i ∈ List.range c.gates.length, rank i < fuel

instance (c : BooleanCircuit) (rank : Nat → Nat) (fuel : Nat) :
    Decidable (FuelCovers c rank fuel) := by
  unfold FuelCovers; infer_instance

/-- Reference semantics of a gate under the assignment `σ` of the INPUT gates,
evaluating all children: an INPUT is true iff `σ` holds of it, an AND is true
iff all its children are, an OR is true iff some child is, a NOT negates its
(first) child. -/
def evalRef (c : BooleanCircuit) : Nat → Nat → (Nat → Bool) → Bool
  | 0, _, _ => false
  | fuel + 1, g, σ =>
    match c.gates[g]? with
    | some .IN => σ g
    | some .AND => (c.getWires g).all (fun s => evalRef c fuel s σ)
    | some .OR => (c.getWires g).any (fun s => evalRef c fuel s σ)
    | some .NOT =>
      match c.getWires g with
      | [] => false
      | s :: _ => !evalRef c fuel s σ
    | _ => false

/-- The assignment of the INPUT gates given by a sampled set. -/
def sampledAssignment (sampled : List Nat) : Nat → Bool :=
  fun i => decide (i ∈ sampled)

/-- A set `D` of gates closed under the wires of its AND, OR and NOT gates, on
which the circuit is boolean, in range, with a child for each NOT gate and a
rank decreasing along wires. -/
def Closed (c : BooleanCircuit) (rank : Nat → Nat) (D : Nat → Prop) : Prop :=
  ∀ h, D h →
    (c.gates[h]? = some BooleanGate.IN ∨ c.gates[h]? = some BooleanGate.AND ∨
      c.gates[h]? = some BooleanGate.OR ∨ c.gates[h]? = some BooleanGate.NOT) ∧
    (c.gates[h]? = some BooleanGate.NOT → c.getWires h ≠ []) ∧
    (c.gates[h]? ≠ some BooleanGate.IN → ∀ s ∈ c.getWires h, D s ∧ rank s < rank h)

/-- The world of number `i`: the inner loop of `possibleWorlds` read with the
world number consumed bit by bit, lowest bit first. -/
def worldOf (c : BooleanCircuit) : Nat → List Nat → List Nat × ℚ → List Nat × ℚ
  | _, [], sp => sp
  | i, x :: rest, sp =>
    if i % 2 = 1 then worldOf c (i / 2) rest (x :: sp.1, sp.2 * c.getProb x)
    else worldOf c (i / 2) rest (sp.1, sp.2 * (1 - c.getProb x))

/-- Expectation of `f` over the independent draws of the inputs of the list,
each input `x` being added to the sampled set `s` with probability `p_x`. -/
def expectList (c : BooleanCircuit) : List Nat → (List Nat → ℚ) → List Nat → ℚ
  | [], f, s => f s
  | x :: rest, f, s =>
    c.getProb x * expectList c rest f (x :: s) + (1 - c.getProb x) * expectList c rest f s

/-- Weight of the world in which exactly the inputs of `S` are true: the
product of `p_i` for `i` in `S` and of `1 - p_i` for the other inputs. -/
def worldWeight (c : BooleanCircuit) (S : Finset Nat) : ℚ :=
  ∏ i ∈ c.inputs.toFinset, if i ∈ S then c.getProb i else 1 - c.getProb i

/-- The probability of gate `g`: the sum, over the subsets `S` of the inputs
under which `g` is true, of the weight of `S`. -/
def worldsSum (c : BooleanCircuit) (fuel g : Nat) : ℚ :=
  ∑ S ∈ c.inputs.toFinset.powerset,
    if evalRef c fuel g (fun i => decide (i ∈ S)) then worldWeight c S else 0

/-- A circuit with 31 INPUT gates of probability 1/2 (gates 0 to 30) and an AND
gate without children (gate 31), which is true in every world. -/
def circuit31 : BooleanCircuit :=
  { uuid2id := []
    gates := List.replicate 31 BooleanGate.IN ++ [BooleanGate.AND]
    wires := List.replicate 32 []
    prob := List.replicate 32 (1 / 2)
    inputs := List.range 31
    mulinputs := []
    info := [] }

/-- Truth value of the literal `l` under the assignment `τ` of the CNF
variables. -/
def litTrue (τ : Nat → Bool) (l : Int) : Bool :=
  if 0 < l then τ l.toNat else !τ (-l).toNat

/-- Truth value of a clause: some literal is true. -/
def clauseTrue (τ : Nat → Bool) (cl : List Int) : Bool :=
  cl.any (litTrue τ)

/-- Truth value of a CNF: every clause is true. -/
def cnfTrue (τ : Nat → Bool) (clauses : List (List Int)) : Bool :=
  clauses.all (clauseTrue τ)

/-- The set of INPUT gates whose CNF variable is true under `τ`. -/
def inputsTrue (c : BooleanCircuit) (τ : Nat → Bool) : List Nat :=
  (List.range c.gates.length).filter
    (fun i => decide (c.gates[i]? = some BooleanGate.IN) && τ (i + 1))

/-- Local consistency of the variable of gate `i` with those of its children:
what the clauses of gate `i` express. -/
def gateConsistent (c : BooleanCircuit) (τ : Nat → Bool) (i : Nat) : Prop :=
  match c.gates[i]? with
  | some .AND => τ (i + 1) = (c.getWires i).all (fun s => τ (s + 1))
  | some .OR => τ (i + 1) = (c.getWires i).any (fun s => τ (s + 1))
  | some .NOT =>
    match c.getWires i with
    | [] => True
    | s :: _ => τ (i + 1) = !τ (s + 1)
  | _ => True

/-- Weight of the literal `l` according to the lines of a CNF file: the weight
of the first line `w l q`, and 1 when the file has no such line. -/
def literalWeight : List Line → Int → ℚ
  | [], _ => 1
  | line :: rest, l =>
    match line with
    | [Token.str s, Token.int z, Token.real q] =>
      if s = "w" ∧ z = l then q else literalWeight rest l
    | _ => literalWeight rest l

/-- The truth assignment of the CNF variables `1..n` in which the true
variables are those of the gates of `T` (gate `i` has variable `i + 1`). -/
def assignmentOf (T : Finset Nat) : Nat → Bool :=
  fun v => decide (1 ≤ v ∧ v - 1 ∈ T)

/-- Weighted model count of a CNF over the variables `1..n`: the sum, over the
truth assignments that satisfy every clause, of the product over the variables
of the weight of the literal the assignment makes true. -/
def weightedModelCount (n : Nat) (clauses : List (List Int)) (w : Int → ℚ) : ℚ :=
  ∑ T ∈ (Finset.range n).powerset,
    if cnfTrue (assignmentOf T) clauses then
      ∏ i ∈ Finset.range n, (if i ∈ T then w (cnfVar i) else w (-cnfVar i))
    else 0

/-- Number of gates whose variable no clause of the encoding constrains from
below: the MULTIVALUED_VARIABLE and UNDETERMINED gates. -/
def freeGateCount (c : BooleanCircuit) : Nat :=
  ((List.range c.gates.length).filter (fun i =>
    decide (c.gates[i]? = some BooleanGate.MULVAR) ||
      decide (c.gates[i]? = some BooleanGate.UNDETERMINED))).length

/-- The circuit in which the MULTIVALUED_VARIABLE and UNDETERMINED gates are
read as INPUT gates (a device of the proofs: the encoding treats the three
kinds alike). -/
def freeAsInputs (c : BooleanCircuit) : BooleanCircuit :=
  { c with gates := c.gates.map (fun t =>
      if t = BooleanGate.MULVAR ∨ t = BooleanGate.UNDETERMINED then BooleanGate.IN else t) }

/-- A circuit with one categorical family of a single alternative of
probability 1/2: `g0 = MULVAR`, `g1 = MULIN(g0)`. -/
def singleAlternative : BooleanCircuit :=
  { uuid2id := []
    gates := [.MULVAR, .MULIN]
    wires := [[], [0]]
    prob := [1, 1 / 2]
    inputs := []
    mulinputs := [1]
    info := [] }

/-- The circuit `rewriteMultivaluedGates` makes of `singleAlternative`:
`g0 = MULVAR`, `g1 = AND(g2)`, `g2 = IN(1/2)`. -/
def singleAlternativeRewritten : BooleanCircuit :=
  { uuid2id := []
    gates := [.MULVAR, .AND, .IN]
    wires := [[], [2], []]
    prob := [1, 1 / 2, 1 / 2]
    inputs := [2]
    mulinputs := []
    info := [] }

/-- The categorical family `[0.2, 0.3, 0.5]`: `g0 = MULVAR` and the three
alternatives `g1`, `g2`, `g3 = MULIN(g0)` of categories 1, 2, 3. -/
def categoricalFamily : BooleanCircuit :=
  { uuid2id := []
    gates := [.MULVAR, .MULIN, .MULIN, .MULIN]
    wires := [[], [0], [0], [0]]
    prob := [1, 1 / 5, 3 / 10, 1 / 2]
    inputs := []
    mulinputs := [1, 2, 3]
    info := [(1, 1), (2, 2), (3, 3)] }

/-- The circuit `rewriteMultivaluedGates` makes of `categoricalFamily`: the
alternatives are `g1 = AND(g4, g6)`, `g2 = AND(g4, g7)`, `g3 = AND(g5)` with
`g4 = IN(1)`, `g5 = NOT(g4)`, `g6 = IN(1)`, `g7 = NOT(g6)`. -/
def categoricalFamilyRewritten : BooleanCircuit :=
  { uuid2id := []
    gates := [.MULVAR, .AND, .AND, .AND, .IN, .NOT, .IN, .NOT]
    wires := [[], [4, 6], [4, 7], [5], [], [4], [], [6]]
    prob := [1, 1 / 5, 3 / 10, 1 / 2, 1, 1, 1, 1]
    inputs := [4, 6]
    mulinputs := []
    info := [(1, 1), (2, 2), (3, 3)] }

/-- The INPUT leaves reached from gate `g`, one occurrence for each wire path
from `g` to the leaf (a NOT gate is followed through its first child, the one
the code reads). -/
def leafList (c : BooleanCircuit) : Nat → Nat → List Nat
  | 0, _ => []
  | fuel + 1, g =>
    match c.gates[g]? with
    | some .IN => [g]
    | some .AND => (c.getWires g).flatMap (leafList c fuel)
    | some .OR => (c.getWires g).flatMap (leafList c fuel)
    | some .NOT =>
      match c.getWires g with
      | [] => []
      | s :: _ => leafList c fuel s
    | _ => []

/-- The circuit is read-once at `g`: every INPUT leaf is reached from `g` by at
most one path. -/
def ReadOnce (c : BooleanCircuit) (fuel g : Nat) : Prop :=
  (leafList c fuel g).Nodup

instance (c : BooleanCircuit) (fuel g : Nat) : Decidable (ReadOnce c fuel g) := by
  unfold ReadOnce; infer_instance

/-- The function `f` of a sampled set looks at the membership of the elements
of `A` only. -/
def DependsOn (f : List Nat → ℚ) (A : List Nat) : Prop :=
  ∀ s s' : List Nat, (∀ x ∈ A, x ∈ s ↔ x ∈ s') → f s = f s'

/-- Indicator of the truth of gate `g` under a sampled set. -/
def gateIndicator (c : BooleanCircuit) (fuel g : Nat) : List Nat → ℚ :=
  fun s => if evalRef c fuel g (sampledAssignment s) then 1 else 0

/-- Probability of gate `g`: the expectation of its indicator over the
independent draws of the inputs. -/
def gateProbability (c : BooleanCircuit) (fuel g : Nat) : ℚ :=
  expectList c c.inputs (gateIndicator c fuel g) []

/-- The circuit `g0 = IN(0.5)`, `g1 = IN(0.5)`, `g2 = AND(g0, g1)`. -/
def andCircuit : BooleanCircuit :=
  { uuid2id := []
    gates := [.IN, .IN, .AND]
    wires := [[], [], [0, 1]]
    prob := [1 / 2, 1 / 2, 1]
    inputs := [0, 1]
    mulinputs := []
    info := [] }

/-- A circuit with a MULTIVALUED_INPUT gate that is not reachable from gate 1:
`g0 = IN`, `g1 = NOT(g0)`, `g2 = MULIN(g3)`, `g3 = MULVAR`. -/
def mulinUnreachable : BooleanCircuit :=
  { uuid2id := []
    gates := [.IN, .NOT, .MULIN, .MULVAR]
    wires := [[], [0], [3], []]
    prob := [1, 1, 1, 1]
    inputs := [0]
    mulinputs := [2]
    info := [] }

end BooleanCircuit

/-! ### The class `Circuit` of `Circuit.cpp` -/

/-- Modelled from the spec: the enumeration `Circuit::gateType` is declared in
`Circuit.h`, which is not among the files at hand; its members are the five
kinds named by the `switch` statements of `Circuit.cpp`. -/
inductive gateType
  | UNDETERMINED
  | AND
  | OR
  | NOT
  | IN
  deriving DecidableEq

/-- Modelled from the spec: the members of the class `Circuit` are declared in
`Circuit.h`, which is not among the files at hand. The specification names the
token map, the gates, the wires and the set `inputs`; the containers are those
that the calls of `Circuit.cpp` require: `gates` and `prob` are vectors
(`push_back`), `wires` and `rwires` are vectors (`resize`) of sets
(`wires[f].insert(t)`, an insertion by value), `inputs` is a set
(`inputs.insert(id)`). A set is a list without repetition; the order in which
a set of wires is run through is not specified by the source and is an artefact
of the model. -/
structure Circuit where
  uuid2id : List (String × Nat)
  gates : List gateType
  prob : List ℚ
  wires : List (List Nat)
  rwires : List (List Nat)
  inputs : List Nat
  deriving DecidableEq

namespace Circuit

/-- Insertion by value in a set of gate indices (`s.insert(x)`): nothing
changes when `x` is already an element. -/
def setAdd (x : Nat) (s : List Nat) : List Nat :=
  if x ∈ s then s else s ++ [x]

/-- The empty circuit, as built by the default constructor. -/
def empty : Circuit :=
  { uuid2id := [], gates := [], prob := [], wires := [], rwires := [], inputs := [] }

/-- Call `v.resize(n)` on a vector of sets: new entries are empty sets. -/
def resize (v : List (List Nat)) (n : Nat) : List (List Nat) :=
  v.take n ++ List.replicate (n - v.length) []

/-- Method `Circuit::hasGate(u)` (source lines 8-11). -/
def hasGate (c : Circuit) (u : String) : Bool :=
  (c.uuid2id.lookup u).isSome

/-- Method `Circuit::addGate(type)` (source lines 24-34). -/
def addGate (c : Circuit) (type : gateType) : Nat × Circuit :=
  let id := c.gates.length
  let c1 : Circuit :=
    { c with gates := c.gates ++ [type], prob := c.prob ++ [-1],
             wires := resize c.wires (id + 1), rwires := resize c.rwires (id + 1) }
  if type = gateType.IN then (id, { c1 with inputs := BooleanCircuit.setInsert id c1.inputs })
  else (id, c1)

/-- Method `Circuit::getGate(u)` (source lines 13-22). -/
def getGate (c : Circuit) (u : String) : Nat × Circuit :=
  match c.uuid2id.lookup u with
  | none =>
    let r := addGate c gateType.UNDETERMINED
    (r.1, { r.2 with uuid2id := (u, r.1) :: r.2.uuid2id })
  | some id => (id, c)

/-- Method `Circuit::setGate(u, type, p)` (source lines 36-43). -/
def setGate (c : Circuit) (u : String) (type : gateType) (p : ℚ) : Circuit :=
  let r := getGate c u
  let c1 : Circuit := { r.2 with gates := r.2.gates.set r.1 type, prob := r.2.prob.set r.1 p }
  if type = gateType.IN then { c1 with inputs := BooleanCircuit.setInsert r.1 c1.inputs }
  else c1

/-- Method `Circuit::addWire(f, t)` (source lines 45-49). The source checks no
index: an access `wires[f]` or `rwires[t]` out of the bounds of the vector is
undefined behaviour. -/
def addWire (c : Circuit) (f t : Nat) : Except CircuitException Circuit :=
  if f < c.wires.length then
    let c1 : Circuit := { c with wires := c.wires.set f (setAdd t (c.wires.getD f [])) }
    if t < c1.rwires.length then
      .ok { c1 with rwires := c1.rwires.set t (setAdd f (c1.rwires.getD t [])) }
    else .error .undefinedBehaviour
  else .error .undefinedBehaviour

/-- The calls `addWire(f, t_1)`, .., `addWire(f, t_n)` in sequence. -/
def addWires (c : Circuit) (f : Nat) : List Nat → Except CircuitException Circuit
  | [] => .ok c
  | t :: rest =>
    match addWire c f t with
    | .error x => .error x
    | .ok c1 => addWires c1 f rest

/-- The vector `prob` has one entry per gate. -/
def ProbSized (c : Circuit) : Prop :=
  c.prob.length = c.gates.length

instance (c : Circuit) : Decidable (ProbSized c) := by
  unfold ProbSized; infer_instance

/-- A circuit of two gates without wires, built from the empty circuit by
`getGate("a")` and `getGate("b")`. -/
def twoGates : Circuit :=
  (getGate (getGate empty "a").2 "b").2

/-- The children of gate `g`, the set `wires[g]`. -/
def children (c : Circuit) (g : Nat) : List Nat :=
  c.wires.getD g []

/-- The token map is consistent: a token occurs once, recorded indices are
indices of allocated gates, and no index is recorded for two tokens. -/
def TokensConsistent (c : Circuit) : Prop :=
  (c.uuid2id.map Prod.fst).Nodup ∧ (c.uuid2id.map Prod.snd).Nodup ∧
    ∀ e ∈ c.uuid2id, e.2 < c.gates.length

instance (c : Circuit) : Decidable (TokensConsistent c) := by
  unfold TokensConsistent; infer_instance

/-- The vectors `wires` and `rwires` have one entry per gate. -/
def WellSized (c : Circuit) : Prop :=
  c.wires.length = c.gates.length ∧ c.rwires.length = c.gates.length

instance (c : Circuit) : Decidable (WellSized c) := by
  unfold WellSized; infer_instance

/-- Method `Circuit::evaluate(g, sampled)` (source lines 84-115), with a
recursion budget. The set `wires[g]` is run through in the order of the list;
an UNDETERMINED gate evaluates to false. -/
def evaluate (c : Circuit) : Nat → Nat → List Nat → Except CircuitException Bool
  | 0, _, _ => .error .outOfFuel
  | fuel + 1, g, sampled =>
    match c.gates[g]? with
    | none => .error .undefinedBehaviour
    | some .IN => .ok (decide (g ∈ sampled))
    | some .NOT =>
      match c.wires.getD g [] with
      | [] => .error .undefinedBehaviour
      | s :: _ =>
        match evaluate c fuel s sampled with
        | .error x => .error x
        | .ok e => .ok (!e)
    | some .AND =>
      BooleanCircuit.evaluateLoop (fun s => evaluate c fuel s sampled) false (c.wires.getD g [])
    | some .OR =>
      BooleanCircuit.evaluateLoop (fun s => evaluate c fuel s sampled) true (c.wires.getD g [])
    | some .UNDETERMINED => .ok false

end Circuit

/-! ### The shared-memory store of `provsql_shmem.c` -/

/-- Constants of the enumeration `gate_type` that the functions of
`provsql_shmem.c` compare the type of an entry with. The enumeration is
declared in a header, so the numeric values are parameters here. -/
structure GateTypes where
  gate_input : Int
  gate_mulinput : Int
  gate_zero : Int
  gate_one : Int
  gate_eq : Int
  deriving DecidableEq

/-- Modelled from the spec: an entry of the hash table of gates, with the
fields that the functions of `provsql_shmem.c` read and write (the key is the
token under which the entry is stored). The probability is a rational, or
`none` for the value NAN. -/
structure provsqlHashEntry where
  type : Int
  nb_children : Nat
  children_idx : Nat
  prob : Option ℚ
  info1 : Nat
  info2 : Nat
  deriving DecidableEq

/-- Modelled from the spec: the shared state, the number of wire ends in use
and the array of wire ends (tokens). -/
structure provsqlSharedState where
  nb_wires : Nat
  wires : List Nat
  deriving DecidableEq

/-- The two globals `provsql_shared_state` and `provsql_hash`; the hash table
is an association list from tokens to entries. -/
structure Store where
  provsql_shared_state : provsqlSharedState
  provsql_hash : List (Nat × provsqlHashEntry)
  deriving DecidableEq

/-- The errors raised through `elog(ERROR, ..)` by the functions modelled. -/
inductive ElogError
  /-- Message "Invalid NULL value passed to set_prob_shmem". -/
  | invalidNull
  /-- Message "Unknown gate". -/
  | unknownGate
  /-- Message "Probability can only be assigned to input token". -/
  | probabilityOnlyInput
  /-- Message "Invalid NULL value passed to create_gate". -/
  | invalidNullCreate
  /-- Message "Invalid multi-dimensional array passed to create_gate". -/
  | multiDimensional
  /-- Message "Too many wires in in-memory circuit". -/
  | tooManyWires
  /-- Message "Invalid gate type". -/
  | invalidGateType
  /-- The source has undefined behaviour at this point (an access outside the
  array of wires). -/
  | undefinedBehaviour
  deriving DecidableEq

namespace Shmem

/-- An entry freshly allocated by the hash table, before any field is set. -/
def freshEntry : provsqlHashEntry :=
  { type := 0, nb_children := 0, children_idx := 0, prob := none, info1 := 0, info2 := 0 }

/-- Call `hash_search(provsql_hash, token, HASH_ENTER, &found)`: the entry of
`token`, whether it was there, and the table, in which a fresh entry has been
allocated when there was none. -/
def hashEnter (h : List (Nat × provsqlHashEntry)) (token : Nat) :
    provsqlHashEntry × Bool × List (Nat × provsqlHashEntry) :=
  match h.lookup token with
  | some e => (e, true, h)
  | none => (freshEntry, false, (token, freshEntry) :: h)

/-- Call `hash_search(provsql_hash, token, HASH_REMOVE, &found)`. -/
def hashRemove (h : List (Nat × provsqlHashEntry)) (token : Nat) :
    List (Nat × provsqlHashEntry) :=
  h.filter (fun x => x.1 ≠ token)

/-- A write through the pointer `entry` returned for `token`. -/
def hashStore (h : List (Nat × provsqlHashEntry)) (token : Nat) (e : provsqlHashEntry) :
    List (Nat × provsqlHashEntry) :=
  h.map (fun x => if x.1 = token then (token, e) else x)

/-- Function `set_prob_shmem(token, prob)` (source lines 232-263): the outcome
and the store it leaves. An argument `none` is an SQL NULL. -/
def set_prob_shmem (k : GateTypes) (s : Store) (token : Option Nat) (prob : Option ℚ) :
    Except ElogError Unit × Store :=
  match token, prob with
  | some token, some prob =>
    match hashEnter s.provsql_hash token with
    | (entry, found, h1) =>
      if !found then
        (.error .unknownGate, { s with provsql_hash := hashRemove h1 token })
      else if entry.type ≠ k.gate_input ∧ entry.type ≠ k.gate_mulinput then
        (.error .probabilityOnlyInput, { s with provsql_hash := h1 })
      else
        (.ok (), { s with provsql_hash := hashStore h1 token { entry with prob := some prob } })
  | _, _ => (.error .invalidNull, s)

/-- Function `get_prob_shmem(token)` (source lines 371-394); the result `none`
is an SQL NULL, returned for a NULL argument, for an unknown token and for a
stored NAN. -/
def get_prob_shmem (s : Store) (token : Option Nat) : Option ℚ :=
  match token with
  | none => none
  | some token =>
    match s.provsql_hash.lookup token with
    | some e => e.prob
    | none => none

/-- Gate types used in the examples: input 0, multivalued input 13, zero 5,
one 6, eq 7. -/
def sampleTypes : GateTypes :=
  { gate_input := 0, gate_mulinput := 13, gate_zero := 5, gate_one := 6, gate_eq := 7 }

/-- A store with an input gate under token 10, of probability 1/2, and a gate
of another type (2) under token 11, with the two children 10 and 10. -/
def sampleStore : Store :=
  { provsql_shared_state := { nb_wires := 2, wires := [10, 10] },
    provsql_hash :=
      [(10, { type := 0, nb_children := 0, children_idx := 0, prob := some (1 / 2),
              info1 := 0, info2 := 0 }),
       (11, { type := 2, nb_children := 2, children_idx := 0, prob := none,
              info1 := 0, info2 := 0 })] }

end Shmem

namespace BooleanCircuit

/-! ### Monte-Carlo sampling -/

/-- Inner loop of `monteCarlo` (source lines 174-178): one call of `rand()`
per element of `inputs`. `rand` is the sequence of the values that `rand()`
returns, `k` the number of values consumed so far; the result is the set
`sampled` and the number of values consumed. -/
def monteCarloSample (c : BooleanCircuit) (RAND_MAX : Nat) (rand : Nat → Nat) :
    List Nat → Nat → List Nat → List Nat × Nat
  | [], k, sampled => (sampled, k)
  | x :: rest, k, sampled =>
    if (rand k : ℚ) * 1 / (RAND_MAX : ℚ) < c.getProb x then
      monteCarloSample c RAND_MAX rand rest (k + 1) (x :: sampled)
    else monteCarloSample c RAND_MAX rand rest (k + 1) sampled

/-- Sample loop of `monteCarlo` (source lines 172-185) with `n` iterations
left, at counter `i`, with `k` values of `rand()` consumed and `success`
successes. `interrupted i` is the value of the flag `provsql_interrupted`
polled at the end of iteration `i`. -/
def monteCarloLoop (c : BooleanCircuit) (RAND_MAX : Nat) (rand : Nat → Nat)
    (interrupted : Nat → Bool) (fuel g : Nat) :
    Nat → Nat → Nat → Nat → Except CircuitException Nat
  | 0, _, _, success => .ok success
  | n + 1, i, k, success =>
    let sk := monteCarloSample c RAND_MAX rand c.inputs k []
    match evaluate c fuel g sk.1 with
    | .error x => .error x
    | .ok e =>
      let success := if e then success + 1 else success
      if interrupted i then .error (.interruptedAfter (i + 1))
      else monteCarloLoop c RAND_MAX rand interrupted fuel g n (i + 1) sk.2 success

/-- Method `BooleanCircuit::monteCarlo(g, samples)` (source lines 168-188).
For `samples = 0` the source divides zero by zero, which has no rational
value; the model reports it as undefined. -/
def monteCarlo (c : BooleanCircuit) (RAND_MAX : Nat) (rand : Nat → Nat)
    (interrupted : Nat → Bool) (fuel g samples : Nat) : Except CircuitException ℚ :=
  match monteCarloLoop c RAND_MAX rand interrupted fuel g samples 0 0 0 with
  | .error x => .error x
  | .ok success =>
    if samples = 0 then .error .undefinedBehaviour
    else .ok ((success : ℚ) * 1 / (samples : ℚ))

/-- The interrupt flag raised once exactly `i` samples have been completed,
and staying raised: the polls that close the samples 1 to `i` have passed
without seeing it, and the poll at the end of iteration `j` (counted from 0,
the poll that closes sample `j + 1`) sees it iff `i ≤ j`. -/
def raisedAfter (i : Nat) : Nat → Bool :=
  fun j => decide (i ≤ j)

/-! ### Unresolved gates -/

/-- Every MULTIVALUED_INPUT gate of the circuit has a child. -/
def MulinGatesHaveChild (c : BooleanCircuit) : Prop :=
  ∀ i ∈ List.range c.gates.length, c.gates[i]? = some BooleanGate.MULIN → c.getWires i ≠ []

instance (c : BooleanCircuit) : Decidable (MulinGatesHaveChild c) := by
  unfold MulinGatesHaveChild; infer_instance

/-- Whether an UNDETERMINED gate is met from `g` along the wires that
independent evaluation follows: every wire of an AND gate, every wire of an OR
gate that does not lead to a MULTIVALUED_INPUT gate, and the first wire of a
NOT gate (paths of length below `fuel`). -/
def followsUndetermined (c : BooleanCircuit) : Nat → Nat → Bool
  | 0, _ => false
  | fuel + 1, g =>
    match c.gates[g]? with
    | some .UNDETERMINED => true
    | some .AND => (c.getWires g).any (fun ch => followsUndetermined c fuel ch)
    | some .OR =>
      (c.getWires g).any
        (fun ch => decide (c.gates[ch]? ≠ some BooleanGate.MULIN) && followsUndetermined c fuel ch)
    | some .NOT =>
      match c.getWires g with
      | [] => false
      | s :: _ => followsUndetermined c fuel s
    | _ => false

/-- The outcome of an independent evaluation is a value or one of the two
exceptions "Not an independent circuit" and "Bad gate". -/
def IndependentOutcome {α : Type} (r : Except CircuitException α) : Prop :=
  (∃ v, r = .ok v) ∨ r = .error .notIndependent ∨ r = .error .badGate

/-- A circuit whose UNDETERMINED gate is never evaluated: `g0 = AND()` (true),
`g1` UNDETERMINED, `g2 = OR(g0, g1)`. -/
def undeterminedSkipped : BooleanCircuit :=
  { uuid2id := []
    gates := [.AND, .UNDETERMINED, .OR]
    wires := [[], [], [0, 1]]
    prob := [1, 1, 1]
    inputs := []
    mulinputs := []
    info := [] }

/-- A circuit whose UNDETERMINED gate is reached: `g0 = IN(1/2)`, `g1`
UNDETERMINED, `g2 = AND(g0, g1)`. -/
def undeterminedReached : BooleanCircuit :=
  { uuid2id := []
    gates := [.IN, .UNDETERMINED, .AND]
    wires := [[], [], [0, 1]]
    prob := [1 / 2, 1, 1]
    inputs := [0]
    mulinputs := []
    info := [] }

/-! ### Circuits for the independent evaluation -/

/-- An OR gate over two alternatives of one categorical variable: `g0 =
MULVAR`, `g1 = MULIN(g0)` of category 1 and probability 0.2, `g2 = MULIN(g0)`
of category 2 and probability 0.3, `g3 = OR(g1, g2)`. -/
def mulinOr : BooleanCircuit :=
  { uuid2id := []
    gates := [.MULVAR, .MULIN, .MULIN, .OR]
    wires := [[], [0], [0], [1, 2]]
    prob := [1, 1 / 5, 3 / 10, 1]
    inputs := []
    mulinputs := [1, 2]
    info := [(1, 1), (2, 2)] }

/-- A circuit whose INPUT leaf is reached twice: `g0 = IN(1/2)`,
`g1 = NOT(g0)`, `g2 = OR(g0, g1)`. -/
def sharedLeaf : BooleanCircuit :=
  { uuid2id := []
    gates := [.IN, .NOT, .OR]
    wires := [[], [0], [0, 1]]
    prob := [1 / 2, 1, 1]
    inputs := [0]
    mulinputs := []
    info := [] }

/-- The leaves of `g` are pairwise distinct and none of them is in `seen`. -/
def FreshLeaves (leaves seen : List Nat) : Prop :=
  leaves.Nodup ∧ ∀ x ∈ leaves, x ∉ seen

instance (leaves seen : List Nat) : Decidable (FreshLeaves leaves seen) := by
  unfold FreshLeaves; infer_instance

/-! ### Fan-in of the rewritten alternatives -/

/-- The categorical family of the variable `v`: the gates of `mulinputs` whose
first child is `v`, in the order in which the set is run through. -/
def familyOf (c : BooleanCircuit) (v : Nat) : List Nat :=
  c.mulinputs.filter (fun m => decide ((c.getWires m).head? = some v))

/-- The vector `wires` has one entry per gate. -/
def WiresSized (c : BooleanCircuit) : Prop :=
  c.wires.length = c.gates.length

instance (c : BooleanCircuit) : Decidable (WiresSized c) := by
  unfold WiresSized; infer_instance

/-- Every gate of `mulinputs` has a child (its variable). -/
def MulinputsWired (c : BooleanCircuit) : Prop :=
  ∀ m ∈ c.mulinputs, c.getWires m ≠ []

instance (c : BooleanCircuit) : Decidable (MulinputsWired c) := by
  unfold MulinputsWired; infer_instance

/-! ### Negation and the reference semantics -/

/-- The circuit `g0 = IN(0.3)`, `g1 = NOT(g0)`. -/
def notCircuit : BooleanCircuit :=
  { uuid2id := []
    gates := [.IN, .NOT]
    wires := [[], [0]]
    prob := [3 / 10, 1]
    inputs := [0]
    mulinputs := []
    info := [] }

/-- The circuit `g0 = AND()`, `g1 = OR()`: an AND gate and an OR gate without
children. -/
def emptyGates : BooleanCircuit :=
  { uuid2id := []
    gates := [.AND, .OR]
    wires := [[], []]
    prob := [1, 1]
    inputs := []
    mulinputs := []
    info := [] }

end BooleanCircuit

namespace Circuit

/-! ### Sequences of calls on the class `Circuit` -/

/-- A call of one of the methods `addGate`, `getGate` and `setGate` of the
class `Circuit`. -/
inductive Call
  | addGate (type : gateType)
  | getGate (u : String)
  | setGate (u : String) (type : gateType) (p : ℚ)

/-- The circuit after one call. -/
def applyCall (c : Circuit) : Call → Circuit
  | .addGate type => (addGate c type).2
  | .getGate u => (getGate c u).2
  | .setGate u type p => setGate c u type p

/-- The circuit after a sequence of calls. -/
def applyCalls (c : Circuit) : List Call → Circuit
  | [] => c
  | x :: rest => applyCalls (applyCall c x) rest

/-- No call of the sequence gives another type to a gate that is an INPUT at
the time of the call. -/
def keepsInputs (c : Circuit) : List Call → Bool
  | [] => true
  | x :: rest =>
    (match x with
      | .setGate u type _ =>
        match c.uuid2id.lookup u with
        | some id => decide (c.gates[id]? = some gateType.IN → type = gateType.IN)
        | none => true
      | _ => true) && keepsInputs (applyCall c x) rest

end Circuit

namespace BooleanCircuit

end BooleanCircuit

namespace Shmem

/-! ### Creation of gates in the shared-memory store -/

/-- The settings read by `create_gate_shmem`: the globals
`provsql_max_nb_gates` and `provsql_avg_nb_wires`, and the table
`GATE_TYPE_TO_OID` of the constants (one entry per gate type, in the order of
the enumeration `gate_type`). -/
structure Settings where
  provsql_max_nb_gates : Nat
  provsql_avg_nb_wires : Nat
  GATE_TYPE_TO_OID : List Int
  deriving DecidableEq

/-- Modelled from the spec: an array of tokens passed by PostgreSQL, with its
number of dimensions and its elements; a one-dimensional array has as many
elements as its first dimension says. -/
structure ArrayType where
  ndim : Nat
  data : List Nat
  deriving DecidableEq

/-- The loop looking the type up in `GATE_TYPE_TO_OID` (source lines 191-197)
from index `i` on: the index of the first entry equal to `type`, or -1. -/
def findGateType (type : Int) : List Int → Nat → Int
  | [], _ => -1
  | x :: rest, i => if x = type then (i : Int) else findGateType type rest (i + 1)

/-- The loop copying the children into the array of wires (source lines
206-208), from index `idx` on. -/
def writeWires : List Nat → Nat → List Nat → List Nat
  | wires, _, [] => wires
  | wires, idx, x :: rest => writeWires (wires.set idx x) (idx + 1) rest

/-- The number of children that the array gives (source lines 168-174): an
array of more than one dimension is refused, and a NULL or an array without
dimension gives none. -/
def childCount (children : Option ArrayType) : Except ElogError Nat :=
  match children with
  | none => .ok 0
  | some a =>
    if a.ndim > 1 then .error .multiDimensional
    else if a.ndim = 1 then .ok a.data.length
    else .ok 0

/-- The first `nb_children` elements of the array, those that the copy loop
reads. -/
def childData (children : Option ArrayType) (nb_children : Nat) : List Nat :=
  match children with
  | none => []
  | some a => a.data.take nb_children

/-- The fields given to a new entry (source lines 199-219). -/
def newEntry (k : GateTypes) (ty : Int) (nb_children children_idx : Nat) : provsqlHashEntry :=
  { type := ty, nb_children := nb_children, children_idx := children_idx,
    prob := if ty = k.gate_zero then some 0 else if ty = k.gate_one then some 1 else none,
    info1 := 0, info2 := 0 }

/-- Function `create_gate_shmem(token, type, children)` (source lines
156-230): the outcome and the store it leaves. An argument `none` is an SQL
NULL. The array of wires has as many entries as the list `wires`; a write
outside of it is undefined. -/
def create_gate_shmem (k : GateTypes) (cfg : Settings) (s : Store) (token : Option Nat)
    (type : Option Int) (children : Option ArrayType) : Except ElogError Unit × Store :=
  match token, type with
  | some token, some type =>
    match childCount children with
    | .error x => (.error x, s)
    | .ok nb_children =>
      if nb_children ≠ 0 ∧ s.provsql_shared_state.nb_wires + nb_children >
          cfg.provsql_max_nb_gates * cfg.provsql_avg_nb_wires then
        (.error .tooManyWires, s)
      else
        match hashEnter s.provsql_hash token with
        | (_, found, h1) =>
          if found then (.ok (), { s with provsql_hash := h1 })
          else
            let ty := findGateType type cfg.GATE_TYPE_TO_OID 0
            if ty = -1 then
              (.error .invalidGateType,
                { s with provsql_hash := hashStore h1 token { freshEntry with type := -1 } })
            else
              let children_idx := s.provsql_shared_state.nb_wires
              if children_idx + nb_children > s.provsql_shared_state.wires.length then
                (.error .undefinedBehaviour, s)
              else
                (.ok (),
                  { provsql_shared_state :=
                      { nb_wires := children_idx + nb_children,
                        wires := writeWires s.provsql_shared_state.wires children_idx
                          (childData children nb_children) },
                    provsql_hash := hashStore h1 token (newEntry k ty nb_children children_idx) })
  | _, _ => (.error .invalidNullCreate, s)

/-- Function `get_children_shmem(token)` (source lines 333-369); the result
`none` is an SQL NULL, returned for a NULL argument and for an unknown token. -/
def get_children_shmem (s : Store) (token : Option Nat) : Option (List Nat) :=
  match token with
  | none => none
  | some token =>
    match s.provsql_hash.lookup token with
    | some e =>
      some ((List.range e.nb_children).map
        (fun i => s.provsql_shared_state.wires.getD (e.children_idx + i) 0))
    | none => none

/-- The arguments of a call of `create_gate_shmem`. -/
structure CreateCall where
  token : Nat
  type : Int
  children : Option ArrayType
  deriving DecidableEq

/-- A sequence of calls of `create_gate_shmem` that all succeed: the store
they leave, or `none` when one of them raises an error. -/
def createAll (k : GateTypes) (cfg : Settings) : List CreateCall → Store → Option Store
  | [], s => some s
  | a :: rest, s =>
    match create_gate_shmem k cfg s (some a.token) (some a.type) a.children with
    | (.ok _, s1) => createAll k cfg rest s1
    | (.error _, _) => none

/-- The children that a call gives: the elements of a one-dimensional array,
and none for a NULL or an array without dimension. -/
def CreateCall.elements (a : CreateCall) : List Nat :=
  match a.children with
  | none => []
  | some arr => if arr.ndim = 1 then arr.data else []

/-- The array of wires has the size reserved for it, the wires in use fit in
it, and the children of every entry lie among the wires in use. -/
def StoreInv (cfg : Settings) (s : Store) : Prop :=
  s.provsql_shared_state.wires.length = cfg.provsql_max_nb_gates * cfg.provsql_avg_nb_wires ∧
    s.provsql_shared_state.nb_wires ≤ s.provsql_shared_state.wires.length ∧
    ∀ x ∈ s.provsql_hash, x.2.children_idx + x.2.nb_children ≤ s.provsql_shared_state.nb_wires

instance (cfg : Settings) (s : Store) : Decidable (StoreInv cfg s) := by
  unfold StoreInv; infer_instance

/-- Settings used in the examples: room for 4 gates of 2 wires each, and the
table of types `[100, 101, 102]`. -/
def sampleSettings : Settings :=
  { provsql_max_nb_gates := 4, provsql_avg_nb_wires := 2, GATE_TYPE_TO_OID := [100, 101, 102] }

/-- The empty store under `sampleSettings`. -/
def emptyStore : Store :=
  { provsql_shared_state := { nb_wires := 0, wires := List.replicate 8 0 },
    provsql_hash := [] }

end Shmem

namespace BooleanCircuit

/-! ### Selection of one alternative by the rewritten circuit -/

/-- Gate `w`, allocated in `[lo, hi)`, is an INPUT gate, or a NOT gate whose
only child is an INPUT gate allocated in `[lo, hi)`. -/
def LiteralIn (c : BooleanCircuit) (lo hi w : Nat) : Prop :=
  lo ≤ w ∧ w < hi ∧
    (c.gates[w]? = some BooleanGate.IN ∨
      (c.gates[w]? = some BooleanGate.NOT ∧
        ∃ g, lo ≤ g ∧ g < hi ∧ c.getWires w = [g] ∧ c.gates[g]? = some BooleanGate.IN))

/-- The valuation `b` gives to each NOT gate allocated in `[lo, hi)` the
negation of the value of its first child. -/
def NegatesIn (c : BooleanCircuit) (lo hi : Nat) (b : Nat → Bool) : Prop :=
  ∀ j g rest, lo ≤ j → j < hi → c.gates[j]? = some BooleanGate.NOT →
    c.getWires j = g :: rest → b j = !b g

/-- The children that the alternatives `muls[start..stop]` have after their
first `k` children are gates allocated in `[lo, hi)`, and under every
valuation negating the NOT gates exactly one of the alternatives has all these
children true. -/
def SelectsOne (c : BooleanCircuit) (muls : List Nat) (start stop k lo hi : Nat) : Prop :=
  (∀ i, start ≤ i → i ≤ stop →
      ∀ w ∈ (c.getWires (muls.getD i 0)).drop k, lo ≤ w ∧ w < hi) ∧
    ∀ b, NegatesIn c lo hi b →
      ∃ i0, start ≤ i0 ∧ i0 ≤ stop ∧
        ((c.getWires (muls.getD i0 0)).drop k).all b = true ∧
        ∀ i, start ≤ i → i ≤ stop →
          ((c.getWires (muls.getD i 0)).drop k).all b = true → i = i0

/-- The value of a literal under the sampled set `S`: an INPUT gate is true
iff it is in `S`, a NOT gate negates the membership of its first child. -/
def literalValue (c : BooleanCircuit) (S : List Nat) (w : Nat) : Bool :=
  match c.gates[w]? with
  | some .IN => decide (w ∈ S)
  | some .NOT =>
    match c.getWires w with
    | [] => false
    | g :: _ => !decide (g ∈ S)
  | _ => false

/-- The vector `prob` has one entry per gate. -/
def ProbSized (c : BooleanCircuit) : Prop :=
  c.prob.length = c.gates.length

instance (c : BooleanCircuit) : Decidable (ProbSized c) := by
  unfold ProbSized; infer_instance

/-- The circuit after one step of `rewriteMultivaluedGatesRec` has allocated
its two gates: an INPUT gate of probability `p` at index `gates.size()` and a
NOT gate over it at the next index. -/
def withSplit (c : BooleanCircuit) (p : ℚ) : BooleanCircuit :=
  { c with gates := c.gates ++ [BooleanGate.IN, BooleanGate.NOT],
           wires := c.wires ++ [[], [c.gates.length]],
           prob := c.prob ++ [p, 1],
           inputs := setInsert c.gates.length c.inputs }

/-- The family `muls` has been rewritten in the circuit `c`: each alternative
is an AND gate whose first `k` children (`k` is 0 or 1, and 0 when `exact`
holds) are INPUT gates allocated from `base` on, and whose other children are
literals, allocated in `[lo, hi)`, that select exactly one alternative. -/
def FamilyRewritten (c : BooleanCircuit) (base : Nat) (muls : List Nat) (exact : Bool) : Prop :=
  ∃ k lo hi, k ≤ 1 ∧ (exact = true → k = 0) ∧ base ≤ lo ∧ lo ≤ hi ∧ hi ≤ c.gates.length ∧
    (∀ m ∈ muls, c.gates[m]? = some BooleanGate.AND ∧
      ∀ w ∈ (c.getWires m).take k, base ≤ w ∧ w < lo ∧ c.gates[w]? = some BooleanGate.IN) ∧
    (∀ j, lo ≤ j → j < hi → LiteralIn c lo hi j) ∧
    SelectsOne c muls 0 (muls.length - 1) k lo hi

/-- The test of `rewriteMultivaluedGates` on the probabilities of a family:
their sum is (almost) 1, so that no residual leaf is added. -/
def sumsToOne (c : BooleanCircuit) (muls : List Nat) : Bool :=
  almost_equals (muls.map c.getProb).sum 1

/-- The set `mulinputs` holds exactly the MULTIVALUED_INPUT gates. -/
def MulinputsAreMulinGates (c : BooleanCircuit) : Prop :=
  ∀ g ∈ List.range c.gates.length, (g ∈ c.mulinputs ↔ c.gates[g]? = some BooleanGate.MULIN)

instance (c : BooleanCircuit) : Decidable (MulinputsAreMulinGates c) := by
  unfold MulinputsAreMulinGates; infer_instance

/-! ### Knowledge compilation: `compilation` -/

/-- The empty circuit, the state of a freshly constructed object (the local
`dDNNF dnnf` of `compilation`). -/
def emptyCircuit : BooleanCircuit :=
  { uuid2id := []
    gates := []
    wires := []
    prob := []
    inputs := []
    mulinputs := []
    info := [] }

/-- Modelled from the spec: the base-class method
`Circuit<BooleanGate>::hasGate(u)`, whose source is not part of the files at
hand: whether the identifier map knows the token `u`. -/
def hasGate (c : BooleanCircuit) (u : String) : Bool :=
  (c.uuid2id.lookup u).isSome

/-- Modelled from the spec: the base-class method
`Circuit<BooleanGate>::getGate(u)`, whose source is not part of the files at
hand. Per the specification of the identifier map, a known token resolves to
its gate and an unknown token allocates a new gate (through the virtual
`addGate()`, hence UNDETERMINED) and records it under the token. -/
def getGate (c : BooleanCircuit) (u : String) : Nat × BooleanCircuit :=
  match c.uuid2id.lookup u with
  | some id => (id, c)
  | none =>
    let r := addGate c
    (r.1, { r.2 with uuid2id := (u, r.1) :: r.2.uuid2id })

/-- Modelled from the spec: the base-class method
`Circuit<BooleanGate>::setGate(u, type)`, whose source is not part of the files
at hand. Per the specification (`newGate(token, type)`) it resolves or
allocates the gate of the token through the identifier map and gives it the
kind `type`. -/
def baseSetGateU (c : BooleanCircuit) (u : String) (type : BooleanGate) : Nat × BooleanCircuit :=
  let r := getGate c u
  (r.1, { r.2 with gates := r.2.gates.set r.1 type })

/-- Method `BooleanCircuit::setGate(const uuid &u, BooleanGate type)` (source
lines 48-58). -/
def setGateU (c : BooleanCircuit) (u : String) (type : BooleanGate) : Nat × BooleanCircuit :=
  let r := baseSetGateU c u type
  if type = BooleanGate.IN then
    let c1 := setProb r.2 r.1 1
    (r.1, { c1 with inputs := setInsert r.1 c1.inputs })
  else if type = BooleanGate.MULIN then
    (r.1, { r.2 with mulinputs := setInsert r.1 r.2.mulinputs })
  else r

/-- Method `BooleanCircuit::setGate(const uuid &u, BooleanGate type, double p)`
(source lines 60-65). -/
def setGateUP (c : BooleanCircuit) (u : String) (type : BooleanGate) (p : ℚ) :
    Nat × BooleanCircuit :=
  let r := setGateU c u type
  (r.1, setProb r.2 r.1 p)

/-- Modelled from the spec: the base-class method
`Circuit<BooleanGate>::addWire(f, t)`, whose source is not part of the files at
hand. Per the specification it appends `t` to the children of `f` and fails
with `InvalidGate` if either index is out of range. -/
def addWire (c : BooleanCircuit) (f t : Nat) : Except CircuitException BooleanCircuit :=
  if f < c.gates.length ∧ t < c.gates.length then
    .ok { c with wires := c.wires.set f (c.getWires f ++ [t]) }
  else .error .invalidGate

/-- The text of an item of a line. The rendering of a `double` is kept
abstract: it is no keyword of the formats read here and no name of a node. -/
def tokenText : Token → String
  | .str s => s
  | .int z => toString z
  | .real _ => "real"

/-- The integers read by successive extractions `ss >> n` into variables of
type `int`: the extraction fails at the first item that is not an integer, and
a failed stream reads nothing more. -/
def readInts : List Token → List Int
  | .int z :: rest => z :: readInts rest
  | _ => []

/-- Removal of a file, `unlink(name)`: `none` stands for the non-zero return
value, given when the file does not exist. -/
def unlink (fs : FileSystem) (name : String) : Option FileSystem :=
  if (fs.lookup name).isSome then some (fs.filter (fun f => f.1 ≠ name)) else none

/-- Whether a file exists. -/
def fileExists (fs : FileSystem) (name : String) : Bool :=
  (fs.lookup name).isSome

/-! #### The reader of the CNF file (compiler "d4") -/

/-- A literal of the library d4: `makeLitTrue(var)` has `sign = false`,
`makeLitFalse(var)` has `sign = true`. -/
structure Lit where
  var : Nat
  sign : Bool
  deriving DecidableEq

/-- The members of `d4::ProblemManagerCnf` filled by `compilation`. -/
structure ProblemManagerCnf where
  nbVar : Nat
  weightLit : List ℚ
  weightVar : List ℚ
  clauses : List (List Lit)
  deriving DecidableEq

/-- Failures of the reader of the CNF file that are no `CircuitException`. -/
inductive ReaderError
  /-- Exception `std::invalid_argument` of `std::stoi` and `std::stod`. -/
  | invalidArgument
  /-- Exception `std::out_of_range` of `line.at(0)` on an empty line. -/
  | outOfRange
  /-- A write past the end of a vector. -/
  | undefinedBehaviour
  /-- The loop `while(word != "0")` does not end: the stream is exhausted, so
  that `word` keeps its value. -/
  | diverges
  deriving DecidableEq

/-- Failures of `compilation`. -/
inductive CompilationError
  | circuit (e : CircuitException)
  | reader (e : ReaderError)
  deriving DecidableEq

/-- Conversion `std::stoi(word)` on an item. The files written by `Tseytin`
give it integers only; on the rendering of a `double`, whose text is not
kept, it is taken to fail like on a word. -/
def stoi : Token → Except ReaderError Int
  | .int z => .ok z
  | _ => .error .invalidArgument

/-- Conversion `std::stod(word)` on an item. -/
def stod : Token → Except ReaderError ℚ
  | .int z => .ok z
  | .real q => .ok q
  | .str _ => .error .invalidArgument

/-- Extraction `iss >> word`: the next item, or the old value of `word` when
the stream is exhausted. The result is the new `word` and the rest of the
stream. -/
def extractWord (word : Token) : List Token → Token × List Token
  | [] => (word, [])
  | t :: rest => (t, rest)

/-- The literal pushed for the integer `z` (source lines 394-403):
`makeLitFalse(abs(z))` when `z < 0`, else `makeLitTrue(z)`. -/
def litOf (z : Int) : Lit :=
  if z < 0 then { var := z.natAbs, sign := true } else { var := z.natAbs, sign := false }

/-- The loop `while(word != "0") { iss >> word; ... push_back ... }` of the
clause branch (source lines 391-404): `word` is the current value of the
variable, the list is the rest of the stream, `clause` is `current_clause`. -/
def readClauseLoop : Token → List Token → List Lit → Except ReaderError (Token × List Lit)
  | word, [], clause =>
    if tokenText word = "0" then .ok (word, clause) else .error .diverges
  | word, t :: rest, clause =>
    if tokenText word = "0" then .ok (word, clause)
    else
      match stoi t with
      | .error e => .error e
      | .ok z => readClauseLoop t rest (clause ++ [litOf z])

/-- The clause branch of the reader (source lines 389-406) on one line:
`iss >> word`, then the loop. The result is the final `word` and the clause
pushed to `clauses`. -/
def readClause (word : Token) (line : Line) : Except ReaderError (Token × List Lit) :=
  let r := extractWord word line
  readClauseLoop r.1 r.2 []

/-- State of the reader between two lines: the variable `word`, the vector
`weightVar` and the vector `clauses`. -/
structure ReaderState where
  word : Token
  weightVar : List ℚ
  clauses : List (List Lit)
  deriving DecidableEq

/-- Whether `line.at(0) == 'w'`; an empty line makes `at` throw. -/
def startsWithW : Line → Except ReaderError Bool
  | [] => .error .outOfRange
  | .str s :: _ => .ok (s.data.head? = some 'w')
  | _ :: _ => .ok false

/-- The body of the loop `while (getline(cnfFile,line))` (source lines
367-407) on one line. -/
def readLine (s : ReaderState) (line : Line) : Except ReaderError ReaderState :=
  match startsWithW line with
  | .error e => .error e
  | .ok true =>
    let r1 := extractWord s.word line
    let r2 := extractWord r1.1 r1.2
    match stoi r2.1 with
    | .error e => .error e
    | .ok tmp_var =>
      let r3 := extractWord r2.1 r2.2
      match stod r3.1 with
      | .error e => .error e
      | .ok tmp_prob =>
        if 0 < tmp_var then
          if tmp_var.toNat < s.weightVar.length then
            .ok { s with word := r3.1, weightVar := s.weightVar.set tmp_var.toNat tmp_prob }
          else .error .undefinedBehaviour
        else .ok { s with word := r3.1 }
  | .ok false =>
    match readClause s.word line with
    | .error e => .error e
    | .ok r => .ok { s with word := r.1, clauses := s.clauses ++ [r.2] }

/-- The loop `while (getline(cnfFile,line))` over the lines that follow the
header. -/
def readLines : List Line → ReaderState → Except ReaderError ReaderState
  | [], s => .ok s
  | line :: rest, s =>
    match readLine s line with
    | .error e => .error e
    | .ok s1 => readLines rest s1

/-- The loop `for (gate_t var : inputs) { weightVar[i] = getProb(var); i++; }`
(source lines 354-360). -/
def initWeights (c : BooleanCircuit) : List Nat → Nat → List ℚ → Except ReaderError (List ℚ)
  | [], _, weightVar => .ok weightVar
  | var :: rest, i, weightVar =>
    if i < weightVar.length then initWeights c rest (i + 1) (weightVar.set i (c.getProb var))
    else .error .undefinedBehaviour

/-- The part of `compilation` that fills the problem of the in-process
compiler from the CNF file (source lines 324-410); `content` holds the lines of
the file, `none` when the file cannot be opened. -/
def readProblem (c : BooleanCircuit) (content : Option (List Line)) :
    Except ReaderError ProblemManagerCnf :=
  let lines := content.getD []
  let header := lines.headD []
  let r1 := extractWord (.str "") header
  let r2 := extractWord r1.1 r1.2
  let r3 := extractWord r2.1 r2.2
  match stoi r3.1 with
  | .error e => .error e
  | .ok n =>
    let nb_var := (n % 2 ^ 32).toNat
    let r4 := extractWord r3.1 r3.2
    match initWeights c c.inputs 0 (List.replicate (nb_var + 1) 1) with
    | .error e => .error e
    | .ok weightVar =>
      match readLines (lines.drop 1)
          { word := r4.1, weightVar := weightVar, clauses := [] } with
      | .error e => .error e
      | .ok s =>
        .ok { nbVar := nb_var
              weightLit := List.replicate ((nb_var + 1) * 2) 1
              weightVar := s.weightVar
              clauses := s.clauses }

/-! #### The reader of the d-DNNF file -/

/-- The loop `while(ss >> g) { id2 = dnnf.getGate(to_string(g));
dnnf.addWire(id, id2); }` of the lines `O` and `A`. -/
def parseChildren (id : Nat) : List Int → BooleanCircuit → Except CircuitException BooleanCircuit
  | [], dnnf => .ok dnnf
  | g :: rest, dnnf =>
    let r := getGate dnnf (toString g)
    match addWire r.2 id r.1 with
    | .error x => .error x
    | .ok d => parseChildren id rest d

/-- The loop `while(ss >> decision)` of an edge line (source lines 550-556):
it stops at the item 0 and keeps the decisions on INPUT gates of the circuit
`c`; an index outside `gates` is a read past the end of the vector. -/
def readDecisions (c : BooleanCircuit) : List Int → List Int → Except CircuitException (List Int)
  | [], decisions => .ok decisions
  | decision :: rest, decisions =>
    if decision = 0 then .ok decisions
    else
      match c.gates[decision.natAbs - 1]? with
      | none => .error .undefinedBehaviour
      | some t =>
        readDecisions c rest (if t = BooleanGate.IN then decisions ++ [decision] else decisions)

/-- The probability given to the leaf of the literal `leaf`, with `leaf ≠ 0`:
`1-prob[-leaf-1]` when `leaf<0`, else `prob[leaf-1]`; an index outside `prob`
is a read past the end of the vector. -/
def leafProbability (c : BooleanCircuit) (leaf : Int) : Except CircuitException ℚ :=
  match c.prob[leaf.natAbs - 1]? with
  | none => .error .undefinedBehaviour
  | some p => .ok (if leaf < 0 then 1 - p else p)

/-- The loop over `decisions` of an edge line (source lines 565-569). -/
def parseDecisionLeaves (c : BooleanCircuit) (and_gate : Nat) :
    List Int → BooleanCircuit → Except CircuitException BooleanCircuit
  | [], dnnf => .ok dnnf
  | leaf :: rest, dnnf =>
    match leafProbability c leaf with
    | .error x => .error x
    | .ok p =>
      let r := setGateUP dnnf ("i" ++ toString leaf) .IN p
      match addWire r.2 and_gate r.1 with
      | .error x => .error x
      | .ok d => parseDecisionLeaves c and_gate rest d

/-- The branch `c=="L"` of the parser (source lines 515-528): `ss >> leaf`
gives 0 when no integer can be read. -/
def parseLeaf (c dnnf : BooleanCircuit) (i : Nat) (ints : List Int) :
    Except CircuitException BooleanCircuit :=
  let leaf := ints.headD 0
  if leaf = 0 then .error .undefinedBehaviour
  else
    match c.gates[leaf.natAbs - 1]? with
    | none => .error .undefinedBehaviour
    | some t =>
      if t = BooleanGate.IN then
        match leafProbability c leaf with
        | .error x => .error x
        | .ok p => .ok (setGateUP dnnf (toString i) .IN p).2
      else .ok (setGateUP dnnf (toString i) .IN 1).2

/-- The branch `dnnf.hasGate(c)` of the parser (source lines 543-571), an edge
line of the extended format; `cword` is the first item of the line. -/
def parseEdge (c dnnf : BooleanCircuit) (cword : String) (ints : List Int) :
    Except CircuitException BooleanCircuit :=
  let r := getGate dnnf (toString (ints.headD 0))
  match readDecisions c (ints.drop 1) [] with
  | .error x => .error x
  | .ok decisions =>
    if decisions = [] then
      let rc := getGate r.2 cword
      addWire rc.2 rc.1 r.1
    else
      let ra := setGate r.2 .AND
      let rc := getGate ra.2 cword
      match addWire rc.2 rc.1 ra.1 with
      | .error x => .error x
      | .ok d1 =>
        match addWire d1 ra.1 r.1 with
        | .error x => .error x
        | .ok d2 => parseDecisionLeaves c ra.1 decisions d2

/-- The body of the loop `do { ... } while(getline(ifs, line))` of
`compilation` (source lines 495-576) on one line: `c` is the circuit, `dnnf`
the d-DNNF under construction and `i` the counter of lines. -/
def parseNode (c dnnf : BooleanCircuit) (i : Nat) (line : Line) :
    Except CircuitException BooleanCircuit :=
  let cword := match line with
    | [] => ""
    | t :: _ => tokenText t
  let ints := readInts line.tail
  if cword = "O" then
    let r := getGate dnnf (toString i)
    parseChildren r.1 (ints.drop 2) (setGateU r.2 (toString i) .OR).2
  else if cword = "A" then
    let r := getGate dnnf (toString i)
    parseChildren r.1 (ints.drop 1) (setGateU r.2 (toString i) .AND).2
  else if cword = "L" then parseLeaf c dnnf i ints
  else if cword = "f" ∨ cword = "o" then .ok (setGateU dnnf (toString (ints.headD 0)) .OR).2
  else if cword = "t" ∨ cword = "a" then .ok (setGateU dnnf (toString (ints.headD 0)) .AND).2
  else if hasGate dnnf cword then parseEdge c dnnf cword ints
  else .error .unreadable

/-- The loop `do { ...; ++i; } while(getline(ifs, line))`: the lines still to
be handled, the counter `i` and the d-DNNF; the result is the d-DNNF and the
final value of `i`. -/
def parseNodes (c : BooleanCircuit) :
    List Line → Nat → BooleanCircuit → Except CircuitException (BooleanCircuit × Nat)
  | [], i, dnnf => .ok (dnnf, i)
  | line :: rest, i, dnnf =>
    match parseNode c dnnf i line with
    | .error x => .error x
    | .ok d => parseNodes c rest (i + 1) d

/-- The collaborators of `compilation` that are no part of the files at hand
and the settings it reads. -/
structure Tools where
  /-- Global `provsql_verbose`. -/
  provsql_verbose : Int
  /-- The file name chosen by `mkstemp` in `Tseytin`. -/
  cfilename : String
  /-- Call `system(cmdline)`: the return value and the files afterwards. -/
  system : String → FileSystem → Int × FileSystem
  /-- The counter of the library d4 run in process on the problem read. -/
  count : ProblemManagerCnf → ℚ
  /-- Method `dDNNF::dDNNFEvaluation(g)`. -/
  dDNNFEvaluation : BooleanCircuit → Nat → ℚ

/-- The command line built for the external compilers (source lines 423-431);
`none` for an unknown compiler. -/
def commandLine (compiler filename outfilename : String) : Option String :=
  if compiler = "c2d" then some (compiler ++ " " ++ "-in " ++ filename ++ " -silent")
  else if compiler = "minic2d" then some (compiler ++ " " ++ "-in " ++ filename)
  else if compiler = "dsharp" then
    some (compiler ++ " " ++ "-q -Fnnf " ++ outfilename ++ " " ++ filename)
  else none

/-- Test `line.rfind("nnf", 0) == 0`: the line begins with the characters
`nnf`. -/
def beginsWithNnf : Line → Bool
  | .str s :: _ => s.data.take 3 = ['n', 'n', 'f']
  | _ => false

/-- The value of `nb_variables` after `ss >> nnf >> nb_nodes >> nb_edges >>
nb_variables` on the header line: the third integer; 0 when exactly that
extraction fails; `none` when an earlier extraction failed, which leaves the
variable uninitialised. -/
def headerVariables (line : Line) : Option Nat :=
  match readInts line.tail with
  | [_, _] => some 0
  | _ :: _ :: n :: _ => some (n % 2 ^ 32).toNat
  | _ => none

/-- The end of `compilation` (source lines 492-586): the loop over the lines of
the d-DNNF file, of which `line` is the current one and `rest` those still in
the stream, the removal of the file and the evaluation of the root. -/
def parseAndEvaluate (c : BooleanCircuit) (T : Tools) (new_d4 : Bool) (outfilename : String)
    (fs : FileSystem) (line : Line) (rest : List Line) :
    Except CompilationError ℚ × FileSystem :=
  match parseNodes c (line :: rest) 0 emptyCircuit with
  | .error x => (.error (.circuit x), fs)
  | .ok r =>
    match (if T.provsql_verbose < 20 then unlink fs outfilename else some fs) with
    | none => (.error (.circuit .errorRemoving), fs)
    | some fs1 =>
      let root := getGate r.1 (if new_d4 then "1" else toString (r.2 - 1))
      (.ok (T.dDNNFEvaluation root.2 root.1), fs1)

/-- The part of `compilation` that follows the call of the external compiler
(source lines 433-586); `retvalue` is the value returned by `system`. -/
def compilationAfterSystem (c : BooleanCircuit) (T : Tools) (compiler filename : String)
    (new_d4 : Bool) (retvalue : Int) (fs : FileSystem) :
    Except CompilationError ℚ × FileSystem :=
  let outfilename := filename ++ ".nnf"
  let r := if retvalue ≠ 0 ∧ compiler = "d4" then
      (false, T.system ("d4 " ++ filename ++ " -out=" ++ outfilename) fs)
    else (new_d4, (retvalue, fs))
  if r.2.1 ≠ 0 then (.error (.circuit .errorExecuting), r.2.2)
  else
    match (if T.provsql_verbose < 20 then unlink r.2.2 filename else some r.2.2) with
    | none => (.error (.circuit .errorRemoving), r.2.2)
    | some fs1 =>
      let lines := (fs1.lookup outfilename).getD []
      let line := lines.headD []
      if beginsWithNnf line then
        match headerVariables line with
        | none => (.error (.circuit .undefinedBehaviour), fs1)
        | some nb_variables =>
          if nb_variables ≠ c.gates.length then (.error (.circuit .unreadable), fs1)
          else parseAndEvaluate c T r.1 outfilename fs1 ((lines.drop 1).headD []) (lines.drop 2)
      else if compiler ≠ "d4" then (.ok 0, fs1)
      else parseAndEvaluate c T r.1 outfilename fs1 line (lines.drop 1)

/-- Method `BooleanCircuit::compilation(g, compiler)` (source lines 303-587).
The result is the returned value (or the failure) and the files afterwards.
In the branch of the compiler "d4" the source returns the count of the
in-process compiler; the statements that follow this `return` in the branch
(among them `new_d4 = true`) are never executed. -/
def compilation (c : BooleanCircuit) (T : Tools) (g : Nat) (compiler : String)
    (fs : FileSystem) : Except CompilationError ℚ × FileSystem :=
  match Tseytin c g true T.cfilename fs with
  | (.error x, fs1) => (.error (.circuit x), fs1)
  | (.ok filename, fs1) =>
    let new_d4 := false
    if compiler = "d4" then
      match readProblem c (fs1.lookup filename) with
      | .error e => (.error (.reader e), fs1)
      | .ok problem => (.ok (T.count problem), fs1)
    else
      match commandLine compiler filename (filename ++ ".nnf") with
      | none => (.error (.circuit .unknownCompiler), fs1)
      | some cmdline =>
        let s := T.system cmdline fs1
        compilationAfterSystem c T compiler filename new_d4 s.1 s.2

/-- Invariant of the d-DNNF under construction: `prob` has one entry per gate
and every token of the identifier map names a gate. -/
def DnnfSized (d : BooleanCircuit) : Prop :=
  d.prob.length = d.gates.length ∧
    ∀ (u : String) (id : Nat), d.uuid2id.lookup u = some id → id < d.gates.length

/-- Sample collaborators for a run of `compilation` under a non-diagnostic
verbosity: the external compiler returns 0 and writes the lines `output` to
the file `.nnf`; the evaluation of the d-DNNF is replaced by the index of the
gate it is asked for, which shows the root chosen. -/
def sampleTools (output : List Line) : Tools :=
  { provsql_verbose := 0
    cfilename := "/tmp/provsqlABCDEF"
    system := fun _ fs => (0, writeFile fs "/tmp/provsqlABCDEF.nnf" output)
    count := fun problem => problem.clauses.length
    dDNNFEvaluation := fun _ g => g }

/-- A d-DNNF in the legacy format for `notCircuit`: the leaves `L -1` and
`L 2` (nodes 0 and 1) and their conjunction (node 2, the root). -/
def legacyOutput : List Line :=
  [[.str "nnf", .int 3, .int 2, .int 2],
   [.str "L", .int (-1)],
   [.str "L", .int 2],
   [.str "A", .int 2, .int 0, .int 1]]

/-- An output without the header line `nnf`, in the extended format: the
nodes 1 (`o`) and 2 (`t`) and an edge from 1 to 2 that decides the literal
`-1`. -/
def extendedOutput : List Line :=
  [[.str "o", .int 1, .int 0],
   [.str "t", .int 2, .int 0],
   [.int 1, .int 2, .int (-1), .int 0]]

/-! ### Sampling of certain leaves -/

/-- The circuit made of one INPUT gate of probability 1. -/
def certainInput : BooleanCircuit :=
  { uuid2id := []
    gates := [.IN]
    wires := [[]]
    prob := [1]
    inputs := [0]
    mulinputs := []
    info := [] }

/-- A circuit whose inputs have the probabilities 1 and 0: `g0 = IN(1)`,
`g1 = IN(0)`, `g2 = NOT(g1)`, `g3 = AND(g0, g2)`. -/
def certainCircuit : BooleanCircuit :=
  { uuid2id := []
    gates := [.IN, .IN, .NOT, .AND]
    wires := [[], [], [1], [0, 2]]
    prob := [1, 0, 1, 1]
    inputs := [0, 1]
    mulinputs := []
    info := [] }

/-! ### The weights read by the in-process compiler -/

/-- A circuit whose INPUT gates do not come first: `g0 = AND(g1, g2)`,
`g1 = IN(0.3)`, `g2 = IN(0.5)`. -/
def andFirst : BooleanCircuit :=
  { uuid2id := []
    gates := [.AND, .IN, .IN]
    wires := [[1, 2], [], []]
    prob := [1, 3 / 10, 1 / 2]
    inputs := [1, 2]
    mulinputs := []
    info := [] }

/-! ### Unresolved gates met by the evaluation -/

/-- Every gate of the circuit is an INPUT, AND, OR, NOT or UNDETERMINED
gate. -/
def BooleanOrUndetermined (c : BooleanCircuit) : Prop :=
  ∀ i ∈ List.range c.gates.length,
    c.gates[i]? = some BooleanGate.IN ∨ c.gates[i]? = some BooleanGate.AND ∨
      c.gates[i]? = some BooleanGate.OR ∨ c.gates[i]? = some BooleanGate.NOT ∨
      c.gates[i]? = some BooleanGate.UNDETERMINED

instance (c : BooleanCircuit) : Decidable (BooleanOrUndetermined c) := by
  unfold BooleanOrUndetermined; infer_instance

/-- Whether an UNDETERMINED gate is visited below the children of an AND gate
(`disjunction = false`) or of an OR gate (`disjunction = true`), the children
being looked at in the order of the wires: `vis s` tells whether one is
visited below the child `s`, `val s` is the value of the child `s`; the next
child is looked at only when the value of the child does not decide the
gate. -/
def visitsLoop (vis val : Nat → Bool) (disjunction : Bool) : List Nat → Bool
  | [] => false
  | s :: rest => vis s || (val s != disjunction && visitsLoop vis val disjunction rest)

/-- Whether an UNDETERMINED gate is visited from `g` under the sampled set
`sampled`, when the children of a gate are looked at in the order of the wires
and only until one of them decides the gate (a false child of an AND gate, a
true child of an OR gate); the values of the children are those of the
reference semantics. -/
def visitsUndetermined (c : BooleanCircuit) : Nat → Nat → List Nat → Bool
  | 0, _, _ => false
  | fuel + 1, g, sampled =>
    match c.gates[g]? with
    | some .UNDETERMINED => true
    | some .NOT =>
      match c.getWires g with
      | [] => false
      | s :: _ => visitsUndetermined c fuel s sampled
    | some .AND =>
      visitsLoop (fun s => visitsUndetermined c fuel s sampled)
        (fun s => evalRef c fuel s (sampledAssignment sampled)) false (c.getWires g)
    | some .OR =>
      visitsLoop (fun s => visitsUndetermined c fuel s sampled)
        (fun s => evalRef c fuel s (sampledAssignment sampled)) true (c.getWires g)
    | _ => false

/-- The set of inputs of the world number `m` run through by
`possibleWorlds`. -/
def worldSample (c : BooleanCircuit) (m : Nat) : List Nat :=
  (possibleWorldsInner c m c.inputs 0 ([], 1)).1

/-- The set sampled by the iteration `j` of `monteCarlo`, which consumes one
value of `rand()` per element of `inputs`. -/
def monteCarloDraw (c : BooleanCircuit) (RAND_MAX : Nat) (rand : Nat → Nat) (j : Nat) :
    List Nat :=
  (monteCarloSample c RAND_MAX rand c.inputs (j * c.inputs.length) []).1

/-! ### The weights as printed in the CNF file -/

/-- The probabilities of the inputs and their complements are printed exactly:
they have at most 6 significant decimal digits. -/
def PrintsExactly (c : BooleanCircuit) : Prop :=
  ∀ x ∈ c.inputs, printDouble (c.getProb x) = c.getProb x ∧
    printDouble (1 - c.getProb x) = 1 - c.getProb x

instance (c : BooleanCircuit) : Decidable (PrintsExactly c) := by
  unfold PrintsExactly; infer_instance

/-- Weight of the world in which exactly the inputs of `S` are true, with the
weights that the CNF file holds: the product of the printed `p_i` for `i` in
`S` and of the printed `1 - p_i` for the other inputs. -/
def printedWorldWeight (c : BooleanCircuit) (S : Finset Nat) : ℚ :=
  ∏ i ∈ c.inputs.toFinset,
    if i ∈ S then printDouble (c.getProb i) else printDouble (1 - c.getProb i)

/-- The sum, over the subsets `S` of the inputs under which `g` is true, of the
weight of `S` with the weights that the CNF file holds. -/
def printedWorldsSum (c : BooleanCircuit) (fuel g : Nat) : ℚ :=
  ∑ S ∈ c.inputs.toFinset.powerset,
    if evalRef c fuel g (fun i => decide (i ∈ S)) then printedWorldWeight c S else 0

/-- The circuit made of one INPUT gate of probability 1/1024, a value with
more than 6 significant decimal digits (0.0009765625). -/
def smallProbability : BooleanCircuit :=
  { uuid2id := []
    gates := [.IN]
    wires := [[]]
    prob := [1 / 1024]
    inputs := [0]
    mulinputs := []
    info := [] }

/-! ## Lemmas and theorems -/

/-! ### The Tseytin encoder -/

theorem tseytinAndLoop_eq (id : Int) (ws : List Nat) (acc : List (List Int) × List Int) :
    tseytinAndLoop id ws acc =
      (acc.1 ++ ws.map (fun s => [-id, cnfVar s]), acc.2 ++ ws.map (fun s => -cnfVar s)) := by
  induction ws generalizing acc with
  | nil => simp [tseytinAndLoop]
  | cons s rest ih =>
    simp only [tseytinAndLoop, ih, List.map_cons, List.append_assoc, List.singleton_append,
      cnfVar]
    simp [neg_add, sub_eq_add_neg, add_comm]

theorem tseytinOrLoop_eq (id : Int) (ws : List Nat) (acc : List (List Int) × List Int) :
    tseytinOrLoop id ws acc =
      (acc.1 ++ ws.map (fun s => [id, -cnfVar s]), acc.2 ++ ws.map (fun s => cnfVar s)) := by
  induction ws generalizing acc with
  | nil => simp [tseytinOrLoop]
  | cons s rest ih =>
    simp only [tseytinOrLoop, ih, List.map_cons, List.append_assoc, List.singleton_append,
      cnfVar]
    simp [neg_add, sub_eq_add_neg, add_comm]

theorem tseytinLoop_eq (c : BooleanCircuit) (hm : NoMulin c) (hn : NotGatesHaveChild c) :
    ∀ (n i : Nat) (clauses : List (List Int)), i + n = c.gates.length →
      tseytinLoop c n i clauses =
        .ok (clauses ++ (List.range' i n).flatMap (specGateClauses c)) := by
  intro n
  induction n with
  | zero => intro i clauses _; simp [tseytinLoop]
  | succ n ih =>
    intro i clauses hi
    have hlt : i < c.gates.length := by omega
    have hmem : i ∈ List.range c.gates.length := List.mem_range.mpr hlt
    have hnm := hm i hmem
    have hnc := hn i hmem
    rw [List.range'_succ, List.flatMap_cons]
    unfold tseytinLoop
    cases hg : c.gates[i]? with
    | none => simp [List.getElem?_eq_getElem hlt] at hg
    | some t =>
      cases t with
      | MULIN => exact absurd hg hnm
      | AND =>
        simp only [tseytinAndLoop_eq]
        rw [ih (i + 1) _ (by omega)]
        simp [specGateClauses, hg, cnfVar]
      | OR =>
        simp only [tseytinOrLoop_eq]
        rw [ih (i + 1) _ (by omega)]
        simp [specGateClauses, hg, cnfVar]
      | NOT =>
        cases hw : c.getWires i with
        | nil => exact absurd hw (hnc hg)
        | cons s rest =>
          simp only []
          rw [ih (i + 1) _ (by omega)]
          simp [specGateClauses, hg, hw, cnfVar, neg_add, sub_eq_add_neg, add_comm]
      | IN => simp only []; rw [ih (i + 1) _ (by omega)]; simp [specGateClauses, hg]
      | MULVAR => simp only []; rw [ih (i + 1) _ (by omega)]; simp [specGateClauses, hg]
      | UNDETERMINED =>
        simp only []; rw [ih (i + 1) _ (by omega)]; simp [specGateClauses, hg]

theorem tseytinClauses_eq (c : BooleanCircuit) (g : Nat) (hm : NoMulin c)
    (hn : NotGatesHaveChild c) : tseytinClauses c g = .ok (specClauses c g) := by
  unfold tseytinClauses
  rw [tseytinLoop_eq c hm hn c.gates.length 0 [] (by simp)]
  simp [specClauses, List.range_eq_range', cnfVar]

theorem Tseytin_eq (c : BooleanCircuit) (g : Nat) (display_prob : Bool) (cfilename : String)
    (fs : FileSystem) (hm : NoMulin c) (hn : NotGatesHaveChild c) :
    Tseytin c g display_prob cfilename fs =
      (.ok cfilename, writeFile fs cfilename (tseytinLines c (specClauses c g) display_prob)) := by
  simp [Tseytin, tseytinClauses_eq c g hm hn]

theorem specGateClauses_length (c : BooleanCircuit) (hn : NotGatesHaveChild c) (i : Nat)
    (hi : i ∈ List.range c.gates.length) :
    (specGateClauses c i).length =
      (match c.gates[i]? with
      | some .AND => (c.getWires i).length + 1
      | some .OR => (c.getWires i).length + 1
      | some .NOT => 2
      | _ => 0) := by
  unfold specGateClauses
  cases hg : c.gates[i]? with
  | none => simp
  | some t =>
    cases t with
    | NOT =>
      cases hw : c.getWires i with
      | nil => exact absurd hw (hn i hi hg)
      | cons s rest => simp
    | _ => simp

theorem specClauses_length (c : BooleanCircuit) (g : Nat) (hn : NotGatesHaveChild c) :
    (specClauses c g).length = specClauseCount c := by
  unfold specClauses specClauseCount
  rw [List.length_append, List.length_flatMap]
  congr 2
  apply List.map_congr_left
  intro i hi
  exact specGateClauses_length c hn i hi

theorem specGateClauses_bounds (c : BooleanCircuit) (hw : WiresInRange c) (i : Nat)
    (hi : i ∈ List.range c.gates.length) :
    ∀ cl ∈ specGateClauses c i, ∀ l ∈ cl, l ≠ 0 ∧ 1 ≤ |l| ∧ |l| ≤ (c.gates.length : Int) := by
  have hlt : i < c.gates.length := List.mem_range.mp hi
  have hch : ∀ s ∈ c.getWires i, s < c.gates.length := hw i hi
  have key : ∀ s : Nat, s < c.gates.length →
      (cnfVar s ≠ 0 ∧ 1 ≤ |cnfVar s| ∧ |cnfVar s| ≤ (c.gates.length : Int)) ∧
      (-cnfVar s ≠ 0 ∧ 1 ≤ |(-cnfVar s)| ∧ |(-cnfVar s)| ≤ (c.gates.length : Int)) := by
    intro s hs
    have h1 : (0 : Int) < cnfVar s := by unfold cnfVar; omega
    have h2 : cnfVar s ≤ (c.gates.length : Int) := by unfold cnfVar; omega
    rw [abs_neg, abs_of_pos h1]
    refine ⟨⟨?_, ?_, h2⟩, ?_, ?_, h2⟩ <;> omega
  intro cl hcl l hl
  unfold specGateClauses at hcl
  cases hg : c.gates[i]? with
  | none => simp [hg] at hcl
  | some t =>
    rw [hg] at hcl
    cases t with
    | AND =>
      simp only [List.mem_append, List.mem_map, List.mem_singleton] at hcl
      rcases hcl with ⟨s, hs, rfl⟩ | rfl
      · simp only [List.mem_cons, List.mem_singleton, List.not_mem_nil, or_false] at hl
        rcases hl with rfl | rfl
        · exact (key i hlt).2
        · exact (key s (hch s hs)).1
      · simp only [List.mem_cons, List.mem_map] at hl
        rcases hl with rfl | ⟨s, hs, rfl⟩
        · exact (key i hlt).1
        · exact (key s (hch s hs)).2
    | OR =>
      simp only [List.mem_append, List.mem_map, List.mem_singleton] at hcl
      rcases hcl with ⟨s, hs, rfl⟩ | rfl
      · simp only [List.mem_cons, List.mem_singleton, List.not_mem_nil, or_false] at hl
        rcases hl with rfl | rfl
        · exact (key i hlt).1
        · exact (key s (hch s hs)).2
      · simp only [List.mem_cons, List.mem_map] at hl
        rcases hl with rfl | ⟨s, hs, rfl⟩
        · exact (key i hlt).2
        · exact (key s (hch s hs)).1
    | NOT =>
      cases hws : c.getWires i with
      | nil => simp [hws] at hcl
      | cons s rest =>
        have hs : s < c.gates.length := hch s (by simp [hws])
        simp only [hws, List.mem_cons, List.mem_singleton, List.not_mem_nil, or_false] at hcl
        rcases hcl with rfl | rfl
        · simp only [List.mem_cons, List.mem_singleton, List.not_mem_nil, or_false] at hl
          rcases hl with rfl | rfl
          · exact (key i hlt).2
          · exact (key s hs).2
        · simp only [List.mem_cons, List.mem_singleton, List.not_mem_nil, or_false] at hl
          rcases hl with rfl | rfl
          · exact (key i hlt).1
          · exact (key s hs).1
    | IN => simp at hcl
    | MULIN => simp at hcl
    | MULVAR => simp at hcl
    | UNDETERMINED => simp at hcl

theorem specClauses_bounds (c : BooleanCircuit) (g : Nat) (hw : WiresInRange c)
    (hg : g < c.gates.length) :
    ∀ cl ∈ specClauses c g, ∀ l ∈ cl, l ≠ 0 ∧ 1 ≤ |l| ∧ |l| ≤ (c.gates.length : Int) := by
  intro cl hcl l hl
  unfold specClauses at hcl
  rw [List.mem_append, List.mem_flatMap] at hcl
  rcases hcl with ⟨i, hi, hcl⟩ | hcl
  · exact specGateClauses_bounds c hw i hi cl hcl l hl
  · simp only [List.mem_singleton] at hcl
    subst hcl
    simp only [List.mem_singleton] at hl
    subst hl
    have h1 : (0 : Int) < cnfVar g := by unfold cnfVar; omega
    have h2 : cnfVar g ≤ (c.gates.length : Int) := by unfold cnfVar; omega
    rw [abs_of_pos h1]
    refine ⟨?_, ?_, h2⟩ <;> omega

/-! ### The printing of the weights -/

theorem floor_toNat_bounds (q : ℚ) (hq : 0 ≤ q) :
    ((Rat.floor q).toNat : ℚ) ≤ q ∧ q < ((Rat.floor q).toNat : ℚ) + 1 := by
  have hfl : Rat.floor q = ⌊q⌋ := rfl
  have h0 : 0 ≤ ⌊q⌋ := Int.floor_nonneg.2 hq
  have hcast : ((⌊q⌋.toNat : Nat) : ℚ) = ((⌊q⌋ : Int) : ℚ) := by
    have : ((⌊q⌋.toNat : Nat) : Int) = ⌊q⌋ := Int.toNat_of_nonneg h0
    exact_mod_cast congrArg (fun z : Int => (z : ℚ)) this
  rw [hfl, hcast]
  exact ⟨Int.floor_le q, Int.lt_floor_add_one q⟩

theorem roundHalfEven_error (q : ℚ) (hq : 0 ≤ q) :
    |(roundHalfEven q : ℚ) - q| ≤ 1 / 2 := by
  obtain ⟨h1, h2⟩ := floor_toNat_bounds q hq
  unfold roundHalfEven
  simp only []
  rw [abs_le]
  split_ifs with ha hb hc
  · constructor <;> linarith
  · push_cast
    constructor <;> linarith
  · constructor <;> linarith
  · push_cast
    constructor <;> linarith

theorem sixDigits_spec : ∀ (fuel : Nat) (q : ℚ), 0 < q → q < 10 ^ (6 + fuel) →
    100000 ≤ q * 10 ^ fuel →
    ∃ k : Int, 100000 ≤ q * 10 ^ k ∧ q * 10 ^ k < 1000000 ∧
      sixDigits fuel q = (roundHalfEven (q * 10 ^ k) : ℚ) / 10 ^ k := by
  intro fuel
  induction fuel with
  | zero =>
    intro q _ h1 h2
    refine ⟨0, ?_, ?_, ?_⟩
    · simpa using h2
    · simp only [zpow_zero, mul_one]
      norm_num at h1
      exact h1
    · simp [sixDigits]
  | succ fuel ih =>
    intro q hq h1 h2
    unfold sixDigits
    split_ifs with ha hb
    · have hpow : (1 : ℚ) ≤ 10 ^ fuel := one_le_pow₀ (by norm_num)
      obtain ⟨k, hk1, hk2, hk3⟩ := ih (q / 10) (by positivity)
        (by
          have : (10 : ℚ) ^ (6 + (fuel + 1)) = 10 ^ (6 + fuel) * 10 := by ring
          rw [this] at h1
          linarith)
        (by nlinarith)
      have e : q * 10 ^ (k - 1) = q / 10 * 10 ^ k := by
        rw [zpow_sub_one₀ (by norm_num : (10 : ℚ) ≠ 0)]
        ring
      refine ⟨k - 1, by rw [e]; exact hk1, by rw [e]; exact hk2, ?_⟩
      rw [hk3, e, zpow_sub_one₀ (by norm_num : (10 : ℚ) ≠ 0)]
      field_simp
      ring
    · obtain ⟨k, hk1, hk2, hk3⟩ := ih (q * 10) (by positivity)
        (by
          have hpow : (1 : ℚ) ≤ 10 ^ fuel := one_le_pow₀ (by norm_num)
          have : (10 : ℚ) ^ (6 + fuel) = 1000000 * 10 ^ fuel := by ring
          rw [this]
          nlinarith)
        (by
          have : q * 10 ^ (fuel + 1) = q * 10 * 10 ^ fuel := by ring
          rw [this] at h2
          exact h2)
      have e : q * 10 ^ (k + 1) = q * 10 * 10 ^ k := by
        rw [zpow_add_one₀ (by norm_num : (10 : ℚ) ≠ 0)]
        ring
      refine ⟨k + 1, by rw [e]; exact hk1, by rw [e]; exact hk2, ?_⟩
      rw [hk3, e, zpow_add_one₀ (by norm_num : (10 : ℚ) ≠ 0)]
      field_simp
    · refine ⟨0, ?_, ?_, ?_⟩
      · simpa using not_lt.1 hb
      · simpa using not_le.1 ha
      · simp

theorem nat_cast_lt_ten_pow (n : Nat) : ((n : ℚ) + 1) ≤ 10 ^ n := by
  have h : n + 1 ≤ 10 ^ n := Nat.lt_pow_self (by norm_num) n
  exact_mod_cast h

/-- The number printed for a positive `q` is `q` rounded at the digit that
brings it between `10^5` and `10^6`: the powers of ten allowed to `sixDigits`
are enough. -/
theorem printDouble_spec (q : ℚ) (hq : 0 < q) :
    ∃ k : Int, 100000 ≤ q * 10 ^ k ∧ q * 10 ^ k < 1000000 ∧
      printDouble q = (roundHalfEven (q * 10 ^ k) : ℚ) / 10 ^ k := by
  unfold printDouble
  rw [if_neg (ne_of_gt hq), if_pos hq]
  apply sixDigits_spec _ q hq
  · obtain ⟨_, h2⟩ := floor_toNat_bounds q (le_of_lt hq)
    have h3 := nat_cast_lt_ten_pow (Rat.floor q).toNat
    have h4 : (10 : ℚ) ^ (Rat.floor q).toNat ≤
        10 ^ (6 + ((Rat.floor q).toNat + (Rat.floor (100000 / q)).toNat + 1)) :=
      pow_le_pow_right₀ (by norm_num) (by omega)
    linarith
  · have hpos : (0 : ℚ) ≤ 100000 / q := by positivity
    obtain ⟨_, h2⟩ := floor_toNat_bounds (100000 / q) hpos
    have h3 := nat_cast_lt_ten_pow (Rat.floor (100000 / q)).toNat
    have h4 : (10 : ℚ) ^ (Rat.floor (100000 / q)).toNat ≤
        10 ^ ((Rat.floor q).toNat + (Rat.floor (100000 / q)).toNat + 1) :=
      pow_le_pow_right₀ (by norm_num) (by omega)
    have h5 : 100000 / q ≤ 10 ^ ((Rat.floor q).toNat + (Rat.floor (100000 / q)).toNat + 1) := by
      linarith
    rw [div_le_iff₀ hq] at h5
    linarith

theorem printDouble_neg (q : ℚ) : printDouble (-q) = -printDouble q := by
  unfold printDouble
  rcases lt_trichotomy q 0 with h | h | h
  · have h1 : ¬ (-q = 0) := by intro h2; linarith
    have h2 : (0 : ℚ) < -q := by linarith
    have h3 : ¬ (q = 0) := ne_of_lt h
    have h4 : ¬ ((0 : ℚ) < q) := by linarith
    rw [if_neg h1, if_pos h2, if_neg h3, if_neg h4, neg_neg]
  · subst h
    simp
  · have h1 : ¬ (-q = 0) := by intro h2; linarith
    have h2 : ¬ ((0 : ℚ) < -q) := by linarith
    have h3 : ¬ (q = 0) := ne_of_gt h
    rw [if_neg h1, if_neg h2, if_neg h3, if_pos h, neg_neg]

/-- The number printed differs from the number by at most 1/200000 of it. -/
theorem printDouble_error (q : ℚ) : |printDouble q - q| ≤ |q| / 200000 := by
  have key : ∀ r : ℚ, 0 < r → |printDouble r - r| ≤ r / 200000 := by
    intro r hr
    obtain ⟨k, hk1, hk2, hk3⟩ := printDouble_spec r hr
    have hpow : (0 : ℚ) < 10 ^ k := zpow_pos (by norm_num) k
    have herr := roundHalfEven_error (r * 10 ^ k) (by positivity)
    have e : printDouble r - r = ((roundHalfEven (r * 10 ^ k) : ℚ) - r * 10 ^ k) / 10 ^ k := by
      rw [hk3]
      field_simp
      ring
    rw [e, abs_div, abs_of_pos hpow, div_le_div_iff₀ hpow (by norm_num)]
    calc |(roundHalfEven (r * 10 ^ k) : ℚ) - r * 10 ^ k| * 200000
        ≤ 1 / 2 * 200000 := by
          nlinarith [abs_nonneg ((roundHalfEven (r * 10 ^ k) : ℚ) - r * 10 ^ k)]
      _ = 100000 := by norm_num
      _ ≤ r * 10 ^ k := hk1
  rcases lt_trichotomy q 0 with h | h | h
  · have h2 := key (-q) (by linarith)
    rw [printDouble_neg] at h2
    rw [abs_of_neg h]
    have : |(-printDouble q) - (-q)| = |printDouble q - q| := by
      rw [← abs_neg]
      ring_nf
    rw [this] at h2
    exact h2
  · subst h
    simp [printDouble]
  · rw [abs_of_pos h]
    exact key q h

theorem tseytinWeights_eq (c : BooleanCircuit) (l : List Nat) :
    tseytinWeights c l =
      l.flatMap (fun i =>
        [[Token.str "w", Token.int (cnfVar i), Token.real (printDouble (c.getProb i))],
          [Token.str "w", Token.int (-cnfVar i),
            Token.real (printDouble (1 - c.getProb i))]]) := by
  induction l with
  | nil => simp [tseytinWeights]
  | cons x rest ih => simp [tseytinWeights, ih, cnfVar]

theorem tseytinLoop_mulin (c : BooleanCircuit) (m : Nat)
    (hm : c.gates[m]? = some BooleanGate.MULIN)
    (hn : ∀ i, i < m → c.gates[i]? = some BooleanGate.NOT → c.getWires i ≠ []) :
    ∀ (n i : Nat) (clauses : List (List Int)), i + n = c.gates.length → i ≤ m →
      tseytinLoop c n i clauses = .error .multivaluedNotRemoved := by
  have hmlt : m < c.gates.length := by
    by_contra h
    rw [List.getElem?_eq_none (by omega)] at hm
    exact absurd hm (by simp)
  intro n
  induction n with
  | zero => intro i clauses hi him; omega
  | succ n ih =>
    intro i clauses hi him
    have hlt : i < c.gates.length := by omega
    unfold tseytinLoop
    cases hg : c.gates[i]? with
    | none => simp [List.getElem?_eq_getElem hlt] at hg
    | some t =>
      have hne : t ≠ BooleanGate.MULIN → i + 1 ≤ m := by
        intro ht
        rcases Nat.lt_or_ge i m with h | h
        · exact h
        · have : i = m := by omega
          subst this
          rw [hm] at hg
          exact absurd (Option.some.inj hg).symm ht
      cases t with
      | MULIN => rfl
      | AND => exact ih (i + 1) _ (by omega) (hne (by decide))
      | OR => exact ih (i + 1) _ (by omega) (hne (by decide))
      | NOT =>
        cases hw : c.getWires i with
        | nil => exact absurd hw (hn i (hne (by decide)) hg)
        | cons s rest => exact ih (i + 1) _ (by omega) (hne (by decide))
      | IN => exact ih (i + 1) _ (by omega) (hne (by decide))
      | MULVAR => exact ih (i + 1) _ (by omega) (hne (by decide))
      | UNDETERMINED => exact ih (i + 1) _ (by omega) (hne (by decide))

/-- Claim C6. On a circuit the encoder accepts, `Tseytin(g)` pushes, gate by gate
in increasing gate index, the clauses of the specification (for an AND gate `i`
the clauses `(-v(i), v(c_j))` in child order then `(v(i), -v(c_1), ..)`, the
dual for an OR gate, the two clauses `(-v(i), -v(c))`, `(v(i), v(c))` for a NOT
gate, nothing for the other gates) and last the unit clause `(v(g))`; the file
holds these clauses in the same order, one per line. -/
theorem Tseytin_emits_spec_clauses (c : BooleanCircuit) (g : Nat) (display_prob : Bool)
    (cfilename : String) (fs : FileSystem) (hm : NoMulin c) (hn : NotGatesHaveChild c) :
    tseytinClauses c g =
        .ok ((List.range c.gates.length).flatMap (specGateClauses c) ++ [[cnfVar g]]) ∧
      Tseytin c g display_prob cfilename fs =
        (.ok cfilename, writeFile fs cfilename
          ([.str "p", .str "cnf", .int c.gates.length, .int (specClauses c g).length] ::
            ((specClauses c g).map clauseLine ++
              (if display_prob then tseytinWeights c c.inputs else [])))) := by
  refine ⟨tseytinClauses_eq c g hm hn, ?_⟩
  rw [Tseytin_eq c g display_prob cfilename fs hm hn]
  rfl

theorem Tseytin_emits_spec_clauses_witness :
    NoMulin sampleCircuit ∧ NotGatesHaveChild sampleCircuit ∧
      tseytinClauses sampleCircuit 4 =
        .ok [[-3, 1], [-3, 2], [3, -1, -2], [4, -1], [4, -2], [-4, 1, 2], [-5, -4], [5, 4],
          [5]] :=
  ⟨by decide, by decide,
    (Tseytin_emits_spec_clauses sampleCircuit 4 false "f" [] (by decide) (by decide)).1.trans
      (by decide)⟩

/-- Claim C7. The file written by `Tseytin(g)` is well-formed DIMACS: its first
line is `p cnf N M` with `N` the number of gates and `M` the number of clause
lines that follow, which is the sum over the AND and OR gates of (number of
children + 1), plus 2 per NOT gate, plus 1; every clause line ends with 0; and
when all wires (and `g`) are in range every literal is non-zero, of absolute
value between 1 and `N`. -/
theorem Tseytin_dimacs_well_formed (c : BooleanCircuit) (g : Nat) (display_prob : Bool)
    (cfilename : String) (fs : FileSystem) (hm : NoMulin c) (hn : NotGatesHaveChild c) :
    ∃ clauses : List (List Int),
      Tseytin c g display_prob cfilename fs =
        (.ok cfilename, writeFile fs cfilename
          ([.str "p", .str "cnf", .int c.gates.length, .int (specClauseCount c)] ::
            (clauses.map clauseLine ++
              (if display_prob then tseytinWeights c c.inputs else [])))) ∧
      tseytinClauses c g = .ok clauses ∧
      (clauses.map clauseLine).length = specClauseCount c ∧
      (∀ line ∈ clauses.map clauseLine, line.getLast? = some (Token.int 0)) ∧
      (WiresInRange c → g < c.gates.length →
        ∀ cl ∈ clauses, ∀ l ∈ cl, l ≠ 0 ∧ 1 ≤ |l| ∧ |l| ≤ (c.gates.length : Int)) := by
  refine ⟨specClauses c g, ?_, tseytinClauses_eq c g hm hn, ?_, ?_, ?_⟩
  · rw [Tseytin_eq c g display_prob cfilename fs hm hn, ← specClauses_length c g hn]
    rfl
  · rw [List.length_map, specClauses_length c g hn]
  · intro line hline
    rw [List.mem_map] at hline
    obtain ⟨cl, _, rfl⟩ := hline
    simp [clauseLine]
  · intro hw hg
    exact specClauses_bounds c g hw hg

theorem Tseytin_dimacs_well_formed_witness :
    NoMulin sampleCircuit ∧ NotGatesHaveChild sampleCircuit ∧
    ∃ clauses : List (List Int),
      Tseytin sampleCircuit 4 true "f" [] =
        (.ok "f", writeFile [] "f"
          ([.str "p", .str "cnf", .int sampleCircuit.gates.length,
              .int (specClauseCount sampleCircuit)] ::
            (clauses.map clauseLine ++
              (if true then tseytinWeights sampleCircuit sampleCircuit.inputs else [])))) ∧
      tseytinClauses sampleCircuit 4 = .ok clauses ∧
      (clauses.map clauseLine).length = specClauseCount sampleCircuit ∧
      (∀ line ∈ clauses.map clauseLine, line.getLast? = some (Token.int 0)) ∧
      (WiresInRange sampleCircuit → 4 < sampleCircuit.gates.length →
        ∀ cl ∈ clauses, ∀ l ∈ cl,
          l ≠ 0 ∧ 1 ≤ |l| ∧ |l| ≤ (sampleCircuit.gates.length : Int)) :=
  ⟨by decide, by decide,
    Tseytin_dimacs_well_formed sampleCircuit 4 true "f" [] (by decide) (by decide)⟩

/-- Claim C8, as amended. With `display_prob = true` the clause lines are
followed, for each INPUT gate `i` in increasing index and for no other gate,
by the two lines `w (i+1) x_i` and `w -(i+1) y_i`, where `x_i` and `y_i` are
the values `p_i` and `1 - p_i` as the stream prints them, rounded to 6
significant decimal digits: each differs from the value printed by at most
1/200000 of it, so that the two weights of a variable sum to 1 up to
`(|p_i| + |1 - p_i|) / 200000`, and to 1 exactly when both values are printed
exactly; with `display_prob = false` the file is the header and the clause
lines only, none of which is a `w` line. -/
theorem Tseytin_weight_lines (c : BooleanCircuit) (g : Nat) (cfilename : String)
    (fs : FileSystem) (hm : NoMulin c) (hn : NotGatesHaveChild c) (hin : InputsAreInGates c) :
    Tseytin c g true cfilename fs =
        (.ok cfilename, writeFile fs cfilename
          ([.str "p", .str "cnf", .int c.gates.length, .int (specClauses c g).length] ::
            ((specClauses c g).map clauseLine ++
              ((List.range c.gates.length).filter
                (fun i => c.gates[i]? = some BooleanGate.IN)).flatMap
                (fun i => [[Token.str "w", Token.int ((i : Int) + 1),
                    Token.real (printDouble (c.getProb i))],
                  [Token.str "w", Token.int (-((i : Int) + 1)),
                    Token.real (printDouble (1 - c.getProb i))]])))) ∧
      (∀ i, |printDouble (c.getProb i) - c.getProb i| ≤ |c.getProb i| / 200000 ∧
        |printDouble (1 - c.getProb i) - (1 - c.getProb i)| ≤ |1 - c.getProb i| / 200000 ∧
        |printDouble (c.getProb i) + printDouble (1 - c.getProb i) - 1| ≤
          (|c.getProb i| + |1 - c.getProb i|) / 200000 ∧
        (printDouble (c.getProb i) = c.getProb i →
          printDouble (1 - c.getProb i) = 1 - c.getProb i →
          printDouble (c.getProb i) + printDouble (1 - c.getProb i) = 1)) ∧
      Tseytin c g false cfilename fs =
        (.ok cfilename, writeFile fs cfilename
          ([.str "p", .str "cnf", .int c.gates.length, .int (specClauses c g).length] ::
            (specClauses c g).map clauseLine)) ∧
      (∀ line ∈ ([.str "p", .str "cnf", .int c.gates.length, .int (specClauses c g).length] ::
            (specClauses c g).map clauseLine : List Line), line.head? ≠ some (Token.str "w")) := by
  refine ⟨?_, ?_, ?_, ?_⟩
  · have h : c.inputs = _ := hin
    rw [Tseytin_eq c g true cfilename fs hm hn]
    simp only [tseytinLines, if_true, tseytinWeights_eq, cnfVar]
    rw [h]
    rfl
  · intro i
    refine ⟨printDouble_error _, printDouble_error _, ?_, ?_⟩
    · have e : printDouble (c.getProb i) + printDouble (1 - c.getProb i) - 1 =
          (printDouble (c.getProb i) - c.getProb i) +
            (printDouble (1 - c.getProb i) - (1 - c.getProb i)) := by ring
      rw [e]
      have h1 := printDouble_error (c.getProb i)
      have h2 := printDouble_error (1 - c.getProb i)
      have h3 := abs_add (printDouble (c.getProb i) - c.getProb i)
        (printDouble (1 - c.getProb i) - (1 - c.getProb i))
      linarith
    · intro h1 h2
      rw [h1, h2]
      ring
  · rw [Tseytin_eq c g false cfilename fs hm hn]
    simp only [tseytinLines]
    simp
    rfl
  · intro line hline
    rw [List.mem_cons, List.mem_map] at hline
    rcases hline with rfl | ⟨cl, _, rfl⟩
    · simp
    · cases cl <;> simp [clauseLine]

theorem Tseytin_weight_lines_witness :
    NoMulin sampleCircuit ∧ NotGatesHaveChild sampleCircuit ∧ InputsAreInGates sampleCircuit ∧
      (Tseytin sampleCircuit 2 true "f" []).2 =
        [("f", [[.str "p", .str "cnf", .int 5, .int 9],
          [.int (-3), .int 1, .int 0], [.int (-3), .int 2, .int 0],
          [.int 3, .int (-1), .int (-2), .int 0],
          [.int 4, .int (-1), .int 0], [.int 4, .int (-2), .int 0],
          [.int (-4), .int 1, .int 2, .int 0],
          [.int (-5), .int (-4), .int 0], [.int 5, .int 4, .int 0], [.int 3, .int 0],
          [.str "w", .int 1, .real (1 / 2)], [.str "w", .int (-1), .real (1 / 2)],
          [.str "w", .int 2, .real (1 / 2)], [.str "w", .int (-2), .real (1 / 2)]])] ∧
      (Tseytin sampleCircuit 2 true "f" []).2 =
        writeFile [] "f"
          ([.str "p", .str "cnf", .int sampleCircuit.gates.length,
              .int (specClauses sampleCircuit 2).length] ::
            ((specClauses sampleCircuit 2).map clauseLine ++
              ((List.range sampleCircuit.gates.length).filter
                (fun i => sampleCircuit.gates[i]? = some BooleanGate.IN)).flatMap
                (fun i => [[Token.str "w", Token.int ((i : Int) + 1),
                    Token.real (printDouble (sampleCircuit.getProb i))],
                  [Token.str "w", Token.int (-((i : Int) + 1)),
                    Token.real (printDouble (1 - sampleCircuit.getProb i))]]))) :=
  ⟨by decide, by decide, by decide, by decide!,
    congrArg Prod.snd (Tseytin_weight_lines sampleCircuit 2 "f" [] (by decide) (by decide)
      (by decide)).1⟩

/-- Counterexample to claim C8: for the INPUT gate of probability 1/1024
(0.0009765625) the two lines written are `w 1 0.000976562` and
`w -1 0.999023`: the first weight is not the probability and the two weights
do not sum to 1. -/
theorem Tseytin_weight_lines_counterexample :
    NoMulin smallProbability ∧ NotGatesHaveChild smallProbability ∧
      InputsAreInGates smallProbability ∧ smallProbability.getProb 0 = 1 / 1024 ∧
      Tseytin smallProbability 0 true "f" [] =
        (.ok "f", [("f", [[.str "p", .str "cnf", .int 1, .int 1], [.int 1, .int 0],
          [.str "w", .int 1, .real (976562 / 1000000000)],
          [.str "w", .int (-1), .real (999023 / 1000000)]])]) ∧
      (976562 / 1000000000 : ℚ) ≠ 1 / 1024 ∧
      (976562 / 1000000000 : ℚ) + 999023 / 1000000 ≠ 1 := by
  refine ⟨by decide, by decide, by decide, by decide!, by decide!, by norm_num, by norm_num⟩

/-- Claim C9. `Tseytin(g)` fails with the unsupported-gate error ("Multivalued
inputs should have been removed by then.") whenever the circuit holds a
MULTIVALUED_INPUT gate, at any index `m` (reachable from `g` or not), and the
file system is then unchanged (no CNF file is created); the NOT gates met
before gate `m` are taken to have a child, as the data model states (the code
dereferences their first child). On a circuit without MULTIVALUED_INPUT gate
whose NOT gates each have a child it returns the file name, so it does not
raise that error. -/
theorem Tseytin_multivalued_error (c : BooleanCircuit) (g : Nat) (display_prob : Bool)
    (cfilename : String) (fs : FileSystem) :
    (∀ m : Nat, c.gates[m]? = some BooleanGate.MULIN →
        (∀ i, i < m → c.gates[i]? = some BooleanGate.NOT → c.getWires i ≠ []) →
        Tseytin c g display_prob cfilename fs = (.error .multivaluedNotRemoved, fs)) ∧
      (NoMulin c → NotGatesHaveChild c →
        (Tseytin c g display_prob cfilename fs).1 = .ok cfilename ∧
        (Tseytin c g display_prob cfilename fs).1 ≠ .error .multivaluedNotRemoved) := by
  constructor
  · intro m hm hn
    simp [Tseytin, tseytinClauses,
      tseytinLoop_mulin c m hm hn c.gates.length 0 [] (by simp) (Nat.zero_le m)]
  · intro hm hn
    rw [Tseytin_eq c g display_prob cfilename fs hm hn]
    simp

/-- A circuit with a MULTIVALUED_INPUT gate (gate 2) that is not reachable from
gate 1: `g0 = IN`, `g1 = NOT(g0)`, `g2 = MULIN(g3)`, `g3 = MULVAR`; and the
circuit `sampleCircuit`, which has none. -/
theorem Tseytin_multivalued_error_witness :
    (mulinUnreachable.gates[2]? = some BooleanGate.MULIN ∧
      (∀ i, i < 2 → mulinUnreachable.gates[i]? = some BooleanGate.NOT →
        mulinUnreachable.getWires i ≠ []) ∧
      Tseytin mulinUnreachable 1 true "f" [] = (.error .multivaluedNotRemoved, [])) ∧
    (NoMulin sampleCircuit ∧ NotGatesHaveChild sampleCircuit ∧
      (Tseytin sampleCircuit 4 true "f" []).1 = .ok "f") :=
  ⟨⟨by decide, by decide,
    (Tseytin_multivalued_error mulinUnreachable 1 true "f" []).1 2 (by decide) (by decide)⟩,
   ⟨by decide, by decide,
    ((Tseytin_multivalued_error sampleCircuit 4 true "f" []).2 (by decide) (by decide)).1⟩⟩

/-! ### Exact enumeration: the guard on the number of inputs -/

theorem evaluateLoop_error (ev : Nat → Except CircuitException Bool) (d : Bool)
    (P : CircuitException → Prop) (hev : ∀ s x, ev s = .error x → P x) :
    ∀ (l : List Nat) (x : CircuitException), evaluateLoop ev d l = .error x → P x := by
  intro l
  induction l with
  | nil => intro x h; simp [evaluateLoop] at h
  | cons s rest ih =>
    intro x h
    unfold evaluateLoop at h
    cases hs : ev s with
    | error y =>
      rw [hs] at h
      simp only [Except.error.injEq] at h
      subst h
      exact hev s y hs
    | ok e =>
      rw [hs] at h
      simp only [] at h
      split at h
      · simp at h
      · split at h
        · simp at h
        · exact ih x h

theorem evaluate_ne_tooManyWorlds (c : BooleanCircuit) (sampled : List Nat) :
    ∀ (fuel g : Nat), evaluate c fuel g sampled ≠ .error .tooManyWorlds := by
  intro fuel
  induction fuel with
  | zero => intro g; simp [evaluate]
  | succ fuel ih =>
    intro g h
    unfold evaluate at h
    cases hg : c.gates[g]? with
    | none => simp [hg] at h
    | some t =>
      rw [hg] at h
      cases t with
      | IN => simp at h
      | MULIN => simp at h
      | MULVAR => simp at h
      | UNDETERMINED => simp at h
      | NOT =>
        simp only [] at h
        split at h
        · simp at h
        · rename_i s rest hw
          cases he : evaluate c fuel s sampled with
          | error y =>
            rw [he] at h
            simp only [Except.error.injEq] at h
            subst h
            exact ih s he
          | ok e => rw [he] at h; simp at h
      | AND =>
        exact evaluateLoop_error _ false (fun x => x ≠ .tooManyWorlds)
          (fun s x hx hxe => ih s (hxe ▸ hx)) _ _ h rfl
      | OR =>
        exact evaluateLoop_error _ true (fun x => x ≠ .tooManyWorlds)
          (fun s x hx hxe => ih s (hxe ▸ hx)) _ _ h rfl

theorem possibleWorldsLoop_ne_tooManyWorlds (c : BooleanCircuit) (interrupted : Nat → Bool)
    (fuel g : Nat) :
    ∀ (n i : Nat) (totalp : ℚ),
      possibleWorldsLoop c interrupted fuel g n i totalp ≠ .error .tooManyWorlds := by
  intro n
  induction n with
  | zero => intro i totalp; simp [possibleWorldsLoop]
  | succ n ih =>
    intro i totalp h
    unfold possibleWorldsLoop at h
    simp only [] at h
    split at h
    · rename_i x hx
      simp only [Except.error.injEq] at h
      subst h
      exact evaluate_ne_tooManyWorlds c _ fuel g hx
    · split at h
      · simp at h
      · exact ih _ _ h

/-- Claim C10. `possibleWorlds(g)` fails with the too-many-inputs error exactly
when the circuit holds at least 64 INPUT gates (the set `inputs` holding all the
INPUT gates of the circuit, reachable from `g` or not); the failure does not
depend on any evaluation: it occurs with every recursion budget, the empty one
included, for every gate `g` and whatever the interrupt flag does. -/
theorem possibleWorlds_tooManyWorlds_iff (c : BooleanCircuit) (hin : InputsAreInGates c)
    (interrupted : Nat → Bool) (fuel g : Nat) :
    (possibleWorlds c interrupted fuel g = .error .tooManyWorlds ↔ 64 ≤ inputGateCount c) ∧
      (64 ≤ inputGateCount c → possibleWorlds c (fun _ => true) 0 g = .error .tooManyWorlds) := by
  have hlen : c.inputs.length = inputGateCount c := by
    have h : c.inputs = _ := hin
    unfold inputGateCount
    rw [h]
  have hif : ∀ (intr : Nat → Bool) (fl : Nat),
      64 ≤ inputGateCount c → possibleWorlds c intr fl g = .error .tooManyWorlds := by
    intro intr fl h
    unfold possibleWorlds
    rw [if_pos (by omega)]
  refine ⟨⟨?_, hif interrupted fuel⟩, hif _ 0⟩
  intro h
  by_contra hlt
  unfold possibleWorlds at h
  rw [if_neg (by omega)] at h
  split at h
  · simp at h
  · exact possibleWorldsLoop_ne_tooManyWorlds c interrupted fuel g _ _ _ h

/-- A circuit of 64 INPUT gates and one AND gate without children. -/
theorem possibleWorlds_tooManyWorlds_iff_witness :
    InputsAreInGates ⟨[], List.replicate 64 .IN ++ [.AND], List.replicate 65 [],
        List.replicate 65 1, List.range 64, [], []⟩ ∧
      possibleWorlds ⟨[], List.replicate 64 .IN ++ [.AND], List.replicate 65 [],
        List.replicate 65 1, List.range 64, [], []⟩ (fun _ => true) 0 64 =
          .error .tooManyWorlds :=
  ⟨by decide,
    (possibleWorlds_tooManyWorlds_iff ⟨[], List.replicate 64 .IN ++ [.AND], List.replicate 65 [],
        List.replicate 65 1, List.range 64, [], []⟩ (by decide) (fun _ => false) 0 64).2
      (by decide)⟩

/-! ### Evaluation of a fixed assignment -/

theorem closed_of_global (c : BooleanCircuit) (rank : Nat → Nat) (hb : BooleanGates c)
    (hw : WiresInRange c) (hn : NotGatesHaveChild c) (ha : Acyclic c rank) :
    Closed c rank (fun h => h < c.gates.length) := by
  intro h hh
  have hmem : h ∈ List.range c.gates.length := List.mem_range.mpr hh
  exact ⟨hb h hmem, hn h hmem, fun _ s hs => ⟨hw h hmem s hs, ha h hmem s hs⟩⟩

theorem evaluateLoop_all (ev : Nat → Except CircuitException Bool) (f : Nat → Bool) :
    ∀ l : List Nat, (∀ s ∈ l, ev s = .ok (f s)) → evaluateLoop ev false l = .ok (l.all f) := by
  intro l
  induction l with
  | nil => intro _; rfl
  | cons s rest ih =>
    intro h
    unfold evaluateLoop
    rw [h s (List.mem_cons_self s rest)]
    cases hf : f s with
    | true =>
      simp only [List.all_cons, hf, Bool.true_and]
      simpa using ih (fun t ht => h t (List.mem_cons_of_mem s ht))
    | false => simp [hf]

theorem evaluateLoop_any (ev : Nat → Except CircuitException Bool) (f : Nat → Bool) :
    ∀ l : List Nat, (∀ s ∈ l, ev s = .ok (f s)) → evaluateLoop ev true l = .ok (l.any f) := by
  intro l
  induction l with
  | nil => intro _; rfl
  | cons s rest ih =>
    intro h
    unfold evaluateLoop
    rw [h s (List.mem_cons_self s rest)]
    cases hf : f s with
    | true => simp [hf]
    | false =>
      simp only [List.any_cons, hf, Bool.false_or]
      simpa using ih (fun t ht => h t (List.mem_cons_of_mem s ht))

theorem evaluate_eq_evalRef (c : BooleanCircuit) (rank : Nat → Nat) (D : Nat → Prop)
    (hD : Closed c rank D) (sampled : List Nat) :
    ∀ (fuel g : Nat), D g → rank g < fuel →
      evaluate c fuel g sampled = .ok (evalRef c fuel g (sampledAssignment sampled)) := by
  intro fuel
  induction fuel with
  | zero => intro g _ h; omega
  | succ fuel ih =>
    intro g hg hr
    obtain ⟨hty, hnot, hch⟩ := hD g hg
    unfold evaluate evalRef
    rcases hty with ht | ht | ht | ht
    · simp [ht, sampledAssignment]
    · rw [ht]
      have hc := hch (by rw [ht]; decide)
      exact evaluateLoop_all _ _ _ (fun s hs => ih s (hc s hs).1 (by have := (hc s hs).2; omega))
    · rw [ht]
      have hc := hch (by rw [ht]; decide)
      exact evaluateLoop_any _ _ _ (fun s hs => ih s (hc s hs).1 (by have := (hc s hs).2; omega))
    · rw [ht]
      have hc := hch (by rw [ht]; decide)
      cases hw : c.getWires g with
      | nil => exact absurd hw (hnot ht)
      | cons s rest =>
        have hs : s ∈ c.getWires g := by rw [hw]; exact List.mem_cons_self s rest
        simp only []
        rw [ih s (hc s hs).1 (by have := (hc s hs).2; omega)]

theorem all_congr_mem (f g : Nat → Bool) :
    ∀ l : List Nat, (∀ s ∈ l, f s = g s) → l.all f = l.all g := by
  intro l
  induction l with
  | nil => intro _; rfl
  | cons s rest ih =>
    intro h
    simp only [List.all_cons]
    rw [h s (List.mem_cons_self s rest), ih (fun t ht => h t (List.mem_cons_of_mem s ht))]

theorem any_congr_mem (f g : Nat → Bool) :
    ∀ l : List Nat, (∀ s ∈ l, f s = g s) → l.any f = l.any g := by
  intro l
  induction l with
  | nil => intro _; rfl
  | cons s rest ih =>
    intro h
    simp only [List.any_cons]
    rw [h s (List.mem_cons_self s rest), ih (fun t ht => h t (List.mem_cons_of_mem s ht))]

theorem evalRef_fuel (c : BooleanCircuit) (rank : Nat → Nat) (D : Nat → Prop)
    (hD : Closed c rank D) (σ : Nat → Bool) :
    ∀ (f1 f2 g : Nat), D g → rank g < f1 → rank g < f2 →
      evalRef c f1 g σ = evalRef c f2 g σ := by
  intro f1
  induction f1 with
  | zero => intro f2 g _ h; omega
  | succ f1 ih =>
    intro f2 g hg h1 h2
    cases f2 with
    | zero => omega
    | succ f2 =>
      obtain ⟨hty, _, hch⟩ := hD g hg
      unfold evalRef
      rcases hty with ht | ht | ht | ht
      · simp [ht]
      · rw [ht]
        have hc := hch (by rw [ht]; decide)
        simp only []
        apply all_congr_mem
        intro s hs
        exact ih f2 s (hc s hs).1 (by have := (hc s hs).2; omega)
          (by have := (hc s hs).2; omega)
      · rw [ht]
        have hc := hch (by rw [ht]; decide)
        simp only []
        apply any_congr_mem
        intro s hs
        exact ih f2 s (hc s hs).1 (by have := (hc s hs).2; omega)
          (by have := (hc s hs).2; omega)
      · rw [ht]
        have hc := hch (by rw [ht]; decide)
        cases hw : c.getWires g with
        | nil => rfl
        | cons s rest =>
          have hs : s ∈ c.getWires g := by rw [hw]; exact List.mem_cons_self s rest
          simp only []
          rw [ih f2 s (hc s hs).1 (by have := (hc s hs).2; omega)
            (by have := (hc s hs).2; omega)]

/-- The value of an assignment matters at the INPUT gates only. -/
theorem evalRef_congr (c : BooleanCircuit) (σ σ' : Nat → Bool)
    (h : ∀ i, c.gates[i]? = some BooleanGate.IN → σ i = σ' i) :
    ∀ (fuel g : Nat), evalRef c fuel g σ = evalRef c fuel g σ' := by
  intro fuel
  induction fuel with
  | zero => intro g; rfl
  | succ fuel ih =>
    intro g
    unfold evalRef
    cases hg : c.gates[g]? with
    | none => rfl
    | some t =>
      cases t with
      | IN => exact h g hg
      | AND => simp only [ih]
      | OR => simp only [ih]
      | NOT => simp only [ih]
      | _ => rfl

/-! ### Exact enumeration -/

theorem bit_test (i j : Nat) (hj : j < 31) :
    (i &&& toULongLong (shiftLeftOne j) ≠ 0) ↔ (i / 2 ^ j) % 2 = 1 := by
  have h1 : toULongLong (shiftLeftOne j) = 2 ^ j := by
    unfold toULongLong shiftLeftOne
    rw [if_pos hj]
    have hlt : (2 : Int) ^ j < 2 ^ 64 :=
      pow_lt_pow_right₀ (by norm_num) (by omega)
    rw [Int.emod_eq_of_lt (by positivity) hlt]
    have : ((2 : Int) ^ j) = ((2 ^ j : Nat) : Int) := by push_cast; rfl
    rw [this, Int.toNat_natCast]
  rw [h1, Nat.and_two_pow]
  have h2 : i.testBit j = decide (i / 2 ^ j % 2 = 1) := Nat.testBit_to_div_mod
  rw [h2]
  by_cases h : i / 2 ^ j % 2 = 1
  · simp [h]
  · simp [h]

theorem possibleWorldsInner_eq (c : BooleanCircuit) (i : Nat) :
    ∀ (l : List Nat) (j : Nat) (sp : List Nat × ℚ), j + l.length ≤ 31 →
      possibleWorldsInner c i l j sp = worldOf c (i / 2 ^ j) l sp := by
  intro l
  induction l with
  | nil => intro j sp _; simp [possibleWorldsInner, worldOf]
  | cons x rest ih =>
    intro j sp hj
    obtain ⟨s, p⟩ := sp
    simp only [List.length_cons] at hj
    have hdiv : i / 2 ^ j / 2 = i / 2 ^ (j + 1) := by
      rw [Nat.div_div_eq_div_mul, pow_succ]
    unfold possibleWorldsInner worldOf
    by_cases hb : (i / 2 ^ j) % 2 = 1
    · rw [if_pos ((bit_test i j (by omega)).mpr hb), if_pos hb, hdiv]
      exact ih (j + 1) _ (by omega)
    · rw [if_neg (fun h => hb ((bit_test i j (by omega)).mp h)), if_neg hb, hdiv]
      exact ih (j + 1) _ (by omega)

theorem possibleWorldsLoop_eq (c : BooleanCircuit) (fuel g : Nat) (b : List Nat → Bool)
    (hev : ∀ s, evaluate c fuel g s = .ok (b s)) :
    ∀ (n i : Nat) (totalp : ℚ),
      possibleWorldsLoop c (fun _ => false) fuel g n i totalp =
        .ok (totalp + ∑ m ∈ Finset.range n,
          if b (possibleWorldsInner c (i + m) c.inputs 0 ([], 1)).1
          then (possibleWorldsInner c (i + m) c.inputs 0 ([], 1)).2 else 0) := by
  intro n
  induction n with
  | zero => intro i totalp; simp [possibleWorldsLoop]
  | succ n ih =>
    intro i totalp
    unfold possibleWorldsLoop
    simp only [hev]
    rw [if_neg (by simp), ih]
    rw [Finset.sum_range_succ']
    simp only [Nat.add_zero]
    congr 1
    have hshift : ∀ m, i + 1 + m = i + (m + 1) := by intro m; omega
    simp only [hshift]
    split <;> ring

theorem sum_range_double (G : Nat → ℚ) (m : Nat) :
    ∑ i ∈ Finset.range (2 * m), G i = ∑ i ∈ Finset.range m, (G (2 * i + 1) + G (2 * i)) := by
  induction m with
  | zero => simp
  | succ m ih =>
    rw [show 2 * (m + 1) = 2 * m + 1 + 1 by ring, Finset.sum_range_succ, Finset.sum_range_succ,
      ih, Finset.sum_range_succ]
    ring

theorem sum_worldOf (c : BooleanCircuit) (f : List Nat → ℚ) :
    ∀ (l : List Nat) (s : List Nat) (p : ℚ),
      ∑ i ∈ Finset.range (2 ^ l.length),
          (worldOf c i l (s, p)).2 * f (worldOf c i l (s, p)).1 =
        p * expectList c l f s := by
  intro l
  induction l with
  | nil => intro s p; simp [worldOf, expectList]
  | cons x rest ih =>
    intro s p
    rw [List.length_cons, pow_succ, mul_comm, sum_range_double]
    have h1 : ∀ i, worldOf c (2 * i + 1) (x :: rest) (s, p) =
        worldOf c i rest (x :: s, p * c.getProb x) := by
      intro i
      rw [worldOf, if_pos (by omega)]
      congr 1
      omega
    have h0 : ∀ i, worldOf c (2 * i) (x :: rest) (s, p) =
        worldOf c i rest (s, p * (1 - c.getProb x)) := by
      intro i
      rw [worldOf, if_neg (by omega)]
      congr 1
      omega
    simp only [h1, h0]
    rw [Finset.sum_add_distrib, ih, ih, expectList]
    ring

theorem expectList_eq_sum (c : BooleanCircuit) (F : Finset Nat → ℚ) :
    ∀ (l : List Nat), l.Nodup → ∀ (s : List Nat),
      expectList c l (fun t => F t.toFinset) s =
        ∑ S ∈ l.toFinset.powerset,
          (∏ x ∈ l.toFinset, if x ∈ S then c.getProb x else 1 - c.getProb x) *
            F (s.toFinset ∪ S) := by
  intro l
  induction l with
  | nil => intro _ s; simp [expectList]
  | cons x rest ih =>
    intro hnd s
    have hx : x ∉ rest.toFinset := by
      rw [List.mem_toFinset]; exact (List.nodup_cons.mp hnd).1
    have hrest := ih (List.nodup_cons.mp hnd).2
    have hcons : (x :: rest).toFinset = insert x rest.toFinset := List.toFinset_cons
    rw [expectList, hrest, hrest, hcons, Finset.sum_powerset_insert hx]
    rw [Finset.mul_sum, Finset.mul_sum, add_comm]
    congr 1
    · apply Finset.sum_congr rfl
      intro S hS
      have hxS : x ∉ S := fun h => hx (Finset.mem_powerset.mp hS h)
      rw [Finset.prod_insert hx, if_neg hxS]
      ring
    · apply Finset.sum_congr rfl
      intro S hS
      rw [Finset.prod_insert hx, if_pos (Finset.mem_insert_self x S)]
      have hprod : (∏ y ∈ rest.toFinset,
          if y ∈ insert x S then c.getProb y else 1 - c.getProb y) =
          ∏ y ∈ rest.toFinset, if y ∈ S then c.getProb y else 1 - c.getProb y := by
        apply Finset.prod_congr rfl
        intro y hy
        have hne : y ≠ x := fun h => hx (h ▸ hy)
        simp [Finset.mem_insert, hne]
      have hun : s.toFinset ∪ insert x S = (x :: s).toFinset ∪ S := by
        rw [List.toFinset_cons]
        ext y
        simp only [Finset.mem_union, Finset.mem_insert]
        tauto
      rw [hprod, hun]
      ring

theorem sampledAssignment_eq (s : List Nat) :
    sampledAssignment s = fun i => decide (i ∈ s.toFinset) := by
  funext i
  simp [sampledAssignment]

theorem sum_worlds_eq_worldsSum (c : BooleanCircuit) (fuel g : Nat) (hnd : c.inputs.Nodup) :
    ∑ m ∈ Finset.range (2 ^ c.inputs.length),
        (if evalRef c fuel g (sampledAssignment (worldOf c m c.inputs ([], 1)).1)
          then (worldOf c m c.inputs ([], 1)).2 else 0) =
      worldsSum c fuel g := by
  have h := sum_worldOf c
    (fun t => if evalRef c fuel g (sampledAssignment t) then 1 else 0) c.inputs [] 1
  have h2 := expectList_eq_sum c
    (fun S => if evalRef c fuel g (fun i => decide (i ∈ S)) then 1 else 0) c.inputs hnd []
  simp only [← sampledAssignment_eq] at h2
  rw [one_mul, h2] at h
  have e1 : ∑ m ∈ Finset.range (2 ^ c.inputs.length),
        (if evalRef c fuel g (sampledAssignment (worldOf c m c.inputs ([], 1)).1)
          then (worldOf c m c.inputs ([], 1)).2 else 0) =
      ∑ i ∈ Finset.range (2 ^ c.inputs.length),
        (worldOf c i c.inputs ([], 1)).2 *
          if evalRef c fuel g (sampledAssignment (worldOf c i c.inputs ([], 1)).1) = true
          then 1 else 0 := by
    apply Finset.sum_congr rfl
    intro m _
    split <;> simp
  rw [e1, h]
  unfold worldsSum worldWeight
  apply Finset.sum_congr rfl
  intro S _
  simp only [List.toFinset_nil, Finset.empty_union]
  split <;> simp

/-- Exact enumeration on at most 30 inputs: the loop visits the `2^k` worlds
and returns the sum of the weights of those under which `g` is true. -/
theorem possibleWorlds_eq_worldsSum (c : BooleanCircuit) (rank : Nat → Nat) (D : Nat → Prop)
    (hD : Closed c rank D) (fuel g : Nat) (hg : D g) (hf : rank g < fuel)
    (hnd : c.inputs.Nodup) (hk : c.inputs.length < 31) :
    possibleWorlds c (fun _ => false) fuel g = .ok (worldsSum c fuel g) := by
  unfold possibleWorlds
  rw [if_neg (by omega), if_neg (by omega)]
  have hnb : toULongLong (shiftLeftOne c.inputs.length) = 2 ^ c.inputs.length := by
    unfold toULongLong shiftLeftOne
    rw [if_pos hk]
    have hlt : (2 : Int) ^ c.inputs.length < 2 ^ 64 :=
      pow_lt_pow_right₀ (by norm_num) (by omega)
    rw [Int.emod_eq_of_lt (by positivity) hlt]
    have : ((2 : Int) ^ c.inputs.length) = ((2 ^ c.inputs.length : Nat) : Int) := by
      push_cast; rfl
    rw [this, Int.toNat_natCast]
  rw [hnb, possibleWorldsLoop_eq c fuel g _
    (fun s => evaluate_eq_evalRef c rank D hD s fuel g hg hf)]
  rw [zero_add, ← sum_worlds_eq_worldsSum c fuel g hnd]
  congr 1
  apply Finset.sum_congr rfl
  intro m _
  rw [Nat.zero_add, possibleWorldsInner_eq c m c.inputs 0 _ (by omega)]
  simp

theorem worldOf_mod (c : BooleanCircuit) :
    ∀ (l : List Nat) (i : Nat) (sp : List Nat × ℚ),
      worldOf c (i % 2 ^ l.length) l sp = worldOf c i l sp := by
  intro l
  induction l with
  | nil => intro i sp; simp [worldOf]
  | cons x rest ih =>
    intro i sp
    have hm : i % 2 ^ (rest.length + 1) % 2 = i % 2 := by
      rw [pow_succ, Nat.mod_mul_left_mod]
    have hd : i % 2 ^ (rest.length + 1) / 2 = i / 2 % 2 ^ rest.length := by
      rw [pow_succ, mul_comm, Nat.mod_mul_right_div_self]
    rw [List.length_cons, worldOf, worldOf, hm, hd, ih, ih]

theorem sum_range_periodic (G : Nat → ℚ) (P : Nat) (hper : ∀ i, G i = G (i % P)) (m : Nat) :
    ∑ i ∈ Finset.range (m * P), G i = m * ∑ i ∈ Finset.range P, G i := by
  induction m with
  | zero => simp
  | succ m ih =>
    rw [show (m + 1) * P = m * P + P by ring, Finset.sum_range_add, ih]
    have : ∀ x, G (m * P + x) = G x := by
      intro x
      rw [hper (m * P + x), hper x, Nat.mul_comm, Nat.mul_add_mod]
    simp only [this]
    push_cast
    ring

theorem expectList_const_one (c : BooleanCircuit) :
    ∀ (l : List Nat) (s : List Nat), expectList c l (fun _ => 1) s = 1 := by
  intro l
  induction l with
  | nil => intro s; rfl
  | cons x rest ih => intro s; rw [expectList, ih, ih]; ring

/-- The weights of the worlds sum to 1. -/
theorem sum_worldWeight (c : BooleanCircuit) (hnd : c.inputs.Nodup) :
    ∑ S ∈ c.inputs.toFinset.powerset, worldWeight c S = 1 := by
  have h := expectList_eq_sum c (fun _ => 1) c.inputs hnd []
  rw [expectList_const_one] at h
  rw [h]
  apply Finset.sum_congr rfl
  intro S _
  simp [worldWeight]

/-- With exactly 31 inputs the bound `nb` of the enumeration loop is
`(unsigned long long)(1 << 31) = 2^64 - 2^31`: every world is visited
`2^33 - 1` times and the result is `2^33 - 1` times the probability. -/
theorem possibleWorlds_31_inputs (c : BooleanCircuit) (rank : Nat → Nat) (D : Nat → Prop)
    (hD : Closed c rank D) (fuel g : Nat) (hg : D g) (hf : rank g < fuel)
    (hnd : c.inputs.Nodup) (hk : c.inputs.length = 31) :
    possibleWorlds c (fun _ => false) fuel g = .ok ((2 ^ 33 - 1) * worldsSum c fuel g) := by
  unfold possibleWorlds
  rw [if_neg (by omega), if_neg (by omega)]
  have hnb : toULongLong (shiftLeftOne c.inputs.length) = (2 ^ 33 - 1) * 2 ^ c.inputs.length := by
    rw [hk]
    decide
  rw [hnb, possibleWorldsLoop_eq c fuel g _
    (fun s => evaluate_eq_evalRef c rank D hD s fuel g hg hf)]
  rw [zero_add, ← sum_worlds_eq_worldsSum c fuel g hnd]
  have hinner : ∀ m, possibleWorldsInner c (0 + m) c.inputs 0 ([], 1) =
      worldOf c m c.inputs ([], 1) := by
    intro m
    rw [Nat.zero_add, possibleWorldsInner_eq c m c.inputs 0 _ (by omega)]
    simp
  simp only [hinner]
  rw [sum_range_periodic _ (2 ^ c.inputs.length)
    (fun i => by rw [worldOf_mod c c.inputs i]) (2 ^ 33 - 1)]
  norm_num

theorem worldsSum_circuit31 : worldsSum circuit31 1 31 = 1 := by
  have hev : ∀ σ : Nat → Bool, evalRef circuit31 1 31 σ = true := by
    intro σ
    have h : circuit31.gates[31]? = some BooleanGate.AND := by decide
    unfold evalRef
    rw [h]
    simp [getWires, circuit31]
  unfold worldsSum
  simp only [hev, if_true]
  exact sum_worldWeight circuit31 (List.nodup_range 31)

/-- Claim C1 (fails on the code). On `circuit31`, which has 31 INPUT gates,
`possibleWorlds` of the always-true gate 31 returns `2^33 - 1 = 8589934591`,
whereas the sum of the weights of the worlds in which the gate is true is 1:
the loop bound `1 << inputs.size()` is computed in `int`, so that for 31
inputs it is `2^64 - 2^31` after conversion and every subset is visited
`2^33 - 1` times, not once. -/
theorem possibleWorlds_circuit31 :
    possibleWorlds circuit31 (fun _ => false) 1 31 = .ok 8589934591 ∧
      worldsSum circuit31 1 31 = 1 ∧
      toULongLong (shiftLeftOne circuit31.inputs.length) = 2 ^ 64 - 2 ^ 31 := by
  refine ⟨?_, worldsSum_circuit31, by decide⟩
  have hD := closed_of_global circuit31 (fun _ => 0) (by decide) (by decide) (by decide)
    (by decide)
  rw [possibleWorlds_31_inputs circuit31 (fun _ => 0) _ hD 1 31 (by decide) (by decide)
    (List.nodup_range 31) (by decide), worldsSum_circuit31]
  norm_num

/-! ### Unfolding the reference semantics at a fixed budget -/

theorem evalRef_in (c : BooleanCircuit) (fuel g : Nat) (σ : Nat → Bool) (hf : 0 < fuel)
    (ht : c.gates[g]? = some BooleanGate.IN) : evalRef c fuel g σ = σ g := by
  cases fuel with
  | zero => omega
  | succ f => unfold evalRef; rw [ht]

theorem evalRef_and (c : BooleanCircuit) (rank : Nat → Nat) (D : Nat → Prop)
    (hD : Closed c rank D) (σ : Nat → Bool) (fuel g : Nat) (hg : D g) (hf : rank g < fuel)
    (ht : c.gates[g]? = some BooleanGate.AND) :
    evalRef c fuel g σ = (c.getWires g).all (fun s => evalRef c fuel s σ) := by
  cases fuel with
  | zero => omega
  | succ f =>
    have hc := (hD g hg).2.2 (by rw [ht]; decide)
    conv_lhs => unfold evalRef
    rw [ht]
    apply all_congr_mem
    intro s hs
    exact evalRef_fuel c rank D hD σ f (f + 1) s (hc s hs).1
      (by have := (hc s hs).2; omega) (by have := (hc s hs).2; omega)

theorem evalRef_or (c : BooleanCircuit) (rank : Nat → Nat) (D : Nat → Prop)
    (hD : Closed c rank D) (σ : Nat → Bool) (fuel g : Nat) (hg : D g) (hf : rank g < fuel)
    (ht : c.gates[g]? = some BooleanGate.OR) :
    evalRef c fuel g σ = (c.getWires g).any (fun s => evalRef c fuel s σ) := by
  cases fuel with
  | zero => omega
  | succ f =>
    have hc := (hD g hg).2.2 (by rw [ht]; decide)
    conv_lhs => unfold evalRef
    rw [ht]
    apply any_congr_mem
    intro s hs
    exact evalRef_fuel c rank D hD σ f (f + 1) s (hc s hs).1
      (by have := (hc s hs).2; omega) (by have := (hc s hs).2; omega)

theorem evalRef_not (c : BooleanCircuit) (rank : Nat → Nat) (D : Nat → Prop)
    (hD : Closed c rank D) (σ : Nat → Bool) (fuel g : Nat) (hg : D g) (hf : rank g < fuel)
    (ht : c.gates[g]? = some BooleanGate.NOT) (s : Nat) (rest : List Nat)
    (hw : c.getWires g = s :: rest) :
    evalRef c fuel g σ = !evalRef c fuel s σ := by
  cases fuel with
  | zero => omega
  | succ f =>
    have hc := (hD g hg).2.2 (by rw [ht]; decide)
    have hs : s ∈ c.getWires g := by rw [hw]; exact List.mem_cons_self s rest
    conv_lhs => unfold evalRef
    rw [ht]
    simp only [hw]
    rw [evalRef_fuel c rank D hD σ f (f + 1) s (hc s hs).1
      (by have := (hc s hs).2; omega) (by have := (hc s hs).2; omega)]

/-! ### Models of the Tseytin encoding -/

theorem litTrue_cnfVar (τ : Nat → Bool) (s : Nat) : litTrue τ (cnfVar s) = τ (s + 1) := by
  unfold litTrue cnfVar
  rw [if_pos (by omega)]
  congr 1

theorem litTrue_neg_cnfVar (τ : Nat → Bool) (s : Nat) :
    litTrue τ (-cnfVar s) = !τ (s + 1) := by
  unfold litTrue cnfVar
  rw [if_neg (by omega)]
  congr 2

theorem all_imp_iff (b : Bool) (f : Nat → Bool) (l : List Nat) :
    ((∀ s ∈ l, (!b || f s) = true) ∧ (b || l.any (fun s => !f s)) = true) ↔
      b = l.all f := by
  induction l with
  | nil => cases b <;> simp
  | cons x rest ih =>
    cases hb : b <;> cases hx : f x <;> simp_all

theorem any_imp_iff (b : Bool) (f : Nat → Bool) (l : List Nat) :
    ((∀ s ∈ l, (b || !f s) = true) ∧ (!b || l.any f) = true) ↔ b = l.any f := by
  induction l with
  | nil => cases b <;> simp
  | cons x rest ih =>
    cases hb : b <;> cases hx : f x <;> simp_all

theorem specGateClauses_true_iff (c : BooleanCircuit) (τ : Nat → Bool) (i : Nat) :
    (∀ cl ∈ specGateClauses c i, clauseTrue τ cl = true) ↔ gateConsistent c τ i := by
  unfold specGateClauses gateConsistent
  cases hg : c.gates[i]? with
  | none => simp
  | some t =>
    cases t with
    | AND =>
      simp only [List.mem_append, List.mem_map, List.mem_singleton]
      rw [← all_imp_iff (τ (i + 1)) (fun s => τ (s + 1)) (c.getWires i)]
      constructor
      · intro h
        refine ⟨fun s hs => ?_, ?_⟩
        · have := h _ (Or.inl ⟨s, hs, rfl⟩)
          simpa [clauseTrue, litTrue_cnfVar, litTrue_neg_cnfVar] using this
        · have := h _ (Or.inr rfl)
          simpa [clauseTrue, litTrue_cnfVar, litTrue_neg_cnfVar, List.any_map,
            Function.comp_def] using this
      · rintro ⟨h1, h2⟩ cl (⟨s, hs, rfl⟩ | rfl)
        · have := h1 s hs
          simpa [clauseTrue, litTrue_cnfVar, litTrue_neg_cnfVar] using this
        · simpa [clauseTrue, litTrue_cnfVar, litTrue_neg_cnfVar, List.any_map,
            Function.comp_def] using h2
    | OR =>
      simp only [List.mem_append, List.mem_map, List.mem_singleton]
      rw [← any_imp_iff (τ (i + 1)) (fun s => τ (s + 1)) (c.getWires i)]
      constructor
      · intro h
        refine ⟨fun s hs => ?_, ?_⟩
        · have := h _ (Or.inl ⟨s, hs, rfl⟩)
          simpa [clauseTrue, litTrue_cnfVar, litTrue_neg_cnfVar] using this
        · have := h _ (Or.inr rfl)
          simpa [clauseTrue, litTrue_cnfVar, litTrue_neg_cnfVar, List.any_map,
            Function.comp_def] using this
      · rintro ⟨h1, h2⟩ cl (⟨s, hs, rfl⟩ | rfl)
        · have := h1 s hs
          simpa [clauseTrue, litTrue_cnfVar, litTrue_neg_cnfVar] using this
        · simpa [clauseTrue, litTrue_cnfVar, litTrue_neg_cnfVar, List.any_map,
            Function.comp_def] using h2
    | NOT =>
      cases hw : c.getWires i with
      | nil => simp
      | cons s rest =>
        simp only [List.mem_cons, List.mem_singleton, List.not_mem_nil, or_false,
          forall_eq_or_imp, forall_eq, clauseTrue, List.any_cons, List.any_nil,
          litTrue_cnfVar, litTrue_neg_cnfVar, Bool.or_false]
        cases τ (i + 1) <;> cases τ (s + 1) <;> simp
    | IN => simp
    | MULIN => simp
    | MULVAR => simp
    | UNDETERMINED => simp

/-- A truth assignment satisfies the clauses of the specification iff the
variable of every gate is consistent with those of its children and the
variable of the queried gate is true. -/
theorem cnfTrue_specClauses_iff (c : BooleanCircuit) (g : Nat) (τ : Nat → Bool) :
    cnfTrue τ (specClauses c g) = true ↔
      (∀ i, i < c.gates.length → gateConsistent c τ i) ∧ τ (g + 1) = true := by
  unfold cnfTrue specClauses
  rw [List.all_eq_true]
  constructor
  · intro h
    refine ⟨fun i hi => ?_, ?_⟩
    · rw [← specGateClauses_true_iff]
      intro cl hcl
      exact h cl (List.mem_append_left _ (List.mem_flatMap.mpr ⟨i, List.mem_range.mpr hi, hcl⟩))
    · have := h [cnfVar g] (List.mem_append_right _ (List.mem_singleton.mpr rfl))
      simpa [clauseTrue, litTrue_cnfVar] using this
  · rintro ⟨h1, h2⟩ cl hcl
    rw [List.mem_append, List.mem_flatMap] at hcl
    rcases hcl with ⟨i, hi, hcl⟩ | hcl
    · exact (specGateClauses_true_iff c τ i).mpr (h1 i (List.mem_range.mp hi)) cl hcl
    · rw [List.mem_singleton] at hcl
      subst hcl
      simpa [clauseTrue, litTrue_cnfVar] using h2

/-- On an acyclic boolean circuit, local consistency of all gate variables
means that every gate variable is the value of its gate under the assignment of
the INPUT gates read off `τ`. -/
theorem gateConsistent_iff_evalRef (c : BooleanCircuit) (rank : Nat → Nat)
    (hD : Closed c rank (fun h => h < c.gates.length)) (fuel : Nat)
    (hf : FuelCovers c rank fuel) (τ : Nat → Bool) :
    (∀ i, i < c.gates.length → gateConsistent c τ i) ↔
      ∀ i, i < c.gates.length → τ (i + 1) = evalRef c fuel i (fun j => τ (j + 1)) := by
  have hfuel : ∀ i, i < c.gates.length → rank i < fuel :=
    fun i hi => hf i (List.mem_range.mpr hi)
  constructor
  · intro hcons
    have key : ∀ n i, rank i < n → i < c.gates.length →
        τ (i + 1) = evalRef c fuel i (fun j => τ (j + 1)) := by
      intro n
      induction n with
      | zero => intro i h; omega
      | succ n ih =>
        intro i hr hi
        obtain ⟨hty, hnot, hch⟩ := hD i hi
        have hci := hcons i hi
        unfold gateConsistent at hci
        rcases hty with ht | ht | ht | ht
        · rw [evalRef_in c fuel i _ (by have := hfuel i hi; omega) ht]
        · have hc := hch (by rw [ht]; decide)
          rw [ht] at hci
          rw [evalRef_and c rank _ hD _ fuel i hi (hfuel i hi) ht, hci]
          apply all_congr_mem
          intro s hs
          exact ih s (by have := (hc s hs).2; omega) (hc s hs).1
        · have hc := hch (by rw [ht]; decide)
          rw [ht] at hci
          rw [evalRef_or c rank _ hD _ fuel i hi (hfuel i hi) ht, hci]
          apply any_congr_mem
          intro s hs
          exact ih s (by have := (hc s hs).2; omega) (hc s hs).1
        · have hc := hch (by rw [ht]; decide)
          rw [ht] at hci
          cases hw : c.getWires i with
          | nil => exact absurd hw (hnot ht)
          | cons s rest =>
            have hs : s ∈ c.getWires i := by rw [hw]; exact List.mem_cons_self s rest
            simp only [hw] at hci
            rw [evalRef_not c rank _ hD _ fuel i hi (hfuel i hi) ht s rest hw, hci,
              ih s (by have := (hc s hs).2; omega) (hc s hs).1]
    intro i hi
    exact key (rank i + 1) i (by omega) hi
  · intro hval i hi
    obtain ⟨hty, hnot, hch⟩ := hD i hi
    unfold gateConsistent
    rcases hty with ht | ht | ht | ht
    · rw [ht]; trivial
    · have hc := hch (by rw [ht]; decide)
      rw [ht]
      simp only []
      rw [hval i hi, evalRef_and c rank _ hD _ fuel i hi (hfuel i hi) ht]
      apply all_congr_mem
      intro s hs
      exact (hval s (hc s hs).1).symm
    · have hc := hch (by rw [ht]; decide)
      rw [ht]
      simp only []
      rw [hval i hi, evalRef_or c rank _ hD _ fuel i hi (hfuel i hi) ht]
      apply any_congr_mem
      intro s hs
      exact (hval s (hc s hs).1).symm
    · have hc := hch (by rw [ht]; decide)
      rw [ht]
      cases hw : c.getWires i with
      | nil => trivial
      | cons s rest =>
        have hs : s ∈ c.getWires i := by rw [hw]; exact List.mem_cons_self s rest
        simp only []
        rw [hval i hi, evalRef_not c rank _ hD _ fuel i hi (hfuel i hi) ht s rest hw,
          ← hval s (hc s hs).1]

theorem noMulin_of_booleanGates (c : BooleanCircuit) (hb : BooleanGates c) : NoMulin c := by
  intro i hi h
  rcases hb i hi with ht | ht | ht | ht <;> rw [ht] at h <;> exact absurd h (by decide)

theorem cnfTrue_iff_evalRef (c : BooleanCircuit) (rank : Nat → Nat)
    (hD : Closed c rank (fun h => h < c.gates.length)) (fuel g : Nat)
    (hf : FuelCovers c rank fuel) (hg : g < c.gates.length) (τ : Nat → Bool) :
    cnfTrue τ (specClauses c g) = true ↔
      (∀ i, i < c.gates.length → τ (i + 1) = evalRef c fuel i (fun j => τ (j + 1))) ∧
        evalRef c fuel g (fun j => τ (j + 1)) = true := by
  rw [cnfTrue_specClauses_iff, gateConsistent_iff_evalRef c rank hD fuel hf τ]
  constructor
  · rintro ⟨h1, h2⟩
    exact ⟨h1, by rw [← h1 g hg]; exact h2⟩
  · rintro ⟨h1, h2⟩
    exact ⟨h1, by rw [h1 g hg]; exact h2⟩

theorem sampled_inputsTrue (c : BooleanCircuit) (τ : Nat → Bool) (i : Nat)
    (ht : c.gates[i]? = some BooleanGate.IN) :
    sampledAssignment (inputsTrue c τ) i = τ (i + 1) := by
  have hi : i < c.gates.length := by
    by_contra h
    rw [List.getElem?_eq_none (by omega)] at ht
    exact absurd ht (by simp)
  unfold sampledAssignment inputsTrue
  cases hτ : τ (i + 1) <;> simp [List.mem_filter, hi, ht, hτ]

theorem evaluate_inputsTrue (c : BooleanCircuit) (rank : Nat → Nat)
    (hD : Closed c rank (fun h => h < c.gates.length)) (fuel : Nat)
    (hf : FuelCovers c rank fuel) (τ : Nat → Bool) (i : Nat) (hi : i < c.gates.length) :
    evaluate c fuel i (inputsTrue c τ) = .ok (evalRef c fuel i (fun j => τ (j + 1))) := by
  rw [evaluate_eq_evalRef c rank _ hD (inputsTrue c τ) fuel i hi (hf i (List.mem_range.mpr hi)),
    evalRef_congr c _ (fun j => τ (j + 1)) (fun j hj => sampled_inputsTrue c τ j hj)]

/-- Claim C4. On an acyclic circuit whose gates are all INPUT, AND, OR or NOT
gates (each NOT gate with a child; the code reads the first one), a truth
assignment `τ` of the CNF variables satisfies every clause pushed by
`Tseytin(g)` iff, with `S` the set of INPUT gates whose variable is true, the
variable `i + 1` of every gate `i` equals `evaluate(i, S)` and `evaluate(g, S)`
is true. Hence two models that agree on the INPUT variables agree on the
variables `1..n`, and every sampled set `S` under which `g` is true comes from
a model: the models correspond one to one to the assignments of the inputs
under which `g` is true. -/
theorem Tseytin_models (c : BooleanCircuit) (rank : Nat → Nat) (fuel g : Nat)
    (hb : BooleanGates c) (hw : WiresInRange c) (hn : NotGatesHaveChild c)
    (ha : Acyclic c rank) (hf : FuelCovers c rank fuel) (hg : g < c.gates.length) :
    ∃ clauses, tseytinClauses c g = .ok clauses ∧
      (∀ τ : Nat → Bool, cnfTrue τ clauses = true ↔
        ((∀ i, i < c.gates.length → evaluate c fuel i (inputsTrue c τ) = .ok (τ (i + 1))) ∧
          evaluate c fuel g (inputsTrue c τ) = .ok true)) ∧
      (∀ τ τ' : Nat → Bool, cnfTrue τ clauses = true → cnfTrue τ' clauses = true →
        (∀ i, c.gates[i]? = some BooleanGate.IN → τ (i + 1) = τ' (i + 1)) →
        ∀ i, i < c.gates.length → τ (i + 1) = τ' (i + 1)) ∧
      (∀ S : List Nat, evaluate c fuel g S = .ok true →
        ∃ τ : Nat → Bool, cnfTrue τ clauses = true ∧
          ∀ i, c.gates[i]? = some BooleanGate.IN → τ (i + 1) = decide (i ∈ S)) := by
  have hD := closed_of_global c rank hb hw hn ha
  refine ⟨specClauses c g, tseytinClauses_eq c g (noMulin_of_booleanGates c hb) hn, ?_, ?_, ?_⟩
  · intro τ
    rw [cnfTrue_iff_evalRef c rank hD fuel g hf hg τ]
    constructor
    · rintro ⟨h1, h2⟩
      refine ⟨fun i hi => ?_, ?_⟩
      · rw [evaluate_inputsTrue c rank hD fuel hf τ i hi, ← h1 i hi]
      · rw [evaluate_inputsTrue c rank hD fuel hf τ g hg, h2]
    · rintro ⟨h1, h2⟩
      refine ⟨fun i hi => ?_, ?_⟩
      · have := h1 i hi
        rw [evaluate_inputsTrue c rank hD fuel hf τ i hi] at this
        exact (Except.ok.inj this).symm
      · rw [evaluate_inputsTrue c rank hD fuel hf τ g hg] at h2
        exact Except.ok.inj h2
  · intro τ τ' h h' hin i hi
    rw [cnfTrue_iff_evalRef c rank hD fuel g hf hg] at h h'
    rw [h.1 i hi, h'.1 i hi]
    exact evalRef_congr c _ _ hin fuel i
  · intro S hS
    rw [evaluate_eq_evalRef c rank _ hD S fuel g hg (hf g (List.mem_range.mpr hg))] at hS
    have hS' := Except.ok.inj hS
    have hagree : ∀ i, c.gates[i]? = some BooleanGate.IN →
        (fun j => evalRef c fuel (j + 1 - 1) (sampledAssignment S)) i = sampledAssignment S i := by
      intro i hi
      have hlt : i < c.gates.length := by
        by_contra h
        rw [List.getElem?_eq_none (by omega)] at hi
        exact absurd hi (by simp)
      have := hf i (List.mem_range.mpr hlt)
      simp only [Nat.add_sub_cancel]
      exact evalRef_in c fuel i _ (by omega) hi
    refine ⟨fun v => evalRef c fuel (v - 1) (sampledAssignment S), ?_, ?_⟩
    · rw [cnfTrue_iff_evalRef c rank hD fuel g hf hg]
      refine ⟨fun i hi => ?_, ?_⟩
      · rw [evalRef_congr c _ (sampledAssignment S) hagree fuel i]
        simp
      · rw [evalRef_congr c _ (sampledAssignment S) hagree fuel g]
        exact hS'
    · intro i hi
      exact hagree i hi

theorem Tseytin_models_witness :
    BooleanGates sampleCircuit ∧ WiresInRange sampleCircuit ∧ NotGatesHaveChild sampleCircuit ∧
      Acyclic sampleCircuit (fun i => i) ∧ FuelCovers sampleCircuit (fun i => i) 5 ∧
      4 < sampleCircuit.gates.length ∧
      ∃ clauses, tseytinClauses sampleCircuit 4 = .ok clauses ∧
      (∀ τ : Nat → Bool, cnfTrue τ clauses = true ↔
        ((∀ i, i < sampleCircuit.gates.length →
            evaluate sampleCircuit 5 i (inputsTrue sampleCircuit τ) = .ok (τ (i + 1))) ∧
          evaluate sampleCircuit 5 4 (inputsTrue sampleCircuit τ) = .ok true)) ∧
      (∀ τ τ' : Nat → Bool, cnfTrue τ clauses = true → cnfTrue τ' clauses = true →
        (∀ i, sampleCircuit.gates[i]? = some BooleanGate.IN → τ (i + 1) = τ' (i + 1)) →
        ∀ i, i < sampleCircuit.gates.length → τ (i + 1) = τ' (i + 1)) ∧
      (∀ S : List Nat, evaluate sampleCircuit 5 4 S = .ok true →
        ∃ τ : Nat → Bool, cnfTrue τ clauses = true ∧
          ∀ i, sampleCircuit.gates[i]? = some BooleanGate.IN → τ (i + 1) = decide (i ∈ S)) :=
  ⟨by decide, by decide, by decide, by decide, by decide, by decide,
    Tseytin_models sampleCircuit (fun i => i) 5 4 (by decide) (by decide) (by decide)
      (by decide) (by decide) (by decide)⟩

/-! ### Weighted model count of the encoding -/

theorem literalWeight_tseytinWeights (c : BooleanCircuit) (i : Nat) :
    ∀ l : List Nat,
      literalWeight (tseytinWeights c l) (cnfVar i) =
        (if i ∈ l then printDouble (c.getProb i) else 1) ∧
      literalWeight (tseytinWeights c l) (-cnfVar i) =
        (if i ∈ l then printDouble (1 - c.getProb i) else 1) := by
  intro l
  induction l with
  | nil => simp [tseytinWeights, literalWeight]
  | cons x rest ih =>
    have hpos : ((x : Int) + 1 = cnfVar i) ↔ x = i := by unfold cnfVar; omega
    have hneg : (-((x : Int) + 1) = -cnfVar i) ↔ x = i := by unfold cnfVar; omega
    have hpn : ¬ (-((x : Int) + 1) = cnfVar i) := by unfold cnfVar; omega
    have hnp : ¬ ((x : Int) + 1 = -cnfVar i) := by unfold cnfVar; omega
    have hneg' : (-1 + -(x : Int) = -cnfVar i) ↔ x = i := by unfold cnfVar; omega
    have hpn' : ¬ (-1 + -(x : Int) = cnfVar i) := by unfold cnfVar; omega
    by_cases hx : x = i
    · subst hx
      simp [tseytinWeights, literalWeight, hpos, hneg, hpn, hnp, hneg', hpn']
    · have hx' : ¬ i = x := fun h => hx h.symm
      simp [tseytinWeights, literalWeight, hpos, hneg, hpn, hnp, hneg', hpn', hx, hx',
        ih.1, ih.2]

theorem inputs_nodup_of_inv (c : BooleanCircuit) (hin : InputsAreInGates c) :
    c.inputs.Nodup := by
  have h : c.inputs = _ := hin
  rw [h]
  exact (List.nodup_range _).filter _

theorem mem_inputs_iff (c : BooleanCircuit) (hin : InputsAreInGates c) (i : Nat) :
    i ∈ c.inputs ↔ c.gates[i]? = some BooleanGate.IN := by
  have h : c.inputs = _ := hin
  rw [h, List.mem_filter, List.mem_range]
  constructor
  · rintro ⟨_, h2⟩
    simpa using h2
  · intro ht
    have hi : i < c.gates.length := by
      by_contra hge
      rw [List.getElem?_eq_none (by omega)] at ht
      exact absurd ht (by simp)
    exact ⟨hi, by simpa using ht⟩

theorem gate_lt_of_type (c : BooleanCircuit) (i : Nat) (t : BooleanGate)
    (ht : c.gates[i]? = some t) : i < c.gates.length := by
  by_contra hge
  rw [List.getElem?_eq_none (by omega)] at ht
  exact absurd ht (by simp)

theorem prod_literalWeight (c : BooleanCircuit) (hin : InputsAreInGates c) (T : Finset Nat) :
    (∏ i ∈ Finset.range c.gates.length,
      (if i ∈ T then literalWeight (tseytinWeights c c.inputs) (cnfVar i)
        else literalWeight (tseytinWeights c c.inputs) (-cnfVar i))) =
      printedWorldWeight c T := by
  unfold printedWorldWeight
  have hsub : c.inputs.toFinset ⊆ Finset.range c.gates.length := by
    intro i hi
    rw [List.mem_toFinset, mem_inputs_iff c hin] at hi
    exact Finset.mem_range.mpr (gate_lt_of_type c i _ hi)
  rw [← Finset.prod_subset hsub]
  · apply Finset.prod_congr rfl
    intro i hi
    rw [List.mem_toFinset] at hi
    rw [(literalWeight_tseytinWeights c i c.inputs).1, (literalWeight_tseytinWeights c i c.inputs).2,
      if_pos hi, if_pos hi]
  · intro i _ hi
    rw [List.mem_toFinset] at hi
    rw [(literalWeight_tseytinWeights c i c.inputs).1, (literalWeight_tseytinWeights c i c.inputs).2,
      if_neg hi, if_neg hi]
    simp

theorem freeAsInputs_gates (c : BooleanCircuit) (i : Nat) :
    (freeAsInputs c).gates[i]? = (c.gates[i]?).map (fun t =>
      if t = BooleanGate.MULVAR ∨ t = BooleanGate.UNDETERMINED then BooleanGate.IN else t) := by
  simp [freeAsInputs]

theorem freeAsInputs_length (c : BooleanCircuit) :
    (freeAsInputs c).gates.length = c.gates.length := by
  simp [freeAsInputs]

theorem freeAsInputs_getWires (c : BooleanCircuit) (i : Nat) :
    (freeAsInputs c).getWires i = c.getWires i := rfl

theorem freeAsInputs_specClauses (c : BooleanCircuit) (g : Nat) :
    specClauses (freeAsInputs c) g = specClauses c g := by
  unfold specClauses
  rw [freeAsInputs_length]
  congr 2
  funext i
  unfold specGateClauses
  rw [freeAsInputs_gates, freeAsInputs_getWires]
  cases hg : c.gates[i]? with
  | none => rfl
  | some t => cases t <;> simp

theorem freeAsInputs_closed (c : BooleanCircuit) (rank : Nat → Nat) (hm : NoMulin c)
    (hw : WiresInRange c) (hn : NotGatesHaveChild c) (ha : Acyclic c rank) :
    Closed (freeAsInputs c) rank (fun h => h < (freeAsInputs c).gates.length) := by
  intro h hh
  rw [freeAsInputs_length] at hh
  have hmem : h ∈ List.range c.gates.length := List.mem_range.mpr hh
  have hmul := hm h hmem
  have hnc := hn h hmem
  rw [freeAsInputs_gates, freeAsInputs_getWires, freeAsInputs_length]
  refine ⟨?_, ?_, fun _ s hs => ⟨hw h hmem s hs, ha h hmem s hs⟩⟩
  · cases hg : c.gates[h]? with
    | none => rw [List.getElem?_eq_getElem hh] at hg; exact absurd hg (by simp)
    | some t =>
      cases t with
      | MULIN => exact absurd hg hmul
      | _ => simp
  · intro hnot
    apply hnc
    cases hg : c.gates[h]? with
    | none => rw [hg] at hnot; simp at hnot
    | some t => rw [hg] at hnot; cases t <;> simp at hnot ⊢

theorem freeAsInputs_evalRef (c : BooleanCircuit) (rank : Nat → Nat) (D : Nat → Prop)
    (hD : Closed c rank D) (σ : Nat → Bool) :
    ∀ (fuel h : Nat), D h → evalRef (freeAsInputs c) fuel h σ = evalRef c fuel h σ := by
  intro fuel
  induction fuel with
  | zero => intro h _; rfl
  | succ fuel ih =>
    intro h hh
    obtain ⟨hty, _, hch⟩ := hD h hh
    unfold evalRef
    rw [freeAsInputs_gates, freeAsInputs_getWires]
    rcases hty with ht | ht | ht | ht
    · rw [ht]; rfl
    · have hc := hch (by rw [ht]; decide)
      rw [ht]
      exact all_congr_mem _ _ _ (fun s hs => ih s (hc s hs).1)
    · have hc := hch (by rw [ht]; decide)
      rw [ht]
      exact any_congr_mem _ _ _ (fun s hs => ih s (hc s hs).1)
    · have hc := hch (by rw [ht]; decide)
      rw [ht]
      cases hw : c.getWires h with
      | nil => rfl
      | cons s rest =>
        have hs : s ∈ c.getWires h := by rw [hw]; exact List.mem_cons_self s rest
        simp only [Option.map_some', hw]
        rw [if_neg (by decide), ih s (hc s hs).1]

theorem assignmentOf_succ (T : Finset Nat) (j : Nat) :
    assignmentOf T (j + 1) = decide (j ∈ T) := by
  simp [assignmentOf]

/-- On an acyclic boolean circuit, the satisfying assignments of the encoding
correspond to the sets of INPUT gates under which `g` is true; a weight `W` that
looks at the INPUT gates only has the same sum on both. -/
theorem sum_models_eq_sum_inputs (c : BooleanCircuit) (rank : Nat → Nat)
    (hD : Closed c rank (fun h => h < c.gates.length)) (fuel g : Nat)
    (hf : FuelCovers c rank fuel) (hg : g < c.gates.length) (W : Finset Nat → ℚ)
    (hW : ∀ T : Finset Nat,
      W (T.filter (fun i => c.gates[i]? = some BooleanGate.IN)) = W T) :
    ∑ T ∈ (Finset.range c.gates.length).powerset,
        (if cnfTrue (assignmentOf T) (specClauses c g) = true then W T else 0) =
      ∑ S ∈ ((Finset.range c.gates.length).filter
          (fun i => c.gates[i]? = some BooleanGate.IN)).powerset,
        (if evalRef c fuel g (fun i => decide (i ∈ S)) = true then W S else 0) := by
  have hfuel : 0 < fuel := by have := hf g (List.mem_range.mpr hg); omega
  have hσ : ∀ T : Finset Nat, (fun j => assignmentOf T (j + 1)) = fun j => decide (j ∈ T) := by
    intro T; funext j; exact assignmentOf_succ T j
  have hsat : ∀ T : Finset Nat, cnfTrue (assignmentOf T) (specClauses c g) = true ↔
      (∀ i, i < c.gates.length →
        decide (i ∈ T) = evalRef c fuel i (fun j => decide (j ∈ T))) ∧
      evalRef c fuel g (fun j => decide (j ∈ T)) = true := by
    intro T
    rw [cnfTrue_iff_evalRef c rank hD fuel g hf hg, hσ]
    simp only [assignmentOf_succ]
  have hcongr : ∀ (T : Finset Nat) (i : Nat),
      evalRef c fuel i
        (fun j => decide (j ∈ T.filter (fun i => c.gates[i]? = some BooleanGate.IN))) =
      evalRef c fuel i (fun j => decide (j ∈ T)) := by
    intro T i
    apply evalRef_congr
    intro j hj
    simp [Finset.mem_filter, hj]
  have hagree : ∀ (S : Finset Nat) (i : Nat),
      evalRef c fuel i (fun j => decide (j ∈ (Finset.range c.gates.length).filter
        (fun i => evalRef c fuel i (fun j => decide (j ∈ S)) = true))) =
      evalRef c fuel i (fun j => decide (j ∈ S)) := by
    intro S i
    apply evalRef_congr
    intro j hj
    have hlt := gate_lt_of_type c j _ hj
    simp [Finset.mem_filter, hlt, evalRef_in c fuel j _ hfuel hj]
  rw [← Finset.sum_filter, ← Finset.sum_filter]
  apply Finset.sum_nbij'
    (fun T => T.filter (fun i => c.gates[i]? = some BooleanGate.IN))
    (fun S => (Finset.range c.gates.length).filter
      (fun i => evalRef c fuel i (fun j => decide (j ∈ S)) = true))
  · intro T hT
    rw [Finset.mem_filter, Finset.mem_powerset] at hT ⊢
    refine ⟨?_, ?_⟩
    · intro i hi
      rw [Finset.mem_filter] at hi ⊢
      exact ⟨hT.1 hi.1, hi.2⟩
    · rw [hcongr]
      exact ((hsat T).mp hT.2).2
  · intro S hS
    rw [Finset.mem_filter, Finset.mem_powerset] at hS ⊢
    refine ⟨Finset.filter_subset _ _, ?_⟩
    rw [hsat]
    refine ⟨fun i hi => ?_, ?_⟩
    · rw [hagree]
      simp [Finset.mem_filter, hi]
    · rw [hagree]
      exact hS.2
  · intro T hT
    rw [Finset.mem_filter, Finset.mem_powerset] at hT
    have h1 := ((hsat T).mp hT.2).1
    ext i
    rw [Finset.mem_filter, Finset.mem_range, hcongr]
    constructor
    · rintro ⟨hi, he⟩
      have := h1 i hi
      rw [he] at this
      simpa using this
    · intro hi
      have hlt := Finset.mem_range.mp (hT.1 hi)
      refine ⟨hlt, ?_⟩
      rw [← h1 i hlt]
      simpa using hi
  · intro S hS
    rw [Finset.mem_filter, Finset.mem_powerset] at hS
    ext i
    simp only [Finset.mem_filter, Finset.mem_range]
    constructor
    · rintro ⟨⟨_, he⟩, hty⟩
      rw [evalRef_in c fuel i _ hfuel hty] at he
      simpa using he
    · intro hi
      have := hS.1 hi
      rw [Finset.mem_filter, Finset.mem_range] at this
      exact ⟨⟨this.1, by rw [evalRef_in c fuel i _ hfuel this.2]; simpa using hi⟩, this.2⟩
  · intro T _
    exact (hW T).symm

/-- Elements on which `H` does not depend double the sum over the subsets. -/
theorem sum_powerset_union_free (H : Finset Nat → ℚ) (A : Finset Nat) :
    ∀ B : Finset Nat, Disjoint A B → (∀ b ∈ B, ∀ S, H (insert b S) = H S) →
      ∑ S ∈ (A ∪ B).powerset, H S = 2 ^ B.card * ∑ S ∈ A.powerset, H S := by
  intro B
  induction B using Finset.induction_on with
  | empty => intro _ _; simp
  | insert hb ih =>
    rename_i b B
    intro hdis hH
    have hbA : b ∉ A := fun h => (Finset.disjoint_left.mp hdis h) (Finset.mem_insert_self b B)
    have hbAB : b ∉ A ∪ B := by
      rw [Finset.mem_union]
      rintro (h | h)
      · exact hbA h
      · exact hb h
    have hdis' : Disjoint A B :=
      Finset.disjoint_of_subset_right (Finset.subset_insert b B) hdis
    rw [Finset.union_insert, Finset.sum_powerset_insert hbAB, Finset.card_insert_of_not_mem hb]
    simp only [hH b (Finset.mem_insert_self b B)]
    rw [ih hdis' (fun b' hb' S => hH b' (Finset.mem_insert_of_mem hb') S)]
    ring

theorem weightedModelCount_eq (c : BooleanCircuit) (rank : Nat → Nat) (D : Nat → Prop)
    (fuel g : Nat) (hm : NoMulin c) (hw : WiresInRange c) (hn : NotGatesHaveChild c)
    (ha : Acyclic c rank) (hf : FuelCovers c rank fuel) (hD : Closed c rank D) (hg : D g)
    (hin : InputsAreInGates c) :
    weightedModelCount c.gates.length (specClauses c g)
        (literalWeight (tseytinWeights c c.inputs)) =
      2 ^ freeGateCount c * printedWorldsSum c fuel g := by
  have hglt : g < c.gates.length := by
    rcases (hD g hg).1 with h | h | h | h <;> exact gate_lt_of_type c g _ h
  have hvalid : ∀ i, i ∈ c.inputs.toFinset →
      (freeAsInputs c).gates[i]? = some BooleanGate.IN := by
    intro i hi
    rw [List.mem_toFinset, mem_inputs_iff c hin] at hi
    rw [freeAsInputs_gates, hi]
    rfl
  have hW : ∀ T : Finset Nat,
      printedWorldWeight c (T.filter (fun i => (freeAsInputs c).gates[i]? = some BooleanGate.IN)) =
        printedWorldWeight c T := by
    intro T
    unfold printedWorldWeight
    apply Finset.prod_congr rfl
    intro i hi
    simp [Finset.mem_filter, hvalid i hi]
  have hf' : FuelCovers (freeAsInputs c) rank fuel := by
    intro i hi
    rw [freeAsInputs_length] at hi
    exact hf i hi
  have hmain := sum_models_eq_sum_inputs (freeAsInputs c) rank
    (freeAsInputs_closed c rank hm hw hn ha) fuel g hf'
    (by rw [freeAsInputs_length]; exact hglt) (printedWorldWeight c) hW
  rw [freeAsInputs_specClauses, freeAsInputs_length] at hmain
  unfold weightedModelCount
  simp only [prod_literalWeight c hin]
  rw [hmain]
  have hset : (Finset.range c.gates.length).filter
        (fun i => (freeAsInputs c).gates[i]? = some BooleanGate.IN) =
      c.inputs.toFinset ∪ ((List.range c.gates.length).filter (fun i =>
        decide (c.gates[i]? = some BooleanGate.MULVAR) ||
          decide (c.gates[i]? = some BooleanGate.UNDETERMINED))).toFinset := by
    ext i
    simp only [Finset.mem_filter, Finset.mem_range, Finset.mem_union, List.mem_toFinset,
      mem_inputs_iff c hin, List.mem_filter, List.mem_range, Bool.or_eq_true,
      decide_eq_true_eq, freeAsInputs_gates]
    cases hgi : c.gates[i]? with
    | none =>
      have : ¬ i < c.gates.length := by
        intro hlt
        rw [List.getElem?_eq_getElem hlt] at hgi
        exact absurd hgi (by simp)
      simp [this]
    | some t =>
      have hlt := gate_lt_of_type c i t hgi
      cases t <;> simp [hlt]
  have hdis : Disjoint c.inputs.toFinset ((List.range c.gates.length).filter (fun i =>
        decide (c.gates[i]? = some BooleanGate.MULVAR) ||
          decide (c.gates[i]? = some BooleanGate.UNDETERMINED))).toFinset := by
    rw [Finset.disjoint_left]
    intro i hi hfree
    rw [List.mem_toFinset, mem_inputs_iff c hin] at hi
    rw [List.mem_toFinset, List.mem_filter, hi] at hfree
    simp at hfree
  have hH : ∀ b ∈ ((List.range c.gates.length).filter (fun i =>
        decide (c.gates[i]? = some BooleanGate.MULVAR) ||
          decide (c.gates[i]? = some BooleanGate.UNDETERMINED))).toFinset,
      ∀ S : Finset Nat,
        (if evalRef c fuel g (fun i => decide (i ∈ insert b S)) = true
          then printedWorldWeight c (insert b S) else 0) =
        (if evalRef c fuel g (fun i => decide (i ∈ S)) = true then printedWorldWeight c S else 0) := by
    intro b hb S
    have hbin : ¬ c.gates[b]? = some BooleanGate.IN := by
      intro h
      rw [List.mem_toFinset, List.mem_filter, h] at hb
      simp at hb
    have hne : ∀ j, c.gates[j]? = some BooleanGate.IN → j ≠ b := by
      intro j hj hjb
      exact hbin (hjb ▸ hj)
    have he : evalRef c fuel g (fun i => decide (i ∈ insert b S)) =
        evalRef c fuel g (fun i => decide (i ∈ S)) := by
      apply evalRef_congr
      intro j hj
      simp [Finset.mem_insert, hne j hj]
    have hwt : printedWorldWeight c (insert b S) = printedWorldWeight c S := by
      unfold printedWorldWeight
      apply Finset.prod_congr rfl
      intro j hj
      rw [List.mem_toFinset, mem_inputs_iff c hin] at hj
      simp [Finset.mem_insert, hne j hj]
    rw [he, hwt]
  have hev : ∀ S : Finset Nat, evalRef (freeAsInputs c) fuel g (fun i => decide (i ∈ S)) =
      evalRef c fuel g (fun i => decide (i ∈ S)) :=
    fun S => freeAsInputs_evalRef c rank D hD _ fuel g hg
  simp only [hev]
  rw [hset, sum_powerset_union_free _ _ _ hdis hH,
    List.toFinset_card_of_nodup ((List.nodup_range _).filter _)]
  rfl

theorem printedWorldsSum_exact (c : BooleanCircuit) (fuel g : Nat) (hp : PrintsExactly c) :
    printedWorldsSum c fuel g = worldsSum c fuel g := by
  unfold printedWorldsSum worldsSum
  apply Finset.sum_congr rfl
  intro S _
  have hw : printedWorldWeight c S = worldWeight c S := by
    unfold printedWorldWeight worldWeight
    apply Finset.prod_congr rfl
    intro i hi
    rw [List.mem_toFinset] at hi
    rw [(hp i hi).1, (hp i hi).2]
  rw [hw]

/-- Claim C5 (as amended). On an acyclic circuit that the encoder accepts (no
MULTIVALUED_INPUT gate), with fewer than 31 INPUT gates, in which the gates
reachable from `g` (a set `D` of gates that holds `g` and is closed under the
wires) are INPUT, AND, OR or NOT gates, the weighted model count of the CNF
written by `Tseytin(g, true)`, each literal weighted by its `w` line and every
other literal by 1, is `2^u` times the sum over the worlds in which `g` is true
of their weights as printed in the file (6 significant digits), where `u` is
the number of MULTIVALUED_VARIABLE and UNDETERMINED gates of the circuit: their
variables occur in no clause pushed for them and are free in every model. When
the probabilities of the inputs and their complements are printed exactly, it
is `2^u` times `possibleWorlds(g)`. -/
theorem Tseytin_weighted_model_count (c : BooleanCircuit) (rank : Nat → Nat) (D : Nat → Prop)
    (fuel g : Nat) (cfilename : String) (fs : FileSystem)
    (hm : NoMulin c) (hw : WiresInRange c) (hn : NotGatesHaveChild c)
    (ha : Acyclic c rank) (hf : FuelCovers c rank fuel) (hD : Closed c rank D) (hg : D g)
    (hin : InputsAreInGates c) (hk : c.inputs.length < 31) :
    ∃ (clauses : List (List Int)) (weights : List Line) (p : ℚ),
      Tseytin c g true cfilename fs =
        (.ok cfilename, writeFile fs cfilename
          ([.str "p", .str "cnf", .int c.gates.length, .int clauses.length] ::
            (clauses.map clauseLine ++ weights))) ∧
      possibleWorlds c (fun _ => false) fuel g = .ok p ∧
      weightedModelCount c.gates.length clauses (literalWeight weights) =
        2 ^ freeGateCount c * printedWorldsSum c fuel g ∧
      (PrintsExactly c →
        weightedModelCount c.gates.length clauses (literalWeight weights) =
          2 ^ freeGateCount c * p) := by
  have hglt : g < c.gates.length := by
    rcases (hD g hg).1 with h | h | h | h <;> exact gate_lt_of_type c g _ h
  refine ⟨specClauses c g, tseytinWeights c c.inputs, worldsSum c fuel g, ?_, ?_, ?_, ?_⟩
  · rw [Tseytin_eq c g true cfilename fs hm hn]
    rfl
  · exact possibleWorlds_eq_worldsSum c rank D hD fuel g hg (hf g (List.mem_range.mpr hglt))
      (inputs_nodup_of_inv c hin) hk
  · exact weightedModelCount_eq c rank D fuel g hm hw hn ha hf hD hg hin
  · intro hp
    rw [weightedModelCount_eq c rank D fuel g hm hw hn ha hf hD hg hin,
      printedWorldsSum_exact c fuel g hp]

theorem closed_singleAlternativeRewritten :
    Closed singleAlternativeRewritten (fun i => if i = 1 then 1 else 0)
      (fun h => h = 1 ∨ h = 2) := by
  intro h hh
  rcases hh with rfl | rfl
  · refine ⟨by decide, by decide, ?_⟩
    intro _ s hs
    have : s = 2 := by simpa [singleAlternativeRewritten, getWires] using hs
    subst this
    exact ⟨Or.inr rfl, by decide⟩
  · refine ⟨by decide, by decide, ?_⟩
    intro hne
    exact absurd (by decide) hne

theorem Tseytin_weighted_model_count_witness :
    NoMulin singleAlternativeRewritten ∧ WiresInRange singleAlternativeRewritten ∧
      NotGatesHaveChild singleAlternativeRewritten ∧
      Acyclic singleAlternativeRewritten (fun i => if i = 1 then 1 else 0) ∧
      FuelCovers singleAlternativeRewritten (fun i => if i = 1 then 1 else 0) 2 ∧
      InputsAreInGates singleAlternativeRewritten ∧
      singleAlternativeRewritten.inputs.length < 31 ∧
      PrintsExactly singleAlternativeRewritten ∧
      ∃ (clauses : List (List Int)) (weights : List Line) (p : ℚ),
        Tseytin singleAlternativeRewritten 1 true "f" [] =
          (.ok "f", writeFile [] "f"
            ([.str "p", .str "cnf", .int singleAlternativeRewritten.gates.length,
                .int clauses.length] :: (clauses.map clauseLine ++ weights))) ∧
        possibleWorlds singleAlternativeRewritten (fun _ => false) 2 1 = .ok p ∧
        weightedModelCount singleAlternativeRewritten.gates.length clauses
            (literalWeight weights) =
          2 ^ freeGateCount singleAlternativeRewritten *
            printedWorldsSum singleAlternativeRewritten 2 1 ∧
        (PrintsExactly singleAlternativeRewritten →
          weightedModelCount singleAlternativeRewritten.gates.length clauses
              (literalWeight weights) =
            2 ^ freeGateCount singleAlternativeRewritten * p) :=
  ⟨by decide, by decide, by decide, by decide, by decide, by decide, by decide, by decide!,
    Tseytin_weighted_model_count singleAlternativeRewritten (fun i => if i = 1 then 1 else 0)
      (fun h => h = 1 ∨ h = 2) 2 1 "f" [] (by decide) (by decide) (by decide) (by decide)
      (by decide) closed_singleAlternativeRewritten (Or.inl rfl) (by decide) (by decide)⟩

/-- Claim C5 (fails as stated). `singleAlternativeRewritten` is the circuit
returned by `rewriteMultivaluedGates` on `singleAlternative`; it keeps its
MULTIVALUED_VARIABLE gate 0, has no MULTIVALUED_INPUT gate and one INPUT gate,
and the gates reachable from gate 1 are an AND and an INPUT gate. The CNF of
`Tseytin(1, true)` has the clauses `(-2, 3)`, `(2, -3)`, `(2)` over 3 variables
and the lines `w 3 0.5`, `w -3 0.5`; its weighted model count is 1 (variable 1
is free), whereas `possibleWorlds(1)` is 1/2. On the circuit made of one INPUT
gate of probability 1/1024, the CNF of `Tseytin(0, true)` has the clause `(1)`
and the lines `w 1 0.000976562`, `w -1 0.999023`; its weighted model count is
0.000976562, whereas `possibleWorlds(0)` is 1/1024 = 0.0009765625. -/
theorem Tseytin_weighted_model_count_counterexample :
    rewriteMultivaluedGates singleAlternative = .ok singleAlternativeRewritten ∧
      NoMulin singleAlternativeRewritten ∧
      WiresInRange singleAlternativeRewritten ∧
      Acyclic singleAlternativeRewritten (fun i => if i = 1 then 1 else 0) ∧
      singleAlternativeRewritten.gates = [.MULVAR, .AND, .IN] ∧
      singleAlternativeRewritten.wires = [[], [2], []] ∧
      Tseytin singleAlternativeRewritten 1 true "f" [] =
        (.ok "f", [("f", [[.str "p", .str "cnf", .int 3, .int 3],
          [.int (-2), .int 3, .int 0], [.int 2, .int (-3), .int 0], [.int 2, .int 0],
          [.str "w", .int 3, .real (1 / 2)], [.str "w", .int (-3), .real (1 / 2)]])]) ∧
      weightedModelCount 3 [[-2, 3], [2, -3], [2]]
        (literalWeight [[.str "w", .int 3, .real (1 / 2)],
          [.str "w", .int (-3), .real (1 / 2)]]) = 1 ∧
      possibleWorlds singleAlternativeRewritten (fun _ => false) 2 1 = .ok (1 / 2) ∧
      Tseytin smallProbability 0 true "f" [] =
        (.ok "f", [("f", [[.str "p", .str "cnf", .int 1, .int 1], [.int 1, .int 0],
          [.str "w", .int 1, .real (976562 / 1000000000)],
          [.str "w", .int (-1), .real (999023 / 1000000)]])]) ∧
      weightedModelCount 1 [[1]]
        (literalWeight [[.str "w", .int 1, .real (976562 / 1000000000)],
          [.str "w", .int (-1), .real (999023 / 1000000)]]) = 976562 / 1000000000 ∧
      possibleWorlds smallProbability (fun _ => false) 1 0 = .ok (1 / 1024) ∧
      (976562 / 1000000000 : ℚ) ≠ 1 / 1024 := by
  refine ⟨by decide!, by decide, by decide, by decide, rfl, rfl, by decide!, by decide!,
    by decide!, by decide!, by decide!, by decide!, by norm_num⟩

/-! ### Rewriting of the multivalued inputs -/

/-- Claim C3 (fails on the code). For the family `[0.2, 0.3, 0.5]` (strictly
positive probabilities of sum 1), `rewriteMultivaluedGates` builds two fresh
INPUT leaves of probability 1, and after it the exact-enumeration probabilities
of the three alternatives are 1, 0 and 0: the second alternative has
probability 0, not 0.3. The probability of a fresh leaf is computed as
`(cumulated_probs[mid+1] - cumulated_probs[start]) /
(cumulated_probs[end] - cumulated_probs[start])`, the indices being off by one
for a vector whose entry `i` is `p_0 + .. + p_i`. -/
theorem rewriteMultivaluedGates_categoricalFamily :
    categoricalFamily.getProb 1 = 1 / 5 ∧ categoricalFamily.getProb 2 = 3 / 10 ∧
      categoricalFamily.getProb 3 = 1 / 2 ∧
      rewriteMultivaluedGates categoricalFamily = .ok categoricalFamilyRewritten ∧
      possibleWorlds categoricalFamilyRewritten (fun _ => false) 3 1 = .ok 1 ∧
      possibleWorlds categoricalFamilyRewritten (fun _ => false) 3 2 = .ok 0 ∧
      possibleWorlds categoricalFamilyRewritten (fun _ => false) 3 3 = .ok 0 := by
  refine ⟨by decide!, by decide!, by decide!, by decide!, by decide!, by decide!, by decide!⟩

/-! ### Expectation over independent inputs -/

theorem expectList_congr (c : BooleanCircuit) (f : List Nat → ℚ) (A : List Nat)
    (hf : DependsOn f A) :
    ∀ (l s s' : List Nat), (∀ x ∈ A, x ∈ s ↔ x ∈ s') →
      expectList c l f s = expectList c l f s' := by
  intro l
  induction l with
  | nil => intro s s' h; exact hf s s' h
  | cons y rest ih =>
    intro s s' h
    rw [expectList, expectList, ih (y :: s) (y :: s') (fun x hx => by
      simp only [List.mem_cons]; rw [h x hx]), ih s s' h]

theorem expectList_skip (c : BooleanCircuit) (f : List Nat → ℚ) (A : List Nat)
    (hf : DependsOn f A) (x : Nat) (hx : x ∉ A) (l s : List Nat) :
    expectList c (x :: l) f s = expectList c l f s := by
  rw [expectList, expectList_congr c f A hf l (x :: s) s (fun y hy => by
    simp only [List.mem_cons]
    constructor
    · rintro (h | h)
      · exact absurd (h ▸ hy) hx
      · exact h
    · exact fun h => Or.inr h)]
  ring

theorem expectList_mul (c : BooleanCircuit) (f g : List Nat → ℚ) (A B : List Nat)
    (hf : DependsOn f A) (hg : DependsOn g B) (hdis : ∀ x ∈ A, x ∉ B) :
    ∀ (l s : List Nat),
      expectList c l (fun t => f t * g t) s = expectList c l f s * expectList c l g s := by
  intro l
  induction l with
  | nil => intro s; rfl
  | cons x rest ih =>
    intro s
    by_cases hx : x ∈ A
    · have hxB := hdis x hx
      rw [expectList_skip c g B hg x hxB, expectList, ih, ih, expectList,
        expectList_congr c g B hg rest (x :: s) s (fun y hy => by
          simp only [List.mem_cons]
          constructor
          · rintro (h | h)
            · exact absurd (h ▸ hy) hxB
            · exact h
          · exact fun h => Or.inr h)]
      ring
    · rw [expectList_skip c f A hf x hx, expectList, ih, ih, expectList,
        expectList_congr c f A hf rest (x :: s) s (fun y hy => by
          simp only [List.mem_cons]
          constructor
          · rintro (h | h)
            · exact absurd (h ▸ hy) hx
            · exact h
          · exact fun h => Or.inr h)]
      ring

theorem expectList_one_sub (c : BooleanCircuit) (f : List Nat → ℚ) :
    ∀ (l s : List Nat), expectList c l (fun t => 1 - f t) s = 1 - expectList c l f s := by
  intro l
  induction l with
  | nil => intro s; rfl
  | cons x rest ih => intro s; rw [expectList, ih, ih, expectList]; ring

theorem expectList_const (c : BooleanCircuit) (k : ℚ) :
    ∀ (l s : List Nat), expectList c l (fun _ => k) s = k := by
  intro l
  induction l with
  | nil => intro s; rfl
  | cons x rest ih => intro s; rw [expectList, ih, ih]; ring

theorem expectList_funext (c : BooleanCircuit) (f g : List Nat → ℚ) (h : ∀ t, f t = g t)
    (l s : List Nat) : expectList c l f s = expectList c l g s := by
  have : f = g := funext h
  rw [this]

/-- A function that looks at no element of the list is left as it is. -/
theorem expectList_irrelevant (c : BooleanCircuit) (f : List Nat → ℚ) (A : List Nat)
    (hf : DependsOn f A) :
    ∀ (l s : List Nat), (∀ x ∈ l, x ∉ A) → expectList c l f s = f s := by
  intro l
  induction l with
  | nil => intro s _; rfl
  | cons x rest ih =>
    intro s h
    rw [expectList_skip c f A hf x (h x (List.mem_cons_self x rest)),
      ih s (fun y hy => h y (List.mem_cons_of_mem x hy))]

/-- The expectation of the indicator of an input is its probability. -/
theorem expectList_input (c : BooleanCircuit) (g : Nat) :
    ∀ (l s : List Nat), l.Nodup → g ∈ l → g ∉ s →
      expectList c l (fun t => if g ∈ t then 1 else 0) s = c.getProb g := by
  have hdep : DependsOn (fun t => if g ∈ t then (1 : ℚ) else 0) [g] := by
    intro s s' h
    have := h g (List.mem_singleton.mpr rfl)
    simp only [this]
  intro l
  induction l with
  | nil => intro s _ h; simp at h
  | cons x rest ih =>
    intro s hnd hmem hs
    by_cases hx : x = g
    · subst hx
      have hnot : ∀ y ∈ rest, y ∉ [x] := by
        intro y hy h
        rw [List.mem_singleton] at h
        subst h
        exact (List.nodup_cons.mp hnd).1 hy
      rw [expectList, expectList_irrelevant c _ [x] hdep rest (x :: s) hnot,
        expectList_irrelevant c _ [x] hdep rest s hnot]
      simp [hs]
    · have hxg : x ∉ [g] := by simpa using hx
      rw [expectList_skip c _ [g] hdep x hxg]
      have hmem' : g ∈ rest := by
        rcases List.mem_cons.mp hmem with h | h
        · exact absurd h.symm hx
        · exact h
      exact ih s (List.nodup_cons.mp hnd).2 hmem' hs

/-! ### Leaves and indicators of gates -/

theorem evalRef_congr_leaves (c : BooleanCircuit) (σ σ' : Nat → Bool) :
    ∀ (fuel g : Nat), (∀ x ∈ leafList c fuel g, σ x = σ' x) →
      evalRef c fuel g σ = evalRef c fuel g σ' := by
  intro fuel
  induction fuel with
  | zero => intro g _; rfl
  | succ fuel ih =>
    intro g h
    unfold leafList at h
    unfold evalRef
    cases hg : c.gates[g]? with
    | none => rfl
    | some t =>
      rw [hg] at h
      cases t with
      | IN => exact h g (List.mem_singleton.mpr rfl)
      | AND =>
        exact all_congr_mem _ _ _ (fun s hs =>
          ih s (fun x hx => h x (List.mem_flatMap.mpr ⟨s, hs, hx⟩)))
      | OR =>
        exact any_congr_mem _ _ _ (fun s hs =>
          ih s (fun x hx => h x (List.mem_flatMap.mpr ⟨s, hs, hx⟩)))
      | NOT =>
        cases hw : c.getWires g with
        | nil => rfl
        | cons s rest =>
          simp only [hw] at h
          simp only []
          rw [ih s h]
      | MULIN => rfl
      | MULVAR => rfl
      | UNDETERMINED => rfl

theorem gateIndicator_dependsOn (c : BooleanCircuit) (fuel g : Nat) :
    DependsOn (gateIndicator c fuel g) (leafList c fuel g) := by
  intro s s' h
  unfold gateIndicator
  rw [evalRef_congr_leaves c (sampledAssignment s) (sampledAssignment s') fuel g
    (fun x hx => by simp only [sampledAssignment]; rw [decide_eq_decide]; exact h x hx)]

theorem indicator_all (b : Nat → Bool) :
    ∀ l : List Nat, (if l.all b = true then (1 : ℚ) else 0) =
      (l.map (fun s => if b s = true then (1 : ℚ) else 0)).prod := by
  intro l
  induction l with
  | nil => simp
  | cons x rest ih =>
    rw [List.map_cons, List.prod_cons, ← ih]
    cases hx : b x <;> simp [hx]

theorem indicator_any (b : Nat → Bool) :
    ∀ l : List Nat, (if l.any b = true then (1 : ℚ) else 0) =
      1 - (l.map (fun s => 1 - if b s = true then (1 : ℚ) else 0)).prod := by
  intro l
  induction l with
  | nil => simp
  | cons x rest ih =>
    have ih' : (rest.map (fun s => 1 - if b s = true then (1 : ℚ) else 0)).prod =
        1 - (if rest.any b = true then (1 : ℚ) else 0) := by rw [ih]; ring
    rw [List.map_cons, List.prod_cons, ih']
    cases hx : b x <;> simp [hx]

theorem gateIndicator_in (c : BooleanCircuit) (fuel g : Nat)
    (ht : c.gates[g]? = some BooleanGate.IN) (t : List Nat) :
    gateIndicator c (fuel + 1) g t = if g ∈ t then 1 else 0 := by
  unfold gateIndicator evalRef
  rw [ht]
  simp [sampledAssignment]

theorem gateIndicator_and (c : BooleanCircuit) (fuel g : Nat)
    (ht : c.gates[g]? = some BooleanGate.AND) (t : List Nat) :
    gateIndicator c (fuel + 1) g t =
      ((c.getWires g).map (fun s => gateIndicator c fuel s t)).prod := by
  unfold gateIndicator
  conv_lhs => unfold evalRef
  rw [ht]
  exact indicator_all _ _

theorem gateIndicator_or (c : BooleanCircuit) (fuel g : Nat)
    (ht : c.gates[g]? = some BooleanGate.OR) (t : List Nat) :
    gateIndicator c (fuel + 1) g t =
      1 - ((c.getWires g).map (fun s => 1 - gateIndicator c fuel s t)).prod := by
  unfold gateIndicator
  conv_lhs => unfold evalRef
  rw [ht]
  exact indicator_any _ _

theorem gateIndicator_not (c : BooleanCircuit) (fuel g : Nat)
    (ht : c.gates[g]? = some BooleanGate.NOT) (s : Nat) (rest : List Nat)
    (hw : c.getWires g = s :: rest) (t : List Nat) :
    gateIndicator c (fuel + 1) g t = 1 - gateIndicator c fuel s t := by
  unfold gateIndicator
  conv_lhs => unfold evalRef
  rw [ht]
  simp only [hw]
  cases evalRef c fuel s (sampledAssignment t) <;> simp

theorem dependsOn_prod (F : Nat → List Nat → ℚ) (L : Nat → List Nat) :
    ∀ ws : List Nat, (∀ s ∈ ws, DependsOn (F s) (L s)) →
      DependsOn (fun t => (ws.map (fun s => F s t)).prod) (ws.flatMap L) := by
  intro ws
  induction ws with
  | nil => intro _ s s' _; rfl
  | cons x rest ih =>
    intro h s s' hs
    simp only [List.map_cons, List.prod_cons]
    have h1 := h x (List.mem_cons_self x rest) s s' (fun y hy => hs y (by
        rw [List.flatMap_cons, List.mem_append]; exact Or.inl hy))
    have h2 : (rest.map (fun z => F z s)).prod = (rest.map (fun z => F z s')).prod :=
      ih (fun z hz => h z (List.mem_cons_of_mem x hz)) s s' (fun y hy => hs y (by
        rw [List.flatMap_cons, List.mem_append]; exact Or.inr hy))
    rw [h1, h2]

/-- Independence: the expectation of a product of functions that look at
pairwise disjoint sets of inputs is the product of the expectations. -/
theorem expectList_prod (c : BooleanCircuit) (F : Nat → List Nat → ℚ) (L : Nat → List Nat)
    (l s0 : List Nat) :
    ∀ ws : List Nat, (∀ s ∈ ws, DependsOn (F s) (L s)) → (ws.flatMap L).Nodup →
      expectList c l (fun t => (ws.map (fun s => F s t)).prod) s0 =
        (ws.map (fun s => expectList c l (F s) s0)).prod := by
  intro ws
  induction ws with
  | nil => intro _ _; simp [expectList_const]
  | cons x rest ih =>
    intro h hnd
    rw [List.flatMap_cons, List.nodup_append] at hnd
    simp only [List.map_cons, List.prod_cons]
    rw [expectList_mul c (F x) (fun t => (rest.map (fun s => F s t)).prod) (L x)
      (rest.flatMap L) (h x (List.mem_cons_self x rest))
      (dependsOn_prod F L rest (fun z hz => h z (List.mem_cons_of_mem x hz)))
      (fun y hy hy' => hnd.2.2 hy hy') l s0,
      ih (fun z hz => h z (List.mem_cons_of_mem x hz)) hnd.2.1]

theorem dependsOn_one_sub (f : List Nat → ℚ) (A : List Nat) (hf : DependsOn f A) :
    DependsOn (fun t => 1 - f t) A := by
  intro s s' h
  simp only [hf s s' h]

/-! ### Independent evaluation of a read-once circuit -/

theorem foldl_mul_eq (g : Nat × ℚ → ℚ) :
    ∀ (m : List (Nat × ℚ)) (a : ℚ),
      m.foldl (fun r kv => r * g kv) a = a * (m.map g).prod := by
  intro m
  induction m with
  | nil => intro a; simp
  | cons x rest ih => intro a; rw [List.foldl_cons, ih, List.map_cons, List.prod_cons]; ring

theorem mapModify_mem (k : Nat) (v : ℚ) :
    ∀ (m : List (Nat × ℚ)) (kv : Nat × ℚ), kv ∈ mapModify k 0 (fun _ => v) m →
      kv = (k, v) ∨ kv ∈ m := by
  intro m
  induction m with
  | nil => intro kv h; simp [mapModify] at h; exact Or.inl h
  | cons x rest ih =>
    intro kv h
    obtain ⟨k', v'⟩ := x
    unfold mapModify at h
    split at h
    · rcases List.mem_cons.mp h with h | h
      · exact Or.inl h
      · exact Or.inr h
    · split at h
      · rcases List.mem_cons.mp h with h | h
        · exact Or.inl h
        · exact Or.inr (List.mem_cons_of_mem _ h)
      · rcases List.mem_cons.mp h with h | h
        · exact Or.inr (h ▸ List.mem_cons_self _ _)
        · rcases ih kv h with h | h
          · exact Or.inl h
          · exact Or.inr (List.mem_cons_of_mem _ h)

theorem mapModify_prod (k : Nat) (v : ℚ) :
    ∀ m : List (Nat × ℚ), (∀ kv ∈ m, kv.1 = k → kv.2 = v) →
      ((mapModify k 0 (fun _ => v) m).map (fun kv => 1 - kv.2)).prod =
          (1 - v) * (m.map (fun kv => 1 - kv.2)).prod ∨
        (((mapModify k 0 (fun _ => v) m).map (fun kv => 1 - kv.2)).prod =
          (m.map (fun kv => 1 - kv.2)).prod ∧ (k, v) ∈ m) := by
  intro m
  induction m with
  | nil => intro _; left; simp [mapModify]
  | cons x rest ih =>
    intro h
    obtain ⟨k', v'⟩ := x
    unfold mapModify
    split
    · left; simp
    · split
      · rename_i hk
        have hv : v' = v := h (k', v') (List.mem_cons_self _ _) hk.symm
        right
        subst hv
        subst hk
        exact ⟨rfl, List.mem_cons_self _ _⟩
      · rcases ih (fun kv hkv => h kv (List.mem_cons_of_mem _ hkv)) with h1 | h1
        · left
          simp only [List.map_cons, List.prod_cons, h1]
          ring
        · right
          refine ⟨?_, List.mem_cons_of_mem _ h1.2⟩
          simp only [List.map_cons, List.prod_cons, h1.1]

theorem independentAndLoop_correct
    (ev : Nat → List Nat → Except CircuitException (ℚ × List Nat))
    (P : Nat → ℚ) (L : Nat → List Nat) :
    ∀ (ws : List Nat) (result : ℚ) (seen : List Nat),
      (∀ s ∈ ws, ∀ sn : List Nat, (L s).Nodup → (∀ x ∈ L s, x ∉ sn) →
        ∃ sn', ev s sn = .ok (P s, sn') ∧ ∀ x, x ∈ sn' ↔ x ∈ L s ∨ x ∈ sn) →
      (ws.flatMap L).Nodup → (∀ x ∈ ws.flatMap L, x ∉ seen) →
      ∃ seen', independentAndLoop ev ws result seen = .ok (result * (ws.map P).prod, seen') ∧
        ∀ x, x ∈ seen' ↔ x ∈ ws.flatMap L ∨ x ∈ seen := by
  intro ws
  induction ws with
  | nil => intro result seen _ _ _; exact ⟨seen, by simp [independentAndLoop], by simp⟩
  | cons s rest ih =>
    intro result seen hev hnd hdis
    rw [List.flatMap_cons, List.nodup_append] at hnd
    obtain ⟨sn1, he, hm1⟩ := hev s (List.mem_cons_self s rest) seen hnd.1
      (fun x hx => hdis x (by rw [List.flatMap_cons, List.mem_append]; exact Or.inl hx))
    obtain ⟨seen', hl, hm'⟩ := ih (result * P s) sn1
      (fun z hz => hev z (List.mem_cons_of_mem s hz)) hnd.2.1
      (fun x hx hx1 => by
        rcases (hm1 x).mp hx1 with h | h
        · exact hnd.2.2 h hx
        · exact hdis x (by rw [List.flatMap_cons, List.mem_append]; exact Or.inr hx) h)
    refine ⟨seen', ?_, ?_⟩
    · unfold independentAndLoop
      rw [he]
      simp only []
      rw [hl, List.map_cons, List.prod_cons]
      congr 2
      ring
    · intro x
      rw [hm' x, hm1 x, List.flatMap_cons, List.mem_append]
      tauto

theorem independentOrLoop_correct (c : BooleanCircuit) (g : Nat)
    (ev : Nat → List Nat → Except CircuitException (ℚ × List Nat))
    (P : Nat → ℚ) (L : Nat → List Nat) :
    ∀ (ws : List Nat) (st : OrState),
      (∀ s ∈ ws, c.gates[s]? ≠ some BooleanGate.MULIN) →
      (∀ s ∈ ws, ∀ sn : List Nat, (L s).Nodup → (∀ x ∈ L s, x ∉ sn) →
        ∃ sn', ev s sn = .ok (P s, sn') ∧ ∀ x, x ∈ sn' ↔ x ∈ L s ∨ x ∈ sn) →
      (∀ s ∈ ws, L s = [] → (1 - P s) * (1 - P s) = 1 - P s) →
      (ws.flatMap L).Nodup → (∀ x ∈ ws.flatMap L, x ∉ st.seen) →
      (∀ kv ∈ st.groups, kv.2 = P kv.1 ∧ ∀ x ∈ L kv.1, x ∈ st.seen) →
      ∃ st', independentOrLoop c g ev ws st = .ok st' ∧
        (∀ x, x ∈ st'.seen ↔ x ∈ ws.flatMap L ∨ x ∈ st.seen) ∧
        (st'.groups.map (fun kv => 1 - kv.2)).prod =
          (st.groups.map (fun kv => 1 - kv.2)).prod * (ws.map (fun s => 1 - P s)).prod := by
  intro ws
  induction ws with
  | nil =>
    intro st _ _ _ _ _ _
    exact ⟨st, by simp [independentOrLoop], by simp, by simp⟩
  | cons s rest ih =>
    intro st hmul hev hidem hnd hdis hinv
    rw [List.flatMap_cons, List.nodup_append] at hnd
    have hdis_s : ∀ x ∈ L s, x ∉ st.seen :=
      fun x hx => hdis x (by rw [List.flatMap_cons, List.mem_append]; exact Or.inl hx)
    obtain ⟨sn1, he, hm1⟩ := hev s (List.mem_cons_self s rest) st.seen hnd.1 hdis_s
    have hinv1 : ∀ kv ∈ mapModify s 0 (fun _ => P s) st.groups,
        kv.2 = P kv.1 ∧ ∀ x ∈ L kv.1, x ∈ sn1 := by
      intro kv hkv
      rcases mapModify_mem s (P s) st.groups kv hkv with h | h
      · subst h
        exact ⟨rfl, fun x hx => (hm1 x).mpr (Or.inl hx)⟩
      · exact ⟨(hinv kv h).1, fun x hx => (hm1 x).mpr (Or.inr ((hinv kv h).2 x hx))⟩
    obtain ⟨st', hl, hm', hp'⟩ := ih
      { st with groups := mapModify s 0 (fun _ => P s) st.groups, seen := sn1 }
      (fun z hz => hmul z (List.mem_cons_of_mem s hz))
      (fun z hz => hev z (List.mem_cons_of_mem s hz))
      (fun z hz => hidem z (List.mem_cons_of_mem s hz)) hnd.2.1
      (fun x hx hx1 => by
        rcases (hm1 x).mp hx1 with h | h
        · exact hnd.2.2 h hx
        · exact hdis x (by rw [List.flatMap_cons, List.mem_append]; exact Or.inr hx) h)
      hinv1
    refine ⟨st', ?_, ?_, ?_⟩
    · unfold independentOrLoop
      rw [if_neg (hmul s (List.mem_cons_self s rest)), he]
      exact hl
    · intro x
      rw [hm' x, List.flatMap_cons, List.mem_append]
      simp only []
      rw [hm1 x]
      tauto
    · rw [hp', List.map_cons, List.prod_cons]
      simp only []
      rcases mapModify_prod s (P s) st.groups (fun kv hkv hk => by
          rw [(hinv kv hkv).1, hk]) with h | h
      · rw [h]; ring
      · rw [h.1]
        have hnil : L s = [] := by
          rw [List.eq_nil_iff_forall_not_mem]
          intro x hx
          exact hdis_s x hx ((hinv _ h.2).2 x hx)
        have hid := hidem s (List.mem_cons_self s rest) hnil
        have hdvd : (1 - P s) ∣ (st.groups.map (fun kv => 1 - kv.2)).prod :=
          List.dvd_prod (List.mem_map.mpr ⟨(s, P s), h.2, rfl⟩)
        obtain ⟨Y, hY⟩ := hdvd
        rw [hY]
        calc (1 - P s) * Y * ((rest.map (fun s => 1 - P s)).prod)
            = ((1 - P s) * (1 - P s)) * Y * ((rest.map (fun s => 1 - P s)).prod) := by rw [hid]
          _ = (1 - P s) * Y * ((1 - P s) * (rest.map (fun s => 1 - P s)).prod) := by ring

theorem gateProbability_idem (c : BooleanCircuit) (f s : Nat) (hnil : leafList c f s = []) :
    (1 - gateProbability c f s) * (1 - gateProbability c f s) = 1 - gateProbability c f s := by
  have hdep : DependsOn (gateIndicator c f s) [] := by
    have := gateIndicator_dependsOn c f s
    rw [hnil] at this
    exact this
  have hval : gateProbability c f s = gateIndicator c f s [] := by
    unfold gateProbability
    exact expectList_irrelevant c _ [] hdep c.inputs [] (fun x _ h => by simp at h)
  rw [hval]
  unfold gateIndicator
  split <;> norm_num

theorem independentEvaluationInternal_correct (c : BooleanCircuit) (rank : Nat → Nat)
    (D : Nat → Prop) (hD : Closed c rank D) (hin : InputsAreInGates c) :
    ∀ (f h : Nat) (seen : List Nat), D h → rank h < f → (leafList c f h).Nodup →
      (∀ x ∈ leafList c f h, x ∉ seen) →
      ∃ seen', independentEvaluationInternal c f h seen = .ok (gateProbability c f h, seen') ∧
        ∀ x, x ∈ seen' ↔ x ∈ leafList c f h ∨ x ∈ seen := by
  intro f
  induction f with
  | zero => intro h seen _ hr; omega
  | succ f ih =>
    intro h seen hh hr hnd hdis
    obtain ⟨hty, hnot, hch⟩ := hD h hh
    have hchild : c.gates[h]? ≠ some BooleanGate.IN → ∀ s ∈ c.getWires h, ∀ sn : List Nat,
        (leafList c f s).Nodup → (∀ x ∈ leafList c f s, x ∉ sn) →
        ∃ sn', independentEvaluationInternal c f s sn = .ok (gateProbability c f s, sn') ∧
          ∀ x, x ∈ sn' ↔ x ∈ leafList c f s ∨ x ∈ sn := by
      intro hne s hs sn h1 h2
      have := hch hne s hs
      exact ih s sn this.1 (by omega) h1 h2
    unfold leafList at hnd hdis
    unfold independentEvaluationInternal
    rcases hty with ht | ht | ht | ht
    · rw [ht] at hnd hdis
      rw [ht]
      have hns : h ∉ seen := hdis h (List.mem_singleton.mpr rfl)
      simp only []
      rw [if_neg hns]
      refine ⟨h :: seen, ?_, ?_⟩
      · have hp : gateProbability c (f + 1) h = c.getProb h := by
          unfold gateProbability
          rw [expectList_funext c _ _ (gateIndicator_in c f h ht)]
          exact expectList_input c h c.inputs [] (inputs_nodup_of_inv c hin)
            ((mem_inputs_iff c hin h).mpr ht) (by simp)
        rw [hp]
      · intro x
        unfold leafList
        rw [ht]
        simp only [List.mem_cons, List.mem_singleton, List.not_mem_nil, or_false]
    · rw [ht] at hnd hdis
      rw [ht]
      simp only [] at hnd hdis ⊢
      obtain ⟨seen', hl, hm⟩ := independentAndLoop_correct
        (fun ch s => independentEvaluationInternal c f ch s) (gateProbability c f)
        (leafList c f) (c.getWires h) 1 seen (hchild (by rw [ht]; decide)) hnd hdis
      refine ⟨seen', ?_, ?_⟩
      · rw [hl, one_mul]
        congr 2
        unfold gateProbability
        rw [expectList_funext c _ _ (gateIndicator_and c f h ht),
          expectList_prod c (fun s => gateIndicator c f s) (leafList c f) c.inputs []
            (c.getWires h) (fun s _ => gateIndicator_dependsOn c f s) hnd]
      · intro x
        rw [hm x]
        unfold leafList
        rw [ht]
    · rw [ht] at hnd hdis
      rw [ht]
      simp only [] at hnd hdis ⊢
      obtain ⟨st', hl, hm, hp⟩ := independentOrLoop_correct c h
        (fun ch s => independentEvaluationInternal c f ch s) (gateProbability c f)
        (leafList c f) (c.getWires h) ⟨[], [], [], seen⟩
        (fun s hs hmul => by
          have hDs := (hch (by rw [ht]; decide) s hs).1
          rcases (hD s hDs).1 with h1 | h1 | h1 | h1 <;> rw [h1] at hmul <;>
            exact absurd hmul (by decide))
        (hchild (by rw [ht]; decide))
        (fun s _ hnil => gateProbability_idem c f s hnil) hnd hdis
        (fun kv hkv => by simp at hkv)
      refine ⟨st'.seen, ?_, ?_⟩
      · rw [hl]
        simp only []
        congr 2
        unfold independentOrResult
        rw [foldl_mul_eq, hp]
        unfold gateProbability
        rw [expectList_funext c _ _ (gateIndicator_or c f h ht), expectList_one_sub,
          expectList_prod c (fun s t => 1 - gateIndicator c f s t) (leafList c f) c.inputs []
            (c.getWires h)
            (fun s _ => dependsOn_one_sub _ _ (gateIndicator_dependsOn c f s)) hnd]
        simp only [expectList_one_sub, List.map_nil, List.prod_nil, one_mul]
      · intro x
        rw [hm x]
        unfold leafList
        rw [ht]
    · rw [ht] at hnd hdis
      rw [ht]
      cases hw : c.getWires h with
      | nil => exact absurd hw (hnot ht)
      | cons s rest =>
        rw [hw] at hnd hdis
        simp only [] at hnd hdis ⊢
        have hs : s ∈ c.getWires h := by rw [hw]; exact List.mem_cons_self s rest
        obtain ⟨seen', hl, hm⟩ := hchild (by rw [ht]; decide) s hs seen hnd hdis
        refine ⟨seen', ?_, ?_⟩
        · rw [hl]
          simp only []
          congr 2
          unfold gateProbability
          rw [expectList_funext c _ _ (gateIndicator_not c f h ht s rest hw),
            expectList_one_sub]
        · have hleaf : leafList c (f + 1) h = leafList c f s := by
            conv_lhs => unfold leafList
            rw [ht]
            simp only [hw]
          intro x
          rw [hm x, hleaf]

theorem worldsSum_eq_gateProbability (c : BooleanCircuit) (fuel g : Nat)
    (hnd : c.inputs.Nodup) : worldsSum c fuel g = gateProbability c fuel g := by
  rw [← sum_worlds_eq_worldsSum c fuel g hnd]
  unfold gateProbability
  have h := sum_worldOf c (gateIndicator c fuel g) c.inputs [] 1
  rw [one_mul] at h
  rw [← h]
  apply Finset.sum_congr rfl
  intro m _
  unfold gateIndicator
  split <;> simp

/-- Claim C2. On a read-once circuit (gates INPUT, AND, OR, NOT, each NOT gate with
a child, every INPUT leaf reached from `g` by at most one path) with fewer than
31 INPUT gates, `independentEvaluation(g)` succeeds and returns exactly the
value of `possibleWorlds(g)`, over exact rational arithmetic. -/
theorem independentEvaluation_eq_possibleWorlds (c : BooleanCircuit) (rank : Nat → Nat)
    (fuel g : Nat) (hb : BooleanGates c) (hw : WiresInRange c) (hn : NotGatesHaveChild c)
    (ha : Acyclic c rank) (hf : FuelCovers c rank fuel) (hg : g < c.gates.length)
    (hin : InputsAreInGates c) (hk : c.inputs.length < 31) (hro : ReadOnce c fuel g) :
    ∃ p : ℚ, independentEvaluation c fuel g = .ok p ∧
      possibleWorlds c (fun _ => false) fuel g = .ok p := by
  have hD := closed_of_global c rank hb hw hn ha
  have hfg := hf g (List.mem_range.mpr hg)
  obtain ⟨seen', he, _⟩ := independentEvaluationInternal_correct c rank _ hD hin fuel g []
    hg hfg hro (fun x _ h => by simp at h)
  refine ⟨gateProbability c fuel g, ?_, ?_⟩
  · unfold independentEvaluation
    rw [he]
  · rw [possibleWorlds_eq_worldsSum c rank _ hD fuel g hg hfg (inputs_nodup_of_inv c hin) hk,
      worldsSum_eq_gateProbability c fuel g (inputs_nodup_of_inv c hin)]

theorem independentEvaluation_eq_possibleWorlds_witness :
    BooleanGates andCircuit ∧ WiresInRange andCircuit ∧ NotGatesHaveChild andCircuit ∧
      Acyclic andCircuit (fun i => i) ∧ FuelCovers andCircuit (fun i => i) 3 ∧
      2 < andCircuit.gates.length ∧ InputsAreInGates andCircuit ∧
      andCircuit.inputs.length < 31 ∧ ReadOnce andCircuit 3 2 ∧
      (∃ p : ℚ, independentEvaluation andCircuit 3 2 = .ok p ∧
        possibleWorlds andCircuit (fun _ => false) 3 2 = .ok p) ∧
      independentEvaluation andCircuit 3 2 = .ok (1 / 4) ∧
      possibleWorlds andCircuit (fun _ => false) 3 2 = .ok (1 / 4) :=
  ⟨by decide, by decide, by decide, by decide, by decide, by decide, by decide, by decide,
    by decide,
    independentEvaluation_eq_possibleWorlds andCircuit (fun i => i) 3 2 (by decide) (by decide)
      (by decide) (by decide) (by decide) (by decide) (by decide) (by decide) (by decide),
    by decide!, by decide!⟩

end BooleanCircuit

namespace Circuit

/-! ### The class `Circuit`: vectors and sets -/

theorem getD_set_self (l : List (List Nat)) (i : Nat) (a : List Nat) (h : i < l.length) :
    (l.set i a).getD i [] = a := by
  rw [List.getD_eq_getElem?_getD, List.getElem?_set_self h]
  rfl

theorem getD_set_ne (l : List (List Nat)) (i j : Nat) (a : List Nat) (h : i ≠ j) :
    (l.set i a).getD j [] = l.getD j [] := by
  rw [List.getD_eq_getElem?_getD, List.getElem?_set_ne h, List.getD_eq_getElem?_getD]

theorem set_getD_self (l : List (List Nat)) (i : Nat) : l.set i (l.getD i []) = l := by
  apply List.ext_getElem?
  intro j
  rw [List.getElem?_set]
  by_cases hij : i = j
  · subst hij
    rw [if_pos rfl]
    by_cases hi : i < l.length
    · rw [if_pos hi, List.getD_eq_getElem _ _ hi, List.getElem?_eq_getElem hi]
    · rw [if_neg hi, List.getElem?_eq_none (by omega)]
  · rw [if_neg hij]

theorem mem_setAdd (x t : Nat) (s : List Nat) : x ∈ setAdd t s ↔ x = t ∨ x ∈ s := by
  unfold setAdd
  by_cases h : t ∈ s
  · rw [if_pos h]
    constructor
    · exact fun hx => Or.inr hx
    · rintro (rfl | hx)
      · exact h
      · exact hx
  · rw [if_neg h, List.mem_append, List.mem_singleton]
    tauto

theorem nodup_setAdd (t : Nat) (s : List Nat) (hs : s.Nodup) : (setAdd t s).Nodup := by
  unfold setAdd
  by_cases h : t ∈ s
  · rw [if_pos h]; exact hs
  · rw [if_neg h, List.nodup_append]
    refine ⟨hs, List.nodup_singleton t, ?_⟩
    intro x hx hx'
    rw [List.mem_singleton] at hx'
    exact h (hx' ▸ hx)

theorem setAdd_of_mem (t : Nat) (s : List Nat) (h : t ∈ s) : setAdd t s = s := by
  unfold setAdd
  rw [if_pos h]

theorem addWire_ok (c : Circuit) (f t : Nat) (hf : f < c.wires.length)
    (ht : t < c.rwires.length) :
    addWire c f t =
      .ok { c with wires := c.wires.set f (setAdd t (c.wires.getD f [])),
                   rwires := c.rwires.set t (setAdd f (c.rwires.getD t [])) } := by
  unfold addWire
  rw [if_pos hf]
  simp only []
  rw [if_pos ht]

theorem children_addWire (c : Circuit) (f t : Nat) (hf : f < c.wires.length)
    (ht : t < c.rwires.length) :
    ∃ c', addWire c f t = .ok c' ∧ children c' f = setAdd t (children c f) ∧
      (∀ g, g ≠ f → children c' g = children c g) ∧ c'.gates = c.gates ∧
      c'.uuid2id = c.uuid2id ∧ c'.prob = c.prob ∧ c'.inputs = c.inputs ∧
      c'.wires.length = c.wires.length ∧ c'.rwires.length = c.rwires.length := by
  refine ⟨_, addWire_ok c f t hf ht, ?_, ?_, rfl, rfl, rfl, rfl, ?_, ?_⟩
  · unfold children
    exact getD_set_self _ _ _ hf
  · intro g hg
    unfold children
    exact getD_set_ne _ _ _ _ (fun h => hg h.symm)
  · simp
  · simp

theorem addWires_children (f : Nat) :
    ∀ (ts : List Nat) (c : Circuit), f < c.wires.length →
      (∀ t ∈ ts, t < c.rwires.length) → (children c f).Nodup →
      ∃ c', addWires c f ts = .ok c' ∧
        (∀ x, x ∈ children c' f ↔ x ∈ children c f ∨ x ∈ ts) ∧ (children c' f).Nodup ∧
        c'.wires.length = c.wires.length ∧ c'.rwires.length = c.rwires.length := by
  intro ts
  induction ts with
  | nil => intro c _ _ hn; exact ⟨c, rfl, by simp, hn, rfl, rfl⟩
  | cons t rest ih =>
    intro c hf ht hn
    obtain ⟨c1, h1, hch, _, _, _, _, _, hw, hr⟩ :=
      children_addWire c f t hf (ht t (List.mem_cons_self t rest))
    obtain ⟨c', h2, hmem, hnd, hw', hr'⟩ := ih c1 (by omega)
      (fun x hx => by rw [hr]; exact ht x (List.mem_cons_of_mem t hx))
      (by rw [hch]; exact nodup_setAdd t _ hn)
    refine ⟨c', ?_, ?_, hnd, by omega, by omega⟩
    · unfold addWires
      rw [h1]
      exact h2
    · intro x
      rw [hmem x, hch, mem_setAdd, List.mem_cons]
      tauto

/-- Claim C14 (as amended). `Circuit::addWire(f, t)` inserts `t` in the set of
children of `f`: after `n` calls `addWire(f, t_1)` .. `addWire(f, t_n)` on
allocated gates the children of `f` are the previous children together with
`t_1`, .., `t_n`, each child being listed once, and one more call with a child
already listed leaves the children of `f` as they are. -/
theorem addWire_inserts_in_set (c : Circuit) (f : Nat) (ts : List Nat) (hs : WellSized c)
    (hf : f < c.gates.length) (ht : ∀ t ∈ ts, t < c.gates.length)
    (hn : (children c f).Nodup) :
    ∃ c', addWires c f ts = .ok c' ∧
      (∀ x, x ∈ children c' f ↔ x ∈ children c f ∨ x ∈ ts) ∧ (children c' f).Nodup ∧
      (∀ t ∈ ts, ∃ c'', addWire c' f t = .ok c'' ∧ children c'' f = children c' f) := by
  obtain ⟨c', h, hmem, hnd, hw, hr⟩ := addWires_children f ts c (by rw [hs.1]; exact hf)
    (fun t h => by rw [hs.2]; exact ht t h) hn
  refine ⟨c', h, hmem, hnd, ?_⟩
  intro t htm
  obtain ⟨c'', h2, hch, _⟩ := children_addWire c' f t (by rw [hw, hs.1]; exact hf)
    (by rw [hr, hs.2]; exact ht t htm)
  refine ⟨c'', h2, ?_⟩
  rw [hch]
  exact setAdd_of_mem t _ ((hmem t).mpr (Or.inr htm))

theorem addWire_inserts_in_set_witness :
    WellSized twoGates ∧ 0 < twoGates.gates.length ∧
      (∀ t ∈ [1, 0, 1], t < twoGates.gates.length) ∧ (children twoGates 0).Nodup ∧
      ∃ c', addWires twoGates 0 [1, 0, 1] = .ok c' ∧
        (∀ x, x ∈ children c' 0 ↔ x ∈ children twoGates 0 ∨ x ∈ [1, 0, 1]) ∧
        (children c' 0).Nodup ∧
        (∀ t ∈ [1, 0, 1], ∃ c'', addWire c' 0 t = .ok c'' ∧ children c'' 0 = children c' 0) :=
  ⟨by decide, by decide, by decide, by decide,
    addWire_inserts_in_set twoGates 0 [1, 0, 1] (by decide) (by decide) (by decide)
      (by decide)⟩

/-- Claim C14 (fails as stated). On the circuit `twoGates` (gates 0 and 1, no
wire), the two calls `addWire(0, 1)`, `addWire(0, 1)` succeed and leave gate 0
with the single child 1: the child added twice is listed once, not twice. -/
theorem addWire_twice_counterexample :
    children twoGates 0 = [] ∧
      (∃ c', addWires twoGates 0 [1, 1] = .ok c' ∧ children c' 0 = [1] ∧
        (children c' 0).length = 1) := by
  refine ⟨by decide, ?_⟩
  exact ⟨⟨[("b", 1), ("a", 0)], [.UNDETERMINED, .UNDETERMINED], [-1, -1], [[1], []],
    [[], [0]], []⟩, by decide!, by decide, by decide⟩

/-- Claim C15 (as amended). `Circuit::addWire(f, t)` checks no index and raises
no error: when `f` and `t` are indices of allocated gates it succeeds, inserts
`t` in the children of `f` and leaves the gates, the token map, the
probabilities and the children of the other gates unchanged; when `f` or `t`
is not the index of an allocated gate the access to the vector is out of its
bounds, which is undefined behaviour. -/
theorem addWire_unchecked (c : Circuit) (f t : Nat) (hs : WellSized c) :
    (f < c.gates.length → t < c.gates.length →
        ∃ c', addWire c f t = .ok c' ∧ (∀ x, x ∈ children c' f ↔ x = t ∨ x ∈ children c f) ∧
          (∀ g, g ≠ f → children c' g = children c g) ∧ c'.gates = c.gates ∧
          c'.uuid2id = c.uuid2id ∧ c'.prob = c.prob) ∧
      ((c.gates.length ≤ f ∨ c.gates.length ≤ t) →
        addWire c f t = .error .undefinedBehaviour) := by
  constructor
  · intro hf ht
    obtain ⟨c', h, hch, hother, hg, hu, hp, _⟩ :=
      children_addWire c f t (by rw [hs.1]; exact hf) (by rw [hs.2]; exact ht)
    exact ⟨c', h, fun x => by rw [hch, mem_setAdd], hother, hg, hu, hp⟩
  · intro h
    unfold addWire
    by_cases hf : f < c.wires.length
    · rw [if_pos hf]
      simp only [List.length_set]
      rw [if_neg (by rw [hs.2]; rw [hs.1] at hf; omega)]
    · rw [if_neg hf]

theorem addWire_unchecked_witness :
    WellSized twoGates ∧
      (0 < twoGates.gates.length → 1 < twoGates.gates.length →
        ∃ c', addWire twoGates 0 1 = .ok c' ∧
          (∀ x, x ∈ children c' 0 ↔ x = 1 ∨ x ∈ children twoGates 0) ∧
          (∀ g, g ≠ 0 → children c' g = children twoGates g) ∧ c'.gates = twoGates.gates ∧
          c'.uuid2id = twoGates.uuid2id ∧ c'.prob = twoGates.prob) ∧
      ((twoGates.gates.length ≤ 0 ∨ twoGates.gates.length ≤ 7) →
        addWire twoGates 0 7 = .error .undefinedBehaviour) :=
  ⟨by decide, (addWire_unchecked twoGates 0 1 (by decide)).1,
    (addWire_unchecked twoGates 0 7 (by decide)).2⟩

/-- Claim C15 (fails as stated). On the circuit `twoGates`, whose gates are 0
and 1, the calls `addWire(0, 7)` and `addWire(7, 0)` raise no invalid-gate
error: the source reads `rwires[7]`, respectively `wires[7]`, out of the bounds
of a vector of two entries. -/
theorem addWire_out_of_range_counterexample :
    twoGates.gates.length = 2 ∧ twoGates.wires.length = 2 ∧ twoGates.rwires.length = 2 ∧
      addWire twoGates 0 7 = .error .undefinedBehaviour ∧
      addWire twoGates 7 0 = .error .undefinedBehaviour := by
  refine ⟨by decide, by decide, by decide, by decide, by decide⟩

/-! ### The class `Circuit`: lazy resolution of tokens -/

theorem lookup_mem (u : String) (id : Nat) :
    ∀ l : List (String × Nat), l.lookup u = some id → (u, id) ∈ l := by
  intro l
  induction l with
  | nil => intro h; simp [List.lookup] at h
  | cons e rest ih =>
    intro h
    obtain ⟨k, v⟩ := e
    rw [List.lookup_cons] at h
    by_cases hk : u = k
    · subst hk
      simp only [beq_self_eq_true, Option.some.injEq] at h
      subst h
      exact List.mem_cons_self _ _
    · have : (u == k) = false := by simpa using hk
      rw [this] at h
      exact List.mem_cons_of_mem _ (ih h)

theorem lookup_none_not_mem (u : String) :
    ∀ l : List (String × Nat), l.lookup u = none → u ∉ l.map Prod.fst := by
  intro l
  induction l with
  | nil => intro _; simp
  | cons e rest ih =>
    intro h
    obtain ⟨k, v⟩ := e
    rw [List.lookup_cons] at h
    by_cases hk : u = k
    · subst hk
      simp at h
    · have hb : (u == k) = false := by simpa using hk
      rw [hb] at h
      simp only [List.map_cons, List.mem_cons, not_or]
      exact ⟨hk, ih h⟩

theorem getGate_new (c : Circuit) (u : String) (h : c.uuid2id.lookup u = none) :
    getGate c u =
      (c.gates.length,
        { c with uuid2id := (u, c.gates.length) :: c.uuid2id,
                 gates := c.gates ++ [gateType.UNDETERMINED], prob := c.prob ++ [-1],
                 wires := resize c.wires (c.gates.length + 1),
                 rwires := resize c.rwires (c.gates.length + 1) }) := by
  unfold getGate
  rw [h]
  simp [addGate]

theorem getGate_known (c : Circuit) (u : String) (id : Nat)
    (h : c.uuid2id.lookup u = some id) : getGate c u = (id, c) := by
  unfold getGate
  rw [h]

theorem tokens_injective (c : Circuit) (hc : TokensConsistent c) (v w : String) (id : Nat)
    (hv : c.uuid2id.lookup v = some id) (hw : c.uuid2id.lookup w = some id) : v = w := by
  have h1 := lookup_mem v id _ hv
  have h2 := lookup_mem w id _ hw
  have := List.inj_on_of_nodup_map hc.2.1 h1 h2 rfl
  exact (Prod.mk.inj this).1

theorem getGate_consistent (c : Circuit) (u : String) (hc : TokensConsistent c) :
    TokensConsistent (getGate c u).2 := by
  cases h : c.uuid2id.lookup u with
  | some id => rw [getGate_known c u id h]; exact hc
  | none =>
    rw [getGate_new c u h]
    obtain ⟨h1, h2, h3⟩ := hc
    refine ⟨?_, ?_, ?_⟩
    · simp only [List.map_cons, List.nodup_cons]
      exact ⟨lookup_none_not_mem u _ h, h1⟩
    · simp only [List.map_cons, List.nodup_cons]
      refine ⟨?_, h2⟩
      intro hmem
      rw [List.mem_map] at hmem
      obtain ⟨e, he, heq⟩ := hmem
      have := h3 e he
      omega
    · intro e he
      simp only [List.mem_cons] at he
      simp only [List.length_append, List.length_singleton]
      rcases he with rfl | he
      · simp
      · have := h3 e he
        omega

/-- Claim C16. `Circuit::getGate(u)` resolves lazily. For a token `u` not yet in
the map it appends exactly one gate, of type UNDETERMINED, returns its index
(the number of gates before the call) and records `u`, the other tokens
keeping their index; for a token already in the map it returns the recorded
index and changes nothing. The map stays consistent, so that two tokens have
the same index only if they are equal, and repeating `getGate(u)` returns the
same index and changes nothing. -/
theorem getGate_lazy (c : Circuit) (u : String) (hc : TokensConsistent c) :
    (c.uuid2id.lookup u = none →
        (getGate c u).1 = c.gates.length ∧
        (getGate c u).2.gates = c.gates ++ [gateType.UNDETERMINED] ∧
        (getGate c u).2.uuid2id.lookup u = some c.gates.length ∧
        (∀ v, v ≠ u → (getGate c u).2.uuid2id.lookup v = c.uuid2id.lookup v)) ∧
      (∀ id, c.uuid2id.lookup u = some id → getGate c u = (id, c)) ∧
      TokensConsistent (getGate c u).2 ∧
      (∀ v w id, (getGate c u).2.uuid2id.lookup v = some id →
        (getGate c u).2.uuid2id.lookup w = some id → v = w) ∧
      getGate (getGate c u).2 u = ((getGate c u).1, (getGate c u).2) := by
  have hcons := getGate_consistent c u hc
  refine ⟨?_, fun id h => getGate_known c u id h, hcons,
    fun v w id hv hw => tokens_injective _ hcons v w id hv hw, ?_⟩
  · intro h
    rw [getGate_new c u h]
    refine ⟨rfl, rfl, ?_, ?_⟩
    · simp [List.lookup]
    · intro v hv
      have hb : (v == u) = false := by simpa using hv
      simp only [List.lookup_cons, hb]
  · cases h : c.uuid2id.lookup u with
    | some id => rw [getGate_known c u id h, getGate_known c u id h]
    | none =>
      rw [getGate_new c u h]
      apply getGate_known
      simp [List.lookup]

theorem getGate_lazy_witness :
    TokensConsistent (getGate empty "a").2 ∧
      ((getGate empty "a").2.uuid2id.lookup "b" = none →
        (getGate (getGate empty "a").2 "b").1 = (getGate empty "a").2.gates.length ∧
        (getGate (getGate empty "a").2 "b").2.gates =
          (getGate empty "a").2.gates ++ [gateType.UNDETERMINED] ∧
        (getGate (getGate empty "a").2 "b").2.uuid2id.lookup "b" =
          some (getGate empty "a").2.gates.length ∧
        (∀ v, v ≠ "b" → (getGate (getGate empty "a").2 "b").2.uuid2id.lookup v =
          (getGate empty "a").2.uuid2id.lookup v)) ∧
      (getGate (getGate empty "a").2 "b").1 = 1 ∧
      getGate (getGate (getGate empty "a").2 "b").2 "a" =
        (0, (getGate (getGate empty "a").2 "b").2) :=
  ⟨by decide, (getGate_lazy (getGate empty "a").2 "b" (by decide)).1, by decide, by decide⟩

/-! ### The class `Circuit`: probabilities are stored unchecked -/

theorem getGate_fst_lt (c : Circuit) (u : String) (hc : TokensConsistent c) :
    (getGate c u).1 < (getGate c u).2.gates.length := by
  cases h : c.uuid2id.lookup u with
  | some id =>
    rw [getGate_known c u id h]
    exact hc.2.2 _ (lookup_mem u id _ h)
  | none =>
    rw [getGate_new c u h]
    simp

theorem getGate_probSized (c : Circuit) (u : String) (hp : ProbSized c) :
    ProbSized (getGate c u).2 := by
  cases h : c.uuid2id.lookup u with
  | some id => rw [getGate_known c u id h]; exact hp
  | none =>
    rw [getGate_new c u h]
    unfold ProbSized at *
    simp [hp]

theorem getGate_lookup (c : Circuit) (u : String) :
    (getGate c u).2.uuid2id.lookup u = some (getGate c u).1 := by
  cases h : c.uuid2id.lookup u with
  | some id => rw [getGate_known c u id h]; exact h
  | none =>
    rw [getGate_new c u h]
    simp [List.lookup]

theorem setGate_uuid2id (c : Circuit) (u : String) (type : gateType) (p : ℚ) :
    (setGate c u type p).uuid2id = (getGate c u).2.uuid2id := by
  unfold setGate
  by_cases ht : type = gateType.IN <;> simp [ht]

theorem setGate_prob (c : Circuit) (u : String) (type : gateType) (p : ℚ) :
    (setGate c u type p).prob = (getGate c u).2.prob.set (getGate c u).1 p := by
  unfold setGate
  by_cases ht : type = gateType.IN <;> simp [ht]

theorem setGate_stores (c : Circuit) (u : String) (type : gateType) (p : ℚ)
    (hc : TokensConsistent c) (hp : ProbSized c) :
    (setGate c u type p).uuid2id.lookup u = some (getGate c u).1 ∧
      (setGate c u type p).prob[(getGate c u).1]? = some p := by
  refine ⟨by rw [setGate_uuid2id]; exact getGate_lookup c u, ?_⟩
  rw [setGate_prob]
  have h1 := getGate_fst_lt c u hc
  have h2 := getGate_probSized c u hp
  unfold ProbSized at h2
  rw [List.getElem?_set_self (by omega)]

end Circuit

namespace Shmem

/-! ### The shared-memory store: setting and reading a probability -/

theorem lookup_hashStore (token : Nat) (e : provsqlHashEntry) :
    ∀ (h : List (Nat × provsqlHashEntry)) (e0 : provsqlHashEntry),
      h.lookup token = some e0 → (hashStore h token e).lookup token = some e := by
  intro h
  induction h with
  | nil => intro e0 h0; simp [List.lookup] at h0
  | cons x rest ih =>
    intro e0 h0
    obtain ⟨k, v⟩ := x
    have hstep : hashStore ((k, v) :: rest) token e =
        (if k = token then (token, e) else (k, v)) :: hashStore rest token e := rfl
    rw [hstep]
    by_cases hk : k = token
    · rw [if_pos hk, List.lookup_cons]
      simp
    · have hb : (token == k) = false := by
        simp only [beq_eq_false_iff_ne, ne_eq]
        exact fun hh => hk hh.symm
      rw [List.lookup_cons, hb] at h0
      rw [if_neg hk, List.lookup_cons, hb]
      exact ih e0 h0

theorem set_prob_shmem_found (k : GateTypes) (s : Store) (token : Nat) (p : ℚ)
    (e : provsqlHashEntry) (he : s.provsql_hash.lookup token = some e) :
    set_prob_shmem k s (some token) (some p) =
      if e.type ≠ k.gate_input ∧ e.type ≠ k.gate_mulinput then
        (.error .probabilityOnlyInput, s)
      else
        (.ok (),
          { s with provsql_hash := hashStore s.provsql_hash token { e with prob := some p } }) := by
  unfold set_prob_shmem hashEnter
  simp only [he]
  simp

/-- Claim C12, as amended. Neither `set_prob_shmem` nor `Circuit::setGate`
checks the range of the probability: for every `p`, in particular `p < 0` or
`p > 1`, `set_prob_shmem(token, p)` on an existing gate of type input or
multivalued input succeeds and a following `get_prob_shmem(token)` returns
`p`, and after `Circuit::setGate(u, type, p)` the token `u` resolves to a
gate whose stored probability is `p`. -/
theorem set_prob_unchecked (k : GateTypes) (s : Store) (token : Nat) (p : ℚ)
    (e : provsqlHashEntry) (he : s.provsql_hash.lookup token = some e)
    (htype : e.type = k.gate_input ∨ e.type = k.gate_mulinput)
    (c : Circuit) (u : String) (type : gateType)
    (hc : Circuit.TokensConsistent c) (hp : Circuit.ProbSized c) :
    (set_prob_shmem k s (some token) (some p)).1 = .ok () ∧
      get_prob_shmem (set_prob_shmem k s (some token) (some p)).2 (some token) = some p ∧
      (Circuit.setGate c u type p).uuid2id.lookup u = some (Circuit.getGate c u).1 ∧
      (Circuit.setGate c u type p).prob[(Circuit.getGate c u).1]? = some p := by
  have hnot : ¬ (e.type ≠ k.gate_input ∧ e.type ≠ k.gate_mulinput) := by
    rcases htype with h | h
    · exact fun hh => hh.1 h
    · exact fun hh => hh.2 h
  rw [set_prob_shmem_found k s token p e he, if_neg hnot]
  refine ⟨rfl, ?_, Circuit.setGate_stores c u type p hc hp⟩
  unfold get_prob_shmem
  simp only
  rw [lookup_hashStore token _ s.provsql_hash e he]

theorem set_prob_unchecked_witness :
    (set_prob_shmem sampleTypes sampleStore (some 10) (some (-2))).1 = .ok () ∧
      get_prob_shmem (set_prob_shmem sampleTypes sampleStore (some 10) (some (-2))).2
        (some 10) = some (-2) ∧
      (Circuit.setGate Circuit.twoGates "a" gateType.IN (-2)).uuid2id.lookup "a" =
        some (Circuit.getGate Circuit.twoGates "a").1 ∧
      (Circuit.setGate Circuit.twoGates "a" gateType.IN (-2)).prob[
        (Circuit.getGate Circuit.twoGates "a").1]? = some (-2) :=
  set_prob_unchecked sampleTypes sampleStore 10 (-2) _ rfl (Or.inl rfl)
    Circuit.twoGates "a" gateType.IN (by decide) (by decide)

/-- Claim C12, counterexample. The probability 3/2 is accepted and stored:
`set_prob_shmem(10, 3/2)` on the input gate of token 10 succeeds and
`get_prob_shmem(10)` then returns 3/2 instead of the former 1/2, and
`Circuit::setGate("a", IN, 3/2)` on the empty circuit stores 3/2 as the
probability of gate 0. -/
theorem set_prob_out_of_range_counterexample :
    get_prob_shmem sampleStore (some 10) = some (1 / 2) ∧
      (set_prob_shmem sampleTypes sampleStore (some 10) (some (3 / 2))).1 = .ok () ∧
      get_prob_shmem (set_prob_shmem sampleTypes sampleStore (some 10) (some (3 / 2))).2
        (some 10) = some (3 / 2) ∧
      (Circuit.setGate Circuit.empty "a" gateType.IN (3 / 2)).gates = [gateType.IN] ∧
      (Circuit.setGate Circuit.empty "a" gateType.IN (3 / 2)).prob = [3 / 2] := by
  decide!

/-- Claim C13. On an existing gate `set_prob_shmem(token, p)` succeeds exactly
when the type of the gate is input or multivalued input. For a gate of another
type it fails with the error "Probability can only be assigned to input
token" and leaves the whole store as it was, hence the probability, type,
children and infos of the gate. For a gate of type input or multivalued input
it succeeds, changes only the probability of that entry, and a following
`get_prob_shmem(token)` returns `p`. -/
theorem set_prob_shmem_input_only (k : GateTypes) (s : Store) (token : Nat) (p : ℚ)
    (e : provsqlHashEntry) (he : s.provsql_hash.lookup token = some e) :
    ((set_prob_shmem k s (some token) (some p)).1 = .ok () ↔
        (e.type = k.gate_input ∨ e.type = k.gate_mulinput)) ∧
      (¬ (e.type = k.gate_input ∨ e.type = k.gate_mulinput) →
        set_prob_shmem k s (some token) (some p) = (.error .probabilityOnlyInput, s)) ∧
      ((e.type = k.gate_input ∨ e.type = k.gate_mulinput) →
        (set_prob_shmem k s (some token) (some p)).2.provsql_hash.lookup token =
            some { e with prob := some p } ∧
        (set_prob_shmem k s (some token) (some p)).2.provsql_shared_state =
            s.provsql_shared_state ∧
        get_prob_shmem (set_prob_shmem k s (some token) (some p)).2 (some token) = some p) := by
  rw [set_prob_shmem_found k s token p e he]
  by_cases hin : e.type = k.gate_input ∨ e.type = k.gate_mulinput
  · have hnot : ¬ (e.type ≠ k.gate_input ∧ e.type ≠ k.gate_mulinput) := by
      rcases hin with h | h
      · exact fun hh => hh.1 h
      · exact fun hh => hh.2 h
    rw [if_neg hnot]
    refine ⟨⟨fun _ => hin, fun _ => rfl⟩, fun h => absurd hin h, fun _ => ?_⟩
    have hl := lookup_hashStore token { e with prob := some p } s.provsql_hash e he
    refine ⟨hl, rfl, ?_⟩
    unfold get_prob_shmem
    simp only
    rw [hl]
  · have hyes : e.type ≠ k.gate_input ∧ e.type ≠ k.gate_mulinput :=
      ⟨fun h => hin (Or.inl h), fun h => hin (Or.inr h)⟩
    rw [if_pos hyes]
    refine ⟨⟨fun h => ?_, fun h => absurd h hin⟩, fun _ => rfl, fun h => absurd h hin⟩
    simp at h

theorem set_prob_shmem_input_only_witness :
    sampleStore.provsql_hash.lookup 11 =
        some { type := 2, nb_children := 2, children_idx := 0, prob := none,
               info1 := 0, info2 := 0 } ∧
      set_prob_shmem sampleTypes sampleStore (some 11) (some (1 / 4)) =
        (.error .probabilityOnlyInput, sampleStore) ∧
      get_prob_shmem (set_prob_shmem sampleTypes sampleStore (some 10) (some (1 / 4))).2
        (some 10) = some (1 / 4) :=
  ⟨rfl,
   (set_prob_shmem_input_only sampleTypes sampleStore 11 (1 / 4) _ rfl).2.1 (by decide),
   ((set_prob_shmem_input_only sampleTypes sampleStore 10 (1 / 4) _ rfl).2.2
      (Or.inl rfl)).2.2⟩

end Shmem

namespace BooleanCircuit

/-! ### Monte-Carlo sampling: the interrupt flag -/

theorem monteCarloLoop_interrupted (c : BooleanCircuit) (RAND_MAX : Nat) (rand : Nat → Nat)
    (interrupted : Nat → Bool) (fuel g m : Nat)
    (hfirst : ∀ j, j < m → interrupted j = false) (hseen : interrupted m = true)
    (hev : ∀ sampled, ∃ b, evaluate c fuel g sampled = .ok b) :
    ∀ n j k success, j ≤ m → m < j + n →
      monteCarloLoop c RAND_MAX rand interrupted fuel g n j k success =
        .error (.interruptedAfter (m + 1)) := by
  intro n
  induction n with
  | zero => intro j k success h1 h2; omega
  | succ n ih =>
    intro j k success h1 h2
    unfold monteCarloLoop
    obtain ⟨b, hb⟩ := hev (monteCarloSample c RAND_MAX rand c.inputs k []).1
    simp only [hb]
    by_cases hm : j = m
    · subst hm
      rw [hseen, if_pos rfl]
    · rw [hfirst j (by omega), if_neg (by simp)]
      exact ih (j + 1) _ _ (by omega) (by omega)

/-- Claim C19, as amended. The flag is polled once per iteration, after the
sample of that iteration has been evaluated, and the exception reports the
number of samples completed at that poll. When the flag is raised once exactly
`i` samples have been completed, with `i < samples`, and every evaluation
returns, `monteCarlo(g, samples)` completes the sample `i + 1` and fails with
the interrupted error reporting `i + 1`. In general the count reported is
`j + 1`, where `j` is the first iteration whose poll sees the flag: it is never
0. -/
theorem monteCarlo_interrupted (c : BooleanCircuit) (RAND_MAX : Nat) (rand : Nat → Nat)
    (fuel g samples i : Nat) (hi : i < samples)
    (hev : ∀ sampled, ∃ b, evaluate c fuel g sampled = .ok b) :
    monteCarlo c RAND_MAX rand (raisedAfter i) fuel g samples =
        .error (.interruptedAfter (i + 1)) ∧
      ∀ (interrupted : Nat → Bool) (j : Nat), j < samples →
        (∀ j0, j0 < j → interrupted j0 = false) → interrupted j = true →
        monteCarlo c RAND_MAX rand interrupted fuel g samples =
          .error (.interruptedAfter (j + 1)) := by
  have key : ∀ (interrupted : Nat → Bool) (j : Nat), j < samples →
      (∀ j0, j0 < j → interrupted j0 = false) → interrupted j = true →
      monteCarlo c RAND_MAX rand interrupted fuel g samples =
        .error (.interruptedAfter (j + 1)) := by
    intro interrupted j hj hfirst hseen
    unfold monteCarlo
    rw [monteCarloLoop_interrupted c RAND_MAX rand interrupted fuel g j hfirst hseen hev
      samples 0 0 0 (by omega) (by omega)]
  refine ⟨key (raisedAfter i) i hi ?_ ?_, key⟩
  · intro j0 hj0
    unfold raisedAfter
    exact decide_eq_false (by omega)
  · unfold raisedAfter
    exact decide_eq_true (le_refl i)

theorem monteCarlo_interrupted_witness :
    (3 : Nat) < 5 ∧
      (∀ sampled, ∃ b, evaluate sampleCircuit 1 0 sampled = .ok b) ∧
      (monteCarlo sampleCircuit 2147483647 (fun _ => 0) (raisedAfter 3) 1 0 5 =
          .error (.interruptedAfter (3 + 1)) ∧
        ∀ (interrupted : Nat → Bool) (j : Nat), j < 5 →
          (∀ j0, j0 < j → interrupted j0 = false) → interrupted j = true →
          monteCarlo sampleCircuit 2147483647 (fun _ => 0) interrupted 1 0 5 =
            .error (.interruptedAfter (j + 1))) :=
  ⟨by decide, fun _ => ⟨_, rfl⟩,
   monteCarlo_interrupted sampleCircuit 2147483647 (fun _ => 0) 1 0 5 3 (by decide)
     (fun _ => ⟨_, rfl⟩)⟩

/-- Claim C19, counterexample. With `samples = 5` and the flag raised once
exactly 3 samples have been completed (the polls that close the samples 1, 2
and 3 do not see it, the later ones do), `monteCarlo` on the INPUT gate 0 of
the sample circuit fails with the interrupted error reporting 4 samples, not
3; with `samples = 2` and the flag raised from the start it reports 1 sample,
not 0. -/
theorem monteCarlo_interrupted_counterexample :
    (List.range 5).map (raisedAfter 3) = [false, false, false, true, true] ∧
      monteCarlo sampleCircuit 2147483647 (fun _ => 0) (raisedAfter 3) 1 0 5 =
        .error (.interruptedAfter 4) ∧
      monteCarlo sampleCircuit 2147483647 (fun _ => 0) (raisedAfter 3) 1 0 5 ≠
        .error (.interruptedAfter 3) ∧
      (∀ j, raisedAfter 0 j = true) ∧
      monteCarlo sampleCircuit 2147483647 (fun _ => 0) (raisedAfter 0) 1 0 2 =
        .error (.interruptedAfter 1) ∧
      monteCarlo sampleCircuit 2147483647 (fun _ => 0) (raisedAfter 0) 1 0 2 ≠
        .error (.interruptedAfter 0) := by
  refine ⟨by decide, ?_, ?_, fun j => by simp [raisedAfter], ?_, ?_⟩
  · decide!
  · decide!
  · decide!
  · decide!

/-! ### Unresolved gates -/

theorem evaluate_undetermined (c : BooleanCircuit) (fuel g : Nat) (sampled : List Nat)
    (hg : c.gates[g]? = some BooleanGate.UNDETERMINED) (hf : 0 < fuel) :
    evaluate c fuel g sampled = .error .incorrectGateType := by
  obtain ⟨f, rfl⟩ : ∃ f, fuel = f + 1 := ⟨fuel - 1, by omega⟩
  unfold evaluate
  rw [hg]

theorem toULongLong_shiftLeftOne_pos : ∀ n < 32, toULongLong (shiftLeftOne n) ≠ 0 := by
  decide

theorem possibleWorlds_first_error (c : BooleanCircuit) (interrupted : Nat → Bool)
    (fuel g : Nat) (x : CircuitException) (hk : c.inputs.length < 32)
    (hev : ∀ sampled, evaluate c fuel g sampled = .error x) :
    possibleWorlds c interrupted fuel g = .error x := by
  unfold possibleWorlds
  rw [if_neg (by omega), if_neg (by omega)]
  obtain ⟨n, hn⟩ : ∃ n, toULongLong (shiftLeftOne c.inputs.length) = n + 1 :=
    ⟨_, (Nat.succ_pred_eq_of_ne_zero (toULongLong_shiftLeftOne_pos _ hk)).symm⟩
  rw [hn]
  unfold possibleWorldsLoop
  simp only [hev]

theorem monteCarlo_first_error (c : BooleanCircuit) (RAND_MAX : Nat) (rand : Nat → Nat)
    (interrupted : Nat → Bool) (fuel g samples : Nat) (x : CircuitException)
    (hs : 0 < samples) (hev : ∀ sampled, evaluate c fuel g sampled = .error x) :
    monteCarlo c RAND_MAX rand interrupted fuel g samples = .error x := by
  obtain ⟨n, rfl⟩ : ∃ n, samples = n + 1 := ⟨samples - 1, by omega⟩
  unfold monteCarlo monteCarloLoop
  simp only [hev]

theorem independentAndLoop_never_ok
    (ev : Nat → List Nat → Except CircuitException (ℚ × List Nat)) (ch0 : Nat)
    (h0 : ∀ s r, ev ch0 s ≠ .ok r) :
    ∀ (l : List Nat) (result : ℚ) (seen : List Nat), ch0 ∈ l →
      ∀ r, independentAndLoop ev l result seen ≠ .ok r := by
  intro l
  induction l with
  | nil => intro _ _ h; simp at h
  | cons ch rest ih =>
    intro result seen hmem r
    unfold independentAndLoop
    cases he : ev ch seen with
    | error x => simp
    | ok v =>
      simp only []
      have hne : ch0 ≠ ch := by
        intro h
        subst h
        exact h0 seen v he
      rcases List.mem_cons.mp hmem with h | h
      · exact absurd h hne
      · exact ih _ _ h r

theorem independentOrLoop_never_ok (c : BooleanCircuit) (g : Nat)
    (ev : Nat → List Nat → Except CircuitException (ℚ × List Nat)) (ch0 : Nat)
    (hm : c.gates[ch0]? ≠ some BooleanGate.MULIN)
    (h0 : ∀ s r, ev ch0 s ≠ .ok r) :
    ∀ (l : List Nat) (st : OrState), ch0 ∈ l →
      ∀ st', independentOrLoop c g ev l st ≠ .ok st' := by
  intro l
  induction l with
  | nil => intro _ h; simp at h
  | cons ch rest ih =>
    intro st hmem st'
    unfold independentOrLoop
    by_cases hmul : c.gates[ch]? = some BooleanGate.MULIN
    · have hne : ch0 ≠ ch := by
        intro h
        subst h
        exact hm hmul
      have hrest : ch0 ∈ rest := by
        rcases List.mem_cons.mp hmem with h | h
        · exact absurd h hne
        · exact h
      rw [if_pos hmul]
      cases hw : c.getWires ch with
      | nil => simp
      | cons group more =>
        simp only []
        split_ifs
        · exact ih _ hrest st'
        · exact ih _ hrest st'
        · simp
        · exact ih _ hrest st'
        · exact ih _ hrest st'
    · rw [if_neg hmul]
      cases he : ev ch st.seen with
      | error x => simp
      | ok v =>
        simp only []
        have hne : ch0 ≠ ch := by
          intro h
          subst h
          exact h0 st.seen v he
        rcases List.mem_cons.mp hmem with h | h
        · exact absurd h hne
        · exact ih _ h st'

theorem followsUndetermined_never_ok (c : BooleanCircuit) :
    ∀ (fuel0 g : Nat), followsUndetermined c fuel0 g = true →
      ∀ (fuel : Nat) (seen : List Nat) r, independentEvaluationInternal c fuel g seen ≠ .ok r := by
  intro fuel0
  induction fuel0 with
  | zero => intro g h; simp [followsUndetermined] at h
  | succ fuel0 ih =>
    intro g h fuel seen r
    cases fuel with
    | zero => simp [independentEvaluationInternal]
    | succ fuel =>
      unfold followsUndetermined at h
      unfold independentEvaluationInternal
      cases ht : c.gates[g]? with
      | none => simp
      | some t =>
        rw [ht] at h
        cases t with
        | UNDETERMINED => simp
        | MULVAR => simp
        | IN => simp at h
        | MULIN => simp at h
        | AND =>
          simp only [List.any_eq_true] at h
          obtain ⟨ch, hch, hf⟩ := h
          simp only []
          exact independentAndLoop_never_ok _ ch (fun s r => ih ch hf fuel s r) _ _ _ hch r
        | OR =>
          simp only [List.any_eq_true, Bool.and_eq_true, decide_eq_true_eq] at h
          obtain ⟨ch, hch, hmul, hf⟩ := h
          simp only []
          cases hl : independentOrLoop c g
              (fun ch s => independentEvaluationInternal c fuel ch s) (c.getWires g)
              ⟨[], [], [], seen⟩ with
          | error x => simp
          | ok st =>
            exact absurd hl
              (independentOrLoop_never_ok c g _ ch hmul (fun s r => ih ch hf fuel s r) _ _ hch st)
        | NOT =>
          simp only []
          cases hw : c.getWires g with
          | nil => simp
          | cons s rest =>
            rw [hw] at h
            simp only [] at h
            cases he : independentEvaluationInternal c fuel s seen with
            | error x => simp [he]
            | ok v => exact absurd he (ih s h fuel seen v)

theorem independentAndLoop_outcome
    (ev : Nat → List Nat → Except CircuitException (ℚ × List Nat)) :
    ∀ (l : List Nat), (∀ ch ∈ l, ∀ s, IndependentOutcome (ev ch s)) →
      ∀ (result : ℚ) (seen : List Nat), IndependentOutcome (independentAndLoop ev l result seen) := by
  intro l
  induction l with
  | nil => intro _ result seen; exact Or.inl ⟨_, rfl⟩
  | cons ch rest ih =>
    intro hev result seen
    unfold independentAndLoop
    rcases hev ch (List.mem_cons_self _ _) seen with ⟨v, hv⟩ | hv | hv
    · rw [hv]
      exact ih (fun z hz => hev z (List.mem_cons_of_mem _ hz)) _ _
    · rw [hv]; exact Or.inr (Or.inl rfl)
    · rw [hv]; exact Or.inr (Or.inr rfl)

theorem independentOrLoop_outcome (c : BooleanCircuit) (g : Nat)
    (ev : Nat → List Nat → Except CircuitException (ℚ × List Nat)) :
    ∀ (l : List Nat),
      (∀ ch ∈ l, c.gates[ch]? = some BooleanGate.MULIN → c.getWires ch ≠ []) →
      (∀ ch ∈ l, ∀ s, IndependentOutcome (ev ch s)) →
      ∀ (st : OrState), IndependentOutcome (independentOrLoop c g ev l st) := by
  intro l
  induction l with
  | nil => intro _ _ st; exact Or.inl ⟨_, rfl⟩
  | cons ch rest ih =>
    intro hmw hev st
    have ih1 := ih (fun z hz => hmw z (List.mem_cons_of_mem _ hz))
      (fun z hz => hev z (List.mem_cons_of_mem _ hz))
    unfold independentOrLoop
    by_cases hmul : c.gates[ch]? = some BooleanGate.MULIN
    · rw [if_pos hmul]
      cases hw : c.getWires ch with
      | nil => exact absurd hw (hmw ch (List.mem_cons_self _ _) hmul)
      | cons group more =>
        simp only []
        split_ifs
        · exact ih1 _
        · exact ih1 _
        · exact Or.inr (Or.inl rfl)
        · exact ih1 _
        · exact ih1 _
    · rw [if_neg hmul]
      rcases hev ch (List.mem_cons_self _ _) st.seen with ⟨v, hv⟩ | hv | hv
      · rw [hv]
        exact ih1 _
      · rw [hv]; exact Or.inr (Or.inl rfl)
      · rw [hv]; exact Or.inr (Or.inr rfl)

theorem independentEvaluationInternal_outcome (c : BooleanCircuit) (rank : Nat → Nat)
    (hw : WiresInRange c) (hn : NotGatesHaveChild c) (hm : MulinGatesHaveChild c)
    (ha : Acyclic c rank) :
    ∀ (fuel g : Nat) (seen : List Nat), g < c.gates.length → rank g < fuel →
      IndependentOutcome (independentEvaluationInternal c fuel g seen) := by
  intro fuel
  induction fuel with
  | zero => intro g seen _ h; omega
  | succ fuel ih =>
    intro g seen hg hr
    have hmem : g ∈ List.range c.gates.length := List.mem_range.mpr hg
    have hch : ∀ ch ∈ c.getWires g, ∀ s,
        IndependentOutcome (independentEvaluationInternal c fuel ch s) :=
      fun ch hc s => ih ch s (hw g hmem ch hc) (by have := ha g hmem ch hc; omega)
    have hmw : ∀ ch ∈ c.getWires g, c.gates[ch]? = some BooleanGate.MULIN →
        c.getWires ch ≠ [] :=
      fun ch hc hmu => hm ch (List.mem_range.mpr (hw g hmem ch hc)) hmu
    unfold independentEvaluationInternal
    cases ht : c.gates[g]? with
    | none =>
      rw [List.getElem?_eq_getElem hg] at ht
      simp at ht
    | some t =>
      cases t with
      | UNDETERMINED => exact Or.inr (Or.inr rfl)
      | MULVAR => exact Or.inr (Or.inr rfl)
      | IN =>
        simp only []
        split_ifs
        · exact Or.inr (Or.inl rfl)
        · exact Or.inl ⟨_, rfl⟩
      | MULIN =>
        simp only []
        cases hwg : c.getWires g with
        | nil => exact absurd hwg (hm g hmem ht)
        | cons child more =>
          simp only []
          split_ifs
          · exact Or.inr (Or.inl rfl)
          · exact Or.inl ⟨_, rfl⟩
      | AND =>
        simp only []
        exact independentAndLoop_outcome _ _ hch _ _
      | OR =>
        simp only []
        rcases independentOrLoop_outcome c g _ _ hmw hch ⟨[], [], [], seen⟩ with
          ⟨v, hv⟩ | hv | hv
        · rw [hv]; exact Or.inl ⟨_, rfl⟩
        · rw [hv]; exact Or.inr (Or.inl rfl)
        · rw [hv]; exact Or.inr (Or.inr rfl)
      | NOT =>
        simp only []
        cases hwg : c.getWires g with
        | nil => exact absurd hwg (hn g hmem ht)
        | cons s more =>
          simp only []
          rcases hch s (by rw [hwg]; exact List.mem_cons_self _ _) seen with ⟨v, hv⟩ | hv | hv
          · rw [hv]; exact Or.inl ⟨_, rfl⟩
          · rw [hv]; exact Or.inr (Or.inl rfl)
          · rw [hv]; exact Or.inr (Or.inr rfl)

theorem evaluateLoop_visits (ev : Nat → Except CircuitException Bool) (vis val : Nat → Bool)
    (x : CircuitException) (d : Bool) :
    ∀ l : List Nat, (∀ s ∈ l, ev s = if vis s then .error x else .ok (val s)) →
      evaluateLoop ev d l =
        if visitsLoop vis val d l then .error x
        else .ok (if d then l.any val else l.all val) := by
  intro l
  induction l with
  | nil =>
    intro _
    cases d <;> rfl
  | cons s rest ih =>
    intro h
    have hrest := ih (fun t ht => h t (List.mem_cons_of_mem s ht))
    unfold evaluateLoop visitsLoop
    rw [h s (List.mem_cons_self s rest)]
    cases hv : vis s with
    | true => simp
    | false =>
      simp only [Bool.false_eq_true, if_false, Bool.false_or]
      rw [hrest]
      cases d <;> cases hval : val s <;> simp [hval]

theorem evaluate_visits (c : BooleanCircuit) (rank : Nat → Nat)
    (hb : BooleanOrUndetermined c) (hw : WiresInRange c) (hn : NotGatesHaveChild c)
    (ha : Acyclic c rank) (sampled : List Nat) :
    ∀ (fuel g : Nat), g < c.gates.length → rank g < fuel →
      evaluate c fuel g sampled =
        if visitsUndetermined c fuel g sampled then .error .incorrectGateType
        else .ok (evalRef c fuel g (sampledAssignment sampled)) := by
  intro fuel
  induction fuel with
  | zero => intro g _ h; omega
  | succ fuel ih =>
    intro g hg hr
    have hmem : g ∈ List.range c.gates.length := List.mem_range.mpr hg
    have hch : ∀ s ∈ c.getWires g, evaluate c fuel s sampled =
        if visitsUndetermined c fuel s sampled then .error .incorrectGateType
        else .ok (evalRef c fuel s (sampledAssignment sampled)) := by
      intro s hs
      have h1 := hw g hmem s hs
      have h2 := ha g hmem s hs
      exact ih s h1 (by omega)
    rw [evaluate, visitsUndetermined, evalRef]
    rcases hb g hmem with ht | ht | ht | ht | ht
    · rw [ht]
      simp [sampledAssignment]
    · rw [ht]
      simp only []
      rw [evaluateLoop_visits _ (fun s => visitsUndetermined c fuel s sampled)
        (fun s => evalRef c fuel s (sampledAssignment sampled)) .incorrectGateType false
        (c.getWires g) hch]
      simp
    · rw [ht]
      simp only []
      rw [evaluateLoop_visits _ (fun s => visitsUndetermined c fuel s sampled)
        (fun s => evalRef c fuel s (sampledAssignment sampled)) .incorrectGateType true
        (c.getWires g) hch]
      simp
    · rw [ht]
      simp only []
      cases hwg : c.getWires g with
      | nil => exact absurd hwg (hn g hmem ht)
      | cons s more =>
        simp only []
        rw [hch s (by rw [hwg]; exact List.mem_cons_self _ _)]
        cases visitsUndetermined c fuel s sampled <;> simp
    · rw [ht]
      simp

theorem monteCarloSample_snd (c : BooleanCircuit) (RAND_MAX : Nat) (rand : Nat → Nat) :
    ∀ (l : List Nat) (k : Nat) (sampled : List Nat),
      (monteCarloSample c RAND_MAX rand l k sampled).2 = k + l.length := by
  intro l
  induction l with
  | nil => intro k sampled; rfl
  | cons x rest ih =>
    intro k sampled
    unfold monteCarloSample
    split_ifs
    · rw [ih]
      simp only [List.length_cons]
      omega
    · rw [ih]
      simp only [List.length_cons]
      omega

theorem possibleWorldsLoop_visits (c : BooleanCircuit) (fuel g : Nat) (vis val : List Nat → Bool)
    (x : CircuitException)
    (hev : ∀ sampled, evaluate c fuel g sampled =
      if vis sampled then .error x else .ok (val sampled)) :
    ∀ (n i : Nat) (totalp : ℚ),
      ((∃ m, i ≤ m ∧ m < i + n ∧ vis (worldSample c m) = true) →
        possibleWorldsLoop c (fun _ => false) fuel g n i totalp = .error x) ∧
      ((∀ m, i ≤ m → m < i + n → vis (worldSample c m) = false) →
        ∃ p, possibleWorldsLoop c (fun _ => false) fuel g n i totalp = .ok p) := by
  intro n
  induction n with
  | zero =>
    intro i totalp
    refine ⟨?_, fun _ => ⟨totalp, rfl⟩⟩
    rintro ⟨m, h1, h2, _⟩
    omega
  | succ n ih =>
    intro i totalp
    unfold possibleWorldsLoop
    simp only []
    rw [hev]
    cases hv : vis (possibleWorldsInner c i c.inputs 0 ([], 1)).1 with
    | true =>
      simp only [if_true]
      refine ⟨fun _ => trivial, ?_⟩
      intro h
      have := h i (le_refl i) (by omega)
      unfold worldSample at this
      rw [hv] at this
      exact absurd this (by simp)
    | false =>
      simp only [Bool.false_eq_true, if_false]
      constructor
      · rintro ⟨m, h1, h2, h3⟩
        have hne : m ≠ i := by
          rintro rfl
          unfold worldSample at h3
          rw [hv] at h3
          exact absurd h3 (by simp)
        exact (ih (i + 1) _).1 ⟨m, by omega, by omega, h3⟩
      · intro h
        exact (ih (i + 1) _).2 (fun m h1 h2 => h m (by omega) (by omega))

theorem monteCarloLoop_visits (c : BooleanCircuit) (RAND_MAX : Nat) (rand : Nat → Nat)
    (fuel g : Nat) (vis val : List Nat → Bool) (x : CircuitException)
    (hev : ∀ sampled, evaluate c fuel g sampled =
      if vis sampled then .error x else .ok (val sampled)) :
    ∀ (n i success : Nat),
      ((∃ j, i ≤ j ∧ j < i + n ∧ vis (monteCarloDraw c RAND_MAX rand j) = true) →
        monteCarloLoop c RAND_MAX rand (fun _ => false) fuel g n i (i * c.inputs.length)
          success = .error x) ∧
      ((∀ j, i ≤ j → j < i + n → vis (monteCarloDraw c RAND_MAX rand j) = false) →
        ∃ r, monteCarloLoop c RAND_MAX rand (fun _ => false) fuel g n i (i * c.inputs.length)
          success = .ok r) := by
  intro n
  induction n with
  | zero =>
    intro i success
    refine ⟨?_, fun _ => ⟨success, rfl⟩⟩
    rintro ⟨j, h1, h2, _⟩
    omega
  | succ n ih =>
    intro i success
    have hk : (monteCarloSample c RAND_MAX rand c.inputs (i * c.inputs.length) []).2 =
        (i + 1) * c.inputs.length := by
      rw [monteCarloSample_snd, Nat.add_mul, Nat.one_mul]
    unfold monteCarloLoop
    simp only []
    rw [hev, hk]
    cases hv : vis (monteCarloSample c RAND_MAX rand c.inputs (i * c.inputs.length) []).1 with
    | true =>
      simp only [if_true]
      refine ⟨fun _ => trivial, ?_⟩
      intro h
      have := h i (le_refl i) (by omega)
      unfold monteCarloDraw at this
      rw [hv] at this
      exact absurd this (by simp)
    | false =>
      simp only [Bool.false_eq_true, if_false]
      constructor
      · rintro ⟨j, h1, h2, h3⟩
        have hne : j ≠ i := by
          rintro rfl
          unfold monteCarloDraw at h3
          rw [hv] at h3
          exact absurd h3 (by simp)
        exact (ih (i + 1) _).1 ⟨j, by omega, by omega, h3⟩
      · intro h
        exact (ih (i + 1) _).2 (fun j h1 h2 => h j (by omega) (by omega))

/-- Claim C11, as amended. An UNDETERMINED gate makes a strategy fail exactly
when the strategy evaluates it. On a circuit with wires in range, a child for
each NOT and MULTIVALUED_INPUT gate and no cycle, `independentEvaluation(g)`
fails with "Bad gate" or "Not an independent circuit" whenever an UNDETERMINED
gate is met from `g` along the wires it follows. When `g` itself is
UNDETERMINED, `possibleWorlds(g)` (fewer than 32 inputs) and
`monteCarlo(g, samples)` with `samples > 0` fail with "Incorrect gate type".
`Tseytin(g)` emits no clause for an UNDETERMINED gate and raises no error for
it: on a circuit without MULTIVALUED_INPUT gate where each NOT gate has a child
it returns the name of the file. On an acyclic circuit of INPUT, AND, OR, NOT
and UNDETERMINED gates with wires in range and a child for each NOT gate:
`evaluate(g, S)` fails with "Incorrect gate type" when an UNDETERMINED gate is
visited from `g` under `S` (children looked at in order until one decides the
gate) and returns the value of the reference semantics otherwise; without
interrupt, `possibleWorlds(g)` (fewer than 32 inputs) fails with that error
when an UNDETERMINED gate is visited in one of the worlds it runs through and
returns a value otherwise; `monteCarlo(g, samples)` with `samples > 0` fails
with that error when one is visited in one of the `samples` sets it draws and
returns a value otherwise. -/
theorem undetermined_gate_outcomes (c : BooleanCircuit) (rank : Nat → Nat)
    (fuel0 fuel g : Nat) (interrupted : Nat → Bool) (RAND_MAX : Nat) (rand : Nat → Nat)
    (samples : Nat) (display_prob : Bool) (cfilename : String) (fs : FileSystem) :
    (WiresInRange c → NotGatesHaveChild c → MulinGatesHaveChild c → Acyclic c rank →
        g < c.gates.length → rank g < fuel → followsUndetermined c fuel0 g = true →
        independentEvaluation c fuel g = .error .badGate ∨
          independentEvaluation c fuel g = .error .notIndependent) ∧
      (c.gates[g]? = some BooleanGate.UNDETERMINED → 0 < fuel → c.inputs.length < 32 →
        possibleWorlds c interrupted fuel g = .error .incorrectGateType) ∧
      (c.gates[g]? = some BooleanGate.UNDETERMINED → 0 < fuel → 0 < samples →
        monteCarlo c RAND_MAX rand interrupted fuel g samples = .error .incorrectGateType) ∧
      (NoMulin c → NotGatesHaveChild c →
        (Tseytin c g display_prob cfilename fs).1 = .ok cfilename) ∧
      (BooleanOrUndetermined c → WiresInRange c → NotGatesHaveChild c → Acyclic c rank →
        g < c.gates.length → rank g < fuel →
        (∀ sampled, evaluate c fuel g sampled =
          if visitsUndetermined c fuel g sampled then .error .incorrectGateType
          else .ok (evalRef c fuel g (sampledAssignment sampled))) ∧
        (c.inputs.length < 32 →
          ((∃ m, m < toULongLong (shiftLeftOne c.inputs.length) ∧
              visitsUndetermined c fuel g (worldSample c m) = true) →
            possibleWorlds c (fun _ => false) fuel g = .error .incorrectGateType) ∧
          ((∀ m, m < toULongLong (shiftLeftOne c.inputs.length) →
              visitsUndetermined c fuel g (worldSample c m) = false) →
            ∃ p, possibleWorlds c (fun _ => false) fuel g = .ok p)) ∧
        (0 < samples →
          ((∃ j, j < samples ∧
              visitsUndetermined c fuel g (monteCarloDraw c RAND_MAX rand j) = true) →
            monteCarlo c RAND_MAX rand (fun _ => false) fuel g samples =
              .error .incorrectGateType) ∧
          ((∀ j, j < samples →
              visitsUndetermined c fuel g (monteCarloDraw c RAND_MAX rand j) = false) →
            ∃ p, monteCarlo c RAND_MAX rand (fun _ => false) fuel g samples = .ok p))) := by
  refine ⟨?_, ?_, ?_, ?_, ?_⟩
  · intro hw hn hm ha hg hr hf
    have hnever := followsUndetermined_never_ok c fuel0 g hf fuel []
    unfold independentEvaluation
    rcases independentEvaluationInternal_outcome c rank hw hn hm ha fuel g [] hg hr with
      ⟨v, hv⟩ | hv | hv
    · exact absurd hv (hnever v)
    · rw [hv]; exact Or.inr rfl
    · rw [hv]; exact Or.inl rfl
  · intro hg hf hk
    exact possibleWorlds_first_error c interrupted fuel g _ hk
      (fun s => evaluate_undetermined c fuel g s hg hf)
  · intro hg hf hs
    exact monteCarlo_first_error c RAND_MAX rand interrupted fuel g samples _ hs
      (fun s => evaluate_undetermined c fuel g s hg hf)
  · intro hm hn
    rw [Tseytin_eq c g display_prob cfilename fs hm hn]
  · intro hb hw hn ha hg hr
    have hev := fun sampled => evaluate_visits c rank hb hw hn ha sampled fuel g hg hr
    refine ⟨hev, ?_, ?_⟩
    · intro hk
      have hloop := possibleWorldsLoop_visits c fuel g
        (fun s => visitsUndetermined c fuel g s)
        (fun s => evalRef c fuel g (sampledAssignment s)) .incorrectGateType hev
        (toULongLong (shiftLeftOne c.inputs.length)) 0 0
      unfold possibleWorlds
      rw [if_neg (by omega), if_neg (by omega)]
      constructor
      · rintro ⟨m, h1, h2⟩
        exact hloop.1 ⟨m, Nat.zero_le _, by omega, h2⟩
      · intro h
        exact hloop.2 (fun m _ h2 => h m (by omega))
    · intro hs
      have hloop := monteCarloLoop_visits c RAND_MAX rand fuel g
        (fun s => visitsUndetermined c fuel g s)
        (fun s => evalRef c fuel g (sampledAssignment s)) .incorrectGateType hev
        samples 0 0
      rw [Nat.zero_mul] at hloop
      unfold monteCarlo
      constructor
      · rintro ⟨j, h1, h2⟩
        rw [hloop.1 ⟨j, Nat.zero_le _, by omega, h2⟩]
      · intro h
        obtain ⟨r, hr2⟩ := hloop.2 (fun j _ h2 => h j (by omega))
        rw [hr2]
        simp only []
        rw [if_neg (by omega)]
        exact ⟨_, rfl⟩

theorem undetermined_gate_outcomes_witness :
    (independentEvaluation undeterminedReached 3 2 = .error .badGate ∨
        independentEvaluation undeterminedReached 3 2 = .error .notIndependent) ∧
      possibleWorlds undeterminedReached (fun _ => false) 3 1 = .error .incorrectGateType ∧
      monteCarlo undeterminedReached 2147483647 (fun _ => 0) (fun _ => false) 3 1 3 =
        .error .incorrectGateType ∧
      (Tseytin undeterminedReached 2 false "/tmp/provsqlAAAAAA" []).1 =
        .ok "/tmp/provsqlAAAAAA" ∧
      undeterminedReached.gates[2]? = some BooleanGate.AND ∧
      visitsUndetermined undeterminedReached 3 2 (worldSample undeterminedReached 0) = false ∧
      visitsUndetermined undeterminedReached 3 2 (worldSample undeterminedReached 1) = true ∧
      possibleWorlds undeterminedReached (fun _ => false) 3 2 = .error .incorrectGateType ∧
      monteCarlo undeterminedReached 2147483647 (fun _ => 0) (fun _ => false) 3 2 3 =
        .error .incorrectGateType ∧
      (∃ p, monteCarlo undeterminedReached 2147483647 (fun _ => 2147483647) (fun _ => false)
        3 2 3 = .ok p) :=
  ⟨(undetermined_gate_outcomes undeterminedReached (fun i => i) 2 3 2 (fun _ => false)
      2147483647 (fun _ => 0) 3 false "/tmp/provsqlAAAAAA" []).1
      (by decide) (by decide) (by decide) (by decide) (by decide) (by decide) (by decide),
   (undetermined_gate_outcomes undeterminedReached (fun i => i) 2 3 1 (fun _ => false)
      2147483647 (fun _ => 0) 3 false "/tmp/provsqlAAAAAA" []).2.1
      (by decide) (by decide) (by decide),
   (undetermined_gate_outcomes undeterminedReached (fun i => i) 2 3 1 (fun _ => false)
      2147483647 (fun _ => 0) 3 false "/tmp/provsqlAAAAAA" []).2.2.1
      (by decide) (by decide) (by decide),
   (undetermined_gate_outcomes undeterminedReached (fun i => i) 2 3 2 (fun _ => false)
      2147483647 (fun _ => 0) 3 false "/tmp/provsqlAAAAAA" []).2.2.2.1
      (by decide) (by decide),
   by decide, by decide!, by decide!,
   (((undetermined_gate_outcomes undeterminedReached (fun i => i) 2 3 2 (fun _ => false)
      2147483647 (fun _ => 0) 3 false "/tmp/provsqlAAAAAA" []).2.2.2.2
      (by decide) (by decide) (by decide) (by decide) (by decide) (by decide)).2.1
      (by decide)).1 ⟨1, by decide, by decide!⟩,
   (((undetermined_gate_outcomes undeterminedReached (fun i => i) 2 3 2 (fun _ => false)
      2147483647 (fun _ => 0) 3 false "/tmp/provsqlAAAAAA" []).2.2.2.2
      (by decide) (by decide) (by decide) (by decide) (by decide) (by decide)).2.2
      (by decide)).1 ⟨0, by decide, by decide!⟩,
   (((undetermined_gate_outcomes undeterminedReached (fun i => i) 2 3 2 (fun _ => false)
      2147483647 (fun _ => 2147483647) 3 false "/tmp/provsqlAAAAAA" []).2.2.2.2
      (by decide) (by decide) (by decide) (by decide) (by decide) (by decide)).2.2
      (by decide)).2 (by
        intro j hj
        have h3 : j = 0 ∨ j = 1 ∨ j = 2 := by omega
        rcases h3 with rfl | rfl | rfl <;> decide!)⟩

/-- Claim C11, counterexample. In the circuit `g0 = AND()`, `g1` UNDETERMINED,
`g2 = OR(g0, g1)` the UNDETERMINED gate `g1` is a child of the root `g2`, yet
`possibleWorlds(g2)` returns 1, `monteCarlo(g2, 3)` returns 1 and `Tseytin(g2)`
returns the name of the file it wrote: the evaluation of the OR gate stops at
its first true child, and the encoder skips UNDETERMINED gates. In the class
`Circuit`, the evaluation of an UNDETERMINED gate itself returns false. -/
theorem undetermined_gate_counterexample :
    undeterminedSkipped.gates[1]? = some BooleanGate.UNDETERMINED ∧
      1 ∈ undeterminedSkipped.getWires 2 ∧
      possibleWorlds undeterminedSkipped (fun _ => false) 2 2 = .ok 1 ∧
      monteCarlo undeterminedSkipped 2147483647 (fun _ => 0) (fun _ => false) 2 2 3 = .ok 1 ∧
      (Tseytin undeterminedSkipped 2 false "/tmp/provsqlAAAAAA" []).1 =
        .ok "/tmp/provsqlAAAAAA" ∧
      Circuit.twoGates.gates[0]? = some gateType.UNDETERMINED ∧
      Circuit.evaluate Circuit.twoGates 1 0 [] = .ok false := by
  refine ⟨by decide, by decide, ?_, ?_, ?_, by decide, by decide⟩
  · decide!
  · decide!
  · decide!

/-! ### Independent evaluation: alternatives of one variable under an OR gate -/

/-- Claim C17. An OR gate whose first two children are MULTIVALUED_INPUT gates
(each with a child) is rejected: the set `local_mulins` is never filled and
the test on `seen` is made on the OR gate itself, so the second child finds the
OR gate in `seen` and the evaluation fails with "Not an independent circuit",
whatever the variables, categories and probabilities. -/
theorem independentEvaluation_mulin_or_fails (c : BooleanCircuit) (fuel g m1 m2 : Nat)
    (rest : List Nat) (seen : List Nat)
    (hg : c.gates[g]? = some BooleanGate.OR) (hw : c.getWires g = m1 :: m2 :: rest)
    (h1 : c.gates[m1]? = some BooleanGate.MULIN) (h2 : c.gates[m2]? = some BooleanGate.MULIN)
    (hw1 : c.getWires m1 ≠ []) (hw2 : c.getWires m2 ≠ []) :
    independentEvaluationInternal c (fuel + 1) g seen = .error .notIndependent ∧
      independentEvaluation c (fuel + 1) g = .error .notIndependent := by
  have key : ∀ sn, independentEvaluationInternal c (fuel + 1) g sn = .error .notIndependent := by
    intro sn
    unfold independentEvaluationInternal
    rw [hg]
    simp only [hw]
    obtain ⟨v1, r1, hv1⟩ := List.exists_cons_of_ne_nil hw1
    obtain ⟨v2, r2, hv2⟩ := List.exists_cons_of_ne_nil hw2
    unfold independentOrLoop
    rw [if_pos h1]
    simp only [hv1, List.not_mem_nil, if_false]
    by_cases hs : g ∈ sn
    · simp [hs]
    · simp only [hs, if_false]
      unfold independentOrLoop
      simp [h2, hv2]
  refine ⟨key seen, ?_⟩
  unfold independentEvaluation
  rw [key []]

theorem independentEvaluation_mulin_or_fails_witness :
    independentEvaluationInternal mulinOr 2 3 [] = .error .notIndependent ∧
      independentEvaluation mulinOr 2 3 = .error .notIndependent :=
  independentEvaluation_mulin_or_fails mulinOr 1 3 1 2 [] [] (by decide) (by decide)
    (by decide) (by decide) (by decide) (by decide)

/-! ### Independent evaluation: the not-independent error -/

theorem freshLeaves_append (A F seen sn1 : List Nat) (hg : FreshLeaves A seen)
    (hm1 : ∀ x, x ∈ sn1 ↔ x ∈ A ∨ x ∈ seen) :
    FreshLeaves (A ++ F) seen ↔ FreshLeaves F sn1 := by
  unfold FreshLeaves at *
  rw [List.nodup_append]
  constructor
  · rintro ⟨⟨_, h2, h3⟩, h4⟩
    refine ⟨h2, fun x hx hx1 => ?_⟩
    rcases (hm1 x).mp hx1 with h | h
    · exact h3 h hx
    · exact h4 x (List.mem_append.mpr (Or.inr hx)) h
  · rintro ⟨h2, h4⟩
    refine ⟨⟨hg.1, h2, ?_⟩, fun x hx => ?_⟩
    · intro x hxA hxF
      exact h4 x hxF ((hm1 x).mpr (Or.inl hxA))
    · rcases List.mem_append.mp hx with h | h
      · exact hg.2 x h
      · exact fun hs => h4 x h ((hm1 x).mpr (Or.inr hs))

theorem freshLeaves_of_append (A F seen : List Nat) (h : FreshLeaves (A ++ F) seen) :
    FreshLeaves A seen := by
  unfold FreshLeaves at *
  rw [List.nodup_append] at h
  exact ⟨h.1.1, fun x hx => h.2 x (List.mem_append.mpr (Or.inl hx))⟩

theorem independentAndLoop_seen
    (ev : Nat → List Nat → Except CircuitException (ℚ × List Nat)) (L : Nat → List Nat) :
    ∀ (ws : List Nat) (result : ℚ) (seen : List Nat),
      (∀ s ∈ ws, ∀ sn : List Nat, FreshLeaves (L s) sn →
        ∃ v sn', ev s sn = .ok (v, sn') ∧ ∀ x, x ∈ sn' ↔ x ∈ L s ∨ x ∈ sn) →
      (∀ s ∈ ws, ∀ sn : List Nat, ¬ FreshLeaves (L s) sn → ev s sn = .error .notIndependent) →
      (FreshLeaves (ws.flatMap L) seen →
        ∃ v seen', independentAndLoop ev ws result seen = .ok (v, seen') ∧
          ∀ x, x ∈ seen' ↔ x ∈ ws.flatMap L ∨ x ∈ seen) ∧
      (¬ FreshLeaves (ws.flatMap L) seen →
        independentAndLoop ev ws result seen = .error .notIndependent) := by
  intro ws
  induction ws with
  | nil =>
    intro result seen _ _
    refine ⟨fun _ => ⟨result, seen, by simp [independentAndLoop], by simp⟩, fun h => ?_⟩
    exact absurd (by simp [FreshLeaves]) h
  | cons s rest ih =>
    intro result seen hok herr
    rw [List.flatMap_cons]
    unfold independentAndLoop
    by_cases hg : FreshLeaves (L s) seen
    · obtain ⟨v, sn1, he, hm1⟩ := hok s (List.mem_cons_self _ _) seen hg
      have hiff := freshLeaves_append (L s) (rest.flatMap L) seen sn1 hg hm1
      obtain ⟨ih1, ih2⟩ := ih (result * v) sn1
        (fun z hz => hok z (List.mem_cons_of_mem _ hz))
        (fun z hz => herr z (List.mem_cons_of_mem _ hz))
      rw [he]
      simp only []
      refine ⟨fun h => ?_, fun h => ih2 (fun h2 => h (hiff.mpr h2))⟩
      obtain ⟨v', seen', hl, hm⟩ := ih1 (hiff.mp h)
      refine ⟨v', seen', hl, fun x => ?_⟩
      rw [hm x, hm1 x, List.mem_append]
      tauto
    · rw [herr s (List.mem_cons_self _ _) seen hg]
      exact ⟨fun h => absurd (freshLeaves_of_append _ _ _ h) hg, fun _ => rfl⟩

theorem independentOrLoop_seen (c : BooleanCircuit) (g : Nat)
    (ev : Nat → List Nat → Except CircuitException (ℚ × List Nat)) (L : Nat → List Nat) :
    ∀ (ws : List Nat) (st : OrState),
      (∀ s ∈ ws, c.gates[s]? ≠ some BooleanGate.MULIN) →
      (∀ s ∈ ws, ∀ sn : List Nat, FreshLeaves (L s) sn →
        ∃ v sn', ev s sn = .ok (v, sn') ∧ ∀ x, x ∈ sn' ↔ x ∈ L s ∨ x ∈ sn) →
      (∀ s ∈ ws, ∀ sn : List Nat, ¬ FreshLeaves (L s) sn → ev s sn = .error .notIndependent) →
      (FreshLeaves (ws.flatMap L) st.seen →
        ∃ st', independentOrLoop c g ev ws st = .ok st' ∧
          ∀ x, x ∈ st'.seen ↔ x ∈ ws.flatMap L ∨ x ∈ st.seen) ∧
      (¬ FreshLeaves (ws.flatMap L) st.seen →
        independentOrLoop c g ev ws st = .error .notIndependent) := by
  intro ws
  induction ws with
  | nil =>
    intro st _ _ _
    refine ⟨fun _ => ⟨st, by simp [independentOrLoop], by simp⟩, fun h => ?_⟩
    exact absurd (by simp [FreshLeaves]) h
  | cons s rest ih =>
    intro st hmul hok herr
    rw [List.flatMap_cons]
    unfold independentOrLoop
    rw [if_neg (hmul s (List.mem_cons_self _ _))]
    by_cases hg : FreshLeaves (L s) st.seen
    · obtain ⟨v, sn1, he, hm1⟩ := hok s (List.mem_cons_self _ _) st.seen hg
      have hiff := freshLeaves_append (L s) (rest.flatMap L) st.seen sn1 hg hm1
      obtain ⟨ih1, ih2⟩ := ih
        { st with groups := mapModify s 0 (fun _ => v) st.groups, seen := sn1 }
        (fun z hz => hmul z (List.mem_cons_of_mem _ hz))
        (fun z hz => hok z (List.mem_cons_of_mem _ hz))
        (fun z hz => herr z (List.mem_cons_of_mem _ hz))
      rw [he]
      simp only [] at ih1 ih2 ⊢
      refine ⟨fun h => ?_, fun h => ih2 (fun h2 => h (hiff.mpr h2))⟩
      obtain ⟨st', hl, hm⟩ := ih1 (hiff.mp h)
      refine ⟨st', hl, fun x => ?_⟩
      rw [hm x, hm1 x, List.mem_append]
      tauto
    · rw [herr s (List.mem_cons_self _ _) st.seen hg]
      exact ⟨fun h => absurd (freshLeaves_of_append _ _ _ h) hg, fun _ => rfl⟩

theorem independentEvaluationInternal_seen (c : BooleanCircuit) (rank : Nat → Nat)
    (D : Nat → Prop) (hD : Closed c rank D) :
    ∀ (f h : Nat) (seen : List Nat), D h → rank h < f →
      (FreshLeaves (leafList c f h) seen →
        ∃ v seen', independentEvaluationInternal c f h seen = .ok (v, seen') ∧
          ∀ x, x ∈ seen' ↔ x ∈ leafList c f h ∨ x ∈ seen) ∧
      (¬ FreshLeaves (leafList c f h) seen →
        independentEvaluationInternal c f h seen = .error .notIndependent) := by
  intro f
  induction f with
  | zero => intro h seen _ hr; omega
  | succ f ih =>
    intro h seen hh hr
    obtain ⟨hty, hnot, hch⟩ := hD h hh
    have hchild : c.gates[h]? ≠ some BooleanGate.IN → ∀ s ∈ c.getWires h, ∀ sn : List Nat,
        (FreshLeaves (leafList c f s) sn →
          ∃ v sn', independentEvaluationInternal c f s sn = .ok (v, sn') ∧
            ∀ x, x ∈ sn' ↔ x ∈ leafList c f s ∨ x ∈ sn) ∧
        (¬ FreshLeaves (leafList c f s) sn →
          independentEvaluationInternal c f s sn = .error .notIndependent) := by
      intro hne s hs sn
      have := hch hne s hs
      exact ih s sn this.1 (by omega)
    rcases hty with ht | ht | ht | ht
    · have hleaf : leafList c (f + 1) h = [h] := by
        conv_lhs => unfold leafList
        rw [ht]
      rw [hleaf]
      unfold independentEvaluationInternal
      rw [ht]
      simp only []
      by_cases hs : h ∈ seen
      · rw [if_pos hs]
        refine ⟨fun hfresh => absurd hs (hfresh.2 h (List.mem_singleton.mpr rfl)), fun _ => rfl⟩
      · rw [if_neg hs]
        refine ⟨fun _ => ⟨_, _, rfl, fun x => by simp⟩, fun hnf => ?_⟩
        exact absurd ⟨List.nodup_singleton h, fun x hx => by
          rw [List.mem_singleton.mp hx]; exact hs⟩ hnf
    · have hleaf : leafList c (f + 1) h = (c.getWires h).flatMap (leafList c f) := by
        conv_lhs => unfold leafList
        rw [ht]
      rw [hleaf]
      unfold independentEvaluationInternal
      rw [ht]
      simp only []
      have hne : c.gates[h]? ≠ some BooleanGate.IN := by rw [ht]; decide
      exact independentAndLoop_seen
        (fun ch s => independentEvaluationInternal c f ch s) (leafList c f) (c.getWires h) 1 seen
        (fun s hs sn => (hchild hne s hs sn).1) (fun s hs sn => (hchild hne s hs sn).2)
    · have hleaf : leafList c (f + 1) h = (c.getWires h).flatMap (leafList c f) := by
        conv_lhs => unfold leafList
        rw [ht]
      rw [hleaf]
      unfold independentEvaluationInternal
      rw [ht]
      simp only []
      have hne : c.gates[h]? ≠ some BooleanGate.IN := by rw [ht]; decide
      obtain ⟨l1, l2⟩ := independentOrLoop_seen c h
        (fun ch s => independentEvaluationInternal c f ch s) (leafList c f) (c.getWires h)
        ⟨[], [], [], seen⟩
        (fun s hs hmul => by
          have hDs := (hch hne s hs).1
          rcases (hD s hDs).1 with h1 | h1 | h1 | h1 <;> rw [h1] at hmul <;>
            exact absurd hmul (by decide))
        (fun s hs sn => (hchild hne s hs sn).1) (fun s hs sn => (hchild hne s hs sn).2)
      refine ⟨fun hfresh => ?_, fun hnf => ?_⟩
      · obtain ⟨st', hl, hm⟩ := l1 hfresh
        rw [hl]
        exact ⟨_, _, rfl, hm⟩
      · rw [l2 hnf]
    · cases hw : c.getWires h with
      | nil => exact absurd hw (hnot ht)
      | cons s rest =>
        have hleaf : leafList c (f + 1) h = leafList c f s := by
          conv_lhs => unfold leafList
          rw [ht]
          simp only [hw]
        rw [hleaf]
        unfold independentEvaluationInternal
        rw [ht]
        simp only [hw]
        have hne : c.gates[h]? ≠ some BooleanGate.IN := by rw [ht]; decide
        have hs : s ∈ c.getWires h := by rw [hw]; exact List.mem_cons_self s rest
        obtain ⟨l1, l2⟩ := hchild hne s hs seen
        refine ⟨fun hfresh => ?_, fun hnf => ?_⟩
        · obtain ⟨v, seen', hl, hm⟩ := l1 hfresh
          rw [hl]
          exact ⟨_, _, rfl, hm⟩
        · rw [l2 hnf]

/-- Claim C18. On a set of INPUT, AND, OR and NOT gates closed under wires,
without cycle and with a child for each NOT gate, `independentEvaluation(g)`
fails with "Not an independent circuit" if and only if some INPUT leaf occurs
at least twice among the leaves reached from `g`, one occurrence being counted
for each wire path (a wire listed twice gives two paths); otherwise it returns
a value. -/
theorem independentEvaluation_notIndependent_iff (c : BooleanCircuit) (rank : Nat → Nat)
    (D : Nat → Prop) (hD : Closed c rank D) (fuel g : Nat) (hg : D g) (hr : rank g < fuel) :
    (independentEvaluation c fuel g = .error .notIndependent ↔
        ∃ x, 2 ≤ (leafList c fuel g).count x) ∧
      ((¬ ∃ x, 2 ≤ (leafList c fuel g).count x) →
        ∃ v, independentEvaluation c fuel g = .ok v) := by
  obtain ⟨l1, l2⟩ := independentEvaluationInternal_seen c rank D hD fuel g [] hg hr
  have hfresh : FreshLeaves (leafList c fuel g) [] ↔ ¬ ∃ x, 2 ≤ (leafList c fuel g).count x := by
    unfold FreshLeaves
    rw [List.nodup_iff_count_le_one]
    constructor
    · rintro ⟨h, _⟩ ⟨x, hx⟩
      have := h x
      omega
    · intro h
      refine ⟨fun x => ?_, fun x _ => List.not_mem_nil x⟩
      by_contra hc
      exact h ⟨x, by omega⟩
  unfold independentEvaluation
  refine ⟨⟨fun herr => ?_, fun hx => ?_⟩, fun hno => ?_⟩
  · by_contra hno
    obtain ⟨v, seen', hl, _⟩ := l1 (hfresh.mpr hno)
    rw [hl] at herr
    simp at herr
  · rw [l2 (fun hf => hfresh.mp hf hx)]
  · obtain ⟨v, seen', hl, _⟩ := l1 (hfresh.mpr hno)
    rw [hl]
    exact ⟨v, rfl⟩

theorem independentEvaluation_notIndependent_iff_witness :
    (independentEvaluation sharedLeaf 3 2 = .error .notIndependent ↔
        ∃ x, 2 ≤ (leafList sharedLeaf 3 2).count x) ∧
      ((¬ ∃ x, 2 ≤ (leafList sharedLeaf 3 2).count x) →
        ∃ v, independentEvaluation sharedLeaf 3 2 = .ok v) :=
  independentEvaluation_notIndependent_iff sharedLeaf (fun i => i)
    (fun h => h < sharedLeaf.gates.length)
    (closed_of_global sharedLeaf (fun i => i) (by decide) (by decide) (by decide) (by decide))
    3 2 (by decide) (by decide)

/-! ### Fan-in of the rewritten alternatives -/

theorem setGate_fst (c : BooleanCircuit) (t : BooleanGate) : (setGate c t).1 = c.gates.length := by
  unfold setGate baseSetGate addGate baseAddGate
  split_ifs <;> rfl

theorem setGate_gates_length (c : BooleanCircuit) (t : BooleanGate) :
    (setGate c t).2.gates.length = c.gates.length + 1 := by
  unfold setGate baseSetGate addGate baseAddGate setProb
  split_ifs <;> simp

theorem setGate_wires (c : BooleanCircuit) (t : BooleanGate) :
    (setGate c t).2.wires = c.wires ++ [[]] := by
  unfold setGate baseSetGate addGate baseAddGate setProb
  split_ifs <;> rfl

theorem setGateP_fst (c : BooleanCircuit) (t : BooleanGate) (p : ℚ) :
    (setGateP c t p).1 = c.gates.length := by
  unfold setGateP
  exact setGate_fst c t

theorem setGateP_gates_length (c : BooleanCircuit) (t : BooleanGate) (p : ℚ) :
    (setGateP c t p).2.gates.length = c.gates.length + 1 := by
  unfold setGateP setProb
  exact setGate_gates_length c t

theorem setGateP_wires (c : BooleanCircuit) (t : BooleanGate) (p : ℚ) :
    (setGateP c t p).2.wires = c.wires ++ [[]] := by
  unfold setGateP setProb
  exact setGate_wires c t

theorem clog_half (start stop : Nat) (h : start < stop) :
    Nat.clog 2 ((start + stop) / 2 - start + 1) + 1 ≤ Nat.clog 2 (stop - start + 1) ∧
      Nat.clog 2 (stop - ((start + stop) / 2 + 1) + 1) + 1 ≤ Nat.clog 2 (stop - start + 1) := by
  have h2 : Nat.clog 2 (stop - start + 1) =
      Nat.clog 2 ((stop - start + 1 + 2 - 1) / 2) + 1 :=
    Nat.clog_of_two_le (by decide) (by omega)
  have e1 : (stop - start + 1 + 2 - 1) / 2 = (start + stop) / 2 - start + 1 := by omega
  rw [e1] at h2
  refine ⟨by omega, ?_⟩
  have hmono : Nat.clog 2 (stop - ((start + stop) / 2 + 1) + 1) ≤
      Nat.clog 2 ((start + stop) / 2 - start + 1) :=
    Nat.clog_mono_right 2 (by omega)
  omega

theorem clog_succ_le_self (n : Nat) (h : 0 < n) : Nat.clog 2 n + 1 ≤ n := by
  have h1 : n ≤ 2 ^ (n - 1) := by
    have := Nat.lt_two_pow (n - 1)
    omega
  have h2 : Nat.clog 2 n ≤ n - 1 := (Nat.le_pow_iff_clog_le (by decide)).mp h1
  omega

theorem rewriteMultivaluedGatesRec_bound (muls : List Nat) (cumulated_probs : List ℚ) :
    ∀ (fuel start stop : Nat) (pfx : List Nat) (c : BooleanCircuit),
      c.wires.length = c.gates.length → start ≤ stop →
      (∀ i, start ≤ i → i ≤ stop → muls.getD i 0 < c.gates.length) →
      Nat.clog 2 (stop - start + 1) + 1 ≤ fuel →
      ∃ c', rewriteMultivaluedGatesRec muls cumulated_probs fuel start stop pfx c = .ok (pfx, c') ∧
        c'.wires.length = c'.gates.length ∧ c.gates.length ≤ c'.gates.length ∧
        (∀ j, j < c.gates.length → (∀ i, start ≤ i → i ≤ stop → muls.getD i 0 ≠ j) →
          c'.getWires j = c.getWires j) ∧
        (∀ i, start ≤ i → i ≤ stop →
          (c'.getWires (muls.getD i 0)).length ≤ pfx.length + Nat.clog 2 (stop - start + 1)) := by
  intro fuel
  induction fuel with
  | zero => intro start stop pfx c _ _ _ hf; omega
  | succ fuel ih =>
    intro start stop pfx c hsz hle hmul hf
    unfold rewriteMultivaluedGatesRec
    by_cases heq : start = stop
    · subst heq
      rw [if_pos rfl]
      refine ⟨_, rfl, by simpa using hsz, le_refl _, ?_, ?_⟩
      · intro j _ hj
        have hne : muls.getD start 0 ≠ j := hj start (le_refl _) (le_refl _)
        unfold getWires
        exact Circuit.getD_set_ne _ _ _ _ hne
      · intro i h1 h2
        have hi : i = start := by omega
        subst hi
        unfold getWires
        simp only []
        rw [Circuit.getD_set_self _ _ _ (by rw [hsz]; exact hmul i (le_refl _) (le_refl _))]
        omega
    · rw [if_neg heq]
      have hlt : start < stop := by omega
      obtain ⟨hc1, hc2⟩ := clog_half start stop hlt
      simp only []
      generalize hp : (cumulated_probs.getD ((start + stop) / 2 + 1) 0 -
        cumulated_probs.getD start 0) /
        (cumulated_probs.getD stop 0 - cumulated_probs.getD start 0) = p
      have hg : (setGateP c BooleanGate.IN p).1 = c.gates.length := setGateP_fst c _ p
      have hgl := setGateP_gates_length c BooleanGate.IN p
      have hgw := setGateP_wires c BooleanGate.IN p
      have hn : (setGate (setGateP c BooleanGate.IN p).2 BooleanGate.NOT).1 =
          c.gates.length + 1 := by rw [setGate_fst, hgl]
      have hnl := setGate_gates_length (setGateP c BooleanGate.IN p).2 BooleanGate.NOT
      have hnw := setGate_wires (setGateP c BooleanGate.IN p).2 BooleanGate.NOT
      rw [hgl] at hnl
      rw [hgw] at hnw
      rw [hg, hn]
      generalize hc2def : ({ (setGate (setGateP c BooleanGate.IN p).2 BooleanGate.NOT).2 with
        wires := (setGate (setGateP c BooleanGate.IN p).2 BooleanGate.NOT).2.wires.set
          (c.gates.length + 1)
          ((setGate (setGateP c BooleanGate.IN p).2 BooleanGate.NOT).2.getWires
            (c.gates.length + 1) ++ [c.gates.length]) } : BooleanCircuit) = c2
      have h2g : c2.gates.length = c.gates.length + 2 := by
        rw [← hc2def]; exact hnl
      have h2w : c2.wires = ((c.wires ++ [[]]) ++ [[]]).set (c.gates.length + 1)
          ((setGate (setGateP c BooleanGate.IN p).2 BooleanGate.NOT).2.getWires
            (c.gates.length + 1) ++ [c.gates.length]) := by
        rw [← hc2def]
        simp only []
        rw [hnw]
      have h2sz : c2.wires.length = c2.gates.length := by
        rw [h2w, h2g]
        simp [hsz]
      have h2frame : ∀ j, j < c.gates.length → c2.getWires j = c.getWires j := by
        intro j hj
        unfold getWires
        rw [h2w, Circuit.getD_set_ne _ _ _ _ (by omega)]
        rw [List.getD_eq_getElem?_getD, List.getD_eq_getElem?_getD,
          List.getElem?_append_left (by simp; omega),
          List.getElem?_append_left (by omega)]
      obtain ⟨c3, hr3, h3sz, h3le, h3frame, h3bound⟩ :=
        ih start ((start + stop) / 2) (pfx ++ [c.gates.length]) c2 h2sz (by omega)
          (fun i h1 h2 => by have := hmul i h1 (by omega); omega) (by omega)
      rw [hr3]
      simp only [List.dropLast_concat]
      obtain ⟨c4, hr4, h4sz, h4le, h4frame, h4bound⟩ :=
        ih ((start + stop) / 2 + 1) stop (pfx ++ [c.gates.length + 1]) c3 h3sz (by omega)
          (fun i h1 h2 => by have := hmul i (by omega) h2; omega) (by omega)
      rw [hr4]
      simp only [List.dropLast_concat]
      refine ⟨c4, rfl, h4sz, by omega, ?_, ?_⟩
      · intro j hj hnot
        rw [h4frame j (by omega) (fun i h1 h2 => hnot i (by omega) h2),
          h3frame j (by omega) (fun i h1 h2 => hnot i h1 (by omega)), h2frame j hj]
      · intro i h1 h2
        by_cases hex : ∃ i', (start + stop) / 2 + 1 ≤ i' ∧ i' ≤ stop ∧
            muls.getD i' 0 = muls.getD i 0
        · obtain ⟨i', hi1, hi2, hi3⟩ := hex
          have := h4bound i' hi1 hi2
          rw [hi3] at this
          simp only [List.length_append, List.length_singleton] at this
          omega
        · have hleft : i ≤ (start + stop) / 2 := by
            by_contra hcon
            exact hex ⟨i, by omega, h2, rfl⟩
          have hfr := h4frame (muls.getD i 0)
            (by have := hmul i h1 h2; omega)
            (fun i' hi1 hi2 hi3 => hex ⟨i', hi1, hi2, hi3⟩)
          rw [hfr]
          have := h3bound i h1 hleft
          simp only [List.length_append, List.length_singleton] at this
          omega

theorem rewriteCumulate_frame :
    ∀ (muls : List Nat) (cumulated_prob : ℚ) (cumulated_probs : List ℚ) (c : BooleanCircuit),
      (rewriteCumulate muls cumulated_prob cumulated_probs c).2.wires.length = c.wires.length ∧
      (rewriteCumulate muls cumulated_prob cumulated_probs c).2.gates.length = c.gates.length ∧
      ∀ j, j ∉ muls →
        (rewriteCumulate muls cumulated_prob cumulated_probs c).2.getWires j = c.getWires j := by
  intro muls
  induction muls with
  | nil => intro _ _ c; exact ⟨rfl, rfl, fun _ _ => rfl⟩
  | cons m rest ih =>
    intro cp cps c
    unfold rewriteCumulate
    obtain ⟨h1, h2, h3⟩ := ih (cp + c.getProb m) (cps ++ [cp + c.getProb m])
      { c with gates := c.gates.set m BooleanGate.AND, wires := c.wires.set m [] }
    refine ⟨by rw [h1]; simp, by rw [h2]; simp, fun j hj => ?_⟩
    rw [h3 j (fun h => hj (List.mem_cons_of_mem _ h))]
    unfold getWires
    exact Circuit.getD_set_ne _ _ _ _ (fun h => hj (by rw [h]; exact List.mem_cons_self _ _))

theorem getD_mem_of_lt (muls : List Nat) (i : Nat) (h : i < muls.length) :
    muls.getD i 0 ∈ muls := by
  rw [List.getD_eq_getElem _ _ h]
  exact List.getElem_mem h

theorem exists_getD_of_mem (muls : List Nat) (m : Nat) (h : m ∈ muls) :
    ∃ i, i < muls.length ∧ muls.getD i 0 = m := by
  obtain ⟨i, hi, he⟩ := List.getElem_of_mem h
  exact ⟨i, hi, by rw [List.getD_eq_getElem _ _ hi]; exact he⟩

theorem rewriteFamilies_bound :
    ∀ (M : List (Nat × List Nat)) (c : BooleanCircuit),
      c.wires.length = c.gates.length →
      (∀ e ∈ M, e.2 ≠ [] ∧ ∀ m ∈ e.2, m < c.gates.length) →
      M.Pairwise (fun a b => ∀ m ∈ a.2, m ∉ b.2) →
      ∃ c', rewriteFamilies M c = .ok c' ∧
        c'.wires.length = c'.gates.length ∧ c.gates.length ≤ c'.gates.length ∧
        (∀ j, j < c.gates.length → (∀ e ∈ M, j ∉ e.2) → c'.getWires j = c.getWires j) ∧
        (∀ e ∈ M, ∀ m ∈ e.2, (c'.getWires m).length ≤ Nat.clog 2 e.2.length + 1) := by
  intro M
  induction M with
  | nil =>
    intro c hsz _ _
    exact ⟨c, rfl, hsz, le_refl _, fun _ _ _ => rfl, fun e he => by simp at he⟩
  | cons e rest ih =>
    intro c hsz hM hpw
    obtain ⟨v, muls⟩ := e
    obtain ⟨hne, hlt⟩ := hM (v, muls) (List.mem_cons_self _ _)
    simp only [] at hne hlt
    have hn : 0 < muls.length := List.length_pos.mpr hne
    unfold rewriteFamilies
    simp only []
    obtain ⟨hcw, hcg, hcf⟩ := rewriteCumulate_frame muls 0 [] c
    generalize hr : rewriteCumulate muls 0 [] c = r at hcw hcg hcf
    generalize hcp : r.1.getD (muls.length - 1) 0 = q
    have hstart : ∃ (pfx : List Nat) (c1 : BooleanCircuit),
        (if (!almost_equals q 1) = true then
          ([(setGateP r.2 BooleanGate.IN q).1], (setGateP r.2 BooleanGate.IN q).2)
         else (([] : List Nat), r.2)) = (pfx, c1) ∧
        pfx.length ≤ 1 ∧ c1.wires.length = c1.gates.length ∧
        c.gates.length ≤ c1.gates.length ∧
        ∀ j, j < c.gates.length → j ∉ muls → c1.getWires j = c.getWires j := by
      by_cases ha : (!almost_equals q 1) = true
      · rw [if_pos ha]
        refine ⟨_, _, rfl, by simp, ?_, ?_, ?_⟩
        · rw [setGateP_wires, setGateP_gates_length]
          simp [hcw, hcg, hsz]
        · rw [setGateP_gates_length, hcg]
          omega
        · intro j hj hjm
          rw [← hcf j hjm]
          unfold getWires
          rw [setGateP_wires, List.getD_eq_getElem?_getD, List.getD_eq_getElem?_getD,
            List.getElem?_append_left (by rw [hcw, hsz]; exact hj)]
      · rw [if_neg ha]
        exact ⟨_, _, rfl, by simp, by rw [hcw, hcg, hsz], by rw [hcg],
          fun j _ hjm => hcf j hjm⟩
    obtain ⟨pfx, c1, hst, hpl, h1sz, h1le, h1frame⟩ := hstart
    rw [hst]
    simp only []
    obtain ⟨c2, hrec, h2sz, h2le, h2frame, h2bound⟩ :=
      rewriteMultivaluedGatesRec_bound muls r.1 muls.length 0 (muls.length - 1) pfx c1 h1sz
        (Nat.zero_le _)
        (fun i _ hi => by
          have := hlt _ (getD_mem_of_lt muls i (by omega))
          omega)
        (by
          have : muls.length - 1 - 0 + 1 = muls.length := by omega
          rw [this]
          exact clog_succ_le_self _ hn)
    rw [hrec]
    simp only []
    obtain ⟨c', hfam, hsz', hle', hframe', hbound'⟩ := ih c2 h2sz
      (fun e he => ⟨(hM e (List.mem_cons_of_mem _ he)).1, fun m hm => by
        have := (hM e (List.mem_cons_of_mem _ he)).2 m hm
        omega⟩)
      (List.pairwise_cons.mp hpw).2
    refine ⟨c', hfam, hsz', by omega, ?_, ?_⟩
    · intro j hj hnot
      have hjm : j ∉ muls := hnot (v, muls) (List.mem_cons_self _ _)
      rw [hframe' j (by omega) (fun e he => hnot e (List.mem_cons_of_mem _ he)),
        h2frame j (by omega) (fun i _ hi h => hjm (by
          rw [← h]; exact getD_mem_of_lt muls i (by omega))),
        h1frame j hj hjm]
    · intro e he m hm
      rcases List.mem_cons.mp he with h | h
      · subst h
        simp only [] at hm ⊢
        have hdis := (List.pairwise_cons.mp hpw).1
        rw [hframe' m (by have := hlt m hm; omega) (fun e' he' hme' => hdis e' he' m hm hme')]
        obtain ⟨i, hi, hmi⟩ := exists_getD_of_mem muls m hm
        have := h2bound i (Nat.zero_le _) (by omega)
        rw [hmi] at this
        have hsize : muls.length - 1 - 0 + 1 = muls.length := by omega
        rw [hsize] at this
        omega
      · exact hbound' e h m hm

theorem mapModify_keys {β : Type} (k : Nat) (d : β) (f : β → β) :
    ∀ (M : List (Nat × β)) (x : Nat),
      x ∈ (mapModify k d f M).map Prod.fst ↔ x = k ∨ x ∈ M.map Prod.fst := by
  intro M
  induction M with
  | nil => intro x; simp [mapModify]
  | cons e rest ih =>
    intro x
    obtain ⟨k', v⟩ := e
    unfold mapModify
    split_ifs with h1 h2
    · simp
    · subst h2
      simp
    · simp only [List.map_cons, List.mem_cons, ih x]
      tauto

theorem mapModify_sorted {β : Type} (k : Nat) (d : β) (f : β → β) :
    ∀ (M : List (Nat × β)), (M.map Prod.fst).Pairwise (fun a b => a < b) →
      ((mapModify k d f M).map Prod.fst).Pairwise (fun a b => a < b) := by
  intro M
  induction M with
  | nil => intro _; simp [mapModify]
  | cons e rest ih =>
    intro hs
    obtain ⟨k', v⟩ := e
    rw [List.map_cons, List.pairwise_cons] at hs
    unfold mapModify
    split_ifs with h1 h2
    · rw [List.map_cons, List.pairwise_cons]
      refine ⟨fun x hx => ?_, by rw [List.map_cons, List.pairwise_cons]; exact hs⟩
      rw [List.map_cons, List.mem_cons] at hx
      rcases hx with hx | hx
      · rw [hx]; exact h1
      · have := hs.1 x hx
        simp only [] at this
        omega
    · subst h2
      rw [List.map_cons, List.pairwise_cons]
      exact hs
    · rw [List.map_cons, List.pairwise_cons]
      refine ⟨fun x hx => ?_, ih hs.2⟩
      rcases (mapModify_keys k d f rest x).mp hx with hx | hx
      · simp only []
        omega
      · exact hs.1 x hx

theorem mapModify_entry {β : Type} (k : Nat) (d : β) (f : β → β) :
    ∀ (M : List (Nat × β)), (M.map Prod.fst).Pairwise (fun a b => a < b) →
      ∀ e ∈ mapModify k d f M,
        (e ∈ M ∧ e.1 ≠ k) ∨
        (e.1 = k ∧ ((∃ x, (k, x) ∈ M ∧ e.2 = f x) ∨ (k ∉ M.map Prod.fst ∧ e.2 = f d))) := by
  intro M
  induction M with
  | nil =>
    intro _ e he
    simp only [mapModify, List.mem_singleton] at he
    subst he
    exact Or.inr ⟨rfl, Or.inr ⟨by simp, rfl⟩⟩
  | cons e0 rest ih =>
    intro hs e he
    obtain ⟨k', v⟩ := e0
    rw [List.map_cons, List.pairwise_cons] at hs
    unfold mapModify at he
    split_ifs at he with h1 h2
    · rcases List.mem_cons.mp he with h | h
      · subst h
        refine Or.inr ⟨rfl, Or.inr ⟨?_, rfl⟩⟩
        intro hmem
        rw [List.map_cons, List.mem_cons] at hmem
        rcases hmem with hm | hm
        · simp only [] at hm
          omega
        · have := hs.1 k hm
          simp only [] at this
          omega
      · refine Or.inl ⟨h, ?_⟩
        rcases List.mem_cons.mp h with h' | h'
        · rw [h']
          simp only []
          omega
        · have := hs.1 e.1 (List.mem_map.mpr ⟨e, h', rfl⟩)
          simp only [] at this
          omega
    · subst h2
      rcases List.mem_cons.mp he with h | h
      · subst h
        exact Or.inr ⟨rfl, Or.inl ⟨v, List.mem_cons_self _ _, rfl⟩⟩
      · refine Or.inl ⟨List.mem_cons_of_mem _ h, ?_⟩
        have := hs.1 e.1 (List.mem_map.mpr ⟨e, h, rfl⟩)
        simp only [] at this
        omega
    · rcases List.mem_cons.mp he with h | h
      · subst h
        exact Or.inl ⟨List.mem_cons_self _ _, fun hk => h2 hk.symm⟩
      · rcases ih hs.2 e h with ⟨hm, hk⟩ | ⟨hk, hx | hx⟩
        · exact Or.inl ⟨List.mem_cons_of_mem _ hm, hk⟩
        · obtain ⟨x, hx1, hx2⟩ := hx
          exact Or.inr ⟨hk, Or.inl ⟨x, List.mem_cons_of_mem _ hx1, hx2⟩⟩
        · refine Or.inr ⟨hk, Or.inr ⟨?_, hx.2⟩⟩
          rw [List.map_cons, List.mem_cons]
          rintro (hm | hm)
          · exact h2 hm
          · exact hx.1 hm

theorem rewriteCollect_families (c : BooleanCircuit) :
    ∀ (rest done : List Nat) (acc : List (Nat × List Nat)),
      (∀ m ∈ rest, c.getWires m ≠ []) →
      (acc.map Prod.fst).Pairwise (fun a b => a < b) →
      (∀ e ∈ acc, e.2 = done.filter (fun m => decide ((c.getWires m).head? = some e.1)) ∧
        e.2 ≠ []) →
      (∀ m ∈ done, ∀ v, (c.getWires m).head? = some v → v ∈ acc.map Prod.fst) →
      ∃ M, rewriteCollect c rest acc = .ok M ∧
        (M.map Prod.fst).Pairwise (fun a b => a < b) ∧
        (∀ e ∈ M, e.2 = (done ++ rest).filter
            (fun m => decide ((c.getWires m).head? = some e.1)) ∧ e.2 ≠ []) ∧
        (∀ m ∈ done ++ rest, ∀ v, (c.getWires m).head? = some v → v ∈ M.map Prod.fst) := by
  intro rest
  induction rest with
  | nil =>
    intro done acc _ hs hent hcov
    exact ⟨acc, rfl, hs, by simpa using hent, by simpa using hcov⟩
  | cons mul rest ih =>
    intro done acc hw hs hent hcov
    unfold rewriteCollect
    cases hwm : c.getWires mul with
    | nil => exact absurd hwm (hw mul (List.mem_cons_self _ _))
    | cons v more =>
      simp only []
      have hhead : (c.getWires mul).head? = some v := by rw [hwm]; rfl
      obtain ⟨M, hM, hMs, hMent, hMcov⟩ := ih (done ++ [mul])
        (mapModify v [] (fun l => l ++ [mul]) acc)
        (fun m hm => hw m (List.mem_cons_of_mem _ hm))
        (mapModify_sorted v [] _ acc hs)
        (fun e he => by
          rw [List.filter_append]
          rcases mapModify_entry v [] (fun l => l ++ [mul]) acc hs e he with
            ⟨hm, hk⟩ | ⟨hk, hx | hx⟩
          · have hne : ¬ ((c.getWires mul).head? = some e.1) := by
              rw [hhead]
              intro h
              exact hk (Option.some.inj h).symm
            simp only [List.filter_cons, List.filter_nil, hne, decide_False, Bool.false_eq_true,
              if_false, List.append_nil]
            exact hent e hm
          · obtain ⟨x, hx1, hx2⟩ := hx
            have hx3 := hent (v, x) hx1
            simp only [] at hx3
            rw [hx2, hk]
            simp only [List.filter_cons, List.filter_nil, hhead, decide_True, if_true]
            rw [← hx3.1]
            exact ⟨rfl, by simp⟩
          · rw [hx.2, hk]
            simp only [List.filter_cons, List.filter_nil, hhead, decide_True, if_true,
              List.nil_append]
            have hnil : done.filter (fun m => decide ((c.getWires m).head? = some v)) = [] := by
              rw [List.filter_eq_nil_iff]
              intro m hm hd
              exact hx.1 (hcov m hm v (by simpa using hd))
            rw [hnil]
            exact ⟨rfl, by simp⟩)
        (fun m hm w hmw => by
          rw [mapModify_keys]
          rcases List.mem_append.mp hm with h | h
          · exact Or.inr (hcov m h w hmw)
          · rw [List.mem_singleton.mp h, hhead] at hmw
            exact Or.inl (Option.some.inj hmw).symm)
      refine ⟨M, hM, hMs, ?_, ?_⟩
      · intro e he
        have := hMent e he
        rwa [List.append_assoc, List.singleton_append] at this
      · intro m hm
        exact hMcov m (by rwa [List.append_assoc, List.singleton_append])

/-- Claim C20. On a circuit whose vector of wires has one entry per gate and
whose MULTIVALUED_INPUT gates each have a child, `rewriteMultivaluedGates`
returns, and afterwards each gate that was an alternative of a categorical
family of `n` alternatives (the gates of `mulinputs` with the same first
child) has at most `⌈log2 n⌉ + 1` children. -/
theorem rewriteMultivaluedGates_fan_in (c : BooleanCircuit) (hsz : WiresSized c)
    (hw : MulinputsWired c) :
    ∃ c', rewriteMultivaluedGates c = .ok c' ∧
      ∀ m ∈ c.mulinputs, ∀ v, (c.getWires m).head? = some v →
        (c'.getWires m).length ≤ Nat.clog 2 (familyOf c v).length + 1 := by
  obtain ⟨M, hM, hMs, hMent, hMcov⟩ := rewriteCollect_families c c.mulinputs [] [] hw
    (by simp) (fun e he => by simp at he) (fun m hm => by simp at hm)
  simp only [List.nil_append] at hMent hMcov
  have hlt : ∀ m ∈ c.mulinputs, m < c.gates.length := by
    intro m hm
    by_contra hge
    apply hw m hm
    unfold getWires
    rw [List.getD_eq_getElem?_getD, List.getElem?_eq_none (by rw [hsz]; omega)]
    rfl
  have hpw : M.Pairwise (fun a b => ∀ m ∈ a.2, m ∉ b.2) := by
    have hkeys : M.Pairwise (fun a b => a.1 < b.1) := List.pairwise_map.mp hMs
    refine (List.Pairwise.and_mem.mp hkeys).imp ?_
    rintro a b ⟨ha, hb, hab⟩ m hma hmb
    rw [(hMent a ha).1] at hma
    rw [(hMent b hb).1] at hmb
    have h1 := (List.mem_filter.mp hma).2
    have h2 := (List.mem_filter.mp hmb).2
    simp only [decide_eq_true_eq] at h1 h2
    rw [h1] at h2
    have := Option.some.inj h2
    omega
  obtain ⟨c', hfam, _, _, _, hbound⟩ := rewriteFamilies_bound M { c with mulinputs := [] } hsz
    (fun e he => ⟨(hMent e he).2, fun m hm => by
      rw [(hMent e he).1] at hm
      exact hlt m (List.mem_filter.mp hm).1⟩)
    hpw
  refine ⟨c', ?_, ?_⟩
  · unfold rewriteMultivaluedGates
    rw [hM]
    exact hfam
  · intro m hm v hv
    have hv' := hMcov m hm v hv
    obtain ⟨e, he, hev⟩ := List.mem_map.mp hv'
    have hfamily : e.2 = familyOf c v := by
      rw [(hMent e he).1, hev]
      rfl
    have := hbound e he m (by
      rw [hfamily]
      unfold familyOf
      exact List.mem_filter.mpr ⟨hm, by simpa using hv⟩)
    rw [hfamily] at this
    exact this

theorem rewriteMultivaluedGates_fan_in_witness :
    WiresSized categoricalFamily ∧ MulinputsWired categoricalFamily ∧
      ∃ c', rewriteMultivaluedGates categoricalFamily = .ok c' ∧
        ∀ m ∈ categoricalFamily.mulinputs, ∀ v,
          (categoricalFamily.getWires m).head? = some v →
          (c'.getWires m).length ≤ Nat.clog 2 (familyOf categoricalFamily v).length + 1 :=
  ⟨by decide, by decide, rewriteMultivaluedGates_fan_in categoricalFamily (by decide) (by decide)⟩

/-! ### Negation under exact enumeration -/

theorem worldsSum_not (c : BooleanCircuit) (rank : Nat → Nat) (D : Nat → Prop)
    (hD : Closed c rank D) (fuel n h : Nat) (rest : List Nat) (hn : D n) (hf : rank n < fuel)
    (ht : c.gates[n]? = some BooleanGate.NOT) (hw : c.getWires n = h :: rest)
    (hnd : c.inputs.Nodup) :
    worldsSum c fuel n = 1 - worldsSum c fuel h := by
  rw [eq_sub_iff_add_eq, ← sum_worldWeight c hnd]
  unfold worldsSum
  rw [← Finset.sum_add_distrib]
  apply Finset.sum_congr rfl
  intro S _
  rw [evalRef_not c rank D hD _ fuel n hn hf ht h rest hw]
  cases evalRef c fuel h (fun i => decide (i ∈ S)) <;> simp

/-- Claim C27. On a set of INPUT, AND, OR and NOT gates closed under wires and
without cycle, with fewer than 31 inputs, for every NOT gate `n` whose first
child is `h`: `possibleWorlds(h)` returns a value `p` and `possibleWorlds(n)`
returns `1 - p`, over exact arithmetic. -/
theorem possibleWorlds_not (c : BooleanCircuit) (rank : Nat → Nat) (D : Nat → Prop)
    (hD : Closed c rank D) (fuel n h : Nat) (rest : List Nat) (hn : D n) (hf : rank n < fuel)
    (ht : c.gates[n]? = some BooleanGate.NOT) (hw : c.getWires n = h :: rest)
    (hnd : c.inputs.Nodup) (hk : c.inputs.length < 31) :
    ∃ p, possibleWorlds c (fun _ => false) fuel h = .ok p ∧
      possibleWorlds c (fun _ => false) fuel n = .ok (1 - p) := by
  have hch := (hD n hn).2.2 (by rw [ht]; decide) h (by rw [hw]; exact List.mem_cons_self _ _)
  refine ⟨worldsSum c fuel h, ?_, ?_⟩
  · exact possibleWorlds_eq_worldsSum c rank D hD fuel h hch.1 (by omega) hnd hk
  · rw [possibleWorlds_eq_worldsSum c rank D hD fuel n hn hf hnd hk,
      worldsSum_not c rank D hD fuel n h rest hn hf ht hw hnd]

theorem possibleWorlds_not_witness :
    possibleWorlds notCircuit (fun _ => false) 2 0 = .ok (3 / 10) ∧
      possibleWorlds notCircuit (fun _ => false) 2 1 = .ok (7 / 10) ∧
      ∃ p, possibleWorlds notCircuit (fun _ => false) 2 0 = .ok p ∧
        possibleWorlds notCircuit (fun _ => false) 2 1 = .ok (1 - p) :=
  ⟨by decide!, by decide!,
    possibleWorlds_not notCircuit (fun i => i) (fun h => h < notCircuit.gates.length)
      (closed_of_global notCircuit (fun i => i) (by decide) (by decide) (by decide) (by decide))
      2 1 0 [] (by decide) (by decide) (by decide) (by decide) (by decide) (by decide)⟩

/-! ### Evaluation of a fixed assignment and the reference semantics -/

/-- Claim C28. On a set of INPUT, AND, OR and NOT gates closed under wires,
without cycle and with a child for each NOT gate, the short-circuiting
`evaluate(g, S)` returns, for every set `S` of sampled inputs, the value of the
reference semantics that looks at all children: there is a valuation `v` of
the gates, returned by `evaluate` and equal to `evalRef`, such that an INPUT is
true iff it is in `S`, an AND is true iff all its children are, an OR is true
iff some child is, and a NOT negates its child. In particular an AND without
children evaluates to true and an OR without children to false. -/
theorem evaluate_refines_reference (c : BooleanCircuit) (rank : Nat → Nat) (D : Nat → Prop)
    (hD : Closed c rank D) (S : List Nat) :
    ∃ v : Nat → Bool,
      (∀ fuel g, D g → rank g < fuel →
        evaluate c fuel g S = .ok (v g) ∧ v g = evalRef c fuel g (sampledAssignment S)) ∧
      (∀ g, D g → c.gates[g]? = some BooleanGate.IN → v g = decide (g ∈ S)) ∧
      (∀ g, D g → c.gates[g]? = some BooleanGate.AND → v g = (c.getWires g).all v) ∧
      (∀ g, D g → c.gates[g]? = some BooleanGate.OR → v g = (c.getWires g).any v) ∧
      (∀ g, D g → c.gates[g]? = some BooleanGate.NOT →
        ∀ s rest, c.getWires g = s :: rest → v g = !v s) ∧
      (∀ fuel g, D g → rank g < fuel → c.gates[g]? = some BooleanGate.AND →
        c.getWires g = [] → evaluate c fuel g S = .ok true) ∧
      (∀ fuel g, D g → rank g < fuel → c.gates[g]? = some BooleanGate.OR →
        c.getWires g = [] → evaluate c fuel g S = .ok false) := by
  have hv : ∀ fuel g, D g → rank g < fuel →
      evalRef c (rank g + 1) g (sampledAssignment S) = evalRef c fuel g (sampledAssignment S) :=
    fun fuel g hg hf => evalRef_fuel c rank D hD _ (rank g + 1) fuel g hg (by omega) hf
  have hand : ∀ g, D g → c.gates[g]? = some BooleanGate.AND →
      evalRef c (rank g + 1) g (sampledAssignment S) =
        (c.getWires g).all (fun s => evalRef c (rank s + 1) s (sampledAssignment S)) := by
    intro g hg ht
    rw [evalRef_and c rank D hD _ (rank g + 1) g hg (by omega) ht]
    apply all_congr_mem
    intro s hs
    have := (hD g hg).2.2 (by rw [ht]; decide) s hs
    exact (hv (rank g + 1) s this.1 (by omega)).symm
  have hor : ∀ g, D g → c.gates[g]? = some BooleanGate.OR →
      evalRef c (rank g + 1) g (sampledAssignment S) =
        (c.getWires g).any (fun s => evalRef c (rank s + 1) s (sampledAssignment S)) := by
    intro g hg ht
    rw [evalRef_or c rank D hD _ (rank g + 1) g hg (by omega) ht]
    apply any_congr_mem
    intro s hs
    have := (hD g hg).2.2 (by rw [ht]; decide) s hs
    exact (hv (rank g + 1) s this.1 (by omega)).symm
  refine ⟨fun g => evalRef c (rank g + 1) g (sampledAssignment S), ?_, ?_, hand, hor, ?_, ?_, ?_⟩
  · intro fuel g hg hf
    simp only []
    rw [evaluate_eq_evalRef c rank D hD S fuel g hg hf, hv fuel g hg hf]
    exact ⟨rfl, rfl⟩
  · intro g _ ht
    simp only []
    rw [evalRef_in c (rank g + 1) g _ (by omega) ht]
    rfl
  · intro g hg ht s rest hw
    simp only []
    rw [evalRef_not c rank D hD _ (rank g + 1) g hg (by omega) ht s rest hw]
    have := (hD g hg).2.2 (by rw [ht]; decide) s (by rw [hw]; exact List.mem_cons_self _ _)
    rw [hv (rank g + 1) s this.1 (by omega)]
  · intro fuel g hg hf ht hw
    rw [evaluate_eq_evalRef c rank D hD S fuel g hg hf, ← hv fuel g hg hf, hand g hg ht, hw]
    rfl
  · intro fuel g hg hf ht hw
    rw [evaluate_eq_evalRef c rank D hD S fuel g hg hf, ← hv fuel g hg hf, hor g hg ht, hw]
    rfl

theorem evaluate_refines_reference_witness :
    (evaluate emptyGates 1 0 [] = .ok true ∧ evaluate emptyGates 1 1 [] = .ok false) ∧
      ∃ v : Nat → Bool,
        (∀ fuel g, g < sampleCircuit.gates.length → g < fuel →
          evaluate sampleCircuit fuel g [0] = .ok (v g) ∧
            v g = evalRef sampleCircuit fuel g (sampledAssignment [0])) ∧
        (∀ g, g < sampleCircuit.gates.length → sampleCircuit.gates[g]? = some BooleanGate.IN →
          v g = decide (g ∈ [0])) ∧
        (∀ g, g < sampleCircuit.gates.length → sampleCircuit.gates[g]? = some BooleanGate.AND →
          v g = (sampleCircuit.getWires g).all v) ∧
        (∀ g, g < sampleCircuit.gates.length → sampleCircuit.gates[g]? = some BooleanGate.OR →
          v g = (sampleCircuit.getWires g).any v) ∧
        (∀ g, g < sampleCircuit.gates.length → sampleCircuit.gates[g]? = some BooleanGate.NOT →
          ∀ s rest, sampleCircuit.getWires g = s :: rest → v g = !v s) ∧
        (∀ fuel g, g < sampleCircuit.gates.length → g < fuel →
          sampleCircuit.gates[g]? = some BooleanGate.AND →
          sampleCircuit.getWires g = [] → evaluate sampleCircuit fuel g [0] = .ok true) ∧
        (∀ fuel g, g < sampleCircuit.gates.length → g < fuel →
          sampleCircuit.gates[g]? = some BooleanGate.OR →
          sampleCircuit.getWires g = [] → evaluate sampleCircuit fuel g [0] = .ok false) :=
  ⟨⟨by decide, by decide⟩,
    evaluate_refines_reference sampleCircuit (fun i => i)
      (fun h => h < sampleCircuit.gates.length)
      (closed_of_global sampleCircuit (fun i => i) (by decide) (by decide) (by decide)
        (by decide)) [0]⟩

end BooleanCircuit

namespace Circuit

/-! ### The class `Circuit`: the set of inputs -/

theorem mem_setInsert (x y : Nat) : ∀ l : List Nat,
    x ∈ BooleanCircuit.setInsert y l ↔ x = y ∨ x ∈ l := by
  intro l
  induction l with
  | nil => simp [BooleanCircuit.setInsert]
  | cons z rest ih =>
    unfold BooleanCircuit.setInsert
    split_ifs with h1 h2
    · simp
    · subst h2
      simp
    · simp only [List.mem_cons, ih]
      tauto

theorem addGate_gates (c : Circuit) (type : gateType) :
    (addGate c type).2.gates = c.gates ++ [type] ∧
      (addGate c type).2.uuid2id = c.uuid2id ∧
      ∀ g, g ∈ (addGate c type).2.inputs ↔
        (type = gateType.IN ∧ g = c.gates.length) ∨ g ∈ c.inputs := by
  unfold addGate
  by_cases ht : type = gateType.IN
  · rw [if_pos ht]
    refine ⟨rfl, rfl, fun g => ?_⟩
    simp only []
    rw [mem_setInsert]
    simp [ht]
  · rw [if_neg ht]
    exact ⟨rfl, rfl, fun g => by simp [ht]⟩

theorem getGate_gates (c : Circuit) (u : String) :
    ((getGate c u).2.gates = c.gates ∨
        (getGate c u).2.gates = c.gates ++ [gateType.UNDETERMINED]) ∧
      (getGate c u).2.inputs = c.inputs := by
  cases h : c.uuid2id.lookup u with
  | some id => rw [getGate_known c u id h]; exact ⟨Or.inl rfl, rfl⟩
  | none => rw [getGate_new c u h]; exact ⟨Or.inr rfl, rfl⟩

theorem setGate_gates (c : Circuit) (u : String) (type : gateType) (p : ℚ) :
    (setGate c u type p).gates = (getGate c u).2.gates.set (getGate c u).1 type ∧
      ∀ g, g ∈ (setGate c u type p).inputs ↔
        (type = gateType.IN ∧ g = (getGate c u).1) ∨ g ∈ c.inputs := by
  unfold setGate
  by_cases ht : type = gateType.IN
  · rw [if_pos ht]
    refine ⟨rfl, fun g => ?_⟩
    simp only []
    rw [mem_setInsert, (getGate_gates c u).2]
    simp [ht]
  · rw [if_neg ht]
    refine ⟨rfl, fun g => ?_⟩
    simp only []
    rw [(getGate_gates c u).2]
    simp [ht]

theorem addGate_consistent (c : Circuit) (type : gateType) (hc : TokensConsistent c) :
    TokensConsistent (addGate c type).2 := by
  obtain ⟨hg, hu, _⟩ := addGate_gates c type
  unfold TokensConsistent
  rw [hg, hu]
  refine ⟨hc.1, hc.2.1, fun e he => ?_⟩
  have := hc.2.2 e he
  simp only [List.length_append, List.length_singleton]
  omega

theorem setGate_consistent (c : Circuit) (u : String) (type : gateType) (p : ℚ)
    (hc : TokensConsistent c) : TokensConsistent (setGate c u type p) := by
  have h := getGate_consistent c u hc
  unfold TokensConsistent at *
  rw [setGate_uuid2id, (setGate_gates c u type p).1, List.length_set]
  exact h

theorem applyCall_consistent (c : Circuit) (x : Call) (hc : TokensConsistent c) :
    TokensConsistent (applyCall c x) := by
  cases x with
  | addGate type => exact addGate_consistent c type hc
  | getGate u => exact getGate_consistent c u hc
  | setGate u type p => exact setGate_consistent c u type p hc

theorem getElem?_append_singleton (l : List gateType) (t : gateType) (g : Nat) (x : gateType)
    (h : (l ++ [t])[g]? = some x) : l[g]? = some x ∨ (g = l.length ∧ x = t) := by
  by_cases hg : g < l.length
  · rw [List.getElem?_append_left hg] at h
    exact Or.inl h
  · rw [List.getElem?_append_right (by omega)] at h
    by_cases hg2 : g = l.length
    · subst hg2
      simp at h
      exact Or.inr ⟨rfl, h.symm⟩
    · rw [List.getElem?_eq_none (by simp; omega)] at h
      simp at h

theorem applyCall_inputs_complete (c : Circuit) (x : Call) (hc : TokensConsistent c)
    (h : ∀ g, c.gates[g]? = some gateType.IN → g ∈ c.inputs) :
    ∀ g, (applyCall c x).gates[g]? = some gateType.IN → g ∈ (applyCall c x).inputs := by
  intro g hg
  cases x with
  | addGate type =>
    obtain ⟨h1, _, h3⟩ := addGate_gates c type
    simp only [applyCall] at hg ⊢
    rw [h1] at hg
    rw [h3]
    rcases getElem?_append_singleton _ _ _ _ hg with h4 | ⟨h4, h5⟩
    · exact Or.inr (h g h4)
    · exact Or.inl ⟨h5.symm, h4⟩
  | getGate u =>
    obtain ⟨h1, h2⟩ := getGate_gates c u
    simp only [applyCall] at hg ⊢
    rw [h2]
    rcases h1 with h1 | h1
    · rw [h1] at hg
      exact h g hg
    · rw [h1] at hg
      rcases getElem?_append_singleton _ _ _ _ hg with h4 | ⟨_, h5⟩
      · exact h g h4
      · exact absurd h5 (by decide)
  | setGate u type p =>
    obtain ⟨h1, h2⟩ := setGate_gates c u type p
    simp only [applyCall] at hg ⊢
    rw [h1] at hg
    rw [h2]
    by_cases hid : (getGate c u).1 = g
    · have hlt := getGate_fst_lt c u hc
      rw [← hid, List.getElem?_set_self hlt] at hg
      exact Or.inl ⟨(Option.some.inj hg), hid.symm⟩
    · rw [List.getElem?_set_ne hid] at hg
      obtain ⟨h3, _⟩ := getGate_gates c u
      rcases h3 with h3 | h3
      · rw [h3] at hg
        exact Or.inr (h g hg)
      · rw [h3] at hg
        rcases getElem?_append_singleton _ _ _ _ hg with h4 | ⟨_, h5⟩
        · exact Or.inr (h g h4)
        · exact absurd h5 (by decide)

theorem getElem?_append_of_some (l : List gateType) (t x : gateType) (g : Nat)
    (h : l[g]? = some x) : (l ++ [t])[g]? = some x := by
  have hg : g < l.length := by
    by_contra hc
    rw [List.getElem?_eq_none (by omega)] at h
    simp at h
  rw [List.getElem?_append_left hg]
  exact h

theorem applyCall_inputs_sound (c : Circuit) (x : Call) (hc : TokensConsistent c)
    (h : ∀ g ∈ c.inputs, c.gates[g]? = some gateType.IN)
    (hk : keepsInputs c [x] = true) :
    ∀ g ∈ (applyCall c x).inputs, (applyCall c x).gates[g]? = some gateType.IN := by
  intro g hg
  cases x with
  | addGate type =>
    obtain ⟨h1, _, h3⟩ := addGate_gates c type
    simp only [applyCall] at hg ⊢
    rw [h1]
    rcases (h3 g).mp hg with ⟨h4, h5⟩ | h4
    · subst h5
      rw [h4]
      simp
    · exact getElem?_append_of_some _ _ _ _ (h g h4)
  | getGate u =>
    obtain ⟨h1, h2⟩ := getGate_gates c u
    simp only [applyCall] at hg ⊢
    rw [h2] at hg
    rcases h1 with h1 | h1
    · rw [h1]; exact h g hg
    · rw [h1]; exact getElem?_append_of_some _ _ _ _ (h g hg)
  | setGate u type p =>
    obtain ⟨h1, h2⟩ := setGate_gates c u type p
    simp only [applyCall] at hg ⊢
    rw [h1]
    have hlt := getGate_fst_lt c u hc
    rcases (h2 g).mp hg with ⟨h4, h5⟩ | h4
    · rw [h5, List.getElem?_set_self hlt, h4]
    · have hgin := h g h4
      by_cases hid : (getGate c u).1 = g
      · rw [← hid, List.getElem?_set_self hlt]
        cases hl : c.uuid2id.lookup u with
        | some id =>
          rw [getGate_known c u id hl] at hid
          simp only [] at hid
          simp only [keepsInputs, hl, Bool.and_true, decide_eq_true_eq] at hk
          rw [hk (by rw [hid]; exact hgin)]
        | none =>
          rw [getGate_new c u hl] at hid
          simp only [] at hid
          rw [← hid, List.getElem?_eq_none (le_refl _)] at hgin
          simp at hgin
      · rw [List.getElem?_set_ne hid]
        rcases (getGate_gates c u).1 with h3 | h3
        · rw [h3]; exact hgin
        · rw [h3]; exact getElem?_append_of_some _ _ _ _ hgin

theorem keepsInputs_cons (c : Circuit) (x : Call) (rest : List Call)
    (h : keepsInputs c (x :: rest) = true) :
    keepsInputs c [x] = true ∧ keepsInputs (applyCall c x) rest = true := by
  simp only [keepsInputs, Bool.and_eq_true] at h ⊢
  exact ⟨⟨h.1, trivial⟩, h.2⟩

theorem applyCalls_inputs :
    ∀ (calls : List Call) (c : Circuit), TokensConsistent c →
      (∀ g, c.gates[g]? = some gateType.IN → g ∈ c.inputs) →
      (∀ g, (applyCalls c calls).gates[g]? = some gateType.IN → g ∈ (applyCalls c calls).inputs) ∧
      ((∀ g ∈ c.inputs, c.gates[g]? = some gateType.IN) → keepsInputs c calls = true →
        ∀ g ∈ (applyCalls c calls).inputs,
          (applyCalls c calls).gates[g]? = some gateType.IN) := by
  intro calls
  induction calls with
  | nil => intro c _ h1; exact ⟨h1, fun h2 _ => h2⟩
  | cons x rest ih =>
    intro c hc h1
    obtain ⟨i1, i2⟩ := ih (applyCall c x) (applyCall_consistent c x hc)
      (applyCall_inputs_complete c x hc h1)
    refine ⟨i1, fun h2 hk => ?_⟩
    obtain ⟨k1, k2⟩ := keepsInputs_cons c x rest hk
    exact i2 (applyCall_inputs_sound c x hc h2 k1) k2

/-- Claim C24, as amended. After any sequence of `addGate`, `getGate` and
`setGate` calls starting from the empty circuit, every gate whose current
type is INPUT is in the set `inputs`; the set holds only gates whose current
type is INPUT when no call of the sequence gave another type to a gate that
was an INPUT at the time of the call (a gate set to INPUT is never removed
from `inputs`). -/
theorem inputs_after_calls (calls : List Call) :
    (∀ g, (applyCalls empty calls).gates[g]? = some gateType.IN →
        g ∈ (applyCalls empty calls).inputs) ∧
      (keepsInputs empty calls = true →
        ∀ g, g ∈ (applyCalls empty calls).inputs ↔
          (applyCalls empty calls).gates[g]? = some gateType.IN) := by
  obtain ⟨h1, h2⟩ := applyCalls_inputs calls empty (by decide)
    (fun g hg => by simp [empty] at hg)
  refine ⟨h1, fun hk g => ⟨fun hg => ?_, h1 g⟩⟩
  exact h2 (fun g hg => by simp [empty] at hg) hk g hg

theorem inputs_after_calls_witness :
    keepsInputs empty
        [Call.getGate "a", Call.setGate "a" gateType.IN (1 / 2), Call.addGate gateType.AND,
          Call.setGate "b" gateType.IN (1 / 3), Call.setGate "a" gateType.IN (1 / 4)] = true ∧
      ∀ g, g ∈ (applyCalls empty
          [Call.getGate "a", Call.setGate "a" gateType.IN (1 / 2), Call.addGate gateType.AND,
            Call.setGate "b" gateType.IN (1 / 3), Call.setGate "a" gateType.IN (1 / 4)]).inputs ↔
        (applyCalls empty
          [Call.getGate "a", Call.setGate "a" gateType.IN (1 / 2), Call.addGate gateType.AND,
            Call.setGate "b" gateType.IN (1 / 3),
            Call.setGate "a" gateType.IN (1 / 4)]).gates[g]? = some gateType.IN :=
  ⟨by decide, (inputs_after_calls _).2 (by decide)⟩

/-- Claim C24, counterexample. After `setGate("a", IN, 1/2)` followed by
`setGate("a", AND, 1)` on the empty circuit, gate 0 is an AND gate and is
still in `inputs`. -/
theorem inputs_stale_counterexample :
    (applyCalls empty
        [Call.setGate "a" gateType.IN (1 / 2), Call.setGate "a" gateType.AND 1]).gates =
        [gateType.AND] ∧
      (applyCalls empty
        [Call.setGate "a" gateType.IN (1 / 2), Call.setGate "a" gateType.AND 1]).inputs = [0] := by
  decide!

end Circuit

namespace BooleanCircuit

end BooleanCircuit

namespace Shmem

/-! ### The shared-memory store: creation of gates -/

theorem lookup_hashStore_ne (t t' : Nat) (e : provsqlHashEntry) (hne : t' ≠ t) :
    ∀ (h : List (Nat × provsqlHashEntry)), (hashStore h t e).lookup t' = h.lookup t' := by
  intro h
  induction h with
  | nil => rfl
  | cons x rest ih =>
    obtain ⟨k, v⟩ := x
    have hstep : hashStore ((k, v) :: rest) t e =
        (if k = t then (t, e) else (k, v)) :: hashStore rest t e := rfl
    rw [hstep]
    by_cases hk : k = t
    · have hb : (t' == t) = false := by simpa using hne
      have hb2 : (t' == k) = false := by rw [hk]; exact hb
      rw [if_pos hk, List.lookup_cons, hb, List.lookup_cons, hb2]
      exact ih
    · rw [if_neg hk, List.lookup_cons, List.lookup_cons, ih]

theorem mem_hashStore (t : Nat) (e : provsqlHashEntry) :
    ∀ (h : List (Nat × provsqlHashEntry)) (x : Nat × provsqlHashEntry),
      x ∈ hashStore h t e → x ∈ h ∨ x = (t, e) := by
  intro h x hx
  unfold hashStore at hx
  rw [List.mem_map] at hx
  obtain ⟨y, hy, hxy⟩ := hx
  by_cases hk : y.1 = t
  · rw [if_pos hk] at hxy
    exact Or.inr hxy.symm
  · rw [if_neg hk] at hxy
    exact Or.inl (hxy ▸ hy)

theorem lookup_mem_hash (t : Nat) (e : provsqlHashEntry) :
    ∀ (h : List (Nat × provsqlHashEntry)), h.lookup t = some e → (t, e) ∈ h := by
  intro h
  induction h with
  | nil => intro h0; simp [List.lookup] at h0
  | cons x rest ih =>
    intro h0
    obtain ⟨k, v⟩ := x
    rw [List.lookup_cons] at h0
    by_cases hk : t = k
    · subst hk
      simp only [beq_self_eq_true, Option.some.injEq] at h0
      subst h0
      exact List.mem_cons_self _ _
    · have hb : (t == k) = false := by simpa using hk
      rw [hb] at h0
      exact List.mem_cons_of_mem _ (ih h0)

theorem writeWires_length : ∀ (data : List Nat) (wires : List Nat) (idx : Nat),
    (writeWires wires idx data).length = wires.length := by
  intro data
  induction data with
  | nil => intro _ _; rfl
  | cons x rest ih =>
    intro wires idx
    unfold writeWires
    rw [ih, List.length_set]

theorem writeWires_below : ∀ (data : List Nat) (wires : List Nat) (idx j : Nat), j < idx →
    (writeWires wires idx data).getD j 0 = wires.getD j 0 := by
  intro data
  induction data with
  | nil => intro _ _ _ _; rfl
  | cons x rest ih =>
    intro wires idx j hj
    unfold writeWires
    rw [ih _ _ j (by omega), List.getD_eq_getElem?_getD, List.getD_eq_getElem?_getD,
      List.getElem?_set_ne (by omega)]

theorem writeWires_read : ∀ (data : List Nat) (wires : List Nat) (idx i : Nat),
    idx + data.length ≤ wires.length → i < data.length →
    (writeWires wires idx data).getD (idx + i) 0 = data.getD i 0 := by
  intro data
  induction data with
  | nil => intro _ _ i _ hi; simp at hi
  | cons x rest ih =>
    intro wires idx i hlen hi
    unfold writeWires
    simp only [List.length_cons] at hlen hi
    cases i with
    | zero =>
      have hb := writeWires_below rest (wires.set idx x) (idx + 1) idx (by omega)
      show (writeWires (wires.set idx x) (idx + 1) rest).getD idx 0 = x
      rw [hb, List.getD_eq_getElem?_getD, List.getElem?_set_self (by omega)]
      rfl
    | succ i =>
      have := ih (wires.set idx x) (idx + 1) i (by rw [List.length_set]; omega) (by omega)
      rw [show idx + (i + 1) = idx + 1 + i by omega, this]
      rfl

theorem range_map_read (data wires : List Nat) (idx : Nat)
    (hlen : idx + data.length ≤ wires.length) :
    (List.range data.length).map (fun i => (writeWires wires idx data).getD (idx + i) 0) =
      data := by
  apply List.ext_getElem
  · simp
  · intro i h1 h2
    simp only [List.getElem_map, List.getElem_range]
    rw [writeWires_read data wires idx i hlen h2, List.getD_eq_getElem _ _ h2]

theorem childCount_elements (a : CreateCall) (nb : Nat)
    (h : childCount a.children = .ok nb) :
    nb = a.elements.length ∧ childData a.children nb = a.elements := by
  obtain ⟨tok, ty, ch⟩ := a
  unfold childCount at h
  unfold CreateCall.elements childData
  cases ch with
  | none =>
    simp only [Except.ok.injEq] at h
    subst h
    exact ⟨rfl, rfl⟩
  | some arr =>
    simp only [] at h ⊢
    by_cases hd1 : arr.ndim > 1
    · rw [if_pos hd1] at h
      simp at h
    · rw [if_neg hd1] at h
      by_cases hd2 : arr.ndim = 1
      · rw [if_pos hd2] at h
        simp only [Except.ok.injEq] at h
        subst h
        rw [if_pos hd2]
        exact ⟨rfl, List.take_length arr.data⟩
      · rw [if_neg hd2] at h
        simp only [Except.ok.injEq] at h
        subst h
        rw [if_neg hd2]
        exact ⟨rfl, rfl⟩

theorem create_gate_shmem_found (k : GateTypes) (cfg : Settings) (s : Store) (a : CreateCall)
    (e : provsqlHashEntry) (he : s.provsql_hash.lookup a.token = some e) (s1 : Store)
    (hok : create_gate_shmem k cfg s (some a.token) (some a.type) a.children = (.ok (), s1)) :
    s1 = s := by
  unfold create_gate_shmem hashEnter at hok
  simp only [he] at hok
  cases hc : childCount a.children with
  | error x =>
    rw [hc] at hok
    simp at hok
  | ok nb =>
    rw [hc] at hok
    simp only [] at hok
    split_ifs at hok
    · simp at hok
    · simp only [Prod.mk.injEq, true_and] at hok
      exact hok.symm

theorem create_gate_shmem_new (k : GateTypes) (cfg : Settings) (s : Store) (a : CreateCall)
    (hnew : s.provsql_hash.lookup a.token = none) (s1 : Store)
    (hok : create_gate_shmem k cfg s (some a.token) (some a.type) a.children = (.ok (), s1)) :
    findGateType a.type cfg.GATE_TYPE_TO_OID 0 ≠ -1 ∧
      s.provsql_shared_state.nb_wires + a.elements.length ≤
        s.provsql_shared_state.wires.length ∧
      s1 = { provsql_shared_state :=
              { nb_wires := s.provsql_shared_state.nb_wires + a.elements.length,
                wires := writeWires s.provsql_shared_state.wires
                  s.provsql_shared_state.nb_wires a.elements },
             provsql_hash :=
              (a.token, newEntry k (findGateType a.type cfg.GATE_TYPE_TO_OID 0)
                  a.elements.length s.provsql_shared_state.nb_wires) ::
                hashStore s.provsql_hash a.token
                  (newEntry k (findGateType a.type cfg.GATE_TYPE_TO_OID 0)
                    a.elements.length s.provsql_shared_state.nb_wires) } := by
  unfold create_gate_shmem hashEnter at hok
  simp only [hnew] at hok
  cases hc : childCount a.children with
  | error x =>
    rw [hc] at hok
    simp at hok
  | ok nb =>
    rw [hc] at hok
    obtain ⟨hnb, hdata⟩ := childCount_elements a nb hc
    simp only [] at hok
    by_cases h0 : nb ≠ 0 ∧ s.provsql_shared_state.nb_wires + nb >
        cfg.provsql_max_nb_gates * cfg.provsql_avg_nb_wires
    · rw [if_pos h0] at hok
      simp at hok
    · rw [if_neg h0] at hok
      simp only [Bool.false_eq_true, if_false] at hok
      by_cases h1 : findGateType a.type cfg.GATE_TYPE_TO_OID 0 = -1
      · rw [if_pos h1] at hok
        simp at hok
      · rw [if_neg h1] at hok
        by_cases h2 : s.provsql_shared_state.nb_wires + nb >
            s.provsql_shared_state.wires.length
        · rw [if_pos h2] at hok
          simp at hok
        · rw [if_neg h2] at hok
          simp only [Prod.mk.injEq, true_and] at hok
          rw [hdata, hnb] at hok
          refine ⟨h1, by rw [← hnb]; omega, ?_⟩
          rw [← hok]
          simp [hashStore]

theorem create_gate_shmem_step (k : GateTypes) (cfg : Settings) (s s1 : Store) (a : CreateCall)
    (hinv : StoreInv cfg s)
    (hok : create_gate_shmem k cfg s (some a.token) (some a.type) a.children = (.ok (), s1)) :
    StoreInv cfg s1 ∧
      (∀ t e, s.provsql_hash.lookup t = some e →
        s1.provsql_hash.lookup t = some e ∧
          get_children_shmem s1 (some t) = get_children_shmem s (some t)) ∧
      (s.provsql_hash.lookup a.token = none →
        (s1.provsql_hash.lookup a.token).isSome ∧
          get_children_shmem s1 (some a.token) = some a.elements) := by
  cases hl : s.provsql_hash.lookup a.token with
  | some e =>
    have := create_gate_shmem_found k cfg s a e hl s1 hok
    subst this
    exact ⟨hinv, fun t e' h => ⟨h, rfl⟩, fun h => by simp at h⟩
  | none =>
    obtain ⟨hty, hfit, hs1⟩ := create_gate_shmem_new k cfg s a hl s1 hok
    obtain ⟨i1, i2, i3⟩ := hinv
    subst hs1
    refine ⟨⟨?_, ?_, ?_⟩, ?_, ?_⟩
    · simp only []
      rw [writeWires_length]
      exact i1
    · simp only []
      rw [writeWires_length]
      exact hfit
    · intro x hx
      simp only [] at hx ⊢
      rcases List.mem_cons.mp hx with h | h
      · subst h
        simp [newEntry]
      · rcases mem_hashStore _ _ _ _ h with h' | h'
        · have := i3 x h'
          omega
        · subst h'
          simp [newEntry]
    · intro t e he
      have hne : t ≠ a.token := by
        intro h
        rw [h, hl] at he
        simp at he
      have hlook : List.lookup t ((a.token, newEntry k (findGateType a.type
          cfg.GATE_TYPE_TO_OID 0) a.elements.length s.provsql_shared_state.nb_wires) ::
          hashStore s.provsql_hash a.token (newEntry k (findGateType a.type
            cfg.GATE_TYPE_TO_OID 0) a.elements.length s.provsql_shared_state.nb_wires)) =
          some e := by
        have hb : (t == a.token) = false := by simpa using hne
        rw [List.lookup_cons, hb, lookup_hashStore_ne _ _ _ hne, he]
      refine ⟨hlook, ?_⟩
      unfold get_children_shmem
      simp only [hlook, he]
      congr 1
      apply List.map_congr_left
      intro i hi
      have hmem := i3 (t, e) (lookup_mem_hash t e _ he)
      simp only [] at hmem
      exact writeWires_below _ _ _ _ (by have := List.mem_range.mp hi; omega)
    · intro _
      have hlook : List.lookup a.token ((a.token, newEntry k (findGateType a.type
          cfg.GATE_TYPE_TO_OID 0) a.elements.length s.provsql_shared_state.nb_wires) ::
          hashStore s.provsql_hash a.token (newEntry k (findGateType a.type
            cfg.GATE_TYPE_TO_OID 0) a.elements.length s.provsql_shared_state.nb_wires)) =
          some (newEntry k (findGateType a.type cfg.GATE_TYPE_TO_OID 0) a.elements.length
            s.provsql_shared_state.nb_wires) := by
        simp [List.lookup]
      refine ⟨by simp only [hlook]; rfl, ?_⟩
      unfold get_children_shmem
      simp only [hlook]
      congr 1
      exact range_map_read a.elements _ _ hfit

theorem createAll_cons (k : GateTypes) (cfg : Settings) (a : CreateCall) (rest : List CreateCall)
    (s s' : Store) (h : createAll k cfg (a :: rest) s = some s') :
    ∃ s1, create_gate_shmem k cfg s (some a.token) (some a.type) a.children = (.ok (), s1) ∧
      createAll k cfg rest s1 = some s' := by
  unfold createAll at h
  generalize hr : create_gate_shmem k cfg s (some a.token) (some a.type) a.children = r at h
  obtain ⟨res, s1⟩ := r
  cases res with
  | error x => simp at h
  | ok u => exact ⟨s1, rfl, h⟩

theorem createAll_preserves (k : GateTypes) (cfg : Settings) :
    ∀ (calls : List CreateCall) (s s' : Store), StoreInv cfg s →
      createAll k cfg calls s = some s' →
      StoreInv cfg s' ∧
        ∀ t e, s.provsql_hash.lookup t = some e →
          s'.provsql_hash.lookup t = some e ∧
            get_children_shmem s' (some t) = get_children_shmem s (some t) := by
  intro calls
  induction calls with
  | nil =>
    intro s s' hinv h
    simp only [createAll, Option.some.injEq] at h
    subst h
    exact ⟨hinv, fun t e he => ⟨he, rfl⟩⟩
  | cons a rest ih =>
    intro s s' hinv h
    obtain ⟨s1, h1, h2⟩ := createAll_cons k cfg a rest s s' h
    obtain ⟨j1, j2, _⟩ := create_gate_shmem_step k cfg s s1 a hinv h1
    obtain ⟨i1, i2⟩ := ih s1 s' j1 h2
    refine ⟨i1, fun t e he => ?_⟩
    obtain ⟨e1, c1⟩ := j2 t e he
    obtain ⟨e2, c2⟩ := i2 t e e1
    exact ⟨e2, by rw [c2, c1]⟩

theorem createAll_append (k : GateTypes) (cfg : Settings) :
    ∀ (pre post : List CreateCall) (s s' : Store),
      createAll k cfg (pre ++ post) s = some s' →
      ∃ s1, createAll k cfg pre s = some s1 ∧ createAll k cfg post s1 = some s' := by
  intro pre
  induction pre with
  | nil => intro post s s' h; exact ⟨s, rfl, h⟩
  | cons a rest ih =>
    intro post s s' h
    rw [List.cons_append] at h
    obtain ⟨s1, h1, h2⟩ := createAll_cons k cfg a (rest ++ post) s s' h
    obtain ⟨s2, h3, h4⟩ := ih post s1 s' h2
    refine ⟨s2, ?_, h4⟩
    unfold createAll
    rw [h1]
    exact h3

theorem createAll_absent (k : GateTypes) (cfg : Settings) (t : Nat) :
    ∀ (pre : List CreateCall) (s s' : Store), StoreInv cfg s →
      s.provsql_hash.lookup t = none → (∀ b ∈ pre, b.token ≠ t) →
      createAll k cfg pre s = some s' → s'.provsql_hash.lookup t = none := by
  intro pre
  induction pre with
  | nil =>
    intro s s' _ hl _ h
    simp only [createAll, Option.some.injEq] at h
    subst h
    exact hl
  | cons a rest ih =>
    intro s s' hinv hl hpre h
    obtain ⟨s1, h1, h2⟩ := createAll_cons k cfg a rest s s' h
    have hne : t ≠ a.token := fun hh => hpre a (List.mem_cons_self _ _) hh.symm
    have hl1 : s1.provsql_hash.lookup t = none := by
      cases hla : s.provsql_hash.lookup a.token with
      | some e =>
        rw [create_gate_shmem_found k cfg s a e hla s1 h1]
        exact hl
      | none =>
        obtain ⟨_, _, hs1⟩ := create_gate_shmem_new k cfg s a hla s1 h1
        subst hs1
        have hb : (t == a.token) = false := by simpa using hne
        simp only []
        rw [List.lookup_cons, hb, lookup_hashStore_ne _ _ _ hne, hl]
    exact ih s1 s' (create_gate_shmem_step k cfg s s1 a hinv h1).1 hl1
      (fun b hb => hpre b (List.mem_cons_of_mem _ hb)) h2

/-- Claim C25. In a sequence of successful calls of `create_gate_shmem`,
started from a store whose array of wires has the size reserved for it, let a
call be the first one on its token `t` (no entry of `t` before it). Then at
the end of the sequence `get_children_shmem(t)` returns exactly the elements
given in that call, in the same order, and the entry of `t` (type, position
and number of children, probability, infos) is the one that call made:
neither the creation of other gates nor a further call on `t`, with whatever
type and children, changes it. -/
theorem create_gate_shmem_first_wins (k : GateTypes) (cfg : Settings)
    (pre post : List CreateCall) (a : CreateCall) (s0 s : Store) (hinv : StoreInv cfg s0)
    (hnew : s0.provsql_hash.lookup a.token = none) (hpre : ∀ b ∈ pre, b.token ≠ a.token)
    (hrun : createAll k cfg (pre ++ a :: post) s0 = some s) :
    get_children_shmem s (some a.token) = some a.elements ∧
      ∃ s1 s2 e, createAll k cfg pre s0 = some s1 ∧
        create_gate_shmem k cfg s1 (some a.token) (some a.type) a.children = (.ok (), s2) ∧
        createAll k cfg post s2 = some s ∧
        s2.provsql_hash.lookup a.token = some e ∧ s.provsql_hash.lookup a.token = some e ∧
        e.type = findGateType a.type cfg.GATE_TYPE_TO_OID 0 ∧ e.info1 = 0 ∧ e.info2 = 0 := by
  obtain ⟨s1, h1, h2⟩ := createAll_append k cfg pre (a :: post) s0 s hrun
  obtain ⟨s2, h3, h4⟩ := createAll_cons k cfg a post s1 s h2
  obtain ⟨inv1, _⟩ := createAll_preserves k cfg pre s0 s1 hinv h1
  have hl1 := createAll_absent k cfg a.token pre s0 s1 hinv hnew hpre h1
  obtain ⟨inv2, _, hcreated⟩ := create_gate_shmem_step k cfg s1 s2 a inv1 h3
  obtain ⟨hsome, hch⟩ := hcreated hl1
  obtain ⟨e, he⟩ := Option.isSome_iff_exists.mp hsome
  obtain ⟨_, hkeep⟩ := createAll_preserves k cfg post s2 s inv2 h4
  obtain ⟨hfin, hchfin⟩ := hkeep a.token e he
  refine ⟨by rw [hchfin, hch], s1, s2, e, h1, h3, h4, he, hfin, ?_⟩
  obtain ⟨_, _, hs2⟩ := create_gate_shmem_new k cfg s1 a hl1 s2 h3
  subst hs2
  simp only [List.lookup_cons, beq_self_eq_true, Option.some.injEq] at he
  subst he
  exact ⟨rfl, rfl, rfl⟩

theorem create_gate_shmem_first_wins_witness :
    get_children_shmem
        ((createAll sampleTypes sampleSettings
          ([⟨1, 100, none⟩] ++ ⟨2, 101, some ⟨1, [1, 1]⟩⟩ ::
            [⟨3, 102, some ⟨1, [2]⟩⟩, ⟨2, 100, some ⟨1, [3, 3, 3]⟩⟩]) emptyStore).getD emptyStore)
        (some 2) = some [1, 1] ∧
      get_children_shmem
        ((createAll sampleTypes sampleSettings
          ([⟨1, 100, none⟩] ++ ⟨2, 101, some ⟨1, [1, 1]⟩⟩ ::
            [⟨3, 102, some ⟨1, [2]⟩⟩, ⟨2, 100, some ⟨1, [3, 3, 3]⟩⟩]) emptyStore).getD emptyStore)
        (some 2) = some (CreateCall.elements ⟨2, 101, some ⟨1, [1, 1]⟩⟩) :=
  ⟨by decide,
    (create_gate_shmem_first_wins sampleTypes sampleSettings [⟨1, 100, none⟩]
      [⟨3, 102, some ⟨1, [2]⟩⟩, ⟨2, 100, some ⟨1, [3, 3, 3]⟩⟩] ⟨2, 101, some ⟨1, [1, 1]⟩⟩
      emptyStore _ (by decide) (by decide) (by decide) (by decide)).1⟩

end Shmem

namespace BooleanCircuit

/-! ### Rewriting of the multivalued inputs: the gates allocated -/

theorem set_append_length {α : Type} (l : List α) (a b : α) :
    (l ++ [a]).set l.length b = l ++ [b] := by
  induction l with
  | nil => rfl
  | cons x rest ih => simp [List.set, ih]

theorem setGateP_in_eq (c : BooleanCircuit) (p : ℚ) (hp : c.prob.length = c.gates.length) :
    (setGateP c BooleanGate.IN p).2 =
      { c with gates := c.gates ++ [BooleanGate.IN], wires := c.wires ++ [[]],
               prob := c.prob ++ [p],
               inputs := setInsert c.gates.length c.inputs } := by
  unfold setGateP setGate baseSetGate addGate baseAddGate setProb
  simp only [if_true]
  rw [set_append_length]
  rw [← hp, set_append_length, set_append_length]

theorem setGate_not_eq (c : BooleanCircuit) :
    (setGate c BooleanGate.NOT).2 =
      { c with gates := c.gates ++ [BooleanGate.NOT], wires := c.wires ++ [[]],
               prob := c.prob ++ [1] } := by
  unfold setGate baseSetGate addGate baseAddGate
  simp only [show (BooleanGate.NOT = BooleanGate.IN) = False by simp,
    show (BooleanGate.NOT = BooleanGate.MULIN) = False by simp, if_false]
  rw [set_append_length]

theorem getWires_append_left (c : BooleanCircuit) (w : List (List Nat)) (ext : List (List Nat))
    (j : Nat) (hw : c.wires = w ++ ext) (hj : j < w.length) : c.getWires j = w.getD j [] := by
  unfold getWires
  rw [hw, List.getD_eq_getElem?_getD, List.getD_eq_getElem?_getD,
    List.getElem?_append_left hj]

theorem literalIn_transport (c3 c4 : BooleanCircuit) (lo hi lo' hi' j : Nat)
    (h : LiteralIn c3 lo hi j) (hlo : lo' ≤ lo) (hhi : hi ≤ hi')
    (hg : ∀ x, lo ≤ x → x < hi → c4.gates[x]? = c3.gates[x]?)
    (hw : ∀ x, lo ≤ x → x < hi → c4.getWires x = c3.getWires x) :
    LiteralIn c4 lo' hi' j := by
  obtain ⟨h1, h2, h3⟩ := h
  refine ⟨by omega, by omega, ?_⟩
  rcases h3 with h3 | ⟨h3, g, g1, g2, g3, g4⟩
  · exact Or.inl (by rw [hg j h1 h2]; exact h3)
  · refine Or.inr ⟨by rw [hg j h1 h2]; exact h3, g, by omega, by omega, ?_, ?_⟩
    · rw [hw j h1 h2]; exact g3
    · rw [hg g g1 g2]; exact g4

theorem eq_append_drop (W A Y : List Nat) (h : W = A ++ Y) : W = A ++ W.drop A.length := by
  rw [h, List.drop_left]

theorem withSplit_eq (c : BooleanCircuit) (p : ℚ) (hsz : c.wires.length = c.gates.length)
    (hpz : c.prob.length = c.gates.length) :
    ∀ (r1 r2 : Nat × BooleanCircuit), r1 = setGateP c BooleanGate.IN p →
      r2 = setGate r1.2 BooleanGate.NOT →
      ({ r2.2 with wires := r2.2.wires.set r2.1 (r2.2.getWires r2.1 ++ [r1.1]) } :
        BooleanCircuit) = withSplit c p := by
  intro r1 r2 h1 h2
  subst h1
  subst h2
  simp only []
  rw [setGate_fst, setGateP_gates_length, setGateP_fst, setGate_not_eq,
    setGateP_in_eq c p hpz]
  unfold withSplit getWires
  simp only [List.append_assoc, List.singleton_append]
  congr 1
  have h1 : (c.wires ++ [[], []]).getD (c.gates.length + 1) [] = [] := by
    rw [List.getD_eq_getElem?_getD, List.getElem?_append_right (by omega)]
    simp [hsz]
  rw [h1, ← hsz]
  have h2 : c.wires ++ [[], []] = (c.wires ++ [[]]) ++ [[]] := by simp
  have h3 : c.wires ++ [[], [c.wires.length]] = (c.wires ++ [[]]) ++ [[c.wires.length]] := by
    simp
  rw [h2, h3]
  have h4 := set_append_length (c.wires ++ [[]]) [] ([] ++ [c.wires.length])
  simp only [List.length_append, List.length_singleton] at h4
  exact h4

theorem rewriteMultivaluedGatesRec_unfold (muls : List Nat) (cumulated_probs : List ℚ)
    (fuel start stop : Nat) (pfx : List Nat) (c : BooleanCircuit)
    (hsz : c.wires.length = c.gates.length) (hpz : c.prob.length = c.gates.length)
    (hne : start ≠ stop) :
    rewriteMultivaluedGatesRec muls cumulated_probs (fuel + 1) start stop pfx c =
      match rewriteMultivaluedGatesRec muls cumulated_probs fuel start ((start + stop) / 2)
          (pfx ++ [c.gates.length])
          (withSplit c ((cumulated_probs.getD ((start + stop) / 2 + 1) 0 -
            cumulated_probs.getD start 0) /
            (cumulated_probs.getD stop 0 - cumulated_probs.getD start 0))) with
      | .error x => .error x
      | .ok r3 =>
        match rewriteMultivaluedGatesRec muls cumulated_probs fuel ((start + stop) / 2 + 1) stop
            (r3.1.dropLast ++ [c.gates.length + 1]) r3.2 with
        | .error x => .error x
        | .ok r4 => .ok (r4.1.dropLast, r4.2) := by
  conv_lhs => unfold rewriteMultivaluedGatesRec
  rw [if_neg hne]
  simp only []
  generalize (cumulated_probs.getD ((start + stop) / 2 + 1) 0 -
    cumulated_probs.getD start 0) /
    (cumulated_probs.getD stop 0 - cumulated_probs.getD start 0) = p
  have hsplit := withSplit_eq c p hsz hpz (setGateP c BooleanGate.IN p)
    (setGate (setGateP c BooleanGate.IN p).2 BooleanGate.NOT) rfl rfl
  simp only [] at hsplit
  rw [hsplit, setGate_fst, setGateP_gates_length, setGateP_fst]

theorem rewriteMultivaluedGatesRec_spec (muls : List Nat) (cumulated_probs : List ℚ) :
    ∀ (fuel start stop : Nat) (pfx : List Nat) (c : BooleanCircuit),
      c.wires.length = c.gates.length → c.prob.length = c.gates.length → start ≤ stop →
      (∀ i, start ≤ i → i ≤ stop → muls.getD i 0 < c.gates.length) →
      (∀ i i', start ≤ i → i ≤ stop → start ≤ i' → i' ≤ stop →
        muls.getD i 0 = muls.getD i' 0 → i = i') →
      Nat.clog 2 (stop - start + 1) + 1 ≤ fuel →
      ∃ c', rewriteMultivaluedGatesRec muls cumulated_probs fuel start stop pfx c = .ok (pfx, c') ∧
        c'.wires.length = c'.gates.length ∧ c'.prob.length = c'.gates.length ∧
        (∃ eg, c'.gates = c.gates ++ eg) ∧ (∃ ep, c'.prob = c.prob ++ ep) ∧
        c'.mulinputs = c.mulinputs ∧
        (∀ j, j < c.gates.length → (∀ i, start ≤ i → i ≤ stop → muls.getD i 0 ≠ j) →
          c'.getWires j = c.getWires j) ∧
        (∀ i, start ≤ i → i ≤ stop →
          c'.getWires (muls.getD i 0) =
            pfx ++ (c'.getWires (muls.getD i 0)).drop pfx.length) ∧
        (∀ j, c.gates.length ≤ j → j < c'.gates.length →
          LiteralIn c' c.gates.length c'.gates.length j) ∧
        SelectsOne c' muls start stop pfx.length c.gates.length c'.gates.length := by
  intro fuel
  induction fuel with
  | zero => intro start stop pfx c _ _ _ _ _ hf; omega
  | succ fuel ih =>
    intro start stop pfx c hsz hpz hle hmul hinj hf
    by_cases heq : start = stop
    · subst heq
      unfold rewriteMultivaluedGatesRec
      rw [if_pos rfl]
      have hW : ({ c with wires := c.wires.set (muls.getD start 0) pfx } :
          BooleanCircuit).getWires (muls.getD start 0) = pfx := by
        unfold getWires
        exact Circuit.getD_set_self _ _ _ (by rw [hsz]; exact hmul start (le_refl _) (le_refl _))
      refine ⟨_, rfl, by simpa using hsz, hpz, ⟨[], by simp⟩, ⟨[], by simp⟩, rfl, ?_, ?_, ?_, ?_⟩
      · intro j _ hj
        have hne : muls.getD start 0 ≠ j := hj start (le_refl _) (le_refl _)
        unfold getWires
        exact Circuit.getD_set_ne _ _ _ _ hne
      · intro i h1 h2
        have hi : i = start := by omega
        subst hi
        rw [hW]
        simp
      · intro j h1 h2
        simp only [] at h2
        omega
      · unfold SelectsOne
        refine ⟨fun i h1 h2 w hw => ?_, fun b _ => ⟨start, le_refl _, le_refl _, ?_, ?_⟩⟩
        · have hi : i = start := by omega
          subst hi
          rw [hW] at hw
          simp at hw
        · rw [hW]
          simp
        · intro i h1 h2 _
          omega
    · rw [rewriteMultivaluedGatesRec_unfold muls cumulated_probs fuel start stop pfx c hsz hpz heq]
      have hlt : start < stop := by omega
      obtain ⟨hc1, hc2⟩ := clog_half start stop hlt
      generalize (cumulated_probs.getD ((start + stop) / 2 + 1) 0 -
        cumulated_probs.getD start 0) /
        (cumulated_probs.getD stop 0 - cumulated_probs.getD start 0) = p
      -- the circuit with the two gates of this step
      have h2g : (withSplit c p).gates = c.gates ++ [BooleanGate.IN, BooleanGate.NOT] := rfl
      have h2w : (withSplit c p).wires = c.wires ++ [[], [c.gates.length]] := rfl
      have h2p : (withSplit c p).prob = c.prob ++ [p, 1] := rfl
      have h2gl : (withSplit c p).gates.length = c.gates.length + 2 := by rw [h2g]; simp
      have h2sz : (withSplit c p).wires.length = (withSplit c p).gates.length := by
        rw [h2w, h2g]; simp [hsz]
      have h2pz : (withSplit c p).prob.length = (withSplit c p).gates.length := by
        rw [h2p, h2g]; simp [hpz]
      have h2frame : ∀ j, j < c.gates.length → (withSplit c p).getWires j = c.getWires j := by
        intro j hj
        exact getWires_append_left _ c.wires _ j h2w (by omega)
      have h2in : (withSplit c p).gates[c.gates.length]? = some BooleanGate.IN := by
        rw [h2g, List.getElem?_append_right (le_refl _)]
        simp
      have h2not : (withSplit c p).gates[c.gates.length + 1]? = some BooleanGate.NOT := by
        rw [h2g, List.getElem?_append_right (by omega)]
        simp
      have h2nw : (withSplit c p).getWires (c.gates.length + 1) = [c.gates.length] := by
        unfold getWires
        rw [h2w, List.getD_eq_getElem?_getD, List.getElem?_append_right (by omega)]
        simp [hsz]
      -- left half
      obtain ⟨c3, hr3, h3sz, h3pz, ⟨e3, h3g⟩, ⟨ep3, h3p⟩, h3m, h3frame, h3pfx, h3lit, h3sel⟩ :=
        ih start ((start + stop) / 2) (pfx ++ [c.gates.length]) (withSplit c p) h2sz h2pz
          (by omega) (fun i h1 h2 => by have := hmul i h1 (by omega); omega)
          (fun i i' a1 a2 a3 a4 => hinj i i' a1 (by omega) a3 (by omega)) (by omega)
      rw [hr3]
      simp only [List.dropLast_concat]
      have h3gl : c.gates.length + 2 ≤ c3.gates.length := by
        rw [h3g, List.length_append, h2gl]; omega
      -- right half
      obtain ⟨c4, hr4, h4sz, h4pz, ⟨e4, h4g⟩, ⟨ep4, h4p⟩, h4m, h4frame, h4pfx, h4lit, h4sel⟩ :=
        ih ((start + stop) / 2 + 1) stop (pfx ++ [c.gates.length + 1]) c3 h3sz h3pz (by omega)
          (fun i h1 h2 => by have := hmul i (by omega) h2; omega)
          (fun i i' a1 a2 a3 a4 => hinj i i' (by omega) a2 (by omega) a4) (by omega)
      rw [hr4]
      simp only [List.dropLast_concat]
      have h4gl : c3.gates.length ≤ c4.gates.length := by
        rw [h4g, List.length_append]; omega
      -- agreement of the circuits on the gates allocated so far
      have hg43 : ∀ x, x < c3.gates.length → c4.gates[x]? = c3.gates[x]? := by
        intro x hx
        rw [h4g, List.getElem?_append_left hx]
      have hg32 : ∀ x, x < c.gates.length + 2 → c3.gates[x]? = (withSplit c p).gates[x]? := by
        intro x hx
        rw [h3g, List.getElem?_append_left (by rw [h2gl]; exact hx)]
      have hnotmul : ∀ x, c.gates.length ≤ x → ∀ i, start ≤ i → i ≤ stop →
          muls.getD i 0 ≠ x := by
        intro x hx i h1 h2 he
        have := hmul i h1 h2
        omega
      have hw43 : ∀ x, c.gates.length ≤ x → x < c3.gates.length →
          c4.getWires x = c3.getWires x :=
        fun x h1 h2 => h4frame x h2 (fun i a1 a2 => hnotmul x h1 i (by omega) a2)
      have hw32 : ∀ x, c.gates.length ≤ x → x < c.gates.length + 2 →
          c3.getWires x = (withSplit c p).getWires x :=
        fun x h1 h2 => h3frame x (by rw [h2gl]; exact h2)
          (fun i a1 a2 => hnotmul x h1 i a1 (by omega))
      have h4in : c4.gates[c.gates.length]? = some BooleanGate.IN := by
        rw [hg43 _ (by omega), hg32 _ (by omega), h2in]
      have h4not : c4.gates[c.gates.length + 1]? = some BooleanGate.NOT := by
        rw [hg43 _ (by omega), hg32 _ (by omega), h2not]
      have h4nw : c4.getWires (c.gates.length + 1) = [c.gates.length] := by
        rw [hw43 _ (by omega) (by omega), hw32 _ (by omega) (by omega), h2nw]
      -- the children of the alternatives
      have hleft : ∀ i, start ≤ i → i ≤ (start + stop) / 2 →
          c4.getWires (muls.getD i 0) = c3.getWires (muls.getD i 0) := by
        intro i h1 h2
        refine h4frame _ (by have := hmul i h1 (by omega); omega) (fun i' a1 a2 he => ?_)
        have := hinj i' i (by omega) a2 h1 (by omega) he
        omega
      have hWl : ∀ i, start ≤ i → i ≤ (start + stop) / 2 →
          c4.getWires (muls.getD i 0) =
            pfx ++ c.gates.length :: (c3.getWires (muls.getD i 0)).drop (pfx.length + 1) := by
        intro i h1 h2
        rw [hleft i h1 h2]
        have := h3pfx i h1 h2
        simp only [List.length_append, List.length_singleton, List.append_assoc,
          List.singleton_append] at this
        exact this
      have hWr : ∀ i, (start + stop) / 2 + 1 ≤ i → i ≤ stop →
          c4.getWires (muls.getD i 0) =
            pfx ++ (c.gates.length + 1) ::
              (c4.getWires (muls.getD i 0)).drop (pfx.length + 1) := by
        intro i h1 h2
        have := h4pfx i h1 h2
        simp only [List.length_append, List.length_singleton, List.append_assoc,
          List.singleton_append] at this
        exact this
      have hDl : ∀ i, start ≤ i → i ≤ (start + stop) / 2 →
          (c4.getWires (muls.getD i 0)).drop pfx.length =
            c.gates.length :: (c3.getWires (muls.getD i 0)).drop (pfx.length + 1) := by
        intro i h1 h2
        rw [hWl i h1 h2, List.drop_left]
      have hDr : ∀ i, (start + stop) / 2 + 1 ≤ i → i ≤ stop →
          (c4.getWires (muls.getD i 0)).drop pfx.length =
            (c.gates.length + 1) :: (c4.getWires (muls.getD i 0)).drop (pfx.length + 1) := by
        intro i h1 h2
        conv_lhs => rw [hWr i h1 h2]
        rw [List.drop_left]
      refine ⟨c4, rfl, h4sz, h4pz, ⟨[BooleanGate.IN, BooleanGate.NOT] ++ e3 ++ e4, ?_⟩,
        ⟨[p, 1] ++ ep3 ++ ep4, ?_⟩, by rw [h4m, h3m]; rfl, ?_, ?_, ?_, ?_⟩
      · rw [h4g, h3g, h2g]; simp
      · rw [h4p, h3p, h2p]; simp
      · intro j hj hnot
        rw [h4frame j (by omega) (fun i h1 h2 => hnot i (by omega) h2),
          h3frame j (by rw [h2gl]; omega) (fun i h1 h2 => hnot i h1 (by omega)), h2frame j hj]
      · intro i h1 h2
        by_cases hi : i ≤ (start + stop) / 2
        · conv_lhs => rw [hWl i h1 hi]
          rw [hDl i h1 hi]
        · conv_lhs => rw [hWr i (by omega) h2]
          rw [hDr i (by omega) h2]
      · intro j h1 h2
        by_cases hj0 : j = c.gates.length
        · subst hj0
          exact ⟨le_refl _, h2, Or.inl h4in⟩
        · by_cases hj1 : j = c.gates.length + 1
          · subst hj1
            exact ⟨h1, h2, Or.inr ⟨h4not, c.gates.length, le_refl _, by omega, h4nw, h4in⟩⟩
          · by_cases hj3 : j < c3.gates.length
            · have hl3 := h3lit j (by rw [h2gl]; omega) hj3
              rw [h2gl] at hl3
              exact literalIn_transport c3 c4 _ _ _ _ j hl3 (by omega) h4gl
                (fun x a1 a2 => hg43 x a2) (fun x a1 a2 => hw43 x (by omega) a2)
            · have hl4 := h4lit j (by omega) h2
              exact literalIn_transport c4 c4 _ _ _ _ j hl4 (by omega) (le_refl _)
                (fun x _ _ => rfl) (fun x _ _ => rfl)
      · obtain ⟨h3r, h3u⟩ := h3sel
        obtain ⟨h4r, h4u⟩ := h4sel
        rw [h2gl] at h3r h3u
        unfold SelectsOne
        refine ⟨fun i h1 h2 w hw => ?_, fun b hb => ?_⟩
        · by_cases hi : i ≤ (start + stop) / 2
          · rw [hDl i h1 hi] at hw
            rcases List.mem_cons.mp hw with h | h
            · omega
            · have := h3r i h1 hi w (by
                simp only [List.length_append, List.length_singleton]
                exact h)
              omega
          · rw [hDr i (by omega) h2] at hw
            rcases List.mem_cons.mp hw with h | h
            · omega
            · have := h4r i (by omega) h2 w (by
                simp only [List.length_append, List.length_singleton]
                exact h)
              omega
        · have hneg : b (c.gates.length + 1) = !b c.gates.length :=
            hb (c.gates.length + 1) c.gates.length [] (by omega) (by omega) h4not h4nw
          have hb3 : NegatesIn c3 (c.gates.length + 2) c3.gates.length b := by
            intro j g rest a1 a2 a3 a4
            exact hb j g rest (by omega) (by omega) (by rw [hg43 j a2]; exact a3)
              (by rw [hw43 j (by omega) a2]; exact a4)
          have hb4 : NegatesIn c4 c3.gates.length c4.gates.length b := by
            intro j g rest a1 a2 a3 a4
            exact hb j g rest (by omega) a2 a3 a4
          obtain ⟨iL, l1, l2, l3, l4⟩ := h3u b hb3
          obtain ⟨iR, r1, r2, r3, r4⟩ := h4u b hb4
          simp only [List.length_append, List.length_singleton] at l3 l4 r3 r4
          cases hbg : b c.gates.length with
          | true =>
            refine ⟨iL, l1, by omega, ?_, fun i h1 h2 hall => ?_⟩
            · rw [hDl iL l1 l2, List.all_cons, hbg, l3]
              rfl
            · by_cases hi : i ≤ (start + stop) / 2
              · rw [hDl i h1 hi, List.all_cons, hbg] at hall
                exact l4 i h1 hi (by simpa using hall)
              · rw [hDr i (by omega) h2, List.all_cons, hneg, hbg] at hall
                simp at hall
          | false =>
            refine ⟨iR, by omega, r2, ?_, fun i h1 h2 hall => ?_⟩
            · rw [hDr iR r1 r2, List.all_cons, hneg, hbg, r3]
              rfl
            · by_cases hi : i ≤ (start + stop) / 2
              · rw [hDl i h1 hi, List.all_cons, hbg] at hall
                simp at hall
              · rw [hDr i (by omega) h2, List.all_cons, hneg, hbg] at hall
                exact r4 i (by omega) h2 (by simpa using hall)

theorem rewriteCumulate_spec :
    ∀ (muls : List Nat) (cp : ℚ) (cps : List ℚ) (c : BooleanCircuit),
      (rewriteCumulate muls cp cps c).2.prob = c.prob ∧
      (rewriteCumulate muls cp cps c).2.mulinputs = c.mulinputs ∧
      (∀ j, j ∉ muls → (rewriteCumulate muls cp cps c).2.gates[j]? = c.gates[j]?) ∧
      (∀ m ∈ muls, m < c.gates.length →
        (rewriteCumulate muls cp cps c).2.gates[m]? = some BooleanGate.AND) ∧
      (rewriteCumulate muls cp cps c).1.length = cps.length + muls.length ∧
      (muls ≠ [] → (rewriteCumulate muls cp cps c).1.getD (cps.length + muls.length - 1) 0 =
        cp + (muls.map c.getProb).sum) := by
  intro muls
  induction muls with
  | nil => intro cp cps c; exact ⟨rfl, rfl, fun _ _ => rfl, fun m hm => by simp at hm, rfl,
      fun h => absurd rfl h⟩
  | cons m rest ih =>
    intro cp cps c
    unfold rewriteCumulate
    obtain ⟨h1, h2, h3, h4, h5, h6⟩ := ih (cp + c.getProb m) (cps ++ [cp + c.getProb m])
      { c with gates := c.gates.set m BooleanGate.AND, wires := c.wires.set m [] }
    simp only [] at h1 h2 h3 h4 h5 h6 ⊢
    refine ⟨h1, h2, fun j hj => ?_, fun m0 hm0 hlt => ?_, ?_, fun _ => ?_⟩
    · rw [h3 j (fun h => hj (List.mem_cons_of_mem _ h)),
        List.getElem?_set_ne (fun h => hj (by rw [h]; exact List.mem_cons_self _ _))]
    · by_cases hr : m0 ∈ rest
      · exact h4 m0 hr (by rw [List.length_set]; exact hlt)
      · have hm : m0 = m := by
          rcases List.mem_cons.mp hm0 with h | h
          · exact h
          · exact absurd h hr
        rw [h3 m0 hr, hm, List.getElem?_set_self (by rw [← hm]; exact hlt)]
    · rw [h5]
      simp only [List.length_append, List.length_cons, List.length_nil]
      omega
    · by_cases hr : rest = []
      · subst hr
        simp only [rewriteCumulate, List.length_singleton, List.map_cons, List.map_nil,
          List.sum_cons, List.sum_nil, add_zero]
        rw [show cps.length + 1 - 1 = cps.length by omega, List.getD_eq_getElem?_getD,
          List.getElem?_append_right (le_refl _)]
        simp
      · have h7 := h6 hr
        simp only [List.length_append, List.length_cons, List.length_nil, Nat.zero_add] at h7 ⊢
        rw [show cps.length + (rest.length + 1) - 1 = cps.length + 1 + rest.length - 1 by omega,
          h7, List.map_cons, List.sum_cons]
        have hcongr : rest.map (BooleanCircuit.getProb
            { c with gates := c.gates.set m BooleanGate.AND, wires := c.wires.set m [] }) =
            rest.map c.getProb := rfl
        rw [hcongr]
        ring

theorem selectsOne_transport (c2 c4 : BooleanCircuit) (muls : List Nat) (start stop k lo hi : Nat)
    (h : SelectsOne c2 muls start stop k lo hi)
    (hm : ∀ i, start ≤ i → i ≤ stop → c4.getWires (muls.getD i 0) = c2.getWires (muls.getD i 0))
    (hg : ∀ x, lo ≤ x → x < hi → c4.gates[x]? = c2.gates[x]?)
    (hw : ∀ x, lo ≤ x → x < hi → c4.getWires x = c2.getWires x) :
    SelectsOne c4 muls start stop k lo hi := by
  obtain ⟨h1, h2⟩ := h
  refine ⟨fun i a1 a2 w hw4 => h1 i a1 a2 w (by rw [← hm i a1 a2]; exact hw4), fun b hb => ?_⟩
  have hb2 : NegatesIn c2 lo hi b := by
    intro j g rest a1 a2 a3 a4
    exact hb j g rest a1 a2 (by rw [hg j a1 a2]; exact a3) (by rw [hw j a1 a2]; exact a4)
  obtain ⟨i0, b1, b2, b3, b4⟩ := h2 b hb2
  refine ⟨i0, b1, b2, by rw [hm i0 b1 b2]; exact b3, fun i a1 a2 hall => ?_⟩
  exact b4 i a1 a2 (by rw [← hm i a1 a2]; exact hall)

theorem familyRewritten_transport (c2 c4 : BooleanCircuit) (base : Nat) (muls : List Nat)
    (exact : Bool) (hne : muls ≠ []) (h : FamilyRewritten c2 base muls exact)
    (hlen : c2.gates.length ≤ c4.gates.length)
    (hg : ∀ x, x < c2.gates.length → (x ∈ muls ∨ base ≤ x) → c4.gates[x]? = c2.gates[x]?)
    (hw : ∀ x, x < c2.gates.length → (x ∈ muls ∨ base ≤ x) → c4.getWires x = c2.getWires x) :
    FamilyRewritten c4 base muls exact := by
  obtain ⟨k, lo, hi, h1, h2, h3, h4, h5, h6, h7, h8⟩ := h
  have hmlt : ∀ m ∈ muls, m < c2.gates.length := by
    intro m hm
    by_contra hc
    have := (h6 m hm).1
    rw [List.getElem?_eq_none (by omega)] at this
    simp at this
  refine ⟨k, lo, hi, h1, h2, h3, h4, by omega, fun m hm => ?_, fun j a1 a2 => ?_, ?_⟩
  · obtain ⟨g1, g2⟩ := h6 m hm
    refine ⟨by rw [hg m (hmlt m hm) (Or.inl hm)]; exact g1, fun w hw4 => ?_⟩
    rw [hw m (hmlt m hm) (Or.inl hm)] at hw4
    obtain ⟨w1, w2, w3⟩ := g2 w hw4
    exact ⟨w1, w2, by rw [hg w (by omega) (Or.inr w1)]; exact w3⟩
  · exact literalIn_transport c2 c4 lo hi lo hi j (h7 j a1 a2) (le_refl _) (le_refl _)
      (fun x b1 b2 => hg x (by omega) (Or.inr (by omega)))
      (fun x b1 b2 => hw x (by omega) (Or.inr (by omega)))
  · refine selectsOne_transport c2 c4 muls 0 (muls.length - 1) k lo hi h8 (fun i _ a2 => ?_)
      (fun x b1 b2 => hg x (by omega) (Or.inr (by omega)))
      (fun x b1 b2 => hw x (by omega) (Or.inr (by omega)))
    have hn : 0 < muls.length := List.length_pos.mpr hne
    have hmem := getD_mem_of_lt muls i (by omega)
    exact hw _ (hmlt _ hmem) (Or.inl hmem)

theorem getProb_append (c c2 : BooleanCircuit) (ep : List ℚ) (hp : c2.prob = c.prob ++ ep)
    (m : Nat) (hm : m < c.prob.length) : c2.getProb m = c.getProb m := by
  unfold getProb
  rw [hp, List.getD_eq_getElem?_getD, List.getD_eq_getElem?_getD,
    List.getElem?_append_left hm]

theorem sumsToOne_congr (c c2 : BooleanCircuit) (muls : List Nat)
    (h : ∀ m ∈ muls, c2.getProb m = c.getProb m) : sumsToOne c2 muls = sumsToOne c muls := by
  unfold sumsToOne
  rw [List.map_congr_left h]

theorem getD_inj_of_nodup (muls : List Nat) (hnd : muls.Nodup) (i i' : Nat)
    (hi : i < muls.length) (hi' : i' < muls.length) (he : muls.getD i 0 = muls.getD i' 0) :
    i = i' := by
  rw [List.getD_eq_getElem _ _ hi, List.getD_eq_getElem _ _ hi'] at he
  exact (List.Nodup.getElem_inj_iff hnd).mp he

theorem rewriteFamilies_spec (base : Nat) :
    ∀ (M : List (Nat × List Nat)) (c : BooleanCircuit),
      c.wires.length = c.gates.length → c.prob.length = c.gates.length →
      base ≤ c.gates.length →
      (∀ e ∈ M, e.2 ≠ [] ∧ e.2.Nodup ∧ ∀ m ∈ e.2, m < base) →
      M.Pairwise (fun a b => ∀ m ∈ a.2, m ∉ b.2) →
      ∃ c', rewriteFamilies M c = .ok c' ∧
        c'.wires.length = c'.gates.length ∧ c'.prob.length = c'.gates.length ∧
        c.gates.length ≤ c'.gates.length ∧
        (∃ ep, c'.prob = c.prob ++ ep) ∧ c'.mulinputs = c.mulinputs ∧
        (∀ j, j < c.gates.length → (∀ e ∈ M, j ∉ e.2) →
          c'.gates[j]? = c.gates[j]? ∧ c'.getWires j = c.getWires j) ∧
        (∀ j, c.gates.length ≤ j → j < c'.gates.length →
          c'.gates[j]? = some BooleanGate.IN ∨ c'.gates[j]? = some BooleanGate.NOT) ∧
        (∀ e ∈ M, FamilyRewritten c' base e.2 (sumsToOne c e.2)) := by
  intro M
  induction M with
  | nil =>
    intro c hsz hpz _ _ _
    exact ⟨c, rfl, hsz, hpz, le_refl _, ⟨[], by simp⟩, rfl, fun _ _ _ => ⟨rfl, rfl⟩,
      fun j h1 h2 => by omega, fun e he => by simp at he⟩
  | cons e rest ih =>
    intro c hsz hpz hbase hM hpw
    obtain ⟨v, muls⟩ := e
    obtain ⟨hne, hnd, hlt⟩ := hM (v, muls) (List.mem_cons_self _ _)
    simp only [] at hne hnd hlt
    have hn : 0 < muls.length := List.length_pos.mpr hne
    unfold rewriteFamilies
    simp only []
    obtain ⟨hcw, hcg, hcf⟩ := rewriteCumulate_frame muls 0 [] c
    obtain ⟨hcp, hcm, hcgf, hcand, _, hctot⟩ := rewriteCumulate_spec muls 0 [] c
    have htot := hctot hne
    simp only [List.length_nil, Nat.zero_add, zero_add] at htot
    generalize hr : rewriteCumulate muls 0 [] c = r at hcw hcg hcf hcp hcm hcgf hcand htot
    rw [htot]
    have hq : almost_equals (muls.map c.getProb).sum 1 = sumsToOne c muls := rfl
    rw [hq]
    have hstart : ∃ (pfx : List Nat) (c1 : BooleanCircuit),
        (if (!sumsToOne c muls) = true then
          ([(setGateP r.2 BooleanGate.IN (muls.map c.getProb).sum).1],
            (setGateP r.2 BooleanGate.IN (muls.map c.getProb).sum).2)
         else (([] : List Nat), r.2)) = (pfx, c1) ∧
        pfx.length ≤ 1 ∧ (sumsToOne c muls = true → pfx = []) ∧
        c1.wires.length = c1.gates.length ∧ c1.prob.length = c1.gates.length ∧
        c1.gates.length = c.gates.length + pfx.length ∧
        (∃ eg, c1.gates = r.2.gates ++ eg) ∧ (∃ ep, c1.prob = c.prob ++ ep) ∧
        c1.mulinputs = c.mulinputs ∧
        (∀ j, j < c.gates.length → c1.getWires j = r.2.getWires j) ∧
        (∀ w ∈ pfx, w = c.gates.length ∧ c1.gates[w]? = some BooleanGate.IN) := by
      by_cases ha : (!sumsToOne c muls) = true
      · rw [if_pos ha, setGateP_fst, setGateP_in_eq r.2 _ (by rw [hcp, hcg, hpz])]
        refine ⟨_, _, rfl, by simp, fun h => by simp [h] at ha, by simp [hcw, hcg, hsz],
          by simp [hcp, hcg, hpz], by simp [hcg], ⟨_, rfl⟩, ⟨_, by rw [hcp]⟩, hcm, ?_, ?_⟩
        · intro j hj
          exact getWires_append_left _ r.2.wires _ j rfl (by rw [hcw, hsz]; exact hj)
        · intro w hw
          rw [List.mem_singleton] at hw
          subst hw
          refine ⟨hcg, ?_⟩
          simp only []
          rw [List.getElem?_append_right (le_refl _)]
          simp
      · rw [if_neg ha]
        refine ⟨_, _, rfl, by simp, fun _ => rfl, by rw [hcw, hcg, hsz], by rw [hcp, hcg, hpz],
          by simp [hcg], ⟨[], by simp⟩, ⟨[], by simp [hcp]⟩, hcm, fun j _ => rfl,
          fun w hw => by simp at hw⟩
    obtain ⟨pfx, c1, hst, hpl, hexact, h1sz, h1pz, h1gl, ⟨eg1, h1g⟩, ⟨ep1, h1p⟩, h1m, h1frame,
      h1pfx⟩ := hstart
    rw [hst]
    simp only []
    have hmlt : ∀ i, i ≤ muls.length - 1 → muls.getD i 0 < c.gates.length := by
      intro i hi
      have := hlt _ (getD_mem_of_lt muls i (by omega))
      omega
    obtain ⟨c2, hrec, h2sz, h2pz, ⟨eg2, h2g⟩, ⟨ep2, h2p⟩, h2m, h2frame, h2pfx, h2lit, h2sel⟩ :=
      rewriteMultivaluedGatesRec_spec muls r.1 muls.length 0 (muls.length - 1) pfx c1 h1sz h1pz
        (Nat.zero_le _) (fun i _ hi => by have := hmlt i hi; omega)
        (fun i i' _ a2 _ a4 he => getD_inj_of_nodup muls hnd i i' (by omega) (by omega) he)
        (by
          have : muls.length - 1 - 0 + 1 = muls.length := by omega
          rw [this]
          exact clog_succ_le_self _ hn)
    rw [hrec]
    simp only []
    have h2gl : c1.gates.length ≤ c2.gates.length := by rw [h2g, List.length_append]; omega
    obtain ⟨c', hfam, hsz', hpz', hle', ⟨epR, hpR⟩, hmR, hframe', hnew', hfr'⟩ :=
      ih c2 h2sz h2pz (by omega)
        (fun e he => hM e (List.mem_cons_of_mem _ he)) (List.pairwise_cons.mp hpw).2
    -- gates of the circuit at the start of the family, read in the later circuits
    have hg21 : ∀ x, x < c1.gates.length → c2.gates[x]? = c1.gates[x]? := by
      intro x hx
      rw [h2g, List.getElem?_append_left hx]
    have hg1r : ∀ x, x < c.gates.length → c1.gates[x]? = r.2.gates[x]? := by
      intro x hx
      rw [h1g, List.getElem?_append_left (by rw [hcg]; exact hx)]
    have hrestlt : ∀ e ∈ rest, ∀ m ∈ e.2, m < base :=
      fun e he => (hM e (List.mem_cons_of_mem _ he)).2.2
    have hnotrest : ∀ x, base ≤ x → ∀ e ∈ rest, x ∉ e.2 := by
      intro x hx e he hmem
      have := hrestlt e he x hmem
      omega
    have hdis := (List.pairwise_cons.mp hpw).1
    have hmulsvals : ∀ x, x ∉ muls → ∀ i, 0 ≤ i → i ≤ muls.length - 1 → muls.getD i 0 ≠ x := by
      intro x hx i _ hi he
      exact hx (by rw [← he]; exact getD_mem_of_lt muls i (by omega))
    refine ⟨c', hfam, hsz', hpz', by omega, ⟨ep1 ++ ep2 ++ epR, ?_⟩, by rw [hmR, h2m, h1m],
      ?_, ?_, ?_⟩
    · rw [hpR, h2p, h1p]; simp
    · intro j hj hnot
      have hjm : j ∉ muls := hnot (v, muls) (List.mem_cons_self _ _)
      obtain ⟨f1, f2⟩ := hframe' j (by omega) (fun e he => hnot e (List.mem_cons_of_mem _ he))
      refine ⟨?_, ?_⟩
      · rw [f1, hg21 j (by omega), hg1r j hj, hcgf j hjm]
      · rw [f2, h2frame j (by omega) (hmulsvals j hjm), h1frame j hj, hcf j hjm]
    · intro j h1 h2
      by_cases hj2 : j < c2.gates.length
      · obtain ⟨f1, _⟩ := hframe' j hj2 (hnotrest j (by omega))
        rw [f1]
        by_cases hj1 : j < c1.gates.length
        · have hpne : pfx ≠ [] := by
            intro h
            rw [h] at h1gl
            simp at h1gl
            omega
          obtain ⟨w, rest', hw⟩ := List.exists_cons_of_ne_nil hpne
          obtain ⟨w1, w2⟩ := h1pfx w (by rw [hw]; exact List.mem_cons_self _ _)
          have hjw : j = w := by
            rw [hw] at hpl
            simp at hpl
            rw [hw, hpl] at h1gl
            simp at h1gl
            omega
          rw [hjw, hg21 w (by omega), w2]
          exact Or.inl rfl
        · obtain ⟨_, _, hl⟩ := h2lit j (by omega) hj2
          rcases hl with hl | ⟨hl, _⟩
          · exact Or.inl hl
          · exact Or.inr hl
      · exact hnew' j (by omega) h2
    · intro e he
      rcases List.mem_cons.mp he with h | h
      · subst h
        simp only []
        have hfr2 : FamilyRewritten c2 base muls (sumsToOne c muls) := by
          refine ⟨pfx.length, c1.gates.length, c2.gates.length, hpl,
            fun h => by rw [hexact h]; rfl, by omega, h2gl, le_refl _, fun m hm => ?_, h2lit,
            h2sel⟩
          obtain ⟨i, hi, hmi⟩ := exists_getD_of_mem muls m hm
          have hmc : m < c.gates.length := by have := hlt m hm; omega
          refine ⟨by rw [hg21 m (by omega), hg1r m hmc]; exact hcand m hm hmc, fun w hw => ?_⟩
          have hW := h2pfx i (Nat.zero_le _) (by omega)
          rw [hmi] at hW
          rw [hW, List.take_left] at hw
          obtain ⟨w1, w2⟩ := h1pfx w hw
          have hpos : 0 < pfx.length := List.length_pos_of_mem hw
          exact ⟨by omega, by omega, by rw [hg21 w (by omega)]; exact w2⟩
        refine familyRewritten_transport c2 c' base muls _ hne hfr2 hle' (fun x hx hor => ?_)
          (fun x hx hor => ?_)
        · refine (hframe' x hx (fun e' he' hme' => ?_)).1
          rcases hor with h | h
          · exact hdis e' he' x h hme'
          · exact hnotrest x h e' he' hme'
        · refine (hframe' x hx (fun e' he' hme' => ?_)).2
          rcases hor with h | h
          · exact hdis e' he' x h hme'
          · exact hnotrest x h e' he' hme'
      · have := hfr' e h
        rw [sumsToOne_congr c c2 e.2 (fun m hm => by
          have hmb := hrestlt e h m hm
          exact getProb_append c c2 (ep1 ++ ep2) (by rw [h2p, h1p]; simp) m
            (by rw [hpz]; omega))] at this
        exact this

theorem rewriteMultivaluedGates_spec (c : BooleanCircuit) (hsz : WiresSized c)
    (hpz : ProbSized c) (hw : MulinputsWired c) (hnd : c.mulinputs.Nodup) :
    ∃ c', rewriteMultivaluedGates c = .ok c' ∧ c'.mulinputs = [] ∧
      c.gates.length ≤ c'.gates.length ∧ (∃ ep, c'.prob = c.prob ++ ep) ∧
      (∀ j, j < c.gates.length → j ∉ c.mulinputs →
        c'.gates[j]? = c.gates[j]? ∧ c'.getWires j = c.getWires j) ∧
      (∀ j, c.gates.length ≤ j → j < c'.gates.length →
        c'.gates[j]? = some BooleanGate.IN ∨ c'.gates[j]? = some BooleanGate.NOT) ∧
      (∀ v, familyOf c v ≠ [] →
        FamilyRewritten c' c.gates.length (familyOf c v) (sumsToOne c (familyOf c v))) := by
  obtain ⟨M, hM, hMs, hMent, hMcov⟩ := rewriteCollect_families c c.mulinputs [] [] hw
    (by simp) (fun e he => by simp at he) (fun m hm => by simp at hm)
  simp only [List.nil_append] at hMent hMcov
  have hlt : ∀ m ∈ c.mulinputs, m < c.gates.length := by
    intro m hm
    by_contra hge
    apply hw m hm
    unfold getWires
    rw [List.getD_eq_getElem?_getD, List.getElem?_eq_none (by rw [hsz]; omega)]
    rfl
  have hfam : ∀ e ∈ M, e.2 = familyOf c e.1 := fun e he => (hMent e he).1
  have hpw : M.Pairwise (fun a b => ∀ m ∈ a.2, m ∉ b.2) := by
    have hkeys : M.Pairwise (fun a b => a.1 < b.1) := List.pairwise_map.mp hMs
    refine (List.Pairwise.and_mem.mp hkeys).imp ?_
    rintro a b ⟨ha, hb, hab⟩ m hma hmb
    rw [(hMent a ha).1] at hma
    rw [(hMent b hb).1] at hmb
    have h1 := (List.mem_filter.mp hma).2
    have h2 := (List.mem_filter.mp hmb).2
    simp only [decide_eq_true_eq] at h1 h2
    rw [h1] at h2
    have := Option.some.inj h2
    omega
  obtain ⟨c', hrun, _, _, hle, hprob, hmul, hframe, hnew, hfr⟩ :=
    rewriteFamilies_spec c.gates.length M { c with mulinputs := [] } hsz hpz (le_refl _)
      (fun e he => ⟨(hMent e he).2, by
        rw [hfam e he]
        exact hnd.filter _, fun m hm => by
        rw [hfam e he] at hm
        exact hlt m (List.mem_filter.mp hm).1⟩)
      hpw
  refine ⟨c', ?_, hmul, hle, hprob, fun j hj hnot => ?_, hnew, fun v hv => ?_⟩
  · unfold rewriteMultivaluedGates
    rw [hM]
    exact hrun
  · refine hframe j hj (fun e he hmem => hnot ?_)
    rw [hfam e he] at hmem
    exact (List.mem_filter.mp hmem).1
  · obtain ⟨m, hm⟩ := List.exists_mem_of_ne_nil _ hv
    have hm2 := List.mem_filter.mp hm
    have hkey := hMcov m hm2.1 v (by simpa using hm2.2)
    obtain ⟨e, he, hev⟩ := List.mem_map.mp hkey
    have := hfr e he
    rw [hfam e he, hev] at this
    exact this

theorem mem_family_of_mulinput (c : BooleanCircuit) (hw : MulinputsWired c) (m : Nat)
    (hm : m ∈ c.mulinputs) : ∃ v, m ∈ familyOf c v := by
  obtain ⟨v, rest, hv⟩ := List.exists_cons_of_ne_nil (hw m hm)
  refine ⟨v, List.mem_filter.mpr ⟨hm, ?_⟩⟩
  rw [hv]
  simp

/-- Claim C30. On a circuit whose vectors `wires` and `prob` have one entry
per gate, where `mulinputs` is the set of the MULTIVALUED_INPUT gates and each
of them has a child, `rewriteMultivaluedGates` returns a circuit in which
`mulinputs` is empty and no gate is a MULTIVALUED_INPUT; each former
MULTIVALUED_INPUT gate is an AND gate all of whose children are gates
allocated during the rewrite (index at least the former number of gates); and
the type, the children and the probability of every other gate that existed
before are unchanged. -/
theorem rewriteMultivaluedGates_frame (c : BooleanCircuit) (hsz : WiresSized c)
    (hpz : ProbSized c) (hw : MulinputsWired c) (hnd : c.mulinputs.Nodup)
    (hset : MulinputsAreMulinGates c) :
    ∃ c', rewriteMultivaluedGates c = .ok c' ∧ c'.mulinputs = [] ∧
      (∀ j : Nat, c'.gates[j]? ≠ some BooleanGate.MULIN) ∧
      (∀ m ∈ c.mulinputs, c'.gates[m]? = some BooleanGate.AND ∧
        ∀ w ∈ c'.getWires m, c.gates.length ≤ w ∧ w < c'.gates.length) ∧
      (∀ j, j < c.gates.length → j ∉ c.mulinputs →
        c'.gates[j]? = c.gates[j]? ∧ c'.getWires j = c.getWires j ∧
          c'.getProb j = c.getProb j) := by
  obtain ⟨c', hrun, hmul, hle, ⟨ep, hprob⟩, hframe, hnew, hfr⟩ :=
    rewriteMultivaluedGates_spec c hsz hpz hw hnd
  have halt : ∀ m ∈ c.mulinputs, c'.gates[m]? = some BooleanGate.AND ∧
      ∀ w ∈ c'.getWires m, c.gates.length ≤ w ∧ w < c'.gates.length := by
    intro m hm
    obtain ⟨v, hv⟩ := mem_family_of_mulinput c hw m hm
    obtain ⟨k, lo, hi, _, _, h3, h4, h5, h6, _, h8⟩ := hfr v (List.ne_nil_of_mem hv)
    refine ⟨(h6 m hv).1, fun w hwm => ?_⟩
    rw [← List.take_append_drop k (c'.getWires m), List.mem_append] at hwm
    rcases hwm with h | h
    · have := (h6 m hv).2 w h
      omega
    · obtain ⟨i, hi1, hi2⟩ := exists_getD_of_mem _ m hv
      have := h8.1 i (Nat.zero_le _) (by omega) w (by rw [hi2]; exact h)
      omega
  refine ⟨c', hrun, hmul, fun j hj => ?_, halt, fun j hj hnot => ?_⟩
  · by_cases h1 : j < c.gates.length
    · by_cases h2 : j ∈ c.mulinputs
      · rw [(halt j h2).1] at hj
        simp at hj
      · rw [(hframe j h1 h2).1] at hj
        exact h2 ((hset j (List.mem_range.mpr h1)).mpr hj)
    · by_cases h3 : j < c'.gates.length
      · rcases hnew j (by omega) h3 with h | h <;> rw [h] at hj <;> simp at hj
      · rw [List.getElem?_eq_none (by omega)] at hj
        simp at hj
  · exact ⟨(hframe j hj hnot).1, (hframe j hj hnot).2,
      getProb_append c c' ep hprob j (by rw [hpz]; exact hj)⟩

theorem rewriteMultivaluedGates_frame_witness :
    WiresSized categoricalFamily ∧ ProbSized categoricalFamily ∧
      MulinputsWired categoricalFamily ∧ categoricalFamily.mulinputs.Nodup ∧
      ∃ c', rewriteMultivaluedGates categoricalFamily = .ok c' ∧ c'.mulinputs = [] ∧
        (∀ j : Nat, c'.gates[j]? ≠ some BooleanGate.MULIN) ∧
        (∀ m ∈ categoricalFamily.mulinputs, c'.gates[m]? = some BooleanGate.AND ∧
          ∀ w ∈ c'.getWires m, categoricalFamily.gates.length ≤ w ∧ w < c'.gates.length) ∧
        (∀ j, j < categoricalFamily.gates.length → j ∉ categoricalFamily.mulinputs →
          c'.gates[j]? = categoricalFamily.gates[j]? ∧
            c'.getWires j = categoricalFamily.getWires j ∧
            c'.getProb j = categoricalFamily.getProb j) :=
  ⟨by decide, by decide, by decide, by decide,
    rewriteMultivaluedGates_frame categoricalFamily (by decide) (by decide) (by decide)
      (by decide) (by decide)⟩

theorem evaluate_literal (c : BooleanCircuit) (S : List Nat) (lo hi w fuel : Nat)
    (h : LiteralIn c lo hi w) (hf : 2 ≤ fuel) :
    evaluate c fuel w S = .ok (literalValue c S w) := by
  obtain ⟨f, rfl⟩ : ∃ f, fuel = f + 2 := ⟨fuel - 2, by omega⟩
  obtain ⟨_, _, h3⟩ := h
  unfold literalValue
  rcases h3 with h3 | ⟨h3, g, _, _, g3, g4⟩
  · unfold evaluate
    rw [h3]
  · unfold evaluate
    rw [h3]
    simp only [g3]
    unfold evaluate
    rw [g4]

theorem evaluate_input (c : BooleanCircuit) (S : List Nat) (w fuel : Nat)
    (h : c.gates[w]? = some BooleanGate.IN) (hf : 1 ≤ fuel) :
    evaluate c fuel w S = .ok (literalValue c S w) := by
  obtain ⟨f, rfl⟩ : ∃ f, fuel = f + 1 := ⟨fuel - 1, by omega⟩
  unfold literalValue evaluate
  rw [h]

theorem negatesIn_literalValue (c : BooleanCircuit) (S : List Nat) (lo hi : Nat)
    (h : ∀ j, lo ≤ j → j < hi → LiteralIn c lo hi j) : NegatesIn c lo hi (literalValue c S) := by
  intro j g rest a1 a2 a3 a4
  obtain ⟨_, _, h3⟩ := h j a1 a2
  rcases h3 with h3 | ⟨_, g', _, _, g3, g4⟩
  · rw [h3] at a3
    simp at a3
  · rw [g3] at a4
    have hg : g' = g := (List.cons.inj a4).1
    subst hg
    unfold literalValue
    rw [a3, g4]
    simp only [g3]

theorem evaluate_alternative (c : BooleanCircuit) (base : Nat) (muls : List Nat)
    (S : List Nat) (fuel lo hi k : Nat) (hf : 3 ≤ fuel)
    (h6 : ∀ m ∈ muls, c.gates[m]? = some BooleanGate.AND ∧
      ∀ w ∈ (c.getWires m).take k, base ≤ w ∧ w < lo ∧ c.gates[w]? = some BooleanGate.IN)
    (h7 : ∀ j, lo ≤ j → j < hi → LiteralIn c lo hi j)
    (h8 : SelectsOne c muls 0 (muls.length - 1) k lo hi) (m : Nat) (hm : m ∈ muls) :
    evaluate c fuel m S = .ok ((c.getWires m).all (literalValue c S)) := by
  obtain ⟨f, rfl⟩ : ∃ f, fuel = f + 1 := ⟨fuel - 1, by omega⟩
  unfold evaluate
  rw [(h6 m hm).1]
  simp only []
  apply evaluateLoop_all
  intro w hwm
  rw [← List.take_append_drop k (c.getWires m), List.mem_append] at hwm
  rcases hwm with h | h
  · exact evaluate_input c S w f ((h6 m hm).2 w h).2.2 (by omega)
  · obtain ⟨i, hi1, hi2⟩ := exists_getD_of_mem _ m hm
    have hr := h8.1 i (Nat.zero_le _) (by omega) w (by rw [hi2]; exact h)
    exact evaluate_literal c S lo hi w f (h7 w hr.1 hr.2) (by omega)

/-- Claim C29. On a circuit whose vectors `wires` and `prob` have one entry
per gate and whose set `mulinputs` holds gates with a child,
`rewriteMultivaluedGates` returns a circuit in which, for every categorical
family and every set `S` of sampled inputs, `evaluate(., S)` returns a value on
each gate that was an alternative of the family, at most one of these gates
evaluates to true, and exactly one does when the probabilities of the family
sum to 1 (no residual leaf was added). -/
theorem rewriteMultivaluedGates_selects_one (c : BooleanCircuit) (hsz : WiresSized c)
    (hpz : ProbSized c) (hw : MulinputsWired c) (hnd : c.mulinputs.Nodup) :
    ∃ c', rewriteMultivaluedGates c = .ok c' ∧
      ∀ v, familyOf c v ≠ [] → ∀ (S : List Nat) (fuel : Nat), 3 ≤ fuel →
        (∀ m ∈ familyOf c v, ∃ b, evaluate c' fuel m S = .ok b) ∧
        (∀ m1 ∈ familyOf c v, ∀ m2 ∈ familyOf c v, evaluate c' fuel m1 S = .ok true →
          evaluate c' fuel m2 S = .ok true → m1 = m2) ∧
        (sumsToOne c (familyOf c v) = true →
          ∃ m ∈ familyOf c v, evaluate c' fuel m S = .ok true ∧
            ∀ m' ∈ familyOf c v, evaluate c' fuel m' S = .ok true → m' = m) := by
  obtain ⟨c', hrun, _, _, _, _, _, hfr⟩ := rewriteMultivaluedGates_spec c hsz hpz hw hnd
  refine ⟨c', hrun, fun v hv S fuel hf => ?_⟩
  obtain ⟨k, lo, hi, h1, h2, h3, h4, h5, h6, h7, h8⟩ := hfr v hv
  have hev := evaluate_alternative c' c.gates.length (familyOf c v) S fuel lo hi k hf h6 h7 h8
  have hn : 0 < (familyOf c v).length := List.length_pos.mpr hv
  obtain ⟨i0, b1, b2, b3, b4⟩ := h8.2 (literalValue c' S) (negatesIn_literalValue c' S lo hi h7)
  have hdrop : ∀ m ∈ familyOf c v, evaluate c' fuel m S = .ok true →
      ((c'.getWires m).drop k).all (literalValue c' S) = true := by
    intro m hm he
    rw [hev m hm] at he
    have hall : (c'.getWires m).all (literalValue c' S) = true := by
      simpa using he
    rw [← List.take_append_drop k (c'.getWires m), List.all_append, Bool.and_eq_true] at hall
    exact hall.2
  have huniq : ∀ m ∈ familyOf c v, evaluate c' fuel m S = .ok true →
      m = (familyOf c v).getD i0 0 := by
    intro m hm he
    obtain ⟨i, hi1, hi2⟩ := exists_getD_of_mem _ m hm
    have := b4 i (Nat.zero_le _) (by omega) (by rw [hi2]; exact hdrop m hm he)
    rw [← hi2, this]
  refine ⟨fun m hm => ⟨_, hev m hm⟩, fun m1 hm1 m2 hm2 e1 e2 => ?_, fun hex => ?_⟩
  · rw [huniq m1 hm1 e1, huniq m2 hm2 e2]
  · have hk := h2 hex
    subst hk
    have hmem := getD_mem_of_lt (familyOf c v) i0 (by omega)
    refine ⟨_, hmem, ?_, fun m' hm' he' => huniq m' hm' he'⟩
    rw [hev _ hmem]
    rw [List.drop_zero] at b3
    rw [b3]

theorem rewriteMultivaluedGates_selects_one_witness :
    WiresSized categoricalFamily ∧ ProbSized categoricalFamily ∧
      MulinputsWired categoricalFamily ∧ categoricalFamily.mulinputs.Nodup ∧
      ∃ c', rewriteMultivaluedGates categoricalFamily = .ok c' ∧
        ∀ v, familyOf categoricalFamily v ≠ [] → ∀ (S : List Nat) (fuel : Nat), 3 ≤ fuel →
          (∀ m ∈ familyOf categoricalFamily v, ∃ b, evaluate c' fuel m S = .ok b) ∧
          (∀ m1 ∈ familyOf categoricalFamily v, ∀ m2 ∈ familyOf categoricalFamily v,
            evaluate c' fuel m1 S = .ok true → evaluate c' fuel m2 S = .ok true → m1 = m2) ∧
          (sumsToOne categoricalFamily (familyOf categoricalFamily v) = true →
            ∃ m ∈ familyOf categoricalFamily v, evaluate c' fuel m S = .ok true ∧
              ∀ m' ∈ familyOf categoricalFamily v,
                evaluate c' fuel m' S = .ok true → m' = m) :=
  ⟨by decide, by decide, by decide, by decide,
    rewriteMultivaluedGates_selects_one categoricalFamily (by decide) (by decide) (by decide)
      (by decide)⟩

/-! ### Knowledge compilation: the reader of the d-DNNF file -/

theorem emptyCircuit_sized : DnnfSized emptyCircuit := by
  refine ⟨rfl, ?_⟩
  intro u id h
  simp [emptyCircuit] at h

theorem getGate_sized (d : BooleanCircuit) (u : String) (h : DnnfSized d) :
    DnnfSized (getGate d u).2 ∧ (getGate d u).2.uuid2id.lookup u = some (getGate d u).1 ∧
      (getGate d u).1 < (getGate d u).2.gates.length := by
  obtain ⟨hp, hu⟩ := h
  unfold getGate
  cases hl : d.uuid2id.lookup u with
  | some id =>
    simp only []
    exact ⟨⟨hp, hu⟩, hl, hu u id hl⟩
  | none =>
    simp only [addGate, baseAddGate]
    refine ⟨⟨?_, ?_⟩, ?_, ?_⟩
    · simp [hp]
    · intro v id hv
      simp only [List.lookup_cons] at hv
      simp only [List.length_append, List.length_cons, List.length_nil]
      split at hv
      · simp only [Option.some.injEq] at hv
        omega
      · have := hu v id hv
        omega
    · simp [List.lookup_cons]
    · simp

theorem setGateU_sized (d : BooleanCircuit) (u : String) (type : BooleanGate)
    (h : DnnfSized d) :
    DnnfSized (setGateU d u type).2 ∧
      (setGateU d u type).2.uuid2id.lookup u = some (setGateU d u type).1 ∧
      (setGateU d u type).1 < (setGateU d u type).2.gates.length ∧
      (setGateU d u type).2.gates[(setGateU d u type).1]? = some type := by
  obtain ⟨⟨hp, hu⟩, hl, hlt⟩ := getGate_sized d u h
  unfold setGateU baseSetGateU
  by_cases h1 : type = BooleanGate.IN
  · rw [if_pos h1]
    simp only [setProb]
    refine ⟨⟨by simp [hp], ?_⟩, hl, by simpa using hlt, ?_⟩
    · intro v id hv
      simpa using hu v id hv
    · simp [hlt]
  · rw [if_neg h1]
    by_cases h2 : type = BooleanGate.MULIN
    · rw [if_pos h2]
      refine ⟨⟨by simp [hp], ?_⟩, hl, by simpa using hlt, ?_⟩
      · intro v id hv
        simpa using hu v id hv
      · simp [hlt]
    · rw [if_neg h2]
      refine ⟨⟨by simp [hp], ?_⟩, hl, by simpa using hlt, ?_⟩
      · intro v id hv
        simpa using hu v id hv
      · simp [hlt]

theorem setGateUP_sized (d : BooleanCircuit) (u : String) (type : BooleanGate) (p : ℚ)
    (h : DnnfSized d) :
    DnnfSized (setGateUP d u type p).2 ∧
      (setGateUP d u type p).2.uuid2id.lookup u = some (setGateUP d u type p).1 ∧
      (setGateUP d u type p).1 < (setGateUP d u type p).2.gates.length ∧
      (setGateUP d u type p).2.gates[(setGateUP d u type p).1]? = some type ∧
      (setGateUP d u type p).2.prob[(setGateUP d u type p).1]? = some p := by
  obtain ⟨⟨hp, hu⟩, hl, hlt, hg⟩ := setGateU_sized d u type h
  unfold setGateUP setProb
  refine ⟨⟨by simp [hp], ?_⟩, hl, hlt, hg, ?_⟩
  · intro v id hv
    exact hu v id hv
  · simp only []
    rw [List.getElem?_set_self]
    rw [hp]
    exact hlt

theorem setGateUP_in_inputs (d : BooleanCircuit) (u : String) (p : ℚ) :
    (setGateUP d u BooleanGate.IN p).1 ∈ (setGateUP d u BooleanGate.IN p).2.inputs := by
  unfold setGateUP setGateU setProb
  simp only [if_true]
  exact (Circuit.mem_setInsert _ _ _).2 (Or.inl rfl)

theorem setGate_sized (d : BooleanCircuit) (type : BooleanGate) (h : DnnfSized d) :
    DnnfSized (setGate d type).2 ∧ (setGate d type).1 < (setGate d type).2.gates.length := by
  obtain ⟨hp, hu⟩ := h
  unfold setGate baseSetGate addGate baseAddGate setProb
  by_cases h1 : type = BooleanGate.IN
  · rw [if_pos h1]
    refine ⟨⟨by simp [hp], ?_⟩, by simp⟩
    intro v id hv
    have := hu v id hv
    simp only [List.length_set, List.length_append, List.length_cons, List.length_nil]
    omega
  · rw [if_neg h1]
    by_cases h2 : type = BooleanGate.MULIN
    · rw [if_pos h2]
      refine ⟨⟨by simp [hp], ?_⟩, by simp⟩
      intro v id hv
      have := hu v id hv
      simp only [List.length_set, List.length_append, List.length_cons, List.length_nil]
      omega
    · rw [if_neg h2]
      refine ⟨⟨by simp [hp], ?_⟩, by simp⟩
      intro v id hv
      have := hu v id hv
      simp only [List.length_set, List.length_append, List.length_cons, List.length_nil]
      omega

theorem addWire_sized (d d1 : BooleanCircuit) (f t : Nat) (h : DnnfSized d)
    (hw : addWire d f t = .ok d1) : DnnfSized d1 := by
  unfold addWire at hw
  split_ifs at hw
  simp only [Except.ok.injEq] at hw
  subst hw
  exact h

theorem parseChildren_sized (id : Nat) (ints : List Int) :
    ∀ (d d1 : BooleanCircuit), DnnfSized d → parseChildren id ints d = .ok d1 → DnnfSized d1 := by
  induction ints with
  | nil =>
    intro d d1 h hp
    simp only [parseChildren, Except.ok.injEq] at hp
    subst hp
    exact h
  | cons g rest ih =>
    intro d d1 h hp
    simp only [parseChildren] at hp
    cases hw : addWire (getGate d (toString g)).2 id (getGate d (toString g)).1 with
    | error x => (rw [hw] at hp; simp at hp)
    | ok d2 =>
      rw [hw] at hp
      simp only [] at hp
      exact ih d2 d1 (addWire_sized _ _ _ _ (getGate_sized d _ h).1 hw) hp

theorem parseDecisionLeaves_sized (c : BooleanCircuit) (and_gate : Nat) (decisions : List Int) :
    ∀ (d d1 : BooleanCircuit), DnnfSized d →
      parseDecisionLeaves c and_gate decisions d = .ok d1 → DnnfSized d1 := by
  induction decisions with
  | nil =>
    intro d d1 h hp
    simp only [parseDecisionLeaves, Except.ok.injEq] at hp
    subst hp
    exact h
  | cons leaf rest ih =>
    intro d d1 h hp
    simp only [parseDecisionLeaves] at hp
    cases hq : leafProbability c leaf with
    | error x => (rw [hq] at hp; simp at hp)
    | ok p =>
      rw [hq] at hp
      simp only [] at hp
      cases hw : addWire (setGateUP d ("i" ++ toString leaf) BooleanGate.IN p).2 and_gate
          (setGateUP d ("i" ++ toString leaf) BooleanGate.IN p).1 with
      | error x => (rw [hw] at hp; simp at hp)
      | ok d2 =>
        rw [hw] at hp
        simp only [] at hp
        exact ih d2 d1 (addWire_sized _ _ _ _ (setGateUP_sized d _ _ _ h).1 hw) hp

theorem parseLeaf_sized (c d d1 : BooleanCircuit) (i : Nat) (ints : List Int)
    (h : DnnfSized d) (hp : parseLeaf c d i ints = .ok d1) : DnnfSized d1 := by
  unfold parseLeaf at hp
  simp only [] at hp
  split_ifs at hp with h0
  cases hg : c.gates[(ints.headD 0).natAbs - 1]? with
  | none => (rw [hg] at hp; simp at hp)
  | some t =>
    rw [hg] at hp
    simp only [] at hp
    split_ifs at hp with ht
    · cases hq : leafProbability c (ints.headD 0) with
      | error x => (rw [hq] at hp; simp at hp)
      | ok p =>
        rw [hq] at hp
        simp only [Except.ok.injEq] at hp
        subst hp
        exact (setGateUP_sized d _ _ _ h).1
    · simp only [Except.ok.injEq] at hp
      subst hp
      exact (setGateUP_sized d _ _ _ h).1

theorem parseEdge_sized (c d d1 : BooleanCircuit) (cword : String) (ints : List Int)
    (h : DnnfSized d) (hp : parseEdge c d cword ints = .ok d1) : DnnfSized d1 := by
  unfold parseEdge at hp
  simp only [] at hp
  have hr := (getGate_sized d (toString (ints.headD 0)) h).1
  cases hdec : readDecisions c (ints.drop 1) [] with
  | error x => (rw [hdec] at hp; simp at hp)
  | ok decisions =>
    rw [hdec] at hp
    simp only [] at hp
    split_ifs at hp with he
    · exact addWire_sized _ _ _ _ (getGate_sized _ cword hr).1 hp
    · have ha := (setGate_sized _ BooleanGate.AND hr).1
      have hc := (getGate_sized _ cword ha).1
      generalize (getGate (setGate (getGate d (toString (ints.headD 0))).2 BooleanGate.AND).2
        cword) = rc at hp hc
      cases hw1 : addWire rc.2 rc.1
          (setGate (getGate d (toString (ints.headD 0))).2 BooleanGate.AND).1 with
      | error x => (rw [hw1] at hp; simp at hp)
      | ok e1 =>
        rw [hw1] at hp
        simp only [] at hp
        cases hw2 : addWire e1 (setGate (getGate d (toString (ints.headD 0))).2 BooleanGate.AND).1
            (getGate d (toString (ints.headD 0))).1 with
        | error x => (rw [hw2] at hp; simp at hp)
        | ok e2 =>
          rw [hw2] at hp
          simp only [] at hp
          exact parseDecisionLeaves_sized c _ decisions e2 d1
            (addWire_sized _ _ _ _ (addWire_sized _ _ _ _ hc hw1) hw2) hp

theorem parseNode_sized (c d d1 : BooleanCircuit) (i : Nat) (line : Line)
    (h : DnnfSized d) (hp : parseNode c d i line = .ok d1) : DnnfSized d1 := by
  unfold parseNode at hp
  simp only [] at hp
  split_ifs at hp
  · exact parseChildren_sized _ _ _ d1
      (setGateU_sized _ _ _ (getGate_sized d _ h).1).1 hp
  · exact parseChildren_sized _ _ _ d1
      (setGateU_sized _ _ _ (getGate_sized d _ h).1).1 hp
  · exact parseLeaf_sized c d d1 i _ h hp
  · simp only [Except.ok.injEq] at hp
    subst hp
    exact (setGateU_sized d _ _ h).1
  · simp only [Except.ok.injEq] at hp
    subst hp
    exact (setGateU_sized d _ _ h).1
  · exact parseEdge_sized c d d1 _ _ h hp

theorem parseNodes_sized (c : BooleanCircuit) (lines : List Line) :
    ∀ (i : Nat) (d d1 : BooleanCircuit) (n : Nat), DnnfSized d →
      parseNodes c lines i d = .ok (d1, n) → DnnfSized d1 ∧ n = i + lines.length := by
  induction lines with
  | nil =>
    intro i d d1 n h hp
    simp only [parseNodes, Except.ok.injEq, Prod.mk.injEq] at hp
    obtain ⟨rfl, rfl⟩ := hp
    exact ⟨h, rfl⟩
  | cons line rest ih =>
    intro i d d1 n h hp
    simp only [parseNodes] at hp
    cases hn : parseNode c d i line with
    | error x => (rw [hn] at hp; simp at hp)
    | ok d2 =>
      rw [hn] at hp
      simp only [] at hp
      obtain ⟨h1, h2⟩ := ih (i + 1) d2 d1 n (parseNode_sized c d d2 i line h hn) hp
      refine ⟨h1, ?_⟩
      simp only [List.length_cons]
      omega

theorem leafProbability_ok (c : BooleanCircuit) (l : Int) (h1 : 1 ≤ l.natAbs)
    (h2 : l.natAbs ≤ c.prob.length) :
    leafProbability c l =
      .ok (if l < 0 then 1 - c.getProb (l.natAbs - 1) else c.getProb (l.natAbs - 1)) := by
  have hlt : l.natAbs - 1 < c.prob.length := by omega
  have e : c.prob[l.natAbs - 1]? = some (c.prob.getD (l.natAbs - 1) 0) := by
    rw [List.getD_eq_getElem?_getD, List.getElem?_eq_getElem hlt]
    rfl
  unfold leafProbability getProb
  rw [e]

/-- Claim C21: when the output of the compiler is parsed (the lines `before`
have been handled, giving the d-DNNF `dnnf` and the counter `i`), a line `L l`
with `1 ≤ |l| ≤ number of gates` is accepted and makes the node named `i` a
leaf (an INPUT gate of the d-DNNF, member of its `inputs`) whose probability is
`prob[l-1]` if `l > 0` and gate `l-1` of the circuit is an INPUT,
`1 - prob[|l|-1]` if `l < 0` and gate `|l|-1` is an INPUT, and 1 if gate
`|l|-1` is no INPUT. -/
theorem parseNode_leaf (c : BooleanCircuit) (before : List Line) (dnnf : BooleanCircuit)
    (i : Nat) (l : Int)
    (hparsed : parseNodes c before 0 emptyCircuit = .ok (dnnf, i))
    (h1 : 1 ≤ l.natAbs) (h2 : l.natAbs ≤ c.gates.length)
    (hprob : c.prob.length = c.gates.length) :
    ∃ (d : BooleanCircuit) (id : Nat),
      parseNode c dnnf i [.str "L", .int l] = .ok d ∧
      d.uuid2id.lookup (toString i) = some id ∧
      d.gates[id]? = some BooleanGate.IN ∧ id ∈ d.inputs ∧
      (0 < l → c.gates[(l - 1).toNat]? = some BooleanGate.IN →
        d.prob[id]? = some (c.getProb (l - 1).toNat)) ∧
      (l < 0 → c.gates[l.natAbs - 1]? = some BooleanGate.IN →
        d.prob[id]? = some (1 - c.getProb (l.natAbs - 1))) ∧
      (c.gates[l.natAbs - 1]? ≠ some BooleanGate.IN → d.prob[id]? = some 1) := by
  have hs : DnnfSized dnnf := (parseNodes_sized c before 0 emptyCircuit dnnf i
    emptyCircuit_sized hparsed).1
  have hl0 : l ≠ 0 := by
    intro h
    subst h
    simp at h1
  have hlt : l.natAbs - 1 < c.gates.length := by omega
  have hnode : parseNode c dnnf i [.str "L", .int l] = parseLeaf c dnnf i [l] := by
    unfold parseNode
    simp only [tokenText, List.tail_cons, readInts]
    rw [if_pos trivial, if_neg (by decide), if_neg (by decide)]
  rw [hnode]
  unfold parseLeaf
  simp only [List.headD_cons]
  rw [if_neg hl0, List.getElem?_eq_getElem hlt]
  simp only []
  by_cases ht : c.gates[l.natAbs - 1] = BooleanGate.IN
  · rw [if_pos ht, leafProbability_ok c l h1 (by omega)]
    simp only []
    obtain ⟨-, hu, -, hg, hp⟩ := setGateUP_sized dnnf (toString i) BooleanGate.IN
      (if l < 0 then 1 - c.getProb (l.natAbs - 1) else c.getProb (l.natAbs - 1)) hs
    refine ⟨_, _, rfl, hu, hg, setGateUP_in_inputs _ _ _, ?_, ?_, ?_⟩
    · intro hpos _
      rw [hp, if_neg (by omega)]
      have e : (l - 1).toNat = l.natAbs - 1 := by omega
      rw [e]
    · intro hneg _
      rw [hp, if_pos hneg]
    · intro hne
      exact absurd (congrArg some ht) hne
  · rw [if_neg ht]
    obtain ⟨-, hu, -, hg, hp⟩ := setGateUP_sized dnnf (toString i) BooleanGate.IN 1 hs
    refine ⟨_, _, rfl, hu, hg, setGateUP_in_inputs _ _ _, ?_, ?_, ?_⟩
    · intro hpos hin
      have e : (l - 1).toNat = l.natAbs - 1 := by omega
      rw [e, List.getElem?_eq_getElem hlt] at hin
      exact absurd (Option.some.inj hin) ht
    · intro _ hin
      exact absurd (Option.some.inj hin) ht
    · intro _
      exact hp

theorem parseNode_leaf_witness :
    parseNodes notCircuit [[.str "L", .int 1]] 0 emptyCircuit =
        .ok ((setGateUP emptyCircuit "0" BooleanGate.IN (3 / 10)).2, 1) ∧
      ∃ (d : BooleanCircuit) (id : Nat),
        parseNode notCircuit (setGateUP emptyCircuit "0" BooleanGate.IN (3 / 10)).2 1
          [.str "L", .int (-1)] = .ok d ∧
        d.uuid2id.lookup (toString 1) = some id ∧
        d.gates[id]? = some BooleanGate.IN ∧ id ∈ d.inputs ∧
        (0 < (-1 : Int) → notCircuit.gates[((-1 : Int) - 1).toNat]? = some BooleanGate.IN →
          d.prob[id]? = some (notCircuit.getProb ((-1 : Int) - 1).toNat)) ∧
        ((-1 : Int) < 0 → notCircuit.gates[(-1 : Int).natAbs - 1]? = some BooleanGate.IN →
          d.prob[id]? = some (1 - notCircuit.getProb ((-1 : Int).natAbs - 1))) ∧
        (notCircuit.gates[(-1 : Int).natAbs - 1]? ≠ some BooleanGate.IN →
          d.prob[id]? = some 1) :=
  ⟨by decide!, parseNode_leaf notCircuit [[.str "L", .int 1]] _ 1 (-1) (by decide!)
    (by decide) (by decide) (by decide)⟩

/-! ### Knowledge compilation: the reader of the CNF file -/

theorem toDigitsCore_length_ge (b : Nat) : ∀ (fuel n : Nat) (ds : List Char),
    0 < fuel → ds.length + 1 ≤ (Nat.toDigitsCore b fuel n ds).length := by
  intro fuel
  induction fuel with
  | zero => intro n ds h; omega
  | succ f ih =>
    intro n ds _
    unfold Nat.toDigitsCore
    simp only []
    split_ifs with h0
    · simp
    · by_cases hf : 0 < f
      · have := ih (n / b) (Nat.digitChar (n % b) :: ds) hf
        simp only [List.length_cons] at this
        omega
      · have hf0 : f = 0 := by omega
        subst hf0
        simp [Nat.toDigitsCore]

theorem nat_repr_eq_zero (n : Nat) : Nat.repr n = "0" ↔ n = 0 := by
  constructor
  · intro h
    by_contra hn
    have hd : Nat.toDigits 10 n = ['0'] := by
      have := congrArg String.data h
      simpa [Nat.repr, List.asString] using this
    unfold Nat.toDigits Nat.toDigitsCore at hd
    simp only [] at hd
    split_ifs at hd with h0
    · have hlt : n < 10 := by omega
      simp only [List.cons.injEq, and_true] at hd
      interval_cases n <;> first | exact absurd rfl hn | exact absurd hd (by decide)
    · have := toDigitsCore_length_ge 10 n (n / 10) [Nat.digitChar (n % 10)] (by omega)
      rw [hd] at this
      simp at this
  · rintro rfl
    rfl

theorem int_toString_eq_zero (z : Int) : toString z = "0" ↔ z = 0 := by
  cases z with
  | ofNat n =>
    show Nat.repr n = "0" ↔ _
    rw [nat_repr_eq_zero]
    simp
  | negSucc n =>
    constructor
    · intro h
      have := congrArg String.data h
      simp [toString, instToStringInt, Int.repr] at this
    · intro h
      cases h

theorem readClauseLoop_ints (rest : List Int) :
    ∀ (w : Int) (clause : List Lit), w ≠ 0 → (∀ l ∈ rest, l ≠ 0) →
      readClauseLoop (.int w) (rest.map Token.int ++ [Token.int 0]) clause =
        .ok (.int 0, clause ++ (rest ++ [0]).map litOf) := by
  induction rest with
  | nil =>
    intro w clause hw _
    have h1 : ¬ tokenText (.int w) = "0" := fun h => hw ((int_toString_eq_zero w).1 h)
    have h2 : tokenText (.int 0) = "0" := rfl
    simp only [List.map_nil, List.nil_append, List.map_cons]
    rw [readClauseLoop, if_neg h1]
    simp only [stoi]
    rw [readClauseLoop, if_pos h2]
  | cons l rest ih =>
    intro w clause hw hnz
    have h1 : ¬ tokenText (.int w) = "0" := fun h => hw ((int_toString_eq_zero w).1 h)
    simp only [List.map_cons, List.cons_append]
    rw [readClauseLoop, if_neg h1]
    simp only [stoi]
    rw [ih l _ (hnz l (List.mem_cons_self _ _))
      (fun x hx => hnz x (List.mem_cons_of_mem _ hx))]
    simp

/-- Claim C26 (refuted): the clause branch of the reader of
`compilation(g, "d4")`, run on the line written by `Tseytin` for a clause `cl`
(not empty, of literals other than 0, as all clauses written are), does end,
and the clause it adds to the problem is not `cl`: the first literal is
missing and the terminating 0 is added as the literal `makeLitTrue(0)`. In
particular the unit clause on `g` is read as the single literal of the
variable 0, not as `g+1`. -/
theorem readClause_drops_first_literal (word : Token) (cl : List Int) (hne : cl ≠ [])
    (hnz : ∀ l ∈ cl, l ≠ 0) :
    readClause word (clauseLine cl) = .ok (.int 0, (cl.tail ++ [0]).map litOf) ∧
      (cl.tail ++ [0]).map litOf ≠ cl.map litOf ∧
      ∀ g : Nat, readClause word (clauseLine [(g : Int) + 1]) =
        .ok (.int 0, [{ var := 0, sign := false }]) := by
  have key : ∀ cl : List Int, cl ≠ [] → (∀ l ∈ cl, l ≠ 0) →
      readClause word (clauseLine cl) = .ok (.int 0, (cl.tail ++ [0]).map litOf) := by
    intro cl hne hnz
    cases cl with
    | nil => exact absurd rfl hne
    | cons l rest =>
      unfold readClause clauseLine
      simp only [List.map_cons, List.cons_append, extractWord, List.tail_cons]
      rw [readClauseLoop_ints rest l [] (hnz l (List.mem_cons_self _ _))
        (fun x hx => hnz x (List.mem_cons_of_mem _ hx))]
      simp
  refine ⟨key cl hne hnz, ?_, ?_⟩
  · intro h
    have hmem : litOf 0 ∈ (cl.tail ++ [0]).map litOf := by simp
    rw [h] at hmem
    obtain ⟨l, hl, hl0⟩ := List.mem_map.1 hmem
    have : l = 0 := by
      unfold litOf at hl0
      split_ifs at hl0 <;> simp only [Lit.mk.injEq] at hl0 <;> omega
    exact hnz l hl this
  · intro g
    rw [key [(g : Int) + 1] (by simp) (by simp; omega)]
    rfl

theorem readClause_drops_first_literal_witness :
    ([-2, -1] : List Int) ≠ [] ∧ (∀ l ∈ ([-2, -1] : List Int), l ≠ 0) ∧
      (readClause (.str "") (clauseLine [-2, -1]) =
          .ok (.int 0, ([-2, -1].tail ++ [0]).map litOf) ∧
        ([-2, -1].tail ++ [0]).map litOf ≠ [-2, -1].map litOf ∧
        ∀ g : Nat, readClause (.str "") (clauseLine [(g : Int) + 1]) =
          .ok (.int 0, [{ var := 0, sign := false }])) :=
  ⟨by decide, by decide,
    readClause_drops_first_literal (.str "") [-2, -1] (by decide) (by decide)⟩

/-! ### Knowledge compilation: the root evaluated and the temporary files -/

theorem lookup_writeFile (fs : FileSystem) (name : String) (content : List Line) :
    (writeFile fs name content).lookup name = some content := by
  simp [writeFile, List.lookup_cons]

/-- Claim C22 (amended): whenever `compilation` returns a value `v`, either
the compiler is "d4" and `v` is the count of the in-process compiler on the
problem read from the CNF file, no d-DNNF being parsed; or the external tool
has returned 0 and, `lines` being the lines of its output file, either the
first line does not begin with `nnf` and `v = 0`, no node being evaluated, or
the first line begins with `nnf` and `v` is the evaluation of the node named
`n - 1`, where `n` is the number of lines handled by the parser: the
last-parsed node. -/
theorem compilation_root (c : BooleanCircuit) (T : Tools) (g : Nat) (compiler : String)
    (fs fs1 : FileSystem) (v : ℚ)
    (h : compilation c T g compiler fs = (.ok v, fs1)) :
    (compiler = "d4" ∧ ∃ problem : ProblemManagerCnf,
        readProblem c ((Tseytin c g true T.cfilename fs).2.lookup T.cfilename) = .ok problem ∧
        v = T.count problem) ∨
    (compiler ≠ "d4" ∧ ∃ (cmdline : String) (fs2 fs3 : FileSystem) (lines : List Line),
        commandLine compiler T.cfilename (T.cfilename ++ ".nnf") = some cmdline ∧
        T.system cmdline (Tseytin c g true T.cfilename fs).2 = (0, fs2) ∧
        (if T.provsql_verbose < 20 then unlink fs2 T.cfilename else some fs2) = some fs3 ∧
        lines = (fs3.lookup (T.cfilename ++ ".nnf")).getD [] ∧
        ((beginsWithNnf (lines.headD []) = false ∧ v = 0) ∨
          (beginsWithNnf (lines.headD []) = true ∧ ∃ (dnnf : BooleanCircuit) (n : Nat),
            parseNodes c ((lines.drop 1).headD [] :: lines.drop 2) 0 emptyCircuit =
              .ok (dnnf, n) ∧
            n = (lines.drop 2).length + 1 ∧
            v = T.dDNNFEvaluation (getGate dnnf (toString (n - 1))).2
              (getGate dnnf (toString (n - 1))).1))) := by
  unfold compilation Tseytin at h
  unfold Tseytin
  cases hc : tseytinClauses c g with
  | error x =>
    rw [hc] at h
    simp at h
  | ok clauses =>
    rw [hc] at h
    simp only [] at h ⊢
    by_cases hd : compiler = "d4"
    · left
      rw [if_pos hd] at h
      refine ⟨hd, ?_⟩
      cases hr : readProblem c ((writeFile fs T.cfilename
          (tseytinLines c clauses true)).lookup T.cfilename) with
      | error e =>
        rw [hr] at h
        simp at h
      | ok problem =>
        rw [hr] at h
        simp only [Prod.mk.injEq, Except.ok.injEq] at h
        exact ⟨problem, rfl, h.1.symm⟩
    · right
      rw [if_neg hd] at h
      refine ⟨hd, ?_⟩
      cases hcmd : commandLine compiler T.cfilename (T.cfilename ++ ".nnf") with
      | none =>
        rw [hcmd] at h
        simp at h
      | some cmdline =>
        rw [hcmd] at h
        simp only [] at h
        unfold compilationAfterSystem at h
        simp only [] at h
        have hcond : ¬ ((T.system cmdline
            (writeFile fs T.cfilename (tseytinLines c clauses true))).1 ≠ 0 ∧
            compiler = "d4") := fun hh => hd hh.2
        rw [if_neg hcond] at h
        simp only [] at h
        by_cases hret : (T.system cmdline
            (writeFile fs T.cfilename (tseytinLines c clauses true))).1 = 0
        · rw [if_neg (fun hh => hh hret)] at h
          cases hun : (if T.provsql_verbose < 20 then
              unlink (T.system cmdline
                (writeFile fs T.cfilename (tseytinLines c clauses true))).2 T.cfilename
            else some (T.system cmdline
                (writeFile fs T.cfilename (tseytinLines c clauses true))).2) with
          | none =>
            rw [hun] at h
            simp at h
          | some fs3 =>
            rw [hun] at h
            simp only [] at h
            refine ⟨cmdline, _, fs3, _, rfl, Prod.ext hret rfl, hun, rfl, ?_⟩
            by_cases hb : beginsWithNnf
                (((fs3.lookup (T.cfilename ++ ".nnf")).getD []).headD []) = true
            · right
              rw [if_pos hb] at h
              refine ⟨hb, ?_⟩
              cases hv : headerVariables
                  (((fs3.lookup (T.cfilename ++ ".nnf")).getD []).headD []) with
              | none =>
                rw [hv] at h
                simp at h
              | some nb =>
                rw [hv] at h
                simp only [] at h
                split_ifs at h with hnb
                · simp at h
                · unfold parseAndEvaluate at h
                  cases hp : parseNodes c
                      ((((fs3.lookup (T.cfilename ++ ".nnf")).getD []).drop 1).headD [] ::
                        ((fs3.lookup (T.cfilename ++ ".nnf")).getD []).drop 2) 0
                      emptyCircuit with
                  | error x =>
                    rw [hp] at h
                    simp at h
                  | ok r =>
                    rw [hp] at h
                    simp only [] at h
                    cases hun2 : (if T.provsql_verbose < 20 then
                        unlink fs3 (T.cfilename ++ ".nnf") else some fs3) with
                    | none =>
                      rw [hun2] at h
                      simp at h
                    | some fs4 =>
                      rw [hun2] at h
                      simp only [Prod.mk.injEq, Except.ok.injEq] at h
                      obtain ⟨d, n⟩ := r
                      have hn := (parseNodes_sized c _ 0 emptyCircuit d n
                        emptyCircuit_sized hp).2
                      refine ⟨d, n, rfl, ?_, ?_⟩
                      · simp only [List.length_cons] at hn
                        omega
                      · simpa using h.1.symm
            · left
              rw [if_neg hb, if_pos hd] at h
              simp only [Prod.mk.injEq, Except.ok.injEq] at h
              exact ⟨by simpa using hb, h.1.symm⟩
        · rw [if_pos hret] at h
          simp at h

theorem compilation_root_witness :
    compilation notCircuit (sampleTools legacyOutput) 1 "c2d" [] = (.ok 2, []) ∧
    ((("c2d" : String) = "d4" ∧ ∃ problem : ProblemManagerCnf,
        readProblem notCircuit ((Tseytin notCircuit 1 true
          (sampleTools legacyOutput).cfilename []).2.lookup
            (sampleTools legacyOutput).cfilename) = .ok problem ∧
        (2 : ℚ) = (sampleTools legacyOutput).count problem) ∨
    (("c2d" : String) ≠ "d4" ∧ ∃ (cmdline : String) (fs2 fs3 : FileSystem) (lines : List Line),
        commandLine "c2d" (sampleTools legacyOutput).cfilename
          ((sampleTools legacyOutput).cfilename ++ ".nnf") = some cmdline ∧
        (sampleTools legacyOutput).system cmdline (Tseytin notCircuit 1 true
          (sampleTools legacyOutput).cfilename []).2 = (0, fs2) ∧
        (if (sampleTools legacyOutput).provsql_verbose < 20 then
          unlink fs2 (sampleTools legacyOutput).cfilename else some fs2) = some fs3 ∧
        lines = (fs3.lookup ((sampleTools legacyOutput).cfilename ++ ".nnf")).getD [] ∧
        ((beginsWithNnf (lines.headD []) = false ∧ (2 : ℚ) = 0) ∨
          (beginsWithNnf (lines.headD []) = true ∧ ∃ (dnnf : BooleanCircuit) (n : Nat),
            parseNodes notCircuit ((lines.drop 1).headD [] :: lines.drop 2) 0 emptyCircuit =
              .ok (dnnf, n) ∧
            n = (lines.drop 2).length + 1 ∧
            (2 : ℚ) = (sampleTools legacyOutput).dDNNFEvaluation
              (getGate dnnf (toString (n - 1))).2 (getGate dnnf (toString (n - 1))).1)))) :=
  ⟨by decide!, compilation_root notCircuit (sampleTools legacyOutput) 1 "c2d" [] [] 2
    (by decide!)⟩

/-- Counterexample to claim C22: on the output `legacyOutput`, whose first line
begins with `nnf`, `compilation` evaluates the gate 2, the node named 2 (the
last one parsed), and not the gate 1 of the node named 1; on the output
`extendedOutput`, which has no header, it returns 0 without evaluating any
node, whereas the evaluation of the last-parsed node would be that of the
gate 1. -/
theorem compilation_root_counterexample :
    beginsWithNnf (legacyOutput.headD []) = true ∧
    (compilation notCircuit (sampleTools legacyOutput) 1 "c2d" []).1 = .ok 2 ∧
    (parseNodes notCircuit (legacyOutput.drop 1) 0 emptyCircuit).map
      (fun r => (r.1.uuid2id.lookup "1", r.1.uuid2id.lookup "2", r.2)) =
        .ok (some 1, some 2, 3) ∧
    (∀ dnnf : BooleanCircuit, (sampleTools legacyOutput).dDNNFEvaluation dnnf 1 ≠ 2) ∧
    beginsWithNnf (extendedOutput.headD []) = false ∧
    (compilation notCircuit (sampleTools extendedOutput) 1 "c2d" []).1 = .ok 0 ∧
    (parseNodes notCircuit extendedOutput 0 emptyCircuit).map
      (fun r => (r.1.uuid2id.lookup "2", r.2)) = .ok (some 1, 3) ∧
    (∀ dnnf : BooleanCircuit, (sampleTools extendedOutput).dDNNFEvaluation dnnf 1 ≠ 0) := by
  refine ⟨by decide, by decide!, by decide!, ?_, by decide, by decide!, by decide!, ?_⟩
  · intro dnnf
    simp [sampleTools]
  · intro dnnf
    simp [sampleTools]

theorem compilationAfterSystem_external (c : BooleanCircuit) (T : Tools)
    (compiler filename : String) (new_d4 : Bool) (retvalue : Int) (fs : FileSystem)
    (hd : compiler ≠ "d4") :
    (retvalue ≠ 0 → compilationAfterSystem c T compiler filename new_d4 retvalue fs =
      (.error (.circuit .errorExecuting), fs)) ∧
    (∀ (fs1 : FileSystem) (lines : List Line), retvalue = 0 →
      (if T.provsql_verbose < 20 then unlink fs filename else some fs) = some fs1 →
      fs1.lookup (filename ++ ".nnf") = some lines →
      beginsWithNnf (lines.headD []) = false →
      compilationAfterSystem c T compiler filename new_d4 retvalue fs = (.ok 0, fs1)) := by
  have hcond : ¬ (retvalue ≠ 0 ∧ compiler = "d4") := fun hh => hd hh.2
  constructor
  · intro hret
    unfold compilationAfterSystem
    simp only []
    rw [if_neg hcond]
    simp only []
    rw [if_pos hret]
  · intro fs1 lines hret hun hl hb
    unfold compilationAfterSystem
    simp only []
    rw [if_neg hcond]
    simp only []
    rw [if_neg (fun hh => hh hret), hun]
    simp only []
    rw [hl]
    simp only [Option.getD_some]
    rw [hb]
    simp [hd]

/-- Claim C23 (refuted): `compilation` leaves temporary files behind, whatever
the verbosity. Whenever `Tseytin` has written the CNF file: with an unknown
compiler the call fails with "Unknown compiler" and the CNF file still exists;
with the compiler "d4" the CNF file still exists when the call ends; when the
external tool returns a non-zero status the call fails with "Error executing"
and removes no file at all; and when the output of the tool does not begin
with `nnf` the call returns 0 and the output file still exists. -/
theorem compilation_leaves_files (c : BooleanCircuit) (T : Tools) (g : Nat)
    (compiler : String) (fs : FileSystem) (clauses : List (List Int))
    (hc : tseytinClauses c g = .ok clauses) :
    (compiler ≠ "d4" → commandLine compiler T.cfilename (T.cfilename ++ ".nnf") = none →
      (compilation c T g compiler fs).1 = .error (.circuit .unknownCompiler) ∧
      fileExists (compilation c T g compiler fs).2 T.cfilename = true) ∧
    (compiler = "d4" → fileExists (compilation c T g compiler fs).2 T.cfilename = true) ∧
    (∀ cmdline : String, compiler ≠ "d4" →
      commandLine compiler T.cfilename (T.cfilename ++ ".nnf") = some cmdline →
      (T.system cmdline (Tseytin c g true T.cfilename fs).2).1 ≠ 0 →
      compilation c T g compiler fs = (.error (.circuit .errorExecuting),
        (T.system cmdline (Tseytin c g true T.cfilename fs).2).2)) ∧
    (∀ (cmdline : String) (fs1 : FileSystem) (lines : List Line), compiler ≠ "d4" →
      commandLine compiler T.cfilename (T.cfilename ++ ".nnf") = some cmdline →
      (T.system cmdline (Tseytin c g true T.cfilename fs).2).1 = 0 →
      (if T.provsql_verbose < 20 then
        unlink (T.system cmdline (Tseytin c g true T.cfilename fs).2).2 T.cfilename
        else some (T.system cmdline (Tseytin c g true T.cfilename fs).2).2) = some fs1 →
      fs1.lookup (T.cfilename ++ ".nnf") = some lines →
      beginsWithNnf (lines.headD []) = false →
      compilation c T g compiler fs = (.ok 0, fs1) ∧
      fileExists fs1 (T.cfilename ++ ".nnf") = true) := by
  have hT : Tseytin c g true T.cfilename fs =
      (.ok T.cfilename, writeFile fs T.cfilename (tseytinLines c clauses true)) := by
    unfold Tseytin
    rw [hc]
  have hex : fileExists (writeFile fs T.cfilename (tseytinLines c clauses true))
      T.cfilename = true := by
    unfold fileExists
    rw [lookup_writeFile]
    rfl
  refine ⟨?_, ?_, ?_, ?_⟩
  · intro hd hcmd
    unfold compilation
    rw [hT]
    simp only []
    rw [if_neg hd, hcmd]
    exact ⟨rfl, hex⟩
  · intro hd
    unfold compilation
    rw [hT]
    simp only []
    rw [if_pos hd]
    cases readProblem c ((writeFile fs T.cfilename
        (tseytinLines c clauses true)).lookup T.cfilename) with
    | error e => exact hex
    | ok problem => exact hex
  · intro cmdline hd hcmd hret
    unfold compilation
    rw [hT] at hret ⊢
    simp only [] at hret ⊢
    rw [if_neg hd, hcmd]
    simp only []
    exact (compilationAfterSystem_external c T compiler T.cfilename false _ _ hd).1 hret
  · intro cmdline fs1 lines hd hcmd hret hun hl hb
    refine ⟨?_, ?_⟩
    · unfold compilation
      rw [hT] at hret hun ⊢
      simp only [] at hret hun ⊢
      rw [if_neg hd, hcmd]
      simp only []
      exact (compilationAfterSystem_external c T compiler T.cfilename false _ _ hd).2
        fs1 lines hret hun hl hb
    · unfold fileExists
      rw [hl]
      rfl

theorem compilation_leaves_files_witness :
    tseytinClauses notCircuit 1 = .ok [[-2, -1], [2, 1], [2]] ∧
    (sampleTools legacyOutput).provsql_verbose < 20 ∧
    compilation notCircuit (sampleTools legacyOutput) 1 "foo" [] =
      (.error (.circuit .unknownCompiler),
        [("/tmp/provsqlABCDEF", tseytinLines notCircuit [[-2, -1], [2, 1], [2]] true)]) ∧
    ((("foo" : String) ≠ "d4" → commandLine "foo" (sampleTools legacyOutput).cfilename
        ((sampleTools legacyOutput).cfilename ++ ".nnf") = none →
      (compilation notCircuit (sampleTools legacyOutput) 1 "foo" []).1 =
        .error (.circuit .unknownCompiler) ∧
      fileExists (compilation notCircuit (sampleTools legacyOutput) 1 "foo" []).2
        (sampleTools legacyOutput).cfilename = true) ∧
    (("foo" : String) = "d4" →
      fileExists (compilation notCircuit (sampleTools legacyOutput) 1 "foo" []).2
        (sampleTools legacyOutput).cfilename = true) ∧
    (∀ cmdline : String, ("foo" : String) ≠ "d4" →
      commandLine "foo" (sampleTools legacyOutput).cfilename
        ((sampleTools legacyOutput).cfilename ++ ".nnf") = some cmdline →
      ((sampleTools legacyOutput).system cmdline (Tseytin notCircuit 1 true
        (sampleTools legacyOutput).cfilename []).2).1 ≠ 0 →
      compilation notCircuit (sampleTools legacyOutput) 1 "foo" [] =
        (.error (.circuit .errorExecuting),
          ((sampleTools legacyOutput).system cmdline (Tseytin notCircuit 1 true
            (sampleTools legacyOutput).cfilename []).2).2)) ∧
    (∀ (cmdline : String) (fs1 : FileSystem) (lines : List Line), ("foo" : String) ≠ "d4" →
      commandLine "foo" (sampleTools legacyOutput).cfilename
        ((sampleTools legacyOutput).cfilename ++ ".nnf") = some cmdline →
      ((sampleTools legacyOutput).system cmdline (Tseytin notCircuit 1 true
        (sampleTools legacyOutput).cfilename []).2).1 = 0 →
      (if (sampleTools legacyOutput).provsql_verbose < 20 then
        unlink ((sampleTools legacyOutput).system cmdline (Tseytin notCircuit 1 true
          (sampleTools legacyOutput).cfilename []).2).2 (sampleTools legacyOutput).cfilename
        else some ((sampleTools legacyOutput).system cmdline (Tseytin notCircuit 1 true
          (sampleTools legacyOutput).cfilename []).2).2) = some fs1 →
      fs1.lookup ((sampleTools legacyOutput).cfilename ++ ".nnf") = some lines →
      beginsWithNnf (lines.headD []) = false →
      compilation notCircuit (sampleTools legacyOutput) 1 "foo" [] = (.ok 0, fs1) ∧
      fileExists fs1 ((sampleTools legacyOutput).cfilename ++ ".nnf") = true)) :=
  ⟨by decide, by decide, by decide!,
    compilation_leaves_files notCircuit (sampleTools legacyOutput) 1 "foo" []
      [[-2, -1], [2, 1], [2]] (by decide)⟩

/-! ### Monte-Carlo sampling of leaves of probability 0 or 1 -/

theorem monteCarloSample_certain (c : BooleanCircuit) (RAND_MAX : Nat) (rand : Nat → Nat)
    (hR : 0 < RAND_MAX) (hr : ∀ k, rand k < RAND_MAX) :
    ∀ (l : List Nat) (k : Nat) (sampled : List Nat),
      (∀ x ∈ l, c.getProb x = 0 ∨ c.getProb x = 1) →
      ∀ x, x ∈ (monteCarloSample c RAND_MAX rand l k sampled).1 ↔
        x ∈ sampled ∨ (x ∈ l ∧ c.getProb x = 1) := by
  intro l
  induction l with
  | nil =>
    intro k sampled _ x
    simp [monteCarloSample]
  | cons y rest ih =>
    intro k sampled hp x
    have hRq : (0 : ℚ) < (RAND_MAX : ℚ) := by exact_mod_cast hR
    have h1 : (rand k : ℚ) * 1 / (RAND_MAX : ℚ) < 1 := by
      rw [mul_one, div_lt_one hRq]
      exact_mod_cast hr k
    have h0 : ¬ ((rand k : ℚ) * 1 / (RAND_MAX : ℚ) < 0) := by
      apply not_lt.2
      positivity
    have hrest : ∀ z ∈ rest, c.getProb z = 0 ∨ c.getProb z = 1 :=
      fun z hz => hp z (List.mem_cons_of_mem _ hz)
    unfold monteCarloSample
    rcases hp y (List.mem_cons_self _ _) with hy | hy
    · rw [hy, if_neg h0, ih (k + 1) sampled hrest x]
      constructor
      · rintro (h | ⟨h, hx⟩)
        · exact Or.inl h
        · exact Or.inr ⟨List.mem_cons_of_mem _ h, hx⟩
      · rintro (h | ⟨h, hx⟩)
        · exact Or.inl h
        · rcases List.mem_cons.1 h with rfl | h
          · rw [hy] at hx
            exact absurd hx (by norm_num)
          · exact Or.inr ⟨h, hx⟩
    · rw [hy, if_pos h1, ih (k + 1) (y :: sampled) hrest x]
      constructor
      · rintro (h | ⟨h, hx⟩)
        · rcases List.mem_cons.1 h with rfl | h
          · exact Or.inr ⟨List.mem_cons_self _ _, hy⟩
          · exact Or.inl h
        · exact Or.inr ⟨List.mem_cons_of_mem _ h, hx⟩
      · rintro (h | ⟨h, hx⟩)
        · exact Or.inl (List.mem_cons_of_mem _ h)
        · rcases List.mem_cons.1 h with rfl | h
          · exact Or.inl (List.mem_cons_self _ _)
          · exact Or.inr ⟨h, hx⟩

theorem expectList_certain (c : BooleanCircuit) (f : List Nat → ℚ) :
    ∀ (l s : List Nat), (∀ x ∈ l, c.getProb x = 0 ∨ c.getProb x = 1) →
      expectList c l f s =
        f ((l.filter (fun x => decide (c.getProb x = 1))).reverse ++ s) := by
  intro l
  induction l with
  | nil =>
    intro s _
    rfl
  | cons y rest ih =>
    intro s hp
    have hrest : ∀ z ∈ rest, c.getProb z = 0 ∨ c.getProb z = 1 :=
      fun z hz => hp z (List.mem_cons_of_mem _ hz)
    rw [expectList, ih (y :: s) hrest, ih s hrest]
    rcases hp y (List.mem_cons_self _ _) with hy | hy
    · have hd : decide (c.getProb y = 1) = false := by
        rw [hy]
        exact decide_eq_false (by norm_num)
      rw [List.filter_cons, hd, hy]
      simp
    · have hd : decide (c.getProb y = 1) = true := by
        rw [hy]
        exact decide_eq_true rfl
      rw [List.filter_cons, hd, hy]
      simp

theorem monteCarloLoop_constant (c : BooleanCircuit) (RAND_MAX : Nat) (rand : Nat → Nat)
    (fuel g : Nat) (b : Bool)
    (hev : ∀ k, evaluate c fuel g (monteCarloSample c RAND_MAX rand c.inputs k []).1 = .ok b) :
    ∀ (n i k success : Nat),
      monteCarloLoop c RAND_MAX rand (fun _ => false) fuel g n i k success =
        .ok (success + if b then n else 0) := by
  intro n
  induction n with
  | zero =>
    intro i k success
    cases b <;> simp [monteCarloLoop]
  | succ n ih =>
    intro i k success
    unfold monteCarloLoop
    simp only []
    rw [hev k]
    simp only []
    rw [if_neg (by simp), ih]
    cases b
    · simp
    · simp only [if_true]
      congr 1
      omega

/-- Claim C31 (amended): on a set of INPUT, AND, OR and NOT gates closed under
wires and without cycle, with fewer than 31 inputs whose probabilities are all
0 or 1, for every `samples > 0` and every sequence of values of `rand()` below
`RAND_MAX`, when no interrupt is raised: every sample holds exactly the inputs
of probability 1, and `monteCarlo(g, samples)` and `possibleWorlds(g)` return
the same value, which is 0 or 1. -/
theorem monteCarlo_certain_leaves (c : BooleanCircuit) (rank : Nat → Nat) (D : Nat → Prop)
    (hD : Closed c rank D) (fuel g : Nat) (hg : D g) (hf : rank g < fuel)
    (RAND_MAX : Nat) (rand : Nat → Nat) (samples : Nat)
    (hR : 0 < RAND_MAX) (hr : ∀ k, rand k < RAND_MAX) (hs : 0 < samples)
    (hp : ∀ x ∈ c.inputs, c.getProb x = 0 ∨ c.getProb x = 1)
    (hnd : c.inputs.Nodup) (hk : c.inputs.length < 31) :
    (∀ k x, x ∈ (monteCarloSample c RAND_MAX rand c.inputs k []).1 ↔
      x ∈ c.inputs ∧ c.getProb x = 1) ∧
    ∃ p, monteCarlo c RAND_MAX rand (fun _ => false) fuel g samples = .ok p ∧
      possibleWorlds c (fun _ => false) fuel g = .ok p ∧ (p = 0 ∨ p = 1) := by
  have hmem : ∀ k x, x ∈ (monteCarloSample c RAND_MAX rand c.inputs k []).1 ↔
      x ∈ c.inputs ∧ c.getProb x = 1 := by
    intro k x
    rw [monteCarloSample_certain c RAND_MAX rand hR hr c.inputs k [] hp x]
    simp
  refine ⟨hmem, ?_⟩
  have hσ : ∀ k, sampledAssignment (monteCarloSample c RAND_MAX rand c.inputs k []).1 =
      sampledAssignment ((c.inputs.filter (fun x => decide (c.getProb x = 1))).reverse ++ []) := by
    intro k
    funext i
    unfold sampledAssignment
    congr 1
    rw [hmem k i]
    simp
  have hev : ∀ k, evaluate c fuel g (monteCarloSample c RAND_MAX rand c.inputs k []).1 =
      .ok (evalRef c fuel g (sampledAssignment
        ((c.inputs.filter (fun x => decide (c.getProb x = 1))).reverse ++ []))) := by
    intro k
    rw [evaluate_eq_evalRef c rank D hD _ fuel g hg hf, hσ k]
  have hpw : possibleWorlds c (fun _ => false) fuel g =
      .ok (if evalRef c fuel g (sampledAssignment
        ((c.inputs.filter (fun x => decide (c.getProb x = 1))).reverse ++ [])) then 1 else 0) := by
    rw [possibleWorlds_eq_worldsSum c rank D hD fuel g hg hf hnd hk,
      worldsSum_eq_gateProbability c fuel g hnd]
    unfold gateProbability
    rw [expectList_certain c _ c.inputs [] hp]
    rfl
  have hsq : (samples : ℚ) ≠ 0 := by
    have : 0 < samples := hs
    exact_mod_cast (Nat.pos_iff_ne_zero.1 this)
  have hmc : monteCarlo c RAND_MAX rand (fun _ => false) fuel g samples =
      .ok (if evalRef c fuel g (sampledAssignment
        ((c.inputs.filter (fun x => decide (c.getProb x = 1))).reverse ++ [])) then 1 else 0) := by
    unfold monteCarlo
    rw [monteCarloLoop_constant c RAND_MAX rand fuel g _ hev samples 0 0 0]
    simp only []
    rw [if_neg (by omega)]
    cases evalRef c fuel g (sampledAssignment
        ((c.inputs.filter (fun x => decide (c.getProb x = 1))).reverse ++ []))
    · simp
    · simp only [if_true, zero_add]
      rw [mul_one, div_self hsq]
  refine ⟨_, hmc, hpw, ?_⟩
  cases evalRef c fuel g (sampledAssignment
      ((c.inputs.filter (fun x => decide (c.getProb x = 1))).reverse ++ []))
  · left
    rfl
  · right
    rfl

theorem monteCarlo_certain_leaves_witness :
    monteCarlo certainCircuit 2147483647 (fun k => k) (fun _ => false) 4 3 5 = .ok 1 ∧
    possibleWorlds certainCircuit (fun _ => false) 4 3 = .ok 1 ∧
    ((∀ k x, x ∈ (monteCarloSample certainCircuit 2147483647 (fun _ => 2147483646)
        certainCircuit.inputs k []).1 ↔
      x ∈ certainCircuit.inputs ∧ certainCircuit.getProb x = 1) ∧
    ∃ p, monteCarlo certainCircuit 2147483647 (fun _ => 2147483646) (fun _ => false) 4 3 5 =
        .ok p ∧
      possibleWorlds certainCircuit (fun _ => false) 4 3 = .ok p ∧ (p = 0 ∨ p = 1)) :=
  ⟨by decide!, by decide!,
    monteCarlo_certain_leaves certainCircuit (fun i => i)
      (fun h => h < certainCircuit.gates.length)
      (closed_of_global certainCircuit (fun i => i) (by decide) (by decide) (by decide)
        (by decide))
      4 3 (by decide) (by decide) 2147483647 (fun _ => 2147483646) 5 (by decide)
      (fun _ => by norm_num) (by decide) (by decide!) (by decide) (by decide)⟩

/-- Counterexample to claim C31: on the circuit made of one INPUT gate of
probability 1, when `rand()` returns `RAND_MAX` (a value of its range), the
test `rand() * 1. / RAND_MAX < 1` fails, the leaf is false in the sample and
`monteCarlo` returns 0, whereas `possibleWorlds` returns 1. -/
theorem monteCarlo_certain_counterexample :
    (∀ k : Nat, (fun _ : Nat => 2147483647) k ≤ 2147483647) ∧
    certainInput.getProb 0 = 1 ∧
    (monteCarloSample certainInput 2147483647 (fun _ => 2147483647)
      certainInput.inputs 0 []).1 = [] ∧
    monteCarlo certainInput 2147483647 (fun _ => 2147483647) (fun _ => false) 1 0 1 = .ok 0 ∧
    possibleWorlds certainInput (fun _ => false) 1 0 = .ok 1 :=
  ⟨fun _ => le_refl _, by decide!, by decide!, by decide!, by decide!⟩

/-! ### Knowledge compilation: the weights read by the in-process compiler -/

theorem specClauses_nonzero (c : BooleanCircuit) (g : Nat) :
    ∀ cl ∈ specClauses c g, cl ≠ [] ∧ ∀ l ∈ cl, l ≠ 0 := by
  have key : ∀ s : Nat, cnfVar s ≠ 0 ∧ -cnfVar s ≠ 0 := by
    intro s
    unfold cnfVar
    constructor <;> omega
  intro cl hcl
  unfold specClauses at hcl
  rw [List.mem_append, List.mem_flatMap] at hcl
  rcases hcl with ⟨i, _, hcl⟩ | hcl
  · unfold specGateClauses at hcl
    cases hg : c.gates[i]? with
    | none => rw [hg] at hcl; simp at hcl
    | some t =>
      rw [hg] at hcl
      cases t with
      | AND =>
        simp only [List.mem_append, List.mem_map, List.mem_singleton] at hcl
        rcases hcl with ⟨s, _, rfl⟩ | rfl
        · refine ⟨by simp, ?_⟩
          intro l hl
          simp only [List.mem_cons, List.mem_singleton, List.not_mem_nil, or_false] at hl
          rcases hl with rfl | rfl
          · exact (key i).2
          · exact (key s).1
        · refine ⟨by simp, ?_⟩
          intro l hl
          simp only [List.mem_cons, List.mem_map] at hl
          rcases hl with rfl | ⟨s, _, rfl⟩
          · exact (key i).1
          · exact (key s).2
      | OR =>
        simp only [List.mem_append, List.mem_map, List.mem_singleton] at hcl
        rcases hcl with ⟨s, _, rfl⟩ | rfl
        · refine ⟨by simp, ?_⟩
          intro l hl
          simp only [List.mem_cons, List.mem_singleton, List.not_mem_nil, or_false] at hl
          rcases hl with rfl | rfl
          · exact (key i).1
          · exact (key s).2
        · refine ⟨by simp, ?_⟩
          intro l hl
          simp only [List.mem_cons, List.mem_map] at hl
          rcases hl with rfl | ⟨s, _, rfl⟩
          · exact (key i).2
          · exact (key s).1
      | NOT =>
        simp only [] at hcl
        cases hw : c.getWires i with
        | nil => rw [hw] at hcl; simp at hcl
        | cons s rest =>
          rw [hw] at hcl
          simp only [List.mem_cons, List.mem_singleton, List.not_mem_nil, or_false] at hcl
          rcases hcl with rfl | rfl
          · refine ⟨by simp, ?_⟩
            intro l hl
            simp only [List.mem_cons, List.mem_singleton, List.not_mem_nil, or_false] at hl
            rcases hl with rfl | rfl
            · exact (key i).2
            · exact (key s).2
          · refine ⟨by simp, ?_⟩
            intro l hl
            simp only [List.mem_cons, List.mem_singleton, List.not_mem_nil, or_false] at hl
            rcases hl with rfl | rfl
            · exact (key i).1
            · exact (key s).1
      | IN => simp at hcl
      | MULIN => simp at hcl
      | MULVAR => simp at hcl
      | UNDETERMINED => simp at hcl
  · simp only [List.mem_singleton] at hcl
    subst hcl
    refine ⟨by simp, ?_⟩
    intro l hl
    simp only [List.mem_singleton] at hl
    subst hl
    exact (key g).1

theorem readClause_clauseLine (word : Token) (cl : List Int) (hne : cl ≠ [])
    (hnz : ∀ l ∈ cl, l ≠ 0) :
    readClause word (clauseLine cl) = .ok (.int 0, (cl.tail ++ [0]).map litOf) := by
  cases cl with
  | nil => exact absurd rfl hne
  | cons l rest =>
    unfold readClause clauseLine
    simp only [List.map_cons, List.cons_append, extractWord, List.tail_cons]
    rw [readClauseLoop_ints rest l [] (hnz l (List.mem_cons_self _ _))
      (fun x hx => hnz x (List.mem_cons_of_mem _ hx))]
    simp

theorem readLines_append (a : List Line) :
    ∀ (b : List Line) (s : ReaderState),
      readLines (a ++ b) s =
        match readLines a s with
        | .error e => .error e
        | .ok s1 => readLines b s1 := by
  induction a with
  | nil =>
    intro b s
    rfl
  | cons line rest ih =>
    intro b s
    simp only [List.cons_append, readLines]
    cases readLine s line with
    | error e => rfl
    | ok s1 => exact ih b s1

theorem readLines_clauses (cls : List (List Int)) :
    ∀ s : ReaderState, (∀ cl ∈ cls, cl ≠ [] ∧ ∀ l ∈ cl, l ≠ 0) →
      ∃ s1, readLines (cls.map clauseLine) s = .ok s1 ∧ s1.weightVar = s.weightVar ∧
        s1.clauses = s.clauses ++ cls.map (fun cl => (cl.tail ++ [0]).map litOf) := by
  induction cls with
  | nil =>
    intro s _
    exact ⟨s, rfl, rfl, by simp⟩
  | cons cl rest ih =>
    intro s h
    obtain ⟨hne, hnz⟩ := h cl (List.mem_cons_self _ _)
    have hw : startsWithW (clauseLine cl) = .ok false := by
      cases cl with
      | nil => exact absurd rfl hne
      | cons l r => rfl
    have hline : readLine s (clauseLine cl) = .ok { s with word := Token.int 0, clauses := s.clauses ++ [(cl.tail ++ [0]).map litOf] } := by
      unfold readLine
      rw [hw]
      simp only []
      rw [readClause_clauseLine s.word cl hne hnz]
    obtain ⟨s1, h1, h2, h3⟩ := ih
      { s with word := Token.int 0, clauses := s.clauses ++ [(cl.tail ++ [0]).map litOf] }
      (fun x hx => h x (List.mem_cons_of_mem _ hx))
    refine ⟨s1, ?_, h2, ?_⟩
    · simp only [List.map_cons, readLines]
      rw [hline]
      exact h1
    · rw [h3]
      simp

theorem readLines_weights (c : BooleanCircuit) (l : List Nat) :
    ∀ s : ReaderState, (∀ x ∈ l, x + 1 < s.weightVar.length) →
      ∃ s1, readLines (tseytinWeights c l) s = .ok s1 ∧ s1.clauses = s.clauses ∧
        s1.weightVar.length = s.weightVar.length ∧
        ∀ j : Nat, s1.weightVar[j]? =
          if 1 ≤ j ∧ j - 1 ∈ l then some (printDouble (c.getProb (j - 1))) else s.weightVar[j]? := by
  induction l with
  | nil =>
    intro s _
    exact ⟨s, rfl, rfl, rfl, by simp⟩
  | cons x rest ih =>
    intro s h
    have hx : x + 1 < s.weightVar.length := h x (List.mem_cons_self _ _)
    have hpos : (0 : Int) < (x : Int) + 1 := by omega
    have hnat : ((x : Int) + 1).toNat = x + 1 := by omega
    have hneg : ¬ ((0 : Int) < -((x : Int) + 1)) := by omega
    have hl1 : readLine s [.str "w", .int ((x : Int) + 1), .real (printDouble (c.getProb x))] =
        .ok { s with word := Token.real (printDouble (c.getProb x)), weightVar := s.weightVar.set (x + 1) (printDouble (c.getProb x)) } := by
      unfold readLine
      have hw : startsWithW [.str "w", .int ((x : Int) + 1), .real (printDouble (c.getProb x))] =
          .ok true := by
        unfold startsWithW
        simp
      rw [hw]
      simp only [extractWord, stoi, stod]
      rw [if_pos hpos, hnat, if_pos hx]
    have hl2 : ∀ s2 : ReaderState,
        readLine s2 [.str "w", .int (-((x : Int) + 1)), .real (printDouble (1 - c.getProb x))] =
        .ok { s2 with word := Token.real (printDouble (1 - c.getProb x)) } := by
      intro s2
      unfold readLine
      have hw : startsWithW [.str "w", .int (-((x : Int) + 1)), .real (printDouble (1 - c.getProb x))] =
          .ok true := by
        unfold startsWithW
        simp
      rw [hw]
      simp only [extractWord, stoi, stod]
      rw [if_neg hneg]
    obtain ⟨s1, h1, h2, h3, h4⟩ := ih
      { s with word := Token.real (printDouble (1 - c.getProb x)), weightVar := s.weightVar.set (x + 1) (printDouble (c.getProb x)) }
      (fun y hy => by
        simp only [List.length_set]
        exact h y (List.mem_cons_of_mem _ hy))
    refine ⟨s1, ?_, h2, ?_, ?_⟩
    · simp only [tseytinWeights, readLines]
      rw [hl1]
      simp only []
      rw [hl2]
      exact h1
    · rw [h3]
      simp
    · intro j
      rw [h4 j]
      simp only [List.getElem?_set, List.mem_cons]
      by_cases hj : 1 ≤ j ∧ j - 1 ∈ rest
      · rw [if_pos hj, if_pos ⟨hj.1, Or.inr hj.2⟩]
      · rw [if_neg hj]
        by_cases hjx : x + 1 = j
        · subst hjx
          rw [if_pos rfl, if_pos hx, if_pos ⟨by omega, Or.inl (by omega)⟩]
          simp
        · rw [if_neg hjx]
          have : ¬ (1 ≤ j ∧ (j - 1 = x ∨ j - 1 ∈ rest)) := by
            rintro ⟨h1j, hor⟩
            rcases hor with he | hm
            · exact hjx (by omega)
            · exact hj ⟨h1j, hm⟩
          rw [if_neg this]

theorem initWeights_spec (c : BooleanCircuit) (l : List Nat) :
    ∀ (i : Nat) (W : List ℚ), i + l.length ≤ W.length →
      ∃ W1, initWeights c l i W = .ok W1 ∧ W1.length = W.length ∧
        ∀ j : Nat, W1[j]? =
          if i ≤ j ∧ j < i + l.length then some (c.getProb (l.getD (j - i) 0)) else W[j]? := by
  induction l with
  | nil =>
    intro i W _
    refine ⟨W, rfl, rfl, ?_⟩
    intro j
    rw [if_neg]
    simp only [List.length_nil]
    omega
  | cons x rest ih =>
    intro i W h
    simp only [List.length_cons] at h
    have hi : i < W.length := by omega
    obtain ⟨W1, h1, h2, h3⟩ := ih (i + 1) (W.set i (c.getProb x))
      (by simp only [List.length_set]; omega)
    refine ⟨W1, ?_, ?_, ?_⟩
    · unfold initWeights
      rw [if_pos hi]
      exact h1
    · rw [h2]
      simp
    · intro j
      rw [h3 j]
      simp only [List.length_cons, List.getElem?_set]
      by_cases hj : i + 1 ≤ j ∧ j < i + 1 + rest.length
      · rw [if_pos hj, if_pos ⟨by omega, by omega⟩]
        have e : j - i = (j - (i + 1)) + 1 := by omega
        rw [e, List.getD_cons_succ]
      · rw [if_neg hj]
        by_cases hji : i = j
        · subst hji
          rw [if_pos rfl, if_pos hi, if_pos ⟨le_refl _, by omega⟩]
          simp
        · rw [if_neg hji, if_neg]
          omega

/-- Claim C32 (refuted): on a circuit without MULTIVALUED_INPUT gate, whose NOT
gates have a child and whose set `inputs` holds the INPUT gates, the reader of
`compilation(g, "d4")` returns on the CNF file written by `Tseytin(g, true)`,
and `compilation` returns the count on the problem read. In the table of
weights read, a variable `v` of `1..nvars` has the probability of gate `v-1`,
as printed in the file, when that gate is an INPUT (the probability itself when
it is printed exactly); when the gate is no INPUT it has 1 only if `v` is at
least the number of INPUT gates, and otherwise the probability of the INPUT of
rank `v` in `inputs`, left there by the loop that fills the table by
position. -/
theorem readProblem_weights (c : BooleanCircuit) (T : Tools) (g : Nat) (fs : FileSystem)
    (hm : NoMulin c) (hn : NotGatesHaveChild c) (hin : InputsAreInGates c)
    (hlen : c.gates.length < 2 ^ 32) :
    ∃ problem : ProblemManagerCnf,
      readProblem c ((Tseytin c g true T.cfilename fs).2.lookup T.cfilename) = .ok problem ∧
      (compilation c T g "d4" fs).1 = .ok (T.count problem) ∧
      problem.nbVar = c.gates.length ∧
      (∀ v : Nat, 1 ≤ v → v ≤ c.gates.length →
        problem.weightVar[v]? =
          some (if c.gates[v - 1]? = some BooleanGate.IN then printDouble (c.getProb (v - 1))
            else if v < c.inputs.length then c.getProb (c.inputs.getD v 0) else 1)) ∧
      (PrintsExactly c → ∀ v : Nat, 1 ≤ v → v ≤ c.gates.length →
        problem.weightVar[v]? =
          some (if c.gates[v - 1]? = some BooleanGate.IN then c.getProb (v - 1)
            else if v < c.inputs.length then c.getProb (c.inputs.getD v 0) else 1)) := by
  have hT := Tseytin_eq c g true T.cfilename fs hm hn
  have hfile : (Tseytin c g true T.cfilename fs).2.lookup T.cfilename =
      some (tseytinLines c (specClauses c g) true) := by
    rw [hT]
    exact lookup_writeFile _ _ _
  have hil : c.inputs.length ≤ c.gates.length := by
    have h : c.inputs = _ := hin
    rw [h]
    calc _ ≤ (List.range c.gates.length).length := List.length_filter_le _ _
      _ = c.gates.length := List.length_range _
  obtain ⟨W0, hW0, hW0len, hW0get⟩ := initWeights_spec c c.inputs 0
    (List.replicate (c.gates.length + 1) 1) (by simp only [List.length_replicate]; omega)
  obtain ⟨s1, hs1, hs1w, _⟩ := readLines_clauses (specClauses c g)
    { word := Token.int (specClauses c g).length, weightVar := W0, clauses := [] }
    (specClauses_nonzero c g)
  obtain ⟨s2, hs2, _, _, hs2get⟩ := readLines_weights c c.inputs s1 (fun x hx => by
    rw [hs1w]
    simp only []
    rw [hW0len, List.length_replicate]
    have := gate_lt_of_type c x _ ((mem_inputs_iff c hin x).1 hx)
    omega)
  have hmod : (((c.gates.length : Nat) : Int) % 2 ^ 32).toNat = c.gates.length := by
    have h0 : (0 : Int) ≤ (c.gates.length : Int) := by omega
    have h1 : ((c.gates.length : Nat) : Int) < 2 ^ 32 := by exact_mod_cast hlen
    rw [Int.emod_eq_of_lt h0 h1, Int.toNat_natCast]
  have hlines : tseytinLines c (specClauses c g) true =
      [.str "p", .str "cnf", .int c.gates.length, .int (specClauses c g).length] ::
        ((specClauses c g).map clauseLine ++ tseytinWeights c c.inputs) := rfl
  have hread : readProblem c (some (tseytinLines c (specClauses c g) true)) =
      .ok { nbVar := c.gates.length
            weightLit := List.replicate ((c.gates.length + 1) * 2) 1
            weightVar := s2.weightVar
            clauses := s2.clauses } := by
    rw [hlines]
    unfold readProblem
    simp only [Option.getD_some, List.headD_cons, extractWord, stoi, List.drop_succ_cons,
      List.drop_zero]
    rw [hmod, hW0]
    simp only []
    rw [readLines_append, hs1]
    simp only []
    rw [hs2]
  have htable : ∀ v : Nat, 1 ≤ v → v ≤ c.gates.length →
      s2.weightVar[v]? =
        some (if c.gates[v - 1]? = some BooleanGate.IN then printDouble (c.getProb (v - 1))
          else if v < c.inputs.length then c.getProb (c.inputs.getD v 0) else 1) := by
    intro v hv1 hv2
    rw [hs2get v, hs1w]
    simp only []
    rw [hW0get v]
    by_cases hg : c.gates[v - 1]? = some BooleanGate.IN
    · rw [if_pos ⟨hv1, (mem_inputs_iff c hin _).2 hg⟩, if_pos hg]
    · rw [if_neg (fun h => hg ((mem_inputs_iff c hin _).1 h.2)), if_neg hg]
      by_cases hvi : v < c.inputs.length
      · rw [if_pos ⟨Nat.zero_le _, by omega⟩, if_pos hvi]
        simp
      · rw [if_neg (by omega), if_neg hvi, List.getElem?_replicate, if_pos (by omega)]
  refine ⟨_, by rw [hfile]; exact hread, ?_, rfl, htable, ?_⟩
  · unfold compilation
    rw [hT]
    simp only []
    rw [if_pos trivial, lookup_writeFile, hread]
  · intro hp v hv1 hv2
    simp only []
    rw [htable v hv1 hv2]
    by_cases hg : c.gates[v - 1]? = some BooleanGate.IN
    · rw [if_pos hg, if_pos hg, (hp _ ((mem_inputs_iff c hin _).2 hg)).1]
    · rw [if_neg hg, if_neg hg]

theorem readProblem_weights_witness :
    andFirst.gates[0]? = some BooleanGate.AND ∧ PrintsExactly andFirst ∧
    (readProblem andFirst ((Tseytin andFirst 0 true (sampleTools []).cfilename []).2.lookup
      (sampleTools []).cfilename)).map (fun problem => problem.weightVar) =
        .ok [3 / 10, 1 / 2, 3 / 10, 1 / 2] ∧
    ∃ problem : ProblemManagerCnf,
      readProblem andFirst ((Tseytin andFirst 0 true (sampleTools []).cfilename []).2.lookup
        (sampleTools []).cfilename) = .ok problem ∧
      (compilation andFirst (sampleTools []) 0 "d4" []).1 =
        .ok ((sampleTools []).count problem) ∧
      problem.nbVar = andFirst.gates.length ∧
      (∀ v : Nat, 1 ≤ v → v ≤ andFirst.gates.length →
        problem.weightVar[v]? =
          some (if andFirst.gates[v - 1]? = some BooleanGate.IN then
              printDouble (andFirst.getProb (v - 1))
            else if v < andFirst.inputs.length then
              andFirst.getProb (andFirst.inputs.getD v 0) else 1)) ∧
      (PrintsExactly andFirst → ∀ v : Nat, 1 ≤ v → v ≤ andFirst.gates.length →
        problem.weightVar[v]? =
          some (if andFirst.gates[v - 1]? = some BooleanGate.IN then andFirst.getProb (v - 1)
            else if v < andFirst.inputs.length then
              andFirst.getProb (andFirst.inputs.getD v 0) else 1)) :=
  ⟨by decide, by decide!, by decide!,
    readProblem_weights andFirst (sampleTools []) 0 [] (by decide) (by decide) (by decide)
      (by decide)⟩

end BooleanCircuit

end ProvSQL
